import Mathlib

/-!
# MiniTCGVM: a stack VM with a translation-block cache

Shallow embedding of `src/vm/mini_TCG/mini_TCG/mini_TCG.cpp`. The definitions of the two
linked-list exercises ex02 and ex01, of the lexer and assembler of lesson 5 and of the
exercise ex03 follow those of the VM, each under its own heading; the theorems come after all
definitions, in the same order.

Conventions of the embedding:

* `i32` values are integers in `[-2^31, 2^31)`, `u32` values naturals below
  `2^32`; the casts `static_cast<u32>` / `static_cast<i32>` are `toU32` /
  `toI32`, and signed arithmetic that can leave the range wraps modulo `2^32`
  (`wrapI32`).
* `std::size_t` values are naturals (no program in reach of a 64-bit index wraps).
* A `throw std::runtime_error(msg)` is the `thrown msg st` result, which keeps
  the state `st` the mutable objects had at the throw.
* `std::cout` is a list of lines, oldest first.
* The lambdas stored in a translation block are the constructors of `Op`;
  calling one is `execOp`.
-/

namespace MiniTCGVM

/-! ## Machine integers -/

/-- The cast `static_cast<u32>(x)` of a signed 32-bit value. -/
def toU32 (x : Int) : Nat := (x % 4294967296).toNat

/-- The cast `static_cast<i32>(u)` of an unsigned 32-bit value. -/
def toI32 (u : Nat) : Int :=
  if u % 4294967296 < 2147483648 then ((u % 4294967296 : Nat) : Int)
  else ((u % 4294967296 : Nat) : Int) - 4294967296

/-- Signed 32-bit wrap-around of a mathematical integer (result of an `i32`
operation computed modulo `2^32`). -/
def wrapI32 (x : Int) : Int := toI32 (toU32 x)

/-- Membership in the range of `i32`. -/
def isI32 (x : Int) : Prop := -2147483648 ≤ x ∧ x ≤ 2147483647

instance (x : Int) : Decidable (isI32 x) := by unfold isI32; infer_instance

/-! ## Instruction encoding -/

/-- The enum `Type`: the two-bit tag of an instruction word. -/
inductive InsnType where
  | PosImm
  | Prim
  | NegImm
  | Undef
  deriving DecidableEq

/-- The numeric value of an `InsnType` enumerator. -/
def InsnType.code : InsnType → Nat
  | .PosImm => 0
  | .Prim => 1
  | .NegImm => 2
  | .Undef => 3

/-- The cast `static_cast<Type>(n)` for a two-bit `n`. -/
def InsnType.ofCode (n : Nat) : InsnType :=
  if n = 0 then InsnType.PosImm
  else if n = 1 then InsnType.Prim
  else if n = 2 then InsnType.NegImm
  else InsnType.Undef

/-- The enum `Prim`: the primitive opcodes of the capstone VM. -/
inductive Prim where
  | Halt
  | Add
  | Print
  deriving DecidableEq

/-- The numeric value of a `Prim` enumerator. -/
def Prim.code : Prim → Nat
  | .Halt => 0
  | .Add => 1
  | .Print => 5

/-- The constant `TYPE_MASK = 0xC0000000`. -/
def TYPE_MASK : Nat := 0xC0000000

/-- The constant `DATA_MASK = 0x3FFFFFFF`. -/
def DATA_MASK : Nat := 0x3FFFFFFF

/-- The result of a call that may throw `std::runtime_error`: either it
completes with `st`, or it throws `what` leaving the mutable state as `st`. -/
inductive Res (σ : Type) where
  | done (st : σ)
  | thrown (what : String) (st : σ)
  deriving DecidableEq

/-- The function `enc_pos_imm`: pack a non-negative literal. -/
def enc_pos_imm (x : Int) : Except String Int :=
  if x < 0 then .error "use enc_neg_imm for negative"
  else
    let ux := toU32 x
    if ux > DATA_MASK then .error "imm too large"
    else .ok (toI32 (((InsnType.PosImm.code <<< 30) ||| (ux &&& DATA_MASK)) % 4294967296))

/-- The function `enc_neg_imm`: pack the magnitude of a non-positive literal.
The negation `-x` is taken modulo `2^32`. -/
def enc_neg_imm (x : Int) : Except String Int :=
  if x > 0 then .error "use enc_pos_imm for positive"
  else
    let mag := toU32 (wrapI32 (-x))
    if mag > DATA_MASK then .error "imm too large"
    else .ok (toI32 (((InsnType.NegImm.code <<< 30) ||| (mag &&& DATA_MASK)) % 4294967296))

/-- The function `enc_prim`: pack a primitive opcode. -/
def enc_prim (p : Prim) : Int :=
  toI32 (((InsnType.Prim.code <<< 30) ||| (p.code &&& DATA_MASK)) % 4294967296)

/-- The function `getType`: the tag in the top two bits. -/
def getType (ins : Int) : InsnType :=
  let u := toU32 ins
  InsnType.ofCode ((u &&& TYPE_MASK) >>> 30)

/-- The function `getData`: the 30-bit payload. -/
def getData (ins : Int) : Nat :=
  let u := toU32 ins
  u &&& DATA_MASK

/-! ## VM state, operations and translation blocks -/

/-- The struct `State`: the per-run guest state. The stack keeps the order of
the `std::vector`: the top of the stack is the last element. -/
structure State where
  pc : Nat
  running : Bool
  stack : List Int
  deriving DecidableEq

/-- One line written to `std::cout`, tagged by its writer: `trace` lines come
from `run` and `getOrTranslateTB` under `trace == true`, `print` lines from the
Print operation. -/
inductive Line where
  | trace (text : String)
  | print (text : String)
  deriving DecidableEq

/-- The lines written by Print operations among `out`. -/
def printed (out : List Line) : List String :=
  out.filterMap fun l => match l with
    | .print t => some t
    | .trace _ => none

/-- What a host operation can touch: the `State&` argument and `std::cout`. -/
structure Host where
  s : State
  out : List Line
  deriving DecidableEq

/-- A host operation: one of the lambdas `translateTB` emplaces into `ops`.
`push imm` is the lambda capturing `imm`. -/
inductive Op where
  | push (imm : Int)
  | halt
  | add
  | print
  deriving DecidableEq

/-- The function `push`: `s.stack.push_back(v)`. -/
def push (s : State) (v : Int) : State := { s with stack := s.stack ++ [v] }

/-- The function `pop`: throws on an empty stack, else removes and returns the
last element. -/
def pop (s : State) : Except String (Int × State) :=
  match s.stack.getLast? with
  | none => .error "stack underflow"
  | some v => .ok (v, { s with stack := s.stack.dropLast })

/-- Calling one host operation. For `add` the two pops happen in order, so a
throw by the second pop leaves the first pop done. `a + b` wraps modulo `2^32`. -/
def execOp (op : Op) (h : Host) : Res Host :=
  match op with
  | .push imm => .done { h with s := push h.s imm }
  | .halt => .done { h with s := { h.s with running := false } }
  | .add =>
    match pop h.s with
    | .error what => .thrown what h
    | .ok (b, s1) =>
      match pop s1 with
      | .error what => .thrown what { h with s := s1 }
      | .ok (a, s2) => .done { h with s := push s2 (wrapI32 (a + b)) }
  | .print =>
    match h.s.stack.getLast? with
    | none => .done { h with out := h.out ++ [.print "[print] <empty>"] }
    | some v => .done { h with out := h.out ++ [.print ("[print] " ++ toString v)] }

/-- The fused callable `tb.exec`: `for (auto& f : ops) f(s);`. -/
def execOps : List Op → Host → Res Host
  | [], h => .done h
  | op :: rest, h =>
    match execOp op h with
    | .thrown what h1 => .thrown what h1
    | .done h1 => execOps rest h1

/-- The struct `TB`: a translation block. `exec` holds the operation list the
fused callable iterates over. -/
structure TB where
  guest_pc : Nat
  next_pc : Nat
  compiled_version : Nat
  exec : List Op
  debug : String
  deriving DecidableEq

/-- The map `tb_cache_` as an association list with `find`, `emplace` and
`clear` of `std::unordered_map`. -/
abbrev TBCache := List (Nat × TB)

/-- The lookup `tb_cache_.find(pc)`. -/
def TBCache.find : TBCache → Nat → Option TB
  | [], _ => none
  | (k, tb) :: rest, pc => if k = pc then some tb else TBCache.find rest pc

/-- The insertion `tb_cache_.emplace(pc, tb)`: inserts only when no entry is
stored under `pc`; an existing entry is kept as it is. Returns the map and the
element the returned iterator points to (the new one, or the one that was there). -/
def TBCache.emplace (c : TBCache) (pc : Nat) (tb : TB) : TBCache × TB :=
  match TBCache.find c pc with
  | some e => (c, e)
  | none => (c ++ [(pc, tb)], tb)

/-- The private data of a `MiniTCGVM` object. -/
structure VM where
  program_ : List Int
  program_version_ : Nat
  tb_cache_ : TBCache
  max_tb_insns_ : Nat
  deriving DecidableEq

/-- The constructor `MiniTCGVM(max_tb_insns)`. -/
def VM.new (max_tb_insns : Nat) : VM :=
  { program_ := [], program_version_ := 1, tb_cache_ := [], max_tb_insns_ := max_tb_insns }

/-- The method `loadProgram`. The version counter is a `u32`. -/
def loadProgram (vm : VM) (prog : List Int) : VM :=
  { vm with
    program_ := prog
    program_version_ := (vm.program_version_ + 1) % 4294967296
    tb_cache_ := [] }

/-- The method `patch`. -/
def patch (vm : VM) (index : Nat) (new_insn : Int) : Res VM :=
  if index ≥ vm.program_.length then .thrown "patch out of range" vm
  else .done { vm with
    program_ := vm.program_.set index new_insn
    program_version_ := (vm.program_version_ + 1) % 4294967296
    tb_cache_ := [] }

/-- The locals of the `translateTB` loop that outlive an iteration. -/
structure Scan where
  pc : Nat
  ops : List Op
  debug : String
  deriving DecidableEq

/-- The `while` loop of `translateTB` over the program `prog`. The first argument
is `max_tb_insns_ - insn_count`, the number of instructions the block may still
take; the loop also stops at the program end and right after a Halt. -/
def translateLoop (prog : List Int) : Nat → Scan → Except String Scan
  | 0, sc => .ok sc
  | rem + 1, sc =>
    match prog[sc.pc]? with
    | none => .ok sc
    | some ins =>
      let dat := getData ins
      match getType ins with
      | .PosImm =>
        let imm := toI32 dat
        translateLoop prog rem
          { pc := sc.pc + 1, ops := sc.ops ++ [.push imm],
            debug := sc.debug ++ ("PUSH +" ++ toString imm ++ "\n") }
      | .NegImm =>
        let imm := wrapI32 (-(toI32 dat))
        translateLoop prog rem
          { pc := sc.pc + 1, ops := sc.ops ++ [.push imm],
            debug := sc.debug ++ ("PUSH " ++ toString imm ++ "\n") }
      | .Prim =>
        if dat = Prim.Halt.code then
          .ok { pc := sc.pc + 1, ops := sc.ops ++ [.halt], debug := sc.debug ++ "HALT\n" }
        else if dat = Prim.Add.code then
          translateLoop prog rem
            { pc := sc.pc + 1, ops := sc.ops ++ [.add], debug := sc.debug ++ "ADD\n" }
        else if dat = Prim.Print.code then
          translateLoop prog rem
            { pc := sc.pc + 1, ops := sc.ops ++ [.print], debug := sc.debug ++ "PRINT\n" }
        else .error "unknown primitive opcode"
      | .Undef => .error "undefined instruction type"

/-- The method `translateTB`. -/
def translateTB (vm : VM) (start_pc : Nat) : Except String TB :=
  match translateLoop vm.program_ vm.max_tb_insns_ { pc := start_pc, ops := [], debug := "" } with
  | .error what => .error what
  | .ok sc =>
    .ok { guest_pc := start_pc, next_pc := sc.pc, compiled_version := vm.program_version_,
          exec := sc.ops, debug := sc.debug }

/-- What `getOrTranslateTB` leaves behind when it returns: the block referred to,
the object and `std::cout`. The field `hit` records which branch returned (the
first `return` is the hit branch); it is not program data. -/
structure Fetch where
  tb : TB
  hit : Bool
  vm : VM
  out : List Line
  deriving DecidableEq

/-- The test `it != tb_cache_.end() && it->second.compiled_version == program_version_`
of `getOrTranslateTB`, with the entry found when it holds. -/
def hitEntry (vm : VM) (pc : Nat) : Option TB :=
  match TBCache.find vm.tb_cache_ pc with
  | some e => if e.compiled_version = vm.program_version_ then some e else none
  | none => none

/-- The method `getOrTranslateTB`. A throw comes from `translateTB` and leaves
the object untouched; it carries `std::cout` as it is at the throw. -/
def getOrTranslateTB (vm : VM) (pc : Nat) (trace : Bool) (out : List Line) :
    Except (String × List Line) Fetch :=
  match hitEntry vm pc with
  | some e =>
    .ok { tb := e, hit := true, vm := vm,
          out := if trace then out ++ [.trace ("[TB HIT]  pc=" ++ toString pc)] else out }
  | none =>
    let out1 := if trace then out ++ [.trace ("[TB MISS] pc=" ++ toString pc ++ " -> translating...")]
                else out
    match translateTB vm pc with
    | .error what => .error (what, out1)
    | .ok tb =>
      let ins := TBCache.emplace vm.tb_cache_ pc tb
      .ok { tb := ins.2, hit := false, vm := { vm with tb_cache_ := ins.1 }, out := out1 }

/-- The mutable data of a `run` call: the object, the local `State s`,
`std::cout`, and the record `lookups` of the `getOrTranslateTB` calls made so
far as pairs (pc, hit), which is not program data. -/
structure RunState where
  vm : VM
  s : State
  out : List Line
  lookups : List (Nat × Bool)
  deriving DecidableEq

/-- One pass through the body of the `while (s.running)` loop of `run`, entered
with `s.running == true`. -/
def runBody (trace : Bool) (r : RunState) : Res RunState :=
  if r.s.pc ≥ r.vm.program_.length then .thrown "pc out of range (missing halt?)" r
  else
    match getOrTranslateTB r.vm r.s.pc trace r.out with
    | .error (what, out1) =>
      .thrown what { r with out := out1, lookups := r.lookups ++ [(r.s.pc, false)] }
    | .ok f =>
      let lookups := r.lookups ++ [(r.s.pc, f.hit)]
      let out1 :=
        if trace then
          f.out ++ [.trace (">> exec TB @pc=" ++ toString f.tb.guest_pc
            ++ " (next_pc=" ++ toString f.tb.next_pc
            ++ ", ver=" ++ toString f.tb.compiled_version ++ ")")]
        else f.out
      match execOps f.tb.exec { s := r.s, out := out1 } with
      | .thrown what h => .thrown what { vm := f.vm, s := h.s, out := h.out, lookups := lookups }
      | .done h =>
        let s2 : State := { h.s with pc := f.tb.next_pc }
        let out2 :=
          if trace then
            match s2.stack.getLast? with
            | some v => h.out ++ [.trace ("   tos=" ++ toString v)]
            | none => h.out ++ [.trace "   tos=<empty>"]
          else h.out
        .done { vm := f.vm, s := s2, out := out2, lookups := lookups }

/-- The `while (s.running)` loop of `run`; `fuel` bounds the number of times the
loop condition is evaluated, and `none` means the bound was reached with the loop
still going. -/
def runLoop (trace : Bool) : Nat → RunState → Option (Res RunState)
  | 0, _ => none
  | fuel + 1, r =>
    if r.s.running then
      match runBody trace r with
      | .thrown what r1 => some (.thrown what r1)
      | .done r1 => runLoop trace fuel r1
    else some (.done r)

/-- The method `run`: a fresh `State` with `running = true`, `pc = 0` and an
empty stack, then the loop. The result holds the lines this call wrote. -/
def run (vm : VM) (trace : Bool) (fuel : Nat) : Option (Res RunState) :=
  runLoop trace fuel
    { vm := vm, s := { pc := 0, running := true, stack := [] }, out := [], lookups := [] }

/-! ## Definitions used to state and prove the run-loop claims -/

/-- The state a result carries: the returned one, or the one at the throw. -/
def Res.st {σ : Type} : Res σ → σ
  | .done st => st
  | .thrown _ st => st

/-- The message of the exception a result carries, `none` for a normal return. -/
def Res.what {σ : Type} : Res σ → Option String
  | .done _ => none
  | .thrown w _ => some w

/-- Cache coherence: every entry of `tb_cache_` is the block `translateTB` returns now
for the key it is stored under. -/
def CacheOK (vm : VM) : Prop :=
  ∀ pc tb, TBCache.find vm.tb_cache_ pc = some tb → translateTB vm pc = .ok tb

/-- Apply `f` to the state a result carries. -/
def Res.map {σ τ : Type} (f : σ → τ) : Res σ → Res τ
  | .done st => .done (f st)
  | .thrown w st => .thrown w (f st)

/-- The host state `h` with the lines `out` written before its own. -/
def Host.prepend (out : List Line) (h : Host) : Host := { s := h.s, out := out ++ h.out }

/-- The lines `getOrTranslateTB` writes for a lookup of `pc`. -/
def lookupLines (trace : Bool) (pc : Nat) (hit : Bool) : List Line :=
  if trace then
    (if hit then [.trace ("[TB HIT]  pc=" ++ toString pc)]
     else [.trace ("[TB MISS] pc=" ++ toString pc ++ " -> translating...")])
  else []

/-- The line `run` writes before it executes `tb`. -/
def execLines (trace : Bool) (tb : TB) : List Line :=
  if trace then
    [.trace (">> exec TB @pc=" ++ toString tb.guest_pc
      ++ " (next_pc=" ++ toString tb.next_pc
      ++ ", ver=" ++ toString tb.compiled_version ++ ")")]
  else []

/-- The line `run` writes after a block, given the stack the block left. -/
def tosLines (trace : Bool) (stack : List Int) : List Line :=
  if trace then
    match stack.getLast? with
    | some v => [.trace ("   tos=" ++ toString v)]
    | none => [.trace "   tos=<empty>"]
  else []

/-- The object after `getOrTranslateTB` returned the block `tb` for `pc`: untouched when
an entry was stored under `pc`, else with `tb` inserted. -/
def cacheAfter (vm : VM) (pc : Nat) (tb : TB) : VM :=
  match TBCache.find vm.tb_cache_ pc with
  | some _ => vm
  | none => { vm with tb_cache_ := vm.tb_cache_ ++ [(pc, tb)] }

/-- The loop body of `run` on a coherent cache, written with `translateTB` in place of
the cache lookup and with the lines of a pass appended to `std::cout`. -/
def runBodySpec (trace : Bool) (r : RunState) : Res RunState :=
  if r.s.pc ≥ r.vm.program_.length then .thrown "pc out of range (missing halt?)" r
  else
    match translateTB r.vm r.s.pc with
    | .error what =>
      .thrown what { r with out := r.out ++ lookupLines trace r.s.pc false,
                            lookups := r.lookups ++ [(r.s.pc, false)] }
    | .ok tb =>
      let hit := (TBCache.find r.vm.tb_cache_ r.s.pc).isSome
      let pre := r.out ++ lookupLines trace r.s.pc hit ++ execLines trace tb
      match execOps tb.exec { s := r.s, out := [] } with
      | .thrown what h =>
        .thrown what { vm := cacheAfter r.vm r.s.pc tb, s := h.s, out := pre ++ h.out,
                       lookups := r.lookups ++ [(r.s.pc, hit)] }
      | .done h =>
        .done { vm := cacheAfter r.vm r.s.pc tb, s := { h.s with pc := tb.next_pc },
                out := pre ++ h.out ++ tosLines trace h.s.stack,
                lookups := r.lookups ++ [(r.s.pc, hit)] }

/-- Same program, block length and version. -/
def SameCode (vm vm1 : VM) : Prop :=
  vm1.program_ = vm.program_ ∧ vm1.max_tb_insns_ = vm.max_tb_insns_ ∧
    vm1.program_version_ = vm.program_version_

/-- Every entry of the cache of `vm` is still stored, unchanged, in the cache of `vm1`. -/
def CacheGrows (vm vm1 : VM) : Prop :=
  ∀ k e, TBCache.find vm.tb_cache_ k = some e → TBCache.find vm1.tb_cache_ k = some e

/-- Two results end the same way (both return, or both throw the same message) with
states related by `R`. -/
def Res.Rel {σ : Type} (R : σ → σ → Prop) : Res σ → Res σ → Prop
  | .done a, .done b => R a b
  | .thrown w a, .thrown v b => w = v ∧ R a b
  | _, _ => False

/-- Two loop states that run the same program with the same block length from the
same guest state, each on a coherent cache. -/
def Agree (a b : RunState) : Prop :=
  a.vm.program_ = b.vm.program_ ∧ a.vm.max_tb_insns_ = b.vm.max_tb_insns_ ∧
    CacheOK a.vm ∧ CacheOK b.vm ∧ a.s = b.s ∧ printed a.out = printed b.out

/-- Every key of the cache is below `n`. -/
def KeysBelow (vm : VM) (n : Nat) : Prop :=
  ∀ k e, TBCache.find vm.tb_cache_ k = some e → k < n

/-! ## The instruction table of the specification -/

/-- The translation of one instruction word as the specification tabulates it:
`PosImm d` is push `d`, `NegImm d` is push `-d`, `Prim 0` is halt, `Prim 1` is add,
`Prim 5` is print; an `Undef` tag or any other primitive opcode is an error. -/
def insnOp (ins : Int) : Except String Op :=
  match getType ins with
  | .PosImm => .ok (.push ((getData ins : Nat) : Int))
  | .NegImm => .ok (.push (-((getData ins : Nat) : Int)))
  | .Prim =>
    if getData ins = 0 then .ok .halt
    else if getData ins = 1 then .ok .add
    else if getData ins = 5 then .ok .print
    else .error "unknown primitive opcode"
  | .Undef => .error "undefined instruction type"

/-- The text `translateTB` appends to `tb.debug` for a valid instruction word. -/
def insnDebug (ins : Int) : String :=
  match getType ins with
  | .PosImm => "PUSH +" ++ toString ((getData ins : Nat) : Int) ++ "\n"
  | .NegImm => "PUSH " ++ toString (-((getData ins : Nat) : Int)) ++ "\n"
  | .Prim =>
    if getData ins = 0 then "HALT\n"
    else if getData ins = 1 then "ADD\n"
    else "PRINT\n"
  | .Undef => ""

/-- A valid instruction word that is not Halt. -/
def PlainWord (ins : Int) : Prop := ∃ op, insnOp ins = .ok op ∧ op ≠ .halt

/-- The operations of the valid words among `ws`, in order. -/
def opsOf (ws : List Int) : List Op :=
  ws.filterMap fun ins =>
    match insnOp ins with
    | .ok op => some op
    | .error _ => none

/-- The debug text `d` extended by the texts of the words `ws`, in order. -/
def debugOf (d : String) (ws : List Int) : String :=
  ws.foldl (fun acc ins => acc ++ insnDebug ins) d

/-! ## Definitions used to state the cache-content, trace and reachability claims -/

/-- The blocks `bs`, in order, tile the program from `a` to `b`: the first starts at `a`,
each next one starts where the one before ends, and the last ends at `b`. -/
def Tiles : Nat → List (Nat × TB) → Nat → Prop
  | a, [], b => a = b
  | a, e :: t, b => e.1 = a ∧ Tiles e.2.next_pc t b

/-- Whether a line of `std::cout` comes from a Print operation. -/
def Line.isPrint : Line → Bool
  | .print _ => true
  | .trace _ => false

/-- The loop state with the trace lines removed from `std::cout`. -/
def eraseTrace (r : RunState) : RunState := { r with out := r.out.filter Line.isPrint }

/-- The object states reached from construction through the public interface: the
constructor, `loadProgram`, `patch` (returning or throwing) and `run` (returning or
throwing). -/
inductive Reachable : VM → Prop where
  | ctor (max_tb_insns : Nat) : Reachable (VM.new max_tb_insns)
  | load (vm : VM) (prog : List Int) : Reachable vm → Reachable (loadProgram vm prog)
  | patched (vm : VM) (index : Nat) (new_insn : Int) :
      Reachable vm → Reachable (patch vm index new_insn).st
  | ran (vm : VM) (trace : Bool) (fuel : Nat) (res : Res RunState) :
      Reachable vm → run vm trace fuel = some res → Reachable res.st.vm

/-- Every entry in the list `tb_cache_` is the block `translateTB` returns now for its key. -/
def CacheAll (vm : VM) : Prop := ∀ e ∈ vm.tb_cache_, translateTB vm e.1 = .ok e.2

/-! ## The reference interpreter of the specification -/

/-- The loop of the reference interpreter: while the guest runs, decode the word at pc,
execute its operation and step to the next word; `fuel` bounds the number of times the loop
condition is evaluated. -/
def refLoop (prog : List Int) : Nat → Host → Option (Res Host)
  | 0, _ => none
  | fuel + 1, h =>
    if h.s.running then
      match prog[h.s.pc]? with
      | none => some (.thrown "pc out of range (missing halt?)" h)
      | some ins =>
        match insnOp ins with
        | .error what => some (.thrown what h)
        | .ok op =>
          match execOp op h with
          | .thrown what h1 => some (.thrown what h1)
          | .done h1 => refLoop prog fuel { s := { h1.s with pc := h.s.pc + 1 }, out := h1.out }
    else some (.done h)

/-- The reference interpreter of the specification: decode and execute one instruction at a
time from pc 0 with an empty stack. -/
def refRun (prog : List Int) (fuel : Nat) : Option (Res Host) :=
  refLoop prog fuel { s := { pc := 0, running := true, stack := [] }, out := [] }

end MiniTCGVM

/-!
# The queue of exercise ex02

Shallow embedding of `src/C_prerequisites/Exercises/ex02_doubly_circular_queue`
(`doubly_circular_queue.c` and the queue functions of `main.c`).

Conventions of the embedding:

* The memory is a map from addresses to nodes; the two static sentinels are at the
  addresses 0 and 1, and `malloc` always succeeds and returns a fresh address.
* A pointer is an `Option Nat`, `none` for `NULL`.
* A function whose C execution reads or writes through `NULL` or through an address that
  holds no node returns `none`; so does a loop that is still going when its fuel is spent.
* An `int` that is only stored and copied is an integer.
-/

namespace DoublyCircularQueue

/-- A value of the pointer type `link`: `none` is `NULL`, `some a` is the address `a`. -/
abbrev link := Option Nat

/-- The type `struct node` of `doubly_circular_queue.h`. -/
structure node where
  data : Int
  prev : link
  next : link
  deriving DecidableEq

/-- The address of the static object `headsentinel`, the value of `head`. -/
def head : Nat := 0

/-- The address of the static object `tailsentinel`, the value of `tail`. -/
def tail : Nat := 1

/-- The memory the queue module and `main.c` work on: `cell a` is the node stored at address
`a` (`none` when nothing is allocated there), `brk` is the address the next `malloc` call
returns, `inited` is the static flag of `ensure_init` and `g_last` the static variable of
`main.c`. `malloc` always succeeds and hands out addresses in increasing order. -/
structure World where
  cell : Nat → Option node
  brk : Nat
  inited : Bool
  g_last : link

/-- The memory at program start: the two sentinels zero-initialised, nothing allocated. -/
def World.init : World :=
  { cell := fun a => if a < 2 then some { data := 0, prev := none, next := none } else none,
    brk := 2, inited := false, g_last := none }

/-- The read `p->next`; `none` when `p` is `NULL` or not allocated. -/
def getNext (w : World) (p : link) : Option link :=
  match p with
  | none => none
  | some a => (w.cell a).map fun n => n.next

/-- The read `p->prev`; `none` when `p` is `NULL` or not allocated. -/
def getPrev (w : World) (p : link) : Option link :=
  match p with
  | none => none
  | some a => (w.cell a).map fun n => n.prev

/-- The read `p->data`; `none` when `p` is `NULL` or not allocated. -/
def getData (w : World) (p : link) : Option Int :=
  match p with
  | none => none
  | some a => (w.cell a).map fun n => n.data

/-- The write `p->next = v`; `none` when `p` is `NULL` or not allocated. -/
def setNext (w : World) (p : link) (v : link) : Option World :=
  match p with
  | none => none
  | some a =>
    match w.cell a with
    | none => none
    | some n => some { w with cell := Function.update w.cell a (some { n with next := v }) }

/-- The write `p->prev = v`; `none` when `p` is `NULL` or not allocated. -/
def setPrev (w : World) (p : link) (v : link) : Option World :=
  match p with
  | none => none
  | some a =>
    match w.cell a with
    | none => none
    | some n => some { w with cell := Function.update w.cell a (some { n with prev := v }) }

/-- The function `ensure_init`: on the first call it zeroes the data of both sentinels and
links them to each other in both directions. -/
def ensure_init (w : World) : World :=
  if w.inited then w
  else
    { w with
      inited := true,
      cell := Function.update
        (Function.update w.cell head (some { data := 0, prev := some tail, next := some tail }))
        tail (some { data := 0, prev := some head, next := some head }) }

/-- The function `make_node`, with the pointer it returns. -/
def make_node (w : World) (data : Int) : World × link :=
  let w1 := ensure_init w
  ({ w1 with cell := Function.update w1.cell w1.brk (some { data := data, prev := none, next := none }),
             brk := w1.brk + 1 },
   some w1.brk)

/-- The function `free_node`; freeing an address that holds no node is undefined. -/
def free_node (w : World) (p : link) : Option World :=
  let w1 := ensure_init w
  match p with
  | none => some w1
  | some a =>
    if a = head ∨ a = tail then some w1
    else
      match w1.cell a with
      | none => none
      | some _ => some { w1 with cell := Function.update w1.cell a none }

/-- The function `insert`: `p` becomes the node after the head sentinel. -/
def insert (w : World) (p : link) : Option World :=
  let w1 := ensure_init w
  match p with
  | none => some w1
  | some _ => do
    let hn ← getNext w1 (some head)
    let w2 ← setNext w1 p hn
    let w3 ← setPrev w2 p (some head)
    let hn3 ← getNext w3 (some head)
    let w4 ← setPrev w3 hn3 p
    setNext w4 (some head) p

/-- The function `delete_node`: unlink `p`, which is not freed. -/
def delete_node (w : World) (p : link) : Option World :=
  let w1 := ensure_init w
  match p with
  | none => some w1
  | some a =>
    if a = head ∨ a = tail then some w1
    else do
      let pp ← getPrev w1 p
      let pn ← getNext w1 p
      let w2 ← setNext w1 pp pn
      let pn2 ← getNext w2 p
      let pp2 ← getPrev w2 p
      let w3 ← setPrev w2 pn2 pp2
      let w4 ← setPrev w3 p none
      setNext w4 p none

/-- The loop `for (link p = head->next; p != tail; p = p->next) visit(p);` of `traverse`
from the pointer `p` on; `fuel` bounds the number of times the loop condition is
evaluated. -/
def traverseLoop (visit : World → Nat → World) : Nat → World → link → Option World
  | 0, _, _ => none
  | fuel + 1, w, p =>
    if p = some tail then some w
    else
      match p with
      | none => none
      | some a =>
        let w1 := visit w a
        match getNext w1 p with
        | none => none
        | some nxt => traverseLoop visit fuel w1 nxt

/-- The function `traverse` for a non-null `visit`. -/
def traverse (fuel : Nat) (visit : World → Nat → World) (w : World) : Option World :=
  let w1 := ensure_init w
  match getNext w1 (some head) with
  | none => none
  | some p => traverseLoop visit fuel w1 p

/-- The function `capture_last` of `main.c`. -/
def capture_last (w : World) (p : Nat) : World := { w with g_last := some p }

/-- The function `get_last` of `main.c`, with the pointer it returns. -/
def get_last (fuel : Nat) (w : World) : Option (World × link) :=
  (traverse fuel capture_last { w with g_last := none }).map fun w1 => (w1, w1.g_last)

/-- The function `enqueue_int` of `main.c`. -/
def enqueue_int (w : World) (v : Int) : Option World :=
  let r := make_node w v
  insert r.1 r.2

/-- The function `dequeue_int` of `main.c`. The argument `out` is `none` for a `NULL`
pointer and else holds the int the pointer refers to; the result holds the value
returned and that int after the call. -/
def dequeue_int (fuel : Nat) (w : World) (out : Option Int) : Option (World × Int × Option Int) :=
  match get_last fuel w with
  | none => none
  | some (w1, last) =>
    match last with
    | none => some (w1, 0, out)
    | some _ => do
      let out1 ← (match out with
        | none => some none
        | some _ => (getData w1 last).map some)
      let w2 ← delete_node w1 last
      let w3 ← free_node w2 last
      some (w3, 1, out1)

/-- The calls `enqueue_int(v)` for the values of `vs`, in order. -/
def enqueueAll : World → List Int → Option World
  | w, [] => some w
  | w, v :: vs => (enqueue_int w v).bind fun w1 => enqueueAll w1 vs

/-- As many as `n` successive executions of `int v = 0; dequeue_int(&v)`, with the value
returned and the final `v` of each, in order. -/
def dequeues (fuel : Nat) : Nat → World → Option (World × List (Int × Option Int))
  | 0, w => some (w, [])
  | n + 1, w =>
    (dequeue_int fuel w (some 0)).bind fun r =>
      (dequeues fuel n r.1).map fun r1 => (r1.1, (r.2.1, r.2.2) :: r1.2)

/-- The queue holds nothing: the module is not initialised yet, or the two sentinels
are linked to each other. -/
def EmptyQueue (w : World) : Prop :=
  2 ≤ w.brk ∧
    (w.inited = true →
      (∃ d, w.cell head = some { data := d, prev := some tail, next := some tail }) ∧
      (∃ d, w.cell tail = some { data := d, prev := some head, next := some head }))

/-- The address of the first node of `l`, or `z` when `l` is empty. -/
def firstOr (l : List (Nat × Int)) (z : Nat) : Nat :=
  match l with
  | [] => z
  | e :: _ => e.1

/-- The address of the last node of `l`, or `z` when `l` is empty. -/
def lastOr (l : List (Nat × Int)) (z : Nat) : Nat :=
  match l.getLast? with
  | none => z
  | some e => e.1

/-- The nodes at the addresses of `l` hold the data of `l` and are linked in both directions
in the order of `l`, the first one back to `prev` and the last one on to `nxt`. -/
def Seg (cell : Nat → Option node) : Nat → List (Nat × Int) → Nat → Prop
  | _, [], _ => True
  | prev, e :: rest, nxt =>
    cell e.1 = some { data := e.2, prev := some prev, next := some (firstOr rest nxt) } ∧
      Seg cell e.1 rest nxt

/-- The memory holds the queue whose nodes, from the head sentinel to the tail sentinel,
are at the addresses and hold the data of `l`. -/
def IsQueue (w : World) (l : List (Nat × Int)) : Prop :=
  w.inited = true ∧ 2 ≤ w.brk ∧ (∀ e ∈ l, 2 ≤ e.1 ∧ e.1 < w.brk) ∧ (l.map Prod.fst).Nodup ∧
    (∃ d, w.cell head = some { data := d, prev := some tail, next := some (firstOr l tail) }) ∧
    (∃ d, w.cell tail = some { data := d, prev := some (lastOr l head), next := some head }) ∧
    Seg w.cell head l tail

/-- The pointer `g_last` after a traversal over the nodes of `l` that started with
`g_last == g`. -/
def lastLink (l : List (Nat × Int)) (g : link) : link :=
  match l.getLast? with
  | none => g
  | some e => some e.1

end DoublyCircularQueue

/-!
# The Josephus exercise ex01

Shallow embedding of `src/C_prerequisites/Exercises/ex01` (`singly_linked_list.c` and
`main.c`).

Conventions of the embedding:

* The memory is a map from addresses to nodes; `malloc` always succeeds and returns a fresh
  address. A pointer is an `Option Nat`, `none` for `NULL`.
* A function whose C execution reads or writes through `NULL` or through an address that
  holds no node returns `none`; so does a loop that is still going when its fuel is spent.
  The `for` loops over an `int` counter run as often as their bounds say.
* The `int` arguments are integers; an `unsigned char` is a natural number, and the
  conversion of an `int` to it is `toUChar`.
* `stdout` is the list of the strings written, one per `printf` call, oldest first.
-/

namespace SinglyLinkedList

/-- A value of the pointer type `link`: `none` is `NULL`, `some a` is the address `a`. -/
abbrev link := Option Nat

/-- The type `struct node` of `singly_linked_list.h`; `item` is an `unsigned char`. -/
structure node where
  item : Nat
  next : link
  deriving DecidableEq

/-- The memory the list module and `main.c` work on: `cell a` is the node stored at address
`a` (`none` when nothing is allocated there), `brk` is the address the next `malloc` call
returns, `head` and `g_first_node` are the static variables of the two files and `out` holds
the strings written to `stdout`, one per `printf` call. `malloc` always succeeds and hands
out addresses in increasing order. -/
structure World where
  cell : Nat → Option node
  brk : Nat
  head : link
  g_first_node : link
  out : List String

/-- The memory at program start. -/
def World.init : World :=
  { cell := fun _ => none, brk := 0, head := none, g_first_node := none, out := [] }

/-- The conversion of an `int` to `unsigned char`. -/
def toUChar (i : Int) : Nat := (i % 256).toNat

/-- The read `p->next`; `none` when `p` is `NULL` or not allocated. -/
def getNext (w : World) (p : link) : Option link :=
  match p with
  | none => none
  | some a => (w.cell a).map fun n => n.next

/-- The read `p->item`; `none` when `p` is `NULL` or not allocated. -/
def getItem (w : World) (p : link) : Option Nat :=
  match p with
  | none => none
  | some a => (w.cell a).map fun n => n.item

/-- The write `p->next = v`; `none` when `p` is `NULL` or not allocated. -/
def setNext (w : World) (p : link) (v : link) : Option World :=
  match p with
  | none => none
  | some a =>
    match w.cell a with
    | none => none
    | some n => some { w with cell := Function.update w.cell a (some { n with next := v }) }

/-- The function `make_node`, with the pointer it returns. -/
def make_node (w : World) (item : Nat) : World × link :=
  ({ w with cell := Function.update w.cell w.brk (some { item := item, next := none }),
            brk := w.brk + 1 },
   some w.brk)

/-- The function `free_node`; freeing an address that holds no node is undefined. -/
def free_node (w : World) (p : link) : Option World :=
  match p with
  | none => some w
  | some a =>
    match w.cell a with
    | none => none
    | some _ => some { w with cell := Function.update w.cell a none }

/-- The function `insert`: `p` becomes the first node. -/
def insert (w : World) (p : link) : Option World :=
  match p with
  | none => some w
  | some _ => (setNext w p w.head).map fun w1 => { w1 with head := p }

/-- The function `push`. -/
def push (w : World) (p : link) : Option World := insert w p

/-- The loop `while (prev->next && prev->next != p) prev = prev->next;` of `delete_node`,
with the final value of `prev`; `fuel` bounds the number of times the loop condition is
evaluated. -/
def findPrev (w : World) (p : Nat) : Nat → Nat → Option Nat
  | 0, _ => none
  | fuel + 1, prev =>
    match w.cell prev with
    | none => none
    | some n =>
      match n.next with
      | none => some prev
      | some nx => if nx = p then some prev else findPrev w p fuel nx

/-- The function `delete_node`. -/
def delete_node (fuel : Nat) (w : World) (p : link) : Option World :=
  match p, w.head with
  | none, _ => some w
  | _, none => some w
  | some a, some h =>
    if h = a then do
      let hn ← getNext w w.head
      free_node { w with head := hn } p
    else do
      let prev ← findPrev w a fuel h
      let pn ← getNext w (some prev)
      if pn = some a then do
        let pnext ← getNext w p
        let w1 ← setNext w (some prev) pnext
        free_node w1 p
      else some w

/-- The loop `for (link cur = head; cur != NULL; cur = cur->next) visit(cur);` of `traverse`
from the pointer `cur` on; `fuel` bounds the number of times the loop condition is
evaluated. -/
def traverseLoop (visit : World → Nat → World) : Nat → World → link → Option World
  | 0, _, _ => none
  | fuel + 1, w, cur =>
    match cur with
    | none => some w
    | some a =>
      let w1 := visit w a
      match getNext w1 cur with
      | none => none
      | some nxt => traverseLoop visit fuel w1 nxt

/-- The function `traverse` for a non-null `visit`. -/
def traverse (fuel : Nat) (visit : World → Nat → World) (w : World) : Option World :=
  traverseLoop visit fuel w w.head

/-- The loop of `destroy` from the pointer `cur` on. -/
def destroyLoop : Nat → World → link → Option World
  | 0, _, _ => none
  | fuel + 1, w, cur =>
    match cur with
    | none => some w
    | some _ => do
      let nxt ← getNext w cur
      let w1 ← free_node w cur
      destroyLoop fuel w1 nxt

/-- The function `destroy`. -/
def destroy (fuel : Nat) (w : World) : Option World :=
  (destroyLoop fuel w w.head).map fun w1 => { w1 with head := none }

/-- The function `capture_first` of `main.c`. -/
def capture_first (w : World) (p : Nat) : World :=
  if w.g_first_node = none then { w with g_first_node := some p } else w

/-- The function `get_head_node` of `main.c`, with the pointer it returns. -/
def get_head_node (fuel : Nat) (w : World) : Option (World × link) :=
  (traverse fuel capture_first { w with g_first_node := none }).map fun w1 =>
    (w1, w1.g_first_node)

/-- The function `next_wrap` of `main.c`, with the pointer it returns. -/
def next_wrap (fuel : Nat) (w : World) (p : link) : Option (World × link) :=
  match p with
  | none => get_head_node fuel w
  | some _ =>
    match getNext w p with
    | none => none
    | some (some nx) => some (w, some nx)
    | some none => get_head_node fuel w

/-- The loop `for (int i = n; i >= 1; i--)` of `create_list`, entered with `i` equal to the
first argument. -/
def createLoop : Nat → World → Option World
  | 0, w => some w
  | i + 1, w =>
    let r := make_node w (toUChar ((i + 1 : Nat) : Int))
    (push r.1 r.2).bind fun w1 => createLoop i w1

/-- The function `create_list`. -/
def create_list (fuel : Nat) (w : World) (n : Int) : Option World :=
  if n ≤ 0 then some w
  else (destroy fuel w).bind fun w1 => createLoop n.toNat w1

/-- As many `current = next_wrap(current);` steps as the first argument says. -/
def stepLoop (fuel : Nat) : Nat → World → link → Option (World × link)
  | 0, w, current => some (w, current)
  | i + 1, w, current => (next_wrap fuel w current).bind fun r => stepLoop fuel i r.1 r.2

/-- The statements `printf("%d", current->item); if (out != n - 1) printf(" ");
link next = next_wrap(current); delete_node(current); current = next;` that both branches
of the loop body of `josephus_problem` end with. -/
def removeCurrent (fuel : Nat) (n out : Int) (w : World) (current : link) :
    Option (World × link) := do
  let item ← getItem w current
  let w1 : World := { w with out := w.out ++ [toString item] }
  let w2 : World := if out ≠ n - 1 then { w1 with out := w1.out ++ [" "] } else w1
  let r ← next_wrap fuel w2 current
  let w3 ← delete_node fuel r.1 current
  some (w3, r.2)

/-- The loop `for (int out = 0; out < n; ++out)` of `josephus_problem` with as many rounds
left as the first argument says. -/
def roundLoop (fuel : Nat) (n m : Int) : Nat → World → link → Option World
  | 0, w, _ => some w
  | rem + 1, w, current =>
    let out : Int := n - ((rem + 1 : Nat) : Int)
    if m = 1 then
      (removeCurrent fuel n out w current).bind fun r => roundLoop fuel n m rem r.1 r.2
    else
      (stepLoop fuel (m - 1).toNat w current).bind fun s =>
        (removeCurrent fuel n out s.1 s.2).bind fun r => roundLoop fuel n m rem r.1 r.2

/-- The function `josephus_problem`. -/
def josephus_problem (fuel : Nat) (w : World) (n k m : Int) : Option World :=
  if n ≤ 0 ∨ k ≤ 0 ∨ m ≤ 0 then
    some { w with out := w.out ++ ["参数错误：n, k, m 都必须大于 0\n"] }
  else
    (create_list fuel w n).bind fun w1 =>
      (get_head_node fuel w1).bind fun h =>
        match h.2 with
        | none => some { h.1 with out := h.1.out ++ ["\n"] }
        | some _ =>
          (stepLoop fuel (k - 1).toNat h.1 h.2).bind fun s =>
            (roundLoop fuel n m n.toNat s.1 s.2).map fun w2 =>
              { w2 with out := w2.out ++ ["\n"] }

/-- One person after the other leaves the circle `l`, as many as the second argument says:
count `m` persons from the first of the circle on, the last person counted leaves, and the
circle goes on from the person after. -/
def eliminate {α : Type} (m : Nat) : Nat → List α → List α
  | 0, _ => []
  | r + 1, l =>
    match l.rotate (m - 1) with
    | [] => []
    | x :: t => x :: eliminate m r t

/-- The elimination order the specification describes: the persons `1..n` stand in a circle,
the count starts at position `k` (wrapping around when `k > n`) and every `m`-th
remaining person leaves. -/
def josephusOrder (n k m : Nat) : List Nat :=
  eliminate m n ((List.range' 1 n).rotate (k - 1))

/-- The strings `josephus_problem` writes for the numbers `l`: the decimal numbers with a
blank between two of them. -/
def render : List Nat → List String
  | [] => []
  | [x] => [toString x]
  | x :: y :: t => toString x :: " " :: render (y :: t)

/-- The pointer to the first node of `l`, or `stop` when `l` is empty. -/
def firstLink (l : List (Nat × Nat)) (stop : link) : link :=
  match l with
  | [] => stop
  | e :: _ => some e.1

/-- The nodes at the addresses of `l` hold the items of `l` and are linked in the order of
`l`, the last one on to `stop`. -/
def Seg (cell : Nat → Option node) : List (Nat × Nat) → link → Prop
  | [], _ => True
  | e :: rest, stop =>
    cell e.1 = some { item := e.2, next := firstLink rest stop } ∧ Seg cell rest stop

/-- The memory holds the list whose nodes, from `head` on, are at the addresses and hold the
items of `l`. -/
def IsList (w : World) (l : List (Nat × Nat)) : Prop :=
  w.head = firstLink l none ∧ Seg w.cell l none ∧ (l.map Prod.fst).Nodup ∧
    ∀ e ∈ l, e.1 < w.brk

/-- The memory holds a list that, read as a circle from the current node on, is `circle`. -/
def Circ (w : World) (circle : List (Nat × Nat)) : Prop :=
  ∃ A C, circle = C ++ A ∧ IsList w (A ++ C) ∧ (C = [] → A = [])

end SinglyLinkedList

/-!
# The lexer and assembler of lesson 5

Shallow embedding of `Lexer::lex` and of the struct `Assembler` of
`src/vm/lesson5/lexer_asm.cpp`.

Conventions of the embedding:

* A `std::string` or `std::string_view` is a list of characters. The index `i` of the lexer
  is the text that is left from `i` on, so `i++` drops the first character.
* A token is the list of its characters; `lex` returns the tokens in order.
* A loop whose number of iterations depends on the text takes a fuel and returns `none` when
  it is still going at the end of the fuel.
* `int32_t` values are integers, `uint32_t` values naturals below `2^32`, with the casts and
  the wrap of the VM embedding; the nesting depth `int depth` is an integer.
* A `throw std::runtime_error(msg)` is `.error msg`.
-/

namespace Lesson5

open MiniTCGVM

/-- The lambda `is_space` of `Lexer::lex`. -/
def is_space (c : Char) : Bool :=
  c = ' ' ∨ c = '\t' ∨ c = '\n' ∨ c = '\r' ∨ c = Char.ofNat 11 ∨ c = Char.ofNat 12

/-- The lambda `is_single_char_token` of `Lexer::lex`. -/
def is_single_char_token (c : Char) : Bool :=
  c = '(' ∨ c = ')' ∨ c = '[' ∨ c = ']' ∨ c = Char.ofNat 123 ∨ c = Char.ofNat 125 ∨ c = '+' ∨
    c = '-' ∨ c = '*' ∨ c = '/' ∨ c = ','

/-- The lambda `peek` of `Lexer::lex`, on the text from index `i` on: the character `k`
places ahead, or `'\0'` past the end. -/
def peek (rest : List Char) (k : Nat) : Char := (rest[k]?).getD (Char.ofNat 0)

/-- The lambda `starts_with_comment` of `Lexer::lex`. -/
def starts_with_comment (rest : List Char) : Bool := peek rest 0 = '/' ∧ peek rest 1 = '/'

/-- The lambda `push_token` of `Lexer::lex`. -/
def push_token (out : List (List Char)) (tok : List Char) : List (List Char) :=
  if tok = [] then out else out ++ [tok]

/-- The lambda `read_line_comment` of `Lexer::lex`: the text left after it. -/
def read_line_comment (rest : List Char) : List Char :=
  (rest.drop 2).dropWhile fun c => c != '\n'

/-- The `while` loop of the lambda `read_string`: the token and the text left. -/
def readStringLoop : List Char → List Char → List Char × List Char
  | [], tok => (tok, [])
  | [c], tok => (tok ++ [c], [])
  | c :: d :: ds, tok =>
    if c = '\\' then readStringLoop ds (tok ++ [c] ++ [d])
    else if c = '"' then (tok ++ [c], d :: ds)
    else readStringLoop (d :: ds) (tok ++ [c])

/-- The lambda `read_string` of `Lexer::lex`, called on a text that starts with a double
quote: the token and the text left. -/
def read_string (rest : List Char) : List Char × List Char :=
  readStringLoop (rest.drop 1) ['"']

/-- The `while` loop of the lambda `read_paren_block`: the token and the text left; `fuel`
bounds the number of times the loop condition is evaluated. -/
def readParenLoop : Nat → List Char → List Char → Int → Option (List Char × List Char)
  | 0, _, _, _ => none
  | _ + 1, [], tok, _ => some (tok, [])
  | fuel + 1, c :: cs, tok, depth =>
    if starts_with_comment (c :: cs) then
      readParenLoop fuel (read_line_comment (c :: cs)) tok depth
    else if c = '"' then
      readParenLoop fuel (read_string (c :: cs)).2 (tok ++ (read_string (c :: cs)).1) depth
    else if c = '(' then readParenLoop fuel cs (tok ++ [c]) (depth + 1)
    else if c = ')' then
      if depth - 1 = 0 then some (tok ++ [c], cs)
      else readParenLoop fuel cs (tok ++ [c]) (depth - 1)
    else readParenLoop fuel cs (tok ++ [c]) depth

/-- The lambda `read_paren_block` of `Lexer::lex`. -/
def read_paren_block (fuel : Nat) (rest : List Char) : Option (List Char × List Char) :=
  readParenLoop fuel rest [] 0

/-- The loop of `Lexer::lex` that reads a word or number token: the token and the text
left. -/
def readWord : List Char → List Char → List Char × List Char
  | [], tok => (tok, [])
  | x :: xs, tok =>
    if is_space x then (tok, x :: xs)
    else if starts_with_comment (x :: xs) then (tok, x :: xs)
    else if x = '"' ∨ x = '(' then (tok, x :: xs)
    else if is_single_char_token x then (tok, x :: xs)
    else readWord xs (tok ++ [x])

/-- The main loop of `Lexer::lex` on the text from index `i` on; `fuel` bounds the number
of times the loop condition is evaluated, and bounds the loop of `read_paren_block` too. -/
def lexLoop : Nat → List Char → List (List Char) → Option (List (List Char))
  | 0, _, _ => none
  | _ + 1, [], out => some out
  | fuel + 1, c :: cs, out =>
    if is_space c then lexLoop fuel cs out
    else if starts_with_comment (c :: cs) then lexLoop fuel (read_line_comment (c :: cs)) out
    else if c = '"' then
      lexLoop fuel (read_string (c :: cs)).2 (push_token out (read_string (c :: cs)).1)
    else if c = '(' then
      match read_paren_block (fuel + 1) (c :: cs) with
      | none => none
      | some r => lexLoop fuel r.2 (push_token out r.1)
    else if is_single_char_token c then lexLoop fuel cs (push_token out [c])
    else lexLoop fuel (readWord (c :: cs) []).2 (push_token out (readWord (c :: cs) []).1)

/-- The method `Lexer::lex`. -/
def lex (fuel : Nat) (s : List Char) : Option (List (List Char)) := lexLoop fuel s []

/-- The function `Assembler::pack`. -/
def pack (type data30 : Nat) : Nat := ((type <<< 30) % 4294967296) ||| (data30 &&& 0x3FFFFFFF)

/-- The digit loop of `Assembler::parse_int32` from index `idx` on, entered with `val`. -/
def parseDigits : List Char → Int → Option Int
  | [], val => some val
  | c :: cs, val =>
    if c < '0' ∨ c > '9' then none
    else
      let d : Int := (c.toNat : Int) - ('0'.toNat : Int)
      if val > (2147483647 - d) / 10 then none
      else parseDigits cs (wrapI32 (val * 10 + d))

/-- The function `Assembler::parse_int32`: `none` for `false`, else the value stored to
`out`. -/
def parse_int32 (sv : List Char) : Option Int :=
  match sv with
  | [] => none
  | c :: rest =>
    if c = '+' ∨ c = '-' then
      if rest = [] then none
      else (parseDigits rest 0).map fun val => if c = '-' then wrapI32 (-val) else val
    else parseDigits (c :: rest) 0

/-- The constant `MAX30` of `encode_literal`. -/
def MAX30 : Int := 1073741823

/-- The function `Assembler::encode_literal`. -/
def encode_literal (v : Int) : Except String Nat :=
  if v ≥ 0 then
    if v > MAX30 then .error ("Literal too large for 30-bit data: " ++ toString v)
    else .ok (pack 0 (toU32 v))
  else
    let a : Int := if v = -2147483648 then MAX30 + 1 else wrapI32 (-v)
    if a > MAX30 then
      .error ("Negative literal magnitude too large for 30-bit data: " ++ toString v)
    else .ok (pack 2 (toU32 a))

/-- The function `Assembler::encode_prim`. -/
def encode_prim (opcode : Nat) : Nat := pack 1 opcode

/-- The lookup `prim.find(t)` in the table of `Assembler::compile`. -/
def primOf (t : List Char) : Option Nat :=
  if t = ['h', 'a', 'l', 't'] then some 0
  else if t = ['+'] then some 1
  else if t = ['-'] then some 2
  else if t = ['*'] then some 3
  else if t = ['/'] then some 4
  else none

/-- The loop of `Assembler::compile` over the tokens left, with the words emitted so far. -/
def compileLoop : List (List Char) → List Int → Except String (List Int)
  | [], out => .ok out
  | t :: ts, out =>
    if t = [] then compileLoop ts out
    else if t.head? = some '"' ∧ t.length ≥ 2 ∧ t.getLast? = some '"' then
      .error ("String token not supported by this assembler yet: " ++ String.mk t)
    else if t.head? = some '(' then
      .error ("Paren-block token not supported by this assembler yet: " ++ String.mk t)
    else
      match primOf t with
      | some opcode => compileLoop ts (out ++ [toI32 (encode_prim opcode)])
      | none =>
        match parse_int32 t with
        | some v =>
          match encode_literal v with
          | .error what => .error what
          | .ok u => compileLoop ts (out ++ [toI32 u])
        | none => .error ("Invalid token/instruction: [" ++ String.mk t ++ "]")

/-- The method `Assembler::compile`. -/
def compile (toks : List (List Char)) : Except String (List Int) := compileLoop toks []

/-- A decimal digit. -/
def IsDigit (c : Char) : Prop := '0' ≤ c ∧ c ≤ '9'

/-- The number a string of decimal digits denotes. -/
def digitsValue (ds : List Char) : Nat :=
  ds.foldl (fun acc c => acc * 10 + (c.toNat - 48)) 0

/-- A token that begins with a sign is that sign alone. -/
def SignAlone (t : List Char) : Prop :=
  ∀ c, t.head? = some c → (c = '-' ∨ c = '+') → t = [c]

end Lesson5

/-!
# The Josephus exercise ex03

Shallow embedding of `src/C_prerequisites/Exercises/ex03_circular_queue_josephus`
(`circular_linked_list.c` and `main.c`).

Conventions of the embedding:

* The memory is a map from addresses to nodes; `malloc` always succeeds and returns a fresh
  address. A pointer is an `Option Nat`, `none` for `NULL`.
* A function whose C execution reads or writes through `NULL` or through an address that
  holds no node returns `none`; so does a loop that is still going when its fuel is spent.
  The `for` loops over an `int` counter run as often as their bounds say.
* The `int` arguments and the `int id` of a node are integers.
* `stdout` is the list of the strings written, one per `printf` call, oldest first.
-/

namespace CircularLinkedList

/-- A value of the pointer type `Node*`: `none` is `NULL`, `some a` is the address `a`. -/
abbrev link := Option Nat

/-- The type `Node` of `circular_linked_list.h`. -/
structure Node where
  id : Int
  next : link
  deriving DecidableEq

/-- The memory `circular_linked_list.c` and `main.c` work on: `cell a` is the node stored at
address `a` (`none` when nothing is allocated there), `brk` is the address the next `malloc`
call returns and `out` holds the strings written to `stdout`, one per `printf` call.
`malloc` always succeeds and hands out addresses in increasing order. -/
structure World where
  cell : Nat → Option Node
  brk : Nat
  out : List String

/-- The memory at program start. -/
def World.init : World := { cell := fun _ => none, brk := 0, out := [] }

/-- The read `p->next`; `none` when `p` is `NULL` or not allocated. -/
def getNext (w : World) (p : link) : Option link :=
  match p with
  | none => none
  | some a => (w.cell a).map fun n => n.next

/-- The read `p->id`; `none` when `p` is `NULL` or not allocated. -/
def getId (w : World) (p : link) : Option Int :=
  match p with
  | none => none
  | some a => (w.cell a).map fun n => n.id

/-- The write `p->next = v`; `none` when `p` is `NULL` or not allocated. -/
def setNext (w : World) (p : link) (v : link) : Option World :=
  match p with
  | none => none
  | some a =>
    match w.cell a with
    | none => none
    | some n => some { w with cell := Function.update w.cell a (some { n with next := v }) }

/-- The call `free(p)` for a non-null `p`; freeing an address that holds no node is
undefined. -/
def free (w : World) (p : link) : Option World :=
  match p with
  | none => some w
  | some a =>
    match w.cell a with
    | none => none
    | some _ => some { w with cell := Function.update w.cell a none }

/-- The loop `for (int i = 2; i <= n; ++i)` of `create_circular_list` with as many passes
left as the first argument says, entered with the given `i`, `head` and `tail`. -/
def createLoop : Nat → Int → World → Nat → Nat → Option World
  | 0, _, w, _, _ => some w
  | k + 1, i, w, head, tail =>
    let node := w.brk
    let w1 : World :=
      { w with cell := Function.update w.cell node (some { id := i, next := some head }),
               brk := w.brk + 1 }
    (setNext w1 (some tail) (some node)).bind fun w2 => createLoop k (i + 1) w2 head node

/-- The function `create_circular_list`, with the pointer it returns. -/
def create_circular_list (w : World) (n : Int) : Option (World × link) :=
  if n ≤ 0 then some (w, none)
  else
    let head := w.brk
    let w1 : World :=
      { w with cell := Function.update w.cell head (some { id := 1, next := some head }),
               brk := w.brk + 1 }
    (createLoop (n - 1).toNat 2 w1 head head).map fun w2 => (w2, some head)

/-- The loop `while (prev->next != head) prev = prev->next;` of `josephus_problem`, with
the final `prev`; `fuel` bounds the number of times the loop condition is evaluated. -/
def findTail (w : World) (head : link) : Nat → link → Option link
  | 0, _ => none
  | fuel + 1, prev =>
    match getNext w prev with
    | none => none
    | some nx => if nx ≠ head then findTail w head fuel nx else some prev

/-- As many passes of `prev = current; current = current->next;` as the first argument
says, with the final `prev` and `current`. -/
def stepLoop : Nat → World → link → link → Option (link × link)
  | 0, _, prev, current => some (prev, current)
  | i + 1, w, _, current => (getNext w current).bind fun nx => stepLoop i w current nx

/-- The loop `while (current->next != current)` of `josephus_problem`, with the final
memory, `current` and `first_printed`; `fuel` bounds the number of times the loop condition
is evaluated. -/
def mainLoop (m : Int) : Nat → World → link → link → Bool → Option (World × link × Bool)
  | 0, _, _, _, _ => none
  | fuel + 1, w, prev, current, first_printed =>
    match getNext w current with
    | none => none
    | some nx =>
      if nx ≠ current then
        (stepLoop (m - 1).toNat w prev current).bind fun pc =>
          let w1 : World := if first_printed then { w with out := w.out ++ [" "] } else w
          (getId w1 pc.2).bind fun id =>
            let w2 : World := { w1 with out := w1.out ++ [toString id] }
            (getNext w2 pc.2).bind fun cn =>
              (setNext w2 pc.1 cn).bind fun w3 =>
                (getNext w3 pc.1).bind fun current1 =>
                  (free w3 pc.2).bind fun w4 => mainLoop m fuel w4 pc.1 current1 true
      else some (w, current, first_printed)

/-- The function `josephus_problem` of ex03. -/
def josephus_problem (fuel : Nat) (w : World) (n k m : Int) : Option World :=
  if n ≤ 0 ∨ k ≤ 0 ∨ m ≤ 0 then some { w with out := w.out ++ ["wrong parameters\n"] }
  else
    (create_circular_list w n).bind fun r =>
      match r.2 with
      | none => some { r.1 with out := r.1.out ++ ["\n"] }
      | some _ =>
        (findTail r.1 r.2 fuel r.2).bind fun prev =>
          (stepLoop (k - 1).toNat r.1 prev r.2).bind fun pc =>
            (mainLoop m fuel r.1 pc.1 pc.2 false).bind fun l =>
              let w1 : World := if l.2.2 then { l.1 with out := l.1.out ++ [" "] } else l.1
              (getId w1 l.2.1).bind fun id =>
                let w2 : World := { w1 with out := w1.out ++ [toString id] }
                (free w2 l.2.1).map fun w3 => { w3 with out := w3.out ++ ["\n"] }

/-- The pointer to the first node of `l`, or `stop` when `l` is empty. -/
def firstLink (l : List (Nat × Int)) (stop : link) : link :=
  match l with
  | [] => stop
  | e :: _ => some e.1

/-- The pointer to the last node of `l`, or `NULL` when `l` is empty. -/
def lastLink (l : List (Nat × Int)) : link := l.getLast?.map Prod.fst

/-- The nodes at the addresses of `l` hold the ids of `l` and are linked in the order of
`l`, the last one on to `stop`. -/
def Seg (cell : Nat → Option Node) : List (Nat × Int) → link → Prop
  | [], _ => True
  | e :: rest, stop =>
    cell e.1 = some { id := e.2, next := firstLink rest stop } ∧ Seg cell rest stop

/-- The memory holds a circular list whose nodes, from the current one on, are at the
addresses and hold the ids of `circle`, the last one linked back to the first. -/
def Cyc (w : World) (circle : List (Nat × Int)) : Prop :=
  circle ≠ [] ∧ Seg w.cell circle (firstLink circle none) ∧ (circle.map Prod.fst).Nodup

/-- The strings `josephus_problem` writes for the ids `l`: the decimal numbers with a blank
between two of them. -/
def renderIds : List Int → List String
  | [] => []
  | [x] => [toString x]
  | x :: y :: t => toString x :: " " :: renderIds (y :: t)

end CircularLinkedList

namespace MiniTCGVM

/-! ## Codec lemmas -/

theorem toU32_lt (x : Int) : toU32 x < 4294967296 := by
  unfold toU32; omega

theorem toU32_of_nonneg (x : Int) (h0 : 0 ≤ x) (h1 : x < 4294967296) :
    ((toU32 x : Nat) : Int) = x := by
  unfold toU32; omega

theorem toU32_of_neg (x : Int) (h0 : x < 0) (h1 : -4294967296 ≤ x) :
    ((toU32 x : Nat) : Int) = x + 4294967296 := by
  unfold toU32; omega

theorem toI32_of_lt (u : Nat) (h : u < 2147483648) : toI32 u = (u : Int) := by
  unfold toI32
  have : u % 4294967296 = u := Nat.mod_eq_of_lt (by omega)
  rw [this, if_pos h]

theorem toI32_of_ge (u : Nat) (h : 2147483648 ≤ u) (h1 : u < 4294967296) :
    toI32 u = (u : Int) - 4294967296 := by
  unfold toI32
  have : u % 4294967296 = u := Nat.mod_eq_of_lt h1
  rw [this, if_neg (by omega)]

theorem toU32_toI32 (u : Nat) (h : u < 4294967296) : toU32 (toI32 u) = u := by
  by_cases hu : u < 2147483648
  · rw [toI32_of_lt u hu]; unfold toU32; omega
  · rw [toI32_of_ge u (by omega) h]; unfold toU32; omega

theorem wrapI32_of_isI32 (x : Int) (h : isI32 x) : wrapI32 x = x := by
  obtain ⟨h0, h1⟩ := h
  unfold wrapI32
  by_cases hx : 0 ≤ x
  · have e := toU32_of_nonneg x hx (by omega)
    rw [toI32_of_lt _ (by omega)]; exact e
  · have e := toU32_of_neg x (by omega) (by omega)
    rw [toI32_of_ge _ (by omega) (toU32_lt x)]; omega

theorem and_data_mask (u : Nat) : u &&& 0x3FFFFFFF = u % 1073741824 := by
  have := Nat.and_pow_two_sub_one_eq_mod u 30
  simpa using this

theorem and_type_mask_shift (u : Nat) (h : u < 4294967296) :
    (u &&& 0xC0000000) >>> 30 = u / 1073741824 := by
  have h1 : (u &&& 0xC0000000) >>> 30 = (u >>> 30) &&& 3 := by
    apply Nat.eq_of_testBit_eq
    intro i
    have e : Nat.testBit 3221225472 (30 + i) = Nat.testBit 3 i := by
      have := Nat.testBit_shiftLeft (i := 30) (j := 30 + i) 3
      simpa using this
    simp [Nat.testBit_shiftRight, Nat.testBit_and, e]
  rw [h1]
  have := Nat.and_pow_two_sub_one_eq_mod (u >>> 30) 2
  simp at this
  rw [this, Nat.shiftRight_eq_div_pow]
  omega

theorem shift_or_data (a b : Nat) (h : b < 1073741824) :
    (a <<< 30) ||| b = a * 1073741824 + b := by
  have h2 : b < 2 ^ 30 := by simpa using h
  rw [Nat.shiftLeft_eq, Nat.mul_comm, ← Nat.mul_add_lt_is_or h2]

theorem getData_eq (ins : Int) : getData ins = toU32 ins % 1073741824 := by
  unfold getData DATA_MASK
  exact and_data_mask _

theorem getType_eq (ins : Int) : getType ins = InsnType.ofCode (toU32 ins / 1073741824) := by
  unfold getType TYPE_MASK
  simp only []
  rw [and_type_mask_shift _ (toU32_lt ins)]

theorem getData_lt (ins : Int) : getData ins < 1073741824 := by
  rw [getData_eq]; omega

theorem enc_pos_imm_eq (x : Int) (h0 : 0 ≤ x) (h1 : x ≤ 1073741823) :
    enc_pos_imm x = .ok x := by
  have e := toU32_of_nonneg x h0 (by omega)
  have hlt : toU32 x < 1073741824 := by omega
  unfold enc_pos_imm
  rw [if_neg (by omega)]
  simp only []
  rw [if_neg (by unfold DATA_MASK; omega)]
  have c : InsnType.PosImm.code = 0 := rfl
  rw [c]
  unfold DATA_MASK
  rw [and_data_mask, Nat.mod_eq_of_lt hlt, shift_or_data _ _ hlt,
    Nat.mod_eq_of_lt (by omega), toI32_of_lt _ (by omega)]
  congr 1
  omega

theorem enc_neg_imm_eq (x : Int) (h0 : -1073741823 ≤ x) (h1 : x ≤ 0) :
    enc_neg_imm x = .ok (-x - 2147483648) := by
  have hw : wrapI32 (-x) = -x := wrapI32_of_isI32 _ ⟨by omega, by omega⟩
  have e := toU32_of_nonneg (-x) (by omega) (by omega)
  have hlt : toU32 (-x) < 1073741824 := by omega
  unfold enc_neg_imm
  rw [if_neg (by omega), hw]
  simp only []
  rw [if_neg (by unfold DATA_MASK; omega)]
  have c : InsnType.NegImm.code = 2 := rfl
  rw [c]
  unfold DATA_MASK
  rw [and_data_mask, Nat.mod_eq_of_lt hlt, shift_or_data _ _ hlt,
    Nat.mod_eq_of_lt (by omega), toI32_of_ge _ (by omega) (by omega)]
  congr 1
  omega

theorem toU32_wrapI32 (x : Int) : toU32 (wrapI32 x) = toU32 x := by
  unfold wrapI32
  exact toU32_toI32 _ (toU32_lt x)

theorem enc_pos_imm_error_of_neg (x : Int) (h : x < 0) :
    enc_pos_imm x = .error "use enc_neg_imm for negative" := by
  unfold enc_pos_imm
  rw [if_pos h]

theorem enc_pos_imm_error_of_large (x : Int) (h0 : 1073741823 < x) (h1 : x ≤ 2147483647) :
    enc_pos_imm x = .error "imm too large" := by
  have e := toU32_of_nonneg x (by omega) (by omega)
  unfold enc_pos_imm
  rw [if_neg (by omega)]
  simp only []
  rw [if_pos (by unfold DATA_MASK; omega)]

theorem enc_neg_imm_error_of_pos (x : Int) (h : 0 < x) :
    enc_neg_imm x = .error "use enc_pos_imm for positive" := by
  unfold enc_neg_imm
  rw [if_pos h]

theorem enc_neg_imm_error_of_large (x : Int) (h0 : x < -1073741823) (h1 : -2147483648 ≤ x) :
    enc_neg_imm x = .error "imm too large" := by
  have e := toU32_of_nonneg (-x) (by omega) (by omega)
  unfold enc_neg_imm
  rw [if_neg (by omega), toU32_wrapI32]
  simp only []
  rw [if_pos (by unfold DATA_MASK; omega)]

theorem translateLoop_PosImm (prog : List Int) (rem : Nat) (sc : Scan) (ins : Int)
    (hf : prog[sc.pc]? = some ins) (ht : getType ins = .PosImm) :
    translateLoop prog (rem + 1) sc =
      translateLoop prog rem
        { pc := sc.pc + 1, ops := sc.ops ++ [.push (toI32 (getData ins))],
          debug := sc.debug ++ ("PUSH +" ++ toString (toI32 (getData ins)) ++ "\n") } := by
  rw [translateLoop, hf]
  simp only [ht]

theorem translateLoop_NegImm (prog : List Int) (rem : Nat) (sc : Scan) (ins : Int)
    (hf : prog[sc.pc]? = some ins) (ht : getType ins = .NegImm) :
    translateLoop prog (rem + 1) sc =
      translateLoop prog rem
        { pc := sc.pc + 1, ops := sc.ops ++ [.push (wrapI32 (-(toI32 (getData ins))))],
          debug := sc.debug ++ ("PUSH " ++ toString (wrapI32 (-(toI32 (getData ins)))) ++ "\n") } := by
  rw [translateLoop, hf]
  simp only [ht]

theorem toI32_getData (ins : Int) : toI32 (getData ins) = ((getData ins : Nat) : Int) :=
  toI32_of_lt _ (by have := getData_lt ins; omega)

theorem wrapI32_neg_getData (ins : Int) :
    wrapI32 (-(toI32 (getData ins))) = -((getData ins : Nat) : Int) := by
  rw [toI32_getData]
  have := getData_lt ins
  exact wrapI32_of_isI32 _ ⟨by omega, by omega⟩

theorem getType_of_code (ins : Int) (k : Nat) (h : toU32 ins >>> 30 = k) :
    getType ins = InsnType.ofCode k := by
  rw [getType_eq, ← h, Nat.shiftRight_eq_div_pow]

/-! ## Codec claims -/

/-- C5. For every signed 32-bit `x`, `enc_pos_imm x` throws exactly when `x < 0`
or `x > 2^30 - 1`; a returned word has top two bits 00 and low 30 bits `x`. -/
theorem enc_pos_imm_fails_iff (x : Int) (hx : isI32 x) :
    ((∃ what, enc_pos_imm x = .error what) ↔ (x < 0 ∨ x > 1073741823)) ∧
    ∀ w, enc_pos_imm x = .ok w →
      toU32 w >>> 30 = 0 ∧ ((toU32 w &&& 0x3FFFFFFF : Nat) : Int) = x := by
  obtain ⟨hlo, hhi⟩ := hx
  by_cases hneg : x < 0
  · rw [enc_pos_imm_error_of_neg x hneg]
    exact ⟨⟨fun _ => Or.inl hneg, fun _ => ⟨_, rfl⟩⟩, fun w hw => by cases hw⟩
  · by_cases hbig : 1073741823 < x
    · rw [enc_pos_imm_error_of_large x hbig hhi]
      exact ⟨⟨fun _ => Or.inr hbig, fun _ => ⟨_, rfl⟩⟩, fun w hw => by cases hw⟩
    · rw [enc_pos_imm_eq x (by omega) (by omega)]
      refine ⟨⟨fun h => ?_, fun h => ?_⟩, fun w hw => ?_⟩
      · obtain ⟨what, h⟩ := h; cases h
      · omega
      · cases hw
        have eu := toU32_of_nonneg x (by omega) (by omega)
        rw [and_data_mask, Nat.shiftRight_eq_div_pow]
        constructor
        · have : toU32 x < 2 ^ 30 := by omega
          exact Nat.div_eq_of_lt this
        · omega

/-- C5, at `x = 5`. -/
theorem enc_pos_imm_fails_iff_witness :
    isI32 5 ∧
    ((∃ what, enc_pos_imm 5 = .error what) ↔ ((5 : Int) < 0 ∨ (5 : Int) > 1073741823)) ∧
    ∀ w, enc_pos_imm 5 = .ok w →
      toU32 w >>> 30 = 0 ∧ ((toU32 w &&& 0x3FFFFFFF : Nat) : Int) = 5 :=
  ⟨by decide, enc_pos_imm_fails_iff 5 (by decide)⟩

/-- C6. For every signed 32-bit `x`, `enc_neg_imm x` throws exactly when `x > 0`
or `|x| > 2^30 - 1`, which includes `INT32_MIN`; a returned word has top two
bits 10 and low 30 bits `|x|`; `enc_neg_imm 0` returns the word `0x80000000`. -/
theorem enc_neg_imm_fails_iff (x : Int) (hx : isI32 x) :
    ((∃ what, enc_neg_imm x = .error what) ↔ (x > 0 ∨ |x| > 1073741823)) ∧
    (∀ w, enc_neg_imm x = .ok w →
      toU32 w >>> 30 = 2 ∧ ((toU32 w &&& 0x3FFFFFFF : Nat) : Int) = |x|) ∧
    (∃ what, enc_neg_imm (-2147483648) = .error what) ∧
    ∃ w, enc_neg_imm 0 = .ok w ∧ toU32 w = 0x80000000 := by
  obtain ⟨hlo, hhi⟩ := hx
  refine ⟨?_, ?_, ⟨_, enc_neg_imm_error_of_large _ (by decide) (by decide)⟩,
    ⟨_, enc_neg_imm_eq 0 (by decide) (by decide), by decide⟩⟩
  · by_cases hpos : 0 < x
    · rw [enc_neg_imm_error_of_pos x hpos]
      exact ⟨fun _ => Or.inl hpos, fun _ => ⟨_, rfl⟩⟩
    · have habs : |x| = -x := abs_of_nonpos (by omega)
      rw [habs]
      by_cases hbig : x < -1073741823
      · rw [enc_neg_imm_error_of_large x hbig hlo]
        exact ⟨fun _ => Or.inr (by omega), fun _ => ⟨_, rfl⟩⟩
      · rw [enc_neg_imm_eq x (by omega) (by omega)]
        refine ⟨fun h => ?_, fun h => ?_⟩
        · obtain ⟨what, h⟩ := h; cases h
        · omega
  · intro w hw
    by_cases hpos : 0 < x
    · rw [enc_neg_imm_error_of_pos x hpos] at hw; cases hw
    · have habs : |x| = -x := abs_of_nonpos (by omega)
      rw [habs]
      by_cases hbig : x < -1073741823
      · rw [enc_neg_imm_error_of_large x hbig hlo] at hw; cases hw
      · rw [enc_neg_imm_eq x (by omega) (by omega)] at hw
        cases hw
        have eu := toU32_of_neg (-x - 2147483648) (by omega) (by omega)
        rw [and_data_mask, Nat.shiftRight_eq_div_pow]
        constructor
        · have h2 : (2 : Nat) ^ 30 = 1073741824 := by norm_num
          rw [h2]; omega
        · omega

/-- C6, at `x = -5`. -/
theorem enc_neg_imm_fails_iff_witness :
    isI32 (-5) ∧
    ((∃ what, enc_neg_imm (-5) = .error what) ↔ ((-5 : Int) > 0 ∨ |(-5 : Int)| > 1073741823)) :=
  ⟨by decide, (enc_neg_imm_fails_iff (-5) (by decide)).1⟩

/-! ## Program mutation claims -/

/-- C7. `patch index w` with `index ≥ program_.size()` throws, and the object at
the throw is the object before the call: same program words, same version, same
translation cache. -/
theorem patch_out_of_range (vm : VM) (index : Nat) (w : Int)
    (h : index ≥ vm.program_.length) :
    patch vm index w = .thrown "patch out of range" vm := by
  unfold patch
  rw [if_pos h]

/-- C7, on a VM holding a two-word program, version 7 and one cached block. -/
theorem patch_out_of_range_witness :
    (2 : Nat) ≥ (VM.mk [3, 4] 7 [(0, TB.mk 0 2 7 [.push 3, .push 4] "")] 8).program_.length ∧
    patch (VM.mk [3, 4] 7 [(0, TB.mk 0 2 7 [.push 3, .push 4] "")] 8) 2 5 =
      .thrown "patch out of range" (VM.mk [3, 4] 7 [(0, TB.mk 0 2 7 [.push 3, .push 4] "")] 8) :=
  ⟨by decide, patch_out_of_range _ 2 5 (by decide)⟩

/-- C8. Every `loadProgram` call and every `patch` call with a valid index
returns with `program_version_` increased by 1 modulo `2^32` and with an empty
`tb_cache_`, whatever the word written and whatever the cache held before. -/
theorem mutation_bumps_version (vm : VM) (prog : List Int) (index : Nat) (w : Int)
    (h : index < vm.program_.length) :
    (loadProgram vm prog).program_version_ = (vm.program_version_ + 1) % 4294967296 ∧
    (loadProgram vm prog).tb_cache_ = [] ∧
    ∃ vm1, patch vm index w = .done vm1 ∧
      vm1.program_version_ = (vm.program_version_ + 1) % 4294967296 ∧
      vm1.tb_cache_ = [] := by
  refine ⟨rfl, rfl, ?_⟩
  unfold patch
  rw [if_neg (by omega)]
  exact ⟨_, rfl, rfl, rfl⟩

/-- C8, on a VM whose version is `2^32 - 1` and whose cache holds one block. -/
theorem mutation_bumps_version_witness :
    (1 : Nat) < (VM.mk [3, 4] 4294967295 [(0, TB.mk 0 2 7 [.push 3, .push 4] "")] 8).program_.length ∧
    (loadProgram (VM.mk [3, 4] 4294967295 [(0, TB.mk 0 2 7 [.push 3, .push 4] "")] 8)
      [1]).program_version_ = 0 ∧
    ∃ vm1, patch (VM.mk [3, 4] 4294967295 [(0, TB.mk 0 2 7 [.push 3, .push 4] "")] 8) 1 4 =
        .done vm1 ∧
      vm1.program_version_ = (4294967295 + 1) % 4294967296 ∧ vm1.tb_cache_ = [] :=
  ⟨by decide,
    (mutation_bumps_version (VM.mk [3, 4] 4294967295 [(0, TB.mk 0 2 7 [.push 3, .push 4] "")] 8)
      [1] 1 4 (by decide)).1,
    (mutation_bumps_version (VM.mk [3, 4] 4294967295 [(0, TB.mk 0 2 7 [.push 3, .push 4] "")] 8)
      [1] 1 4 (by decide)).2.2⟩

/-- C9. A `patch i w` with a valid index returns with `program_[i] == w`, the
program length unchanged and every other word unchanged (the block length is
untouched too); `loadProgram p` leaves the program equal to `p`. -/
theorem patch_frame (vm : VM) (prog : List Int) (i : Nat) (w : Int)
    (h : i < vm.program_.length) :
    (∃ vm1, patch vm i w = .done vm1 ∧
      vm1.program_[i]? = some w ∧
      vm1.program_.length = vm.program_.length ∧
      (∀ j, j ≠ i → vm1.program_[j]? = vm.program_[j]?) ∧
      vm1.max_tb_insns_ = vm.max_tb_insns_) ∧
    (loadProgram vm prog).program_ = prog ∧
    (loadProgram vm prog).max_tb_insns_ = vm.max_tb_insns_ := by
  refine ⟨?_, rfl, rfl⟩
  unfold patch
  rw [if_neg (by omega)]
  refine ⟨_, rfl, ?_, ?_, ?_, rfl⟩
  · simp [List.getElem?_set, h]
  · simp
  · intro j hj
    simp only []
    rw [List.getElem?_set_ne (Ne.symm hj)]

/-- C9, patching index 1 of a three-word program. -/
theorem patch_frame_witness :
    (1 : Nat) < (VM.mk [3, 4, 5] 2 [] 8).program_.length ∧
    ∃ vm1, patch (VM.mk [3, 4, 5] 2 [] 8) 1 9 = .done vm1 ∧
      vm1.program_[1]? = some 9 ∧
      vm1.program_.length = (VM.mk [3, 4, 5] 2 [] 8).program_.length ∧
      (∀ j, j ≠ 1 → vm1.program_[j]? = (VM.mk [3, 4, 5] 2 [] 8).program_[j]?) ∧
      vm1.max_tb_insns_ = (VM.mk [3, 4, 5] 2 [] 8).max_tb_insns_ :=
  ⟨by decide, (patch_frame (VM.mk [3, 4, 5] 2 [] 8) [] 1 9 (by decide)).1⟩

/-! ## The run loop on a coherent cache -/

theorem find_append_of_some (c d : TBCache) (pc : Nat) (e : TB)
    (h : TBCache.find c pc = some e) : TBCache.find (c ++ d) pc = some e := by
  induction c with
  | nil => simp [TBCache.find] at h
  | cons x rest ih =>
    obtain ⟨k, tb⟩ := x
    simp only [List.cons_append, TBCache.find] at h ⊢
    by_cases hk : k = pc
    · simpa [hk] using h
    · simp only [hk, if_false] at h ⊢
      exact ih h

theorem find_append_of_none (c : TBCache) (k pc : Nat) (tb : TB)
    (h : TBCache.find c pc = none) :
    TBCache.find (c ++ [(k, tb)]) pc = if k = pc then some tb else none := by
  induction c with
  | nil => simp [TBCache.find]
  | cons x rest ih =>
    obtain ⟨k1, tb1⟩ := x
    simp only [List.cons_append, TBCache.find] at h ⊢
    by_cases hk : k1 = pc
    · simp [hk] at h
    · simp only [hk, if_false] at h ⊢
      exact ih h

theorem translateLoop_pc_le (prog : List Int) (rem : Nat) (sc sc1 : Scan)
    (h : translateLoop prog rem sc = .ok sc1) : sc.pc ≤ sc1.pc := by
  induction rem generalizing sc with
  | zero =>
    simp only [translateLoop] at h
    cases h; exact Nat.le_refl _
  | succ n ih =>
    rw [translateLoop] at h
    split at h
    · cases h; exact Nat.le_refl _
    · simp only [] at h
      split at h
      · exact Nat.le_trans (Nat.le_succ _) (ih _ h)
      · exact Nat.le_trans (Nat.le_succ _) (ih _ h)
      · split at h
        · cases h; exact Nat.le_succ _
        · split at h
          · exact Nat.le_trans (Nat.le_succ _) (ih _ h)
          · split at h
            · exact Nat.le_trans (Nat.le_succ _) (ih _ h)
            · cases h
      · cases h

theorem translateLoop_pc_lt (prog : List Int) (rem : Nat) (sc sc1 : Scan)
    (hpc : sc.pc < prog.length)
    (h : translateLoop prog (rem + 1) sc = .ok sc1) : sc.pc < sc1.pc := by
  rw [translateLoop] at h
  split at h
  · rename_i hnone
    rw [List.getElem?_eq_none_iff] at hnone
    omega
  · simp only [] at h
    split at h
    · exact Nat.lt_of_lt_of_le (Nat.lt_succ_self _) (translateLoop_pc_le _ _ _ _ h)
    · exact Nat.lt_of_lt_of_le (Nat.lt_succ_self _) (translateLoop_pc_le _ _ _ _ h)
    · split at h
      · cases h; exact Nat.lt_succ_self _
      · split at h
        · exact Nat.lt_of_lt_of_le (Nat.lt_succ_self _) (translateLoop_pc_le _ _ _ _ h)
        · split at h
          · exact Nat.lt_of_lt_of_le (Nat.lt_succ_self _) (translateLoop_pc_le _ _ _ _ h)
          · cases h
    · cases h

theorem translateTB_stamp (vm : VM) (pc : Nat) (tb : TB) (h : translateTB vm pc = .ok tb) :
    tb.compiled_version = vm.program_version_ ∧ tb.guest_pc = pc := by
  unfold translateTB at h
  split at h
  · cases h
  · cases h; exact ⟨rfl, rfl⟩

theorem execOp_out (op : Op) (s : State) (out : List Line) :
    execOp op { s := s, out := out } =
      Res.map (Host.prepend out) (execOp op { s := s, out := [] }) := by
  cases op with
  | push imm => simp [execOp, Res.map, Host.prepend]
  | halt => simp [execOp, Res.map, Host.prepend]
  | add =>
    simp only [execOp]
    cases h1 : pop s with
    | error w => simp [Res.map, Host.prepend]
    | ok p =>
      obtain ⟨b, s1⟩ := p
      simp only []
      cases h2 : pop s1 with
      | error w => simp [Res.map, Host.prepend]
      | ok q =>
        obtain ⟨a, s2⟩ := q
        simp [Res.map, Host.prepend]
  | print =>
    simp only [execOp]
    cases h1 : s.stack.getLast? <;> simp [Res.map, Host.prepend]

theorem execOps_out (ops : List Op) (s : State) (out : List Line) :
    execOps ops { s := s, out := out } =
      Res.map (Host.prepend out) (execOps ops { s := s, out := [] }) := by
  induction ops generalizing s out with
  | nil => simp [execOps, Res.map, Host.prepend]
  | cons op rest ih =>
    simp only [execOps]
    rw [execOp_out op s out]
    cases h1 : execOp op { s := s, out := [] } with
    | thrown w h => simp [Res.map]
    | done h =>
      obtain ⟨s1, o1⟩ := h
      simp only [Res.map, Host.prepend]
      rw [ih s1 (out ++ o1), ih s1 o1]
      cases execOps rest { s := s1, out := [] } with
      | thrown w h => simp [Res.map, Host.prepend]
      | done h => simp [Res.map, Host.prepend]

theorem getOrTranslateTB_of_ok (vm : VM) (hok : CacheOK vm) (pc : Nat) (trace : Bool)
    (out : List Line) :
    getOrTranslateTB vm pc trace out =
      match translateTB vm pc with
      | .error what => .error (what, out ++ lookupLines trace pc false)
      | .ok tb =>
        .ok { tb := tb, hit := (TBCache.find vm.tb_cache_ pc).isSome,
              vm := cacheAfter vm pc tb,
              out := out ++ lookupLines trace pc (TBCache.find vm.tb_cache_ pc).isSome } := by
  unfold getOrTranslateTB hitEntry cacheAfter lookupLines
  cases hfind : TBCache.find vm.tb_cache_ pc with
  | some e =>
    have ht := hok pc e hfind
    have hv := (translateTB_stamp vm pc e ht).1
    simp only [hv, if_true, ht]
    cases trace <;> simp
  | none =>
    simp only []
    cases ht : translateTB vm pc with
    | error w => cases trace <;> simp
    | ok tb =>
      simp only [TBCache.emplace, hfind]
      cases trace <;> simp

theorem runBody_eq_spec (trace : Bool) (r : RunState) (hok : CacheOK r.vm) :
    runBody trace r = runBodySpec trace r := by
  unfold runBody runBodySpec
  by_cases hpc : r.s.pc ≥ r.vm.program_.length
  · rw [if_pos hpc, if_pos hpc]
  · rw [if_neg hpc, if_neg hpc, getOrTranslateTB_of_ok r.vm hok]
    cases ht : translateTB r.vm r.s.pc with
    | error w => simp
    | ok tb =>
      simp only []
      rw [execOps_out]
      cases hx : execOps tb.exec { s := r.s, out := [] } with
      | thrown w h =>
        simp only [Res.map, Host.prepend, execLines]
        cases trace <;> simp
      | done h =>
        simp only [Res.map, Host.prepend, execLines, tosLines]
        cases trace
        · simp
        · cases h.s.stack.getLast? <;> simp

theorem translateTB_congr (vm vm1 : VM) (h : SameCode vm vm1) (pc : Nat) :
    translateTB vm1 pc = translateTB vm pc := by
  obtain ⟨h1, h2, h3⟩ := h
  unfold translateTB
  rw [h1, h2, h3]

theorem sameCode_cacheAfter (vm : VM) (pc : Nat) (tb : TB) : SameCode vm (cacheAfter vm pc tb) := by
  unfold cacheAfter
  cases TBCache.find vm.tb_cache_ pc <;> exact ⟨rfl, rfl, rfl⟩

theorem cacheGrows_cacheAfter (vm : VM) (pc : Nat) (tb : TB) :
    CacheGrows vm (cacheAfter vm pc tb) := by
  intro k e hk
  unfold cacheAfter
  cases hf : TBCache.find vm.tb_cache_ pc with
  | some e1 => exact hk
  | none => exact find_append_of_some _ _ _ _ hk

theorem find_cacheAfter (vm : VM) (hok : CacheOK vm) (pc : Nat) (tb : TB)
    (ht : translateTB vm pc = .ok tb) :
    TBCache.find (cacheAfter vm pc tb).tb_cache_ pc = some tb := by
  unfold cacheAfter
  cases hf : TBCache.find vm.tb_cache_ pc with
  | some e1 =>
    simp only [hf]
    have := hok pc e1 hf
    rw [ht] at this
    cases this; rfl
  | none =>
    simp only []
    rw [find_append_of_none _ _ _ _ hf, if_pos rfl]

theorem cacheOK_cacheAfter (vm : VM) (hok : CacheOK vm) (pc : Nat) (tb : TB)
    (ht : translateTB vm pc = .ok tb) : CacheOK (cacheAfter vm pc tb) := by
  intro k e hk
  rw [translateTB_congr vm _ (sameCode_cacheAfter vm pc tb)]
  unfold cacheAfter at hk
  cases hf : TBCache.find vm.tb_cache_ pc with
  | some e1 =>
    simp only [hf] at hk
    exact hok k e hk
  | none =>
    simp only [hf] at hk
    cases hfk : TBCache.find vm.tb_cache_ k with
    | some e2 =>
      rw [find_append_of_some _ _ _ _ hfk] at hk
      cases hk
      exact hok k e hfk
    | none =>
      rw [find_append_of_none _ _ _ _ hfk] at hk
      by_cases hpk : pc = k
      · rw [if_pos hpk] at hk
        cases hk
        rw [← hpk]; exact ht
      · rw [if_neg hpk] at hk
        cases hk

theorem sameCode_refl (vm : VM) : SameCode vm vm := ⟨rfl, rfl, rfl⟩

theorem sameCode_trans {a b c : VM} (h1 : SameCode a b) (h2 : SameCode b c) : SameCode a c :=
  ⟨h2.1.trans h1.1, h2.2.1.trans h1.2.1, h2.2.2.trans h1.2.2⟩

theorem cacheOK_of_empty (vm : VM) (h : vm.tb_cache_ = []) : CacheOK vm := by
  intro k e hk
  rw [h] at hk
  simp [TBCache.find] at hk

/-- What a pass of the loop body keeps. -/
theorem runBodySpec_inv (trace : Bool) (r : RunState) (hok : CacheOK r.vm) :
    CacheOK (runBodySpec trace r).st.vm ∧ SameCode r.vm (runBodySpec trace r).st.vm ∧
      CacheGrows r.vm (runBodySpec trace r).st.vm ∧
      ∃ l, (runBodySpec trace r).st.lookups = r.lookups ++ l := by
  unfold runBodySpec
  by_cases hpc : r.s.pc ≥ r.vm.program_.length
  · rw [if_pos hpc]
    exact ⟨hok, sameCode_refl _, fun k e h => h, [], by simp [Res.st]⟩
  · rw [if_neg hpc]
    cases ht : translateTB r.vm r.s.pc with
    | error w => exact ⟨hok, sameCode_refl _, fun k e h => h, _, rfl⟩
    | ok tb =>
      simp only []
      cases hx : execOps tb.exec { s := r.s, out := [] } with
      | thrown w h =>
        exact ⟨cacheOK_cacheAfter _ hok _ _ ht, sameCode_cacheAfter _ _ _,
          cacheGrows_cacheAfter _ _ _, _, rfl⟩
      | done h =>
        exact ⟨cacheOK_cacheAfter _ hok _ _ ht, sameCode_cacheAfter _ _ _,
          cacheGrows_cacheAfter _ _ _, _, rfl⟩

theorem runLoop_inv (trace : Bool) (fuel : Nat) (r : RunState) (res : Res RunState)
    (hok : CacheOK r.vm) (h : runLoop trace fuel r = some res) :
    CacheOK res.st.vm ∧ SameCode r.vm res.st.vm ∧ CacheGrows r.vm res.st.vm ∧
      ∃ l, res.st.lookups = r.lookups ++ l := by
  induction fuel generalizing r with
  | zero => simp [runLoop] at h
  | succ n ih =>
    rw [runLoop] at h
    by_cases hrun : r.s.running = true
    · rw [if_pos hrun, runBody_eq_spec trace r hok] at h
      have hinv := runBodySpec_inv trace r hok
      cases hb : runBodySpec trace r with
      | thrown w r1 =>
        rw [hb] at h hinv
        simp only [Option.some.injEq] at h
        subst h
        exact hinv
      | done r1 =>
        rw [hb] at h hinv
        simp only [Res.st] at hinv
        obtain ⟨i1, i2, i3, l1, i4⟩ := hinv
        obtain ⟨j1, j2, j3, l2, j4⟩ := ih r1 i1 h
        refine ⟨j1, sameCode_trans i2 j2, fun k e hk => j3 k e (i3 k e hk), l1 ++ l2, ?_⟩
        rw [j4, i4, List.append_assoc]
    · rw [if_neg hrun] at h
      simp only [Option.some.injEq] at h
      subst h
      exact ⟨hok, sameCode_refl _, fun k e h => h, [], by simp [Res.st]⟩

theorem translateTB_next_pc_gt (vm : VM) (pc : Nat) (tb : TB) (hL : 1 ≤ vm.max_tb_insns_)
    (hpc : pc < vm.program_.length) (h : translateTB vm pc = .ok tb) : pc < tb.next_pc := by
  unfold translateTB at h
  obtain ⟨n, hn⟩ : ∃ n, vm.max_tb_insns_ = n + 1 := ⟨vm.max_tb_insns_ - 1, by omega⟩
  rw [hn] at h
  split at h
  · cases h
  · rename_i sc hsc
    cases h
    exact translateLoop_pc_lt _ _ _ _ hpc hsc

theorem runLoop_terminates (trace : Bool) (fuel : Nat) (r : RunState) (hok : CacheOK r.vm)
    (hL : 1 ≤ r.vm.max_tb_insns_) (hf1 : 1 ≤ fuel)
    (hf : r.vm.program_.length + 1 ≤ fuel + r.s.pc) :
    ∃ res, runLoop trace fuel r = some res := by
  induction fuel generalizing r with
  | zero => omega
  | succ n ih =>
    rw [runLoop]
    by_cases hrun : r.s.running = true
    · rw [if_pos hrun, runBody_eq_spec trace r hok]
      have hinv := runBodySpec_inv trace r hok
      cases hb : runBodySpec trace r with
      | thrown w r1 => exact ⟨_, rfl⟩
      | done r1 =>
        rw [hb] at hinv
        simp only [Res.st] at hinv
        obtain ⟨i1, i2, -, -⟩ := hinv
        simp only []
        have hpc : r.s.pc < r.vm.program_.length ∧ r.s.pc < r1.s.pc := by
          unfold runBodySpec at hb
          by_cases hpc : r.s.pc ≥ r.vm.program_.length
          · rw [if_pos hpc] at hb; cases hb
          · rw [if_neg hpc] at hb
            cases ht : translateTB r.vm r.s.pc with
            | error w => rw [ht] at hb; cases hb
            | ok tb =>
              rw [ht] at hb
              simp only [] at hb
              have hgt := translateTB_next_pc_gt r.vm r.s.pc tb hL (by omega) ht
              cases hx : execOps tb.exec { s := r.s, out := [] } with
              | thrown w h => rw [hx] at hb; cases hb
              | done h =>
                rw [hx] at hb
                cases hb
                exact ⟨by omega, hgt⟩
        obtain ⟨p1, p2, p3⟩ := i2
        have p4 := congrArg List.length p1
        apply ih r1 i1 (by omega) (by omega) (by omega)
    · rw [if_neg hrun]
      exact ⟨_, rfl⟩

theorem printed_append (a b : List Line) : printed (a ++ b) = printed a ++ printed b := by
  unfold printed
  exact List.filterMap_append _ _ _

theorem printed_lookupLines (trace : Bool) (pc : Nat) (hit : Bool) :
    printed (lookupLines trace pc hit) = [] := by
  cases trace <;> cases hit <;> rfl

theorem printed_execLines (trace : Bool) (tb : TB) : printed (execLines trace tb) = [] := by
  cases trace <;> rfl

theorem printed_tosLines (trace : Bool) (stack : List Int) :
    printed (tosLines trace stack) = [] := by
  cases trace
  · rfl
  · unfold tosLines
    cases stack.getLast? <;> rfl

theorem translateTB_code (vm1 vm2 : VM) (hp : vm1.program_ = vm2.program_)
    (hm : vm1.max_tb_insns_ = vm2.max_tb_insns_) (pc : Nat) :
    match translateTB vm1 pc, translateTB vm2 pc with
    | .ok t1, .ok t2 => t1.exec = t2.exec ∧ t1.next_pc = t2.next_pc
    | .error w1, .error w2 => w1 = w2
    | _, _ => False := by
  unfold translateTB
  rw [hp, hm]
  cases translateLoop vm2.program_ vm2.max_tb_insns_ { pc := pc, ops := [], debug := "" } with
  | error w => simp
  | ok sc => simp

theorem runBodySpec_agree (t1 t2 : Bool) (a b : RunState) (h : Agree a b) :
    Res.Rel Agree (runBodySpec t1 a) (runBodySpec t2 b) := by
  obtain ⟨hp, hm, oka, okb, hs, ho⟩ := h
  have hcode := translateTB_code a.vm b.vm hp hm a.s.pc
  unfold runBodySpec
  rw [← hs, ← hp]
  by_cases hpc : a.s.pc ≥ a.vm.program_.length
  · rw [if_pos hpc, if_pos hpc]
    exact ⟨rfl, hp, hm, oka, okb, hs, ho⟩
  · rw [if_neg hpc, if_neg hpc]
    cases hta : translateTB a.vm a.s.pc with
    | error wa =>
      cases htb : translateTB b.vm a.s.pc with
      | error wb =>
        rw [hta, htb] at hcode
        simp only [] at hcode
        refine ⟨hcode, hp, hm, oka, okb, rfl, ?_⟩
        simp only [printed_append, printed_lookupLines, List.append_nil]
        exact ho
      | ok tbb => rw [hta, htb] at hcode; exact hcode.elim
    | ok tba =>
      cases htb : translateTB b.vm a.s.pc with
      | error wb => rw [hta, htb] at hcode; exact hcode.elim
      | ok tbb =>
        rw [hta, htb] at hcode
        simp only [] at hcode
        obtain ⟨hexec, hnext⟩ := hcode
        have oka1 := cacheOK_cacheAfter _ oka _ _ hta
        have okb1 := cacheOK_cacheAfter _ okb _ _ htb
        have sa := sameCode_cacheAfter a.vm a.s.pc tba
        have sb := sameCode_cacheAfter b.vm a.s.pc tbb
        have hp1 : (cacheAfter a.vm a.s.pc tba).program_ = (cacheAfter b.vm a.s.pc tbb).program_ := by
          rw [sa.1, sb.1, hp]
        have hm1 : (cacheAfter a.vm a.s.pc tba).max_tb_insns_ =
            (cacheAfter b.vm a.s.pc tbb).max_tb_insns_ := by
          rw [sa.2.1, sb.2.1, hm]
        simp only []
        rw [← hexec, ← hnext]
        cases hx : execOps tba.exec { s := a.s, out := [] } with
        | thrown w h =>
          refine ⟨rfl, hp1, hm1, oka1, okb1, rfl, ?_⟩
          simp only [printed_append, printed_lookupLines, printed_execLines, List.append_nil]
          rw [ho]
        | done h =>
          refine ⟨hp1, hm1, oka1, okb1, rfl, ?_⟩
          simp only [printed_append, printed_lookupLines, printed_execLines, printed_tosLines,
            List.append_nil]
          rw [ho]

theorem runLoop_agree (t1 t2 : Bool) (fuel : Nat) (a b : RunState) (h : Agree a b) :
    match runLoop t1 fuel a, runLoop t2 fuel b with
    | some x, some y => Res.Rel Agree x y
    | none, none => True
    | _, _ => False := by
  induction fuel generalizing a b with
  | zero => simp [runLoop]
  | succ n ih =>
    have hb := runBodySpec_agree t1 t2 a b h
    obtain ⟨hp, hm, oka, okb, hs, ho⟩ := h
    rw [runLoop, runLoop, ← hs]
    by_cases hrun : a.s.running = true
    · rw [if_pos hrun, if_pos hrun, runBody_eq_spec t1 a oka, runBody_eq_spec t2 b okb]
      cases hxa : runBodySpec t1 a with
      | thrown wa ra =>
        cases hxb : runBodySpec t2 b with
        | thrown wb rb => rw [hxa, hxb] at hb; exact hb
        | done rb => rw [hxa, hxb] at hb; exact hb.elim
      | done ra =>
        cases hxb : runBodySpec t2 b with
        | thrown wb rb => rw [hxa, hxb] at hb; exact hb.elim
        | done rb =>
          rw [hxa, hxb] at hb
          exact ih ra rb hb
    · rw [if_neg hrun, if_neg hrun]
      exact ⟨hp, hm, oka, okb, hs, ho⟩

theorem run_terminates (vm : VM) (trace : Bool) (fuel : Nat) (hok : CacheOK vm)
    (hL : 1 ≤ vm.max_tb_insns_) (hf : vm.program_.length < fuel) :
    ∃ res, run vm trace fuel = some res := by
  unfold run
  apply runLoop_terminates trace fuel _ hok hL (by omega)
  simp only []
  omega

theorem run_agree (vm1 vm2 : VM) (t1 t2 : Bool) (fuel : Nat) (r1 r2 : Res RunState)
    (hp : vm1.program_ = vm2.program_) (hm : vm1.max_tb_insns_ = vm2.max_tb_insns_)
    (ok1 : CacheOK vm1) (ok2 : CacheOK vm2)
    (h1 : run vm1 t1 fuel = some r1) (h2 : run vm2 t2 fuel = some r2) :
    r1.what = r2.what ∧ r1.st.s = r2.st.s ∧ printed r1.st.out = printed r2.st.out := by
  have h := runLoop_agree t1 t2 fuel
    { vm := vm1, s := { pc := 0, running := true, stack := [] }, out := [], lookups := [] }
    { vm := vm2, s := { pc := 0, running := true, stack := [] }, out := [], lookups := [] }
    ⟨hp, hm, ok1, ok2, rfl, rfl⟩
  unfold run at h1 h2
  rw [h1, h2] at h
  simp only [] at h
  cases r1 with
  | done a =>
    cases r2 with
    | done b => exact ⟨rfl, h.2.2.2.2.1, h.2.2.2.2.2⟩
    | thrown v b => exact h.elim
  | thrown w a =>
    cases r2 with
    | done b => exact h.elim
    | thrown v b =>
      obtain ⟨hw, h⟩ := h
      exact ⟨by rw [hw]; rfl, h.2.2.2.2.1, h.2.2.2.2.2⟩

/-- C1. Self-modifying-code coherence: for every program `p`, index `i < p.size()`,
word `w` and block length `L ≥ 1`, on any VM object, the calls `loadProgram(p);
run(); patch(i, w); run()` all end (given fuel above the program size), the patch
succeeds, and the second run ends as a run on a freshly constructed VM loaded with
`p[i := w]` does: same exception or normal return, same final guest state (pc,
running flag, stack) and same printed lines, whatever the three trace flags. -/
theorem patch_coherence (vm0 : VM) (p : List Int) (i : Nat) (w : Int) (t1 t2 t3 : Bool)
    (fuel : Nat) (hi : i < p.length) (hL : 1 ≤ vm0.max_tb_insns_) (hfuel : p.length < fuel) :
    ∃ r1 vm2 r2 rf,
      run (loadProgram vm0 p) t1 fuel = some r1 ∧
      patch r1.st.vm i w = .done vm2 ∧
      vm2.program_ = p.set i w ∧
      run vm2 t2 fuel = some r2 ∧
      run (loadProgram (VM.new vm0.max_tb_insns_) (p.set i w)) t3 fuel = some rf ∧
      r2.what = rf.what ∧ r2.st.s = rf.st.s ∧ printed r2.st.out = printed rf.st.out := by
  have okA : CacheOK (loadProgram vm0 p) := cacheOK_of_empty _ rfl
  obtain ⟨r1, h1⟩ := run_terminates (loadProgram vm0 p) t1 fuel okA hL hfuel
  obtain ⟨-, sc1, -, -⟩ := runLoop_inv t1 fuel _ r1 okA h1
  obtain ⟨sp, sm, -⟩ := sc1
  simp only [loadProgram] at sp sm
  have hlen : ¬ i ≥ r1.st.vm.program_.length := by rw [sp]; omega
  have hpatch : patch r1.st.vm i w = .done
      { r1.st.vm with
        program_ := r1.st.vm.program_.set i w
        program_version_ := (r1.st.vm.program_version_ + 1) % 4294967296
        tb_cache_ := [] } := by
    unfold patch
    rw [if_neg hlen]
  have ok2 : CacheOK { r1.st.vm with
        program_ := r1.st.vm.program_.set i w
        program_version_ := (r1.st.vm.program_version_ + 1) % 4294967296
        tb_cache_ := [] } := cacheOK_of_empty _ rfl
  have okF : CacheOK (loadProgram (VM.new vm0.max_tb_insns_) (p.set i w)) :=
    cacheOK_of_empty _ rfl
  obtain ⟨r2, h2⟩ := run_terminates _ t2 fuel ok2 (by simp only []; omega)
    (by simp only [List.length_set]; rw [sp]; exact hfuel)
  obtain ⟨rf, hf⟩ := run_terminates _ t3 fuel okF hL
    (by simp only [loadProgram, List.length_set]; exact hfuel)
  refine ⟨r1, _, r2, rf, h1, hpatch, by simp only []; rw [sp], h2, hf, ?_⟩
  exact run_agree _ _ t2 t3 fuel r2 rf (by simp only [loadProgram]; rw [sp])
    (by simp only [loadProgram, VM.new]; rw [sm]) ok2 okF h2 hf

/-- C1, on `[PosImm 3, PosImm 4, Add, Halt]` patched at index 0 with
`enc_pos_imm(10)`: the first run returns with stack `[7]`, the second with `[14]`. -/
theorem patch_coherence_witness :
    (0 < [(3 : Int), 4, 1073741825, 1073741824].length ∧ 1 ≤ (VM.new 8).max_tb_insns_ ∧
      [(3 : Int), 4, 1073741825, 1073741824].length < 5) ∧
    (∃ r1 vm2 r2 rf,
      run (loadProgram (VM.new 8) [3, 4, 1073741825, 1073741824]) false 5 = some r1 ∧
      patch r1.st.vm 0 10 = .done vm2 ∧
      vm2.program_ = [(3 : Int), 4, 1073741825, 1073741824].set 0 10 ∧
      run vm2 false 5 = some r2 ∧
      run (loadProgram (VM.new (VM.new 8).max_tb_insns_)
        ([(3 : Int), 4, 1073741825, 1073741824].set 0 10)) false 5 = some rf ∧
      r2.what = rf.what ∧ r2.st.s = rf.st.s ∧ printed r2.st.out = printed rf.st.out) ∧
    (enc_pos_imm 3 = .ok 3 ∧ enc_pos_imm 4 = .ok 4 ∧ enc_prim .Add = 1073741825 ∧
      enc_prim .Halt = 1073741824 ∧ enc_pos_imm 10 = .ok 10) ∧
    (run (loadProgram (VM.new 8) [3, 4, 1073741825, 1073741824]) false 5).map
      (fun r => (r.what, r.st.s.stack)) = some (none, [7]) ∧
    ((run (loadProgram (VM.new 8) [3, 4, 1073741825, 1073741824]) false 5).bind
      (fun r1 => match patch r1.st.vm 0 10 with
        | .done vm2 => run vm2 false 5
        | .thrown _ _ => none)).map
      (fun r => (r.what, r.st.s.stack)) = some (none, [14]) :=
  ⟨⟨by decide, by decide, by decide⟩,
    patch_coherence (VM.new 8) [3, 4, 1073741825, 1073741824] 0 10 false false false 5
      (by decide) (by decide) (by decide),
    ⟨enc_pos_imm_eq 3 (by decide) (by decide), enc_pos_imm_eq 4 (by decide) (by decide),
      by decide, by decide, enc_pos_imm_eq 10 (by decide) (by decide)⟩,
    by decide, by decide⟩

theorem runLoop_all_miss (trace : Bool) (fuel : Nat) (r : RunState) (res : Res RunState)
    (hok : CacheOK r.vm) (hL : 1 ≤ r.vm.max_tb_insns_) (hk : KeysBelow r.vm r.s.pc)
    (hl : ∀ x ∈ r.lookups, x.2 = false) (h : runLoop trace fuel r = some res) :
    ∀ x ∈ res.st.lookups, x.2 = false := by
  induction fuel generalizing r with
  | zero => simp [runLoop] at h
  | succ n ih =>
    rw [runLoop] at h
    by_cases hrun : r.s.running = true
    · rw [if_pos hrun, runBody_eq_spec trace r hok] at h
      have hnone : TBCache.find r.vm.tb_cache_ r.s.pc = none := by
        cases hf : TBCache.find r.vm.tb_cache_ r.s.pc with
        | none => rfl
        | some e => exact absurd (hk _ e hf) (Nat.lt_irrefl _)
      have hl1 : ∀ x ∈ r.lookups ++ [(r.s.pc, false)], x.2 = false := by
        intro x hx
        rcases List.mem_append.1 hx with hx | hx
        · exact hl x hx
        · simp only [List.mem_singleton] at hx
          rw [hx]
      unfold runBodySpec at h
      by_cases hpc : r.s.pc ≥ r.vm.program_.length
      · rw [if_pos hpc] at h
        simp only [Option.some.injEq] at h
        subst h
        exact hl
      · rw [if_neg hpc] at h
        cases ht : translateTB r.vm r.s.pc with
        | error w =>
          rw [ht] at h
          simp only [Option.some.injEq] at h
          subst h
          exact hl1
        | ok tb =>
          rw [ht] at h
          simp only [hnone, Option.isSome_none] at h
          have hgt := translateTB_next_pc_gt r.vm r.s.pc tb hL (by omega) ht
          cases hx : execOps tb.exec { s := r.s, out := [] } with
          | thrown w hh =>
            rw [hx] at h
            simp only [Option.some.injEq] at h
            subst h
            exact hl1
          | done hh =>
            rw [hx] at h
            simp only [] at h
            refine ih _ (cacheOK_cacheAfter _ hok _ _ ht) ?_ ?_ hl1 h
            · simp only []
              rw [(sameCode_cacheAfter r.vm r.s.pc tb).2.1]
              exact hL
            · intro k e hke
              simp only [cacheAfter, hnone] at hke
              simp only []
              cases hfk : TBCache.find r.vm.tb_cache_ k with
              | some e2 =>
                have := hk k e2 hfk
                omega
              | none =>
                rw [find_append_of_none _ _ _ _ hfk] at hke
                by_cases hpk : r.s.pc = k
                · omega
                · rw [if_neg hpk] at hke
                  cases hke
    · rw [if_neg hrun] at h
      simp only [Option.some.injEq] at h
      subst h
      exact hl

theorem runLoop_hot (t1 t2 : Bool) (fuel : Nat) (r r1 : RunState) (hok : CacheOK r.vm)
    (h : runLoop t1 fuel r = some (.done r1)) (q : RunState) (hs : q.s = r.s)
    (hvm : q.vm = r1.vm) :
    ∃ r2 l, runLoop t2 fuel q = some (.done r2) ∧ r2.vm = r1.vm ∧ r2.s = r1.s ∧
      r1.lookups = r.lookups ++ l ∧
      r2.lookups = q.lookups ++ l.map (fun x => (x.1, true)) := by
  induction fuel generalizing r q with
  | zero => simp [runLoop] at h
  | succ n ih =>
    obtain ⟨okF, scF, grF, -⟩ := runLoop_inv t1 (n + 1) r _ hok h
    simp only [Res.st] at okF scF grF
    rw [runLoop] at h
    rw [runLoop, hs]
    by_cases hrun : r.s.running = true
    · rw [if_pos hrun, runBody_eq_spec t1 r hok] at h
      rw [if_pos hrun, runBody_eq_spec t2 q (by rw [hvm]; exact okF)]
      cases hb : runBodySpec t1 r with
      | thrown w ra => rw [hb] at h; cases h
      | done ra =>
        rw [hb] at h
        simp only [] at h
        have hinv := runBodySpec_inv t1 r hok
        rw [hb] at hinv
        simp only [Res.st] at hinv
        obtain ⟨okA, scA, grA, -⟩ := hinv
        obtain ⟨-, -, grAF, -⟩ := runLoop_inv t1 n ra _ okA h
        simp only [Res.st] at grAF
        unfold runBodySpec at hb
        by_cases hpc : r.s.pc ≥ r.vm.program_.length
        · rw [if_pos hpc] at hb; cases hb
        · rw [if_neg hpc] at hb
          cases ht : translateTB r.vm r.s.pc with
          | error w => rw [ht] at hb; cases hb
          | ok tb =>
            rw [ht] at hb
            simp only [] at hb
            cases hx : execOps tb.exec { s := r.s, out := [] } with
            | thrown w hh => rw [hx] at hb; cases hb
            | done hh =>
              rw [hx] at hb
              simp only [Res.done.injEq] at hb
              have hfA : TBCache.find ra.vm.tb_cache_ r.s.pc = some tb := by
                rw [← hb]
                exact find_cacheAfter _ hok _ _ ht
              have hfF : TBCache.find r1.vm.tb_cache_ r.s.pc = some tb := grAF _ _ hfA
              have htF : translateTB r1.vm r.s.pc = .ok tb := okF _ _ hfF
              have hq : runBodySpec t2 q = .done
                  { vm := r1.vm, s := { hh.s with pc := tb.next_pc },
                    out := q.out ++ lookupLines t2 r.s.pc true ++ execLines t2 tb ++ hh.out
                      ++ tosLines t2 hh.s.stack,
                    lookups := q.lookups ++ [(r.s.pc, true)] } := by
                unfold runBodySpec
                rw [hs, hvm, scF.1, if_neg hpc, htF]
                simp only [hfF, Option.isSome_some, hx, cacheAfter]
              rw [hq]
              simp only []
              obtain ⟨r2, l, g1, g2, g3, g5, g6⟩ := ih ra okA h
                { vm := r1.vm, s := { hh.s with pc := tb.next_pc },
                  out := q.out ++ lookupLines t2 r.s.pc true ++ execLines t2 tb ++ hh.out
                    ++ tosLines t2 hh.s.stack,
                  lookups := q.lookups ++ [(r.s.pc, true)] }
                (by rw [← hb]) rfl
              refine ⟨r2, (r.s.pc, (TBCache.find r.vm.tb_cache_ r.s.pc).isSome) :: l,
                g1, g2, g3, ?_, ?_⟩
              · rw [g5, ← hb]; simp
              · rw [g6]; simp
    · rw [if_neg hrun] at h
      simp only [Option.some.injEq, Res.done.injEq] at h
      subst h
      rw [if_neg hrun]
      refine ⟨q, [], rfl, hvm, hs, by simp, by simp⟩

theorem runLoop_lookups_ne_nil (trace : Bool) (fuel : Nat) (r r1 : RunState)
    (hok : CacheOK r.vm) (hrun : r.s.running = true)
    (h : runLoop trace fuel r = some (.done r1)) : r1.lookups ≠ [] := by
  cases fuel with
  | zero => simp [runLoop] at h
  | succ n =>
    rw [runLoop, if_pos hrun, runBody_eq_spec trace r hok] at h
    have hinv := runBodySpec_inv trace r hok
    cases hb : runBodySpec trace r with
    | thrown w ra => rw [hb] at h; cases h
    | done ra =>
      rw [hb] at h hinv
      simp only [Res.st] at hinv h
      obtain ⟨okA, -, -, -⟩ := hinv
      obtain ⟨-, -, -, l, hl⟩ := runLoop_inv trace n ra _ okA h
      simp only [Res.st] at hl
      have hra : ra.lookups ≠ [] := by
        unfold runBodySpec at hb
        by_cases hpc : r.s.pc ≥ r.vm.program_.length
        · rw [if_pos hpc] at hb; cases hb
        · rw [if_neg hpc] at hb
          cases ht : translateTB r.vm r.s.pc with
          | error w => rw [ht] at hb; cases hb
          | ok tb =>
            rw [ht] at hb
            simp only [] at hb
            cases hx : execOps tb.exec { s := r.s, out := [] } with
            | thrown w hh => rw [hx] at hb; cases hb
            | done hh =>
              rw [hx] at hb
              simp only [Res.done.injEq] at hb
              rw [← hb]
              simp
      rw [hl]
      simp [hra]

/-- C10. Hot re-run: if `run()` right after `loadProgram(p)` returns normally with
block length `L ≥ 1`, then it made at least one block lookup and every one took the
miss branch; and a second `run()` on the object it left returns normally too, looks
up the same pcs in the same order, takes the hit branch of `getOrTranslateTB` every
time, and leaves the object (program, version and cache) exactly as it was. -/
theorem hot_rerun (vm0 : VM) (p : List Int) (t1 t2 : Bool) (fuel : Nat) (r1 : RunState)
    (hL : 1 ≤ vm0.max_tb_insns_)
    (hrun : run (loadProgram vm0 p) t1 fuel = some (.done r1)) :
    r1.lookups ≠ [] ∧ (∀ x ∈ r1.lookups, x.2 = false) ∧
    ∃ r2, run r1.vm t2 fuel = some (.done r2) ∧
      r2.lookups = r1.lookups.map (fun x => (x.1, true)) ∧
      (∀ x ∈ r2.lookups, x.2 = true) ∧
      r2.vm = r1.vm := by
  have okA : CacheOK (loadProgram vm0 p) := cacheOK_of_empty _ rfl
  have hmiss := runLoop_all_miss t1 fuel _ _ okA hL
    (by intro k e hk; simp [loadProgram, TBCache.find] at hk)
    (by intro x hx; simp at hx) hrun
  obtain ⟨r2, l, g1, g2, -, g4, g5⟩ := runLoop_hot t1 t2 fuel _ r1 okA hrun
    { vm := r1.vm, s := { pc := 0, running := true, stack := [] }, out := [], lookups := [] }
    rfl rfl
  simp only [List.nil_append] at g4 g5
  refine ⟨?_, hmiss, r2, g1, by rw [g5, g4], ?_, g2⟩
  · exact runLoop_lookups_ne_nil t1 fuel _ r1 okA rfl hrun
  · intro x hx
    rw [g5] at hx
    obtain ⟨y, -, hy⟩ := List.mem_map.1 hx
    rw [← hy]

/-- C10, on `[PosImm 3, PosImm 4, Add, Print, Halt]` with block length 2: three
blocks, three misses in the first run and three hits in the second. -/
theorem hot_rerun_witness :
    1 ≤ (VM.new 2).max_tb_insns_ ∧
    run (loadProgram (VM.new 2) [3, 4, 1073741825, 1073741829, 1073741824]) false 5 =
      some (.done
        ⟨⟨[3, 4, 1073741825, 1073741829, 1073741824], 2,
          [(0, ⟨0, 2, 2, [.push 3, .push 4], "PUSH +3\nPUSH +4\n"⟩),
           (2, ⟨2, 4, 2, [.add, .print], "ADD\nPRINT\n"⟩),
           (4, ⟨4, 5, 2, [.halt], "HALT\n"⟩)], 2⟩,
         ⟨5, false, [7]⟩, [.print "[print] 7"], [(0, false), (2, false), (4, false)]⟩) ∧
    ∃ r2, run (VM.mk [3, 4, 1073741825, 1073741829, 1073741824] 2
          [(0, ⟨0, 2, 2, [.push 3, .push 4], "PUSH +3\nPUSH +4\n"⟩),
           (2, ⟨2, 4, 2, [.add, .print], "ADD\nPRINT\n"⟩),
           (4, ⟨4, 5, 2, [.halt], "HALT\n"⟩)] 2) true 5 = some (.done r2) ∧
      r2.lookups = [(0, true), (2, true), (4, true)] :=
  ⟨by decide, by decide,
    (hot_rerun (VM.new 2) [3, 4, 1073741825, 1073741829, 1073741824] false true 5
      ⟨⟨[3, 4, 1073741825, 1073741829, 1073741824], 2,
          [(0, ⟨0, 2, 2, [.push 3, .push 4], "PUSH +3\nPUSH +4\n"⟩),
           (2, ⟨2, 4, 2, [.add, .print], "ADD\nPRINT\n"⟩),
           (4, ⟨4, 5, 2, [.halt], "HALT\n"⟩)], 2⟩,
         ⟨5, false, [7]⟩, [.print "[print] 7"], [(0, false), (2, false), (4, false)]⟩
      (by decide) (by decide)).2.2.imp (fun r2 h => ⟨h.1, h.2.1⟩)⟩

/-! ## Translation blocks, lookups and straight-line runs -/

theorem translateLoop_step (prog : List Int) (rem : Nat) (sc : Scan) (ins : Int)
    (hf : prog[sc.pc]? = some ins) :
    translateLoop prog (rem + 1) sc =
      match insnOp ins with
      | .error w => .error w
      | .ok .halt =>
        .ok { pc := sc.pc + 1, ops := sc.ops ++ [.halt], debug := sc.debug ++ insnDebug ins }
      | .ok op =>
        translateLoop prog rem
          { pc := sc.pc + 1, ops := sc.ops ++ [op], debug := sc.debug ++ insnDebug ins } := by
  have hneg : wrapI32 (-((getData ins : Nat) : Int)) = -((getData ins : Nat) : Int) := by
    have := wrapI32_neg_getData ins
    rw [toI32_getData] at this
    exact this
  rw [translateLoop, hf]
  unfold insnOp insnDebug
  simp only [toI32_getData, hneg]
  cases getType ins with
  | PosImm => simp only []
  | NegImm => simp only []
  | Prim =>
    simp only [Prim.code]
    by_cases h0 : getData ins = 0
    · simp only [h0, if_true]
    · by_cases h1 : getData ins = 1
      · simp [h1]
      · by_cases h5 : getData ins = 5
        · simp [h5]
        · simp [h0, h1, h5]
  | Undef => simp only []

theorem drop_cons_getElem? {α : Type} (l : List α) (n : Nat) (w : α) (t : List α)
    (h : l.drop n = w :: t) : l[n]? = some w ∧ l.drop (n + 1) = t := by
  constructor
  · have := List.getElem?_drop (L := l) (i := n) (j := 0)
    rw [h] at this
    simpa using this.symm
  · have : l.drop (n + 1) = (l.drop n).drop 1 := by
      rw [List.drop_drop]
    rw [this, h]
    rfl

theorem translateLoop_of_plain (prog : List Int) (rem : Nat) (sc : Scan) (ins : Int)
    (hf : prog[sc.pc]? = some ins) (op : Op) (hop : insnOp ins = .ok op) (hne : op ≠ .halt) :
    translateLoop prog (rem + 1) sc =
      translateLoop prog rem
        { pc := sc.pc + 1, ops := sc.ops ++ [op], debug := sc.debug ++ insnDebug ins } := by
  rw [translateLoop_step prog rem sc ins hf, hop]
  cases op with
  | halt => exact absurd rfl hne
  | push imm => rfl
  | add => rfl
  | print => rfl

theorem translateLoop_of_halt (prog : List Int) (rem : Nat) (sc : Scan) (ins : Int)
    (hf : prog[sc.pc]? = some ins) (hop : insnOp ins = .ok .halt) :
    translateLoop prog (rem + 1) sc =
      .ok { pc := sc.pc + 1, ops := sc.ops ++ [.halt], debug := sc.debug ++ insnDebug ins } := by
  rw [translateLoop_step prog rem sc ins hf, hop]

theorem translateLoop_of_error (prog : List Int) (rem : Nat) (sc : Scan) (ins : Int)
    (hf : prog[sc.pc]? = some ins) (w : String) (hop : insnOp ins = .error w) :
    translateLoop prog (rem + 1) sc = .error w := by
  rw [translateLoop_step prog rem sc ins hf, hop]

theorem translateLoop_of_end (prog : List Int) (rem : Nat) (sc : Scan)
    (hf : prog.length ≤ sc.pc) : translateLoop prog rem sc = .ok sc := by
  cases rem with
  | zero => rfl
  | succ n =>
    rw [translateLoop, List.getElem?_eq_none hf]

theorem opsOf_cons_ok (w : Int) (ws : List Int) (op : Op) (h : insnOp w = .ok op) :
    opsOf (w :: ws) = op :: opsOf ws := by
  unfold opsOf
  rw [List.filterMap_cons]
  simp only [h]

theorem opsOf_append (a b : List Int) : opsOf (a ++ b) = opsOf a ++ opsOf b := by
  unfold opsOf
  exact List.filterMap_append _ _ _

/-- The loop takes a run of valid non-Halt words in one go. -/
theorem translateLoop_advance (prog : List Int) (ws : List Int)
    (hws : ∀ ins ∈ ws, PlainWord ins) (rem : Nat) (sc : Scan) (rest : List Int)
    (hd : prog.drop sc.pc = ws ++ rest) :
    translateLoop prog (ws.length + rem) sc =
      translateLoop prog rem
        { pc := sc.pc + ws.length, ops := sc.ops ++ opsOf ws, debug := debugOf sc.debug ws } := by
  induction ws generalizing sc with
  | nil =>
    simp [opsOf, debugOf]
  | cons w ws ih =>
    obtain ⟨op, hop, hne⟩ := hws w (List.mem_cons_self _ _)
    obtain ⟨hf, hd1⟩ := drop_cons_getElem? prog sc.pc w (ws ++ rest) hd
    have hlen : (w :: ws).length + rem = (ws.length + rem) + 1 := by
      simp only [List.length_cons]; omega
    rw [hlen, translateLoop_of_plain prog _ sc w hf op hop hne]
    rw [ih (fun ins hi => hws ins (List.mem_cons_of_mem _ hi)) _ hd1]
    rw [opsOf_cons_ok w ws op hop]
    simp only [List.length_cons, debugOf, List.foldl_cons, List.append_assoc,
      List.singleton_append]
    congr 2
    omega

theorem translateLoop_halt_after (prog : List Int) (ws : List Int) (hw : Int) (rest : List Int)
    (hws : ∀ ins ∈ ws, PlainWord ins) (hh : insnOp hw = .ok .halt) (rem : Nat) (sc : Scan)
    (hd : prog.drop sc.pc = ws ++ hw :: rest) :
    translateLoop prog (ws.length + (rem + 1)) sc =
      .ok { pc := sc.pc + ws.length + 1, ops := sc.ops ++ opsOf ws ++ [.halt],
            debug := debugOf sc.debug ws ++ insnDebug hw } := by
  rw [translateLoop_advance prog ws hws (rem + 1) sc (hw :: rest) hd]
  have hd1 : prog.drop (sc.pc + ws.length) = hw :: rest := by
    rw [← List.drop_drop, hd, List.drop_left]
  obtain ⟨hf, -⟩ := drop_cons_getElem? prog _ hw rest hd1
  rw [translateLoop_of_halt prog rem _ hw hf hh]

theorem translateLoop_error_after (prog : List Int) (ws : List Int) (bad : Int) (rest : List Int)
    (hws : ∀ ins ∈ ws, PlainWord ins) (w : String) (hb : insnOp bad = .error w) (rem : Nat)
    (sc : Scan) (hd : prog.drop sc.pc = ws ++ bad :: rest) :
    translateLoop prog (ws.length + (rem + 1)) sc = .error w := by
  rw [translateLoop_advance prog ws hws (rem + 1) sc (bad :: rest) hd]
  have hd1 : prog.drop (sc.pc + ws.length) = bad :: rest := by
    rw [← List.drop_drop, hd, List.drop_left]
  obtain ⟨hf, -⟩ := drop_cons_getElem? prog _ bad rest hd1
  rw [translateLoop_of_error prog rem _ bad hf w hb]

theorem translateLoop_plain_run (prog : List Int) (ws : List Int) (rest : List Int)
    (hws : ∀ ins ∈ ws, PlainWord ins) (rem : Nat) (sc : Scan)
    (hd : prog.drop sc.pc = ws ++ rest) (hstop : rem = 0 ∨ rest = []) :
    translateLoop prog (ws.length + rem) sc =
      .ok { pc := sc.pc + ws.length, ops := sc.ops ++ opsOf ws, debug := debugOf sc.debug ws } := by
  rw [translateLoop_advance prog ws hws rem sc rest hd]
  rcases hstop with h | h
  · rw [h]; rfl
  · apply translateLoop_of_end
    have := congrArg List.length hd
    rw [h] at this
    simp only [List.length_drop, List.append_nil] at this
    simp only []
    omega

theorem drop_of_getElem? {α : Type} (l : List α) (n : Nat) (w : α) (h : l[n]? = some w) :
    l.drop n = w :: l.drop (n + 1) := by
  obtain ⟨hlt, hw⟩ := List.getElem?_eq_some_iff.1 h
  rw [List.drop_eq_getElem_cons hlt, hw]

/-- What a successful scan has read and emitted. -/
theorem translateLoop_sound (prog : List Int) (rem : Nat) (sc sc1 : Scan)
    (h : translateLoop prog rem sc = .ok sc1) :
    ∃ ws rest ops, prog.drop sc.pc = ws ++ rest ∧ ws.length ≤ rem ∧
      sc1.pc = sc.pc + ws.length ∧ sc1.ops = sc.ops ++ ops ∧
      List.Forall₂ (fun ins op => insnOp ins = .ok op) ws ops ∧
      sc1.debug = debugOf sc.debug ws := by
  induction rem generalizing sc with
  | zero =>
    simp only [translateLoop] at h
    cases h
    exact ⟨[], _, [], (List.nil_append _).symm, by simp, by simp, by simp, List.Forall₂.nil, rfl⟩
  | succ n ih =>
    cases hf : prog[sc.pc]? with
    | none =>
      rw [translateLoop, hf] at h
      cases h
      exact ⟨[], _, [], (List.nil_append _).symm, by simp, by simp, by simp, List.Forall₂.nil, rfl⟩
    | some ins =>
      have hd := drop_of_getElem? prog sc.pc ins hf
      rw [translateLoop_step prog n sc ins hf] at h
      cases hop : insnOp ins with
      | error w => rw [hop] at h; cases h
      | ok op =>
        rw [hop] at h
        by_cases hhalt : op = .halt
        · subst hhalt
          simp only [] at h
          cases h
          refine ⟨[ins], prog.drop (sc.pc + 1), [.halt], hd, by simp, by simp, rfl,
            List.Forall₂.cons hop List.Forall₂.nil, rfl⟩
        · have h2 : translateLoop prog n
              { pc := sc.pc + 1, ops := sc.ops ++ [op], debug := sc.debug ++ insnDebug ins } =
              .ok sc1 := by
            cases op with
            | halt => exact absurd rfl hhalt
            | push imm => exact h
            | add => exact h
            | print => exact h
          obtain ⟨ws, rest, ops, e1, e2, e3, e4, e5, e6⟩ := ih _ h2
          simp only [] at e1 e3 e4 e6
          refine ⟨ins :: ws, rest, op :: ops, ?_, ?_, ?_, ?_, List.Forall₂.cons hop e5, ?_⟩
          · rw [hd, e1]; rfl
          · simp only [List.length_cons]; omega
          · rw [e3]; simp only [List.length_cons]; omega
          · rw [e4]; simp
          · rw [e6]; rfl

theorem insnOp_halt_iff (ins : Int) :
    insnOp ins = .ok .halt ↔ getType ins = .Prim ∧ getData ins = Prim.Halt.code := by
  unfold insnOp
  simp only [Prim.code]
  cases getType ins with
  | PosImm => simp
  | NegImm => simp
  | Undef => simp
  | Prim =>
    by_cases h0 : getData ins = 0
    · simp [h0]
    · by_cases h1 : getData ins = 1
      · simp [h1]
      · by_cases h5 : getData ins = 5
        · simp [h5]
        · simp [h0, h1, h5]

theorem plainWord_iff (ins : Int) :
    PlainWord ins ↔ getType ins = .PosImm ∨ getType ins = .NegImm ∨
      (getType ins = .Prim ∧ (getData ins = Prim.Add.code ∨ getData ins = Prim.Print.code)) := by
  unfold PlainWord insnOp
  simp only [Prim.code]
  cases getType ins with
  | PosImm => simp
  | NegImm => simp
  | Undef => simp
  | Prim =>
    by_cases h0 : getData ins = 0
    · simp [h0]
    · by_cases h1 : getData ins = 1
      · simp [h1]
      · by_cases h5 : getData ins = 5
        · simp [h5]
        · simp [h0, h1, h5]

theorem insnOp_error_of_invalid (ins : Int)
    (h : getType ins = .Undef ∨
      (getType ins = .Prim ∧ getData ins ≠ Prim.Halt.code ∧ getData ins ≠ Prim.Add.code ∧
        getData ins ≠ Prim.Print.code)) :
    ∃ w, insnOp ins = .error w ∧
      (getType ins = .Undef → w = "undefined instruction type") ∧
      (getType ins = .Prim → w = "unknown primitive opcode") := by
  simp only [Prim.code] at h
  rcases h with h | ⟨h, h0, h1, h5⟩
  · refine ⟨"undefined instruction type", ?_, fun _ => rfl, fun hh => ?_⟩
    · unfold insnOp; rw [h]
    · rw [h] at hh; cases hh
  · refine ⟨"unknown primitive opcode", ?_, fun hh => ?_, fun _ => rfl⟩
    · unfold insnOp; rw [h]; simp only [h0, h1, h5, if_false]
    · rw [h] at hh; cases hh

theorem forall₂_getElem? {α β : Type} (R : α → β → Prop) (ws : List α) (ops : List β)
    (h : List.Forall₂ R ws ops) (i : Nat) (op : β) (hi : ops[i]? = some op) :
    ∃ ins, ws[i]? = some ins ∧ R ins op := by
  induction h generalizing i with
  | nil => simp at hi
  | cons hr _ ih =>
    cases i with
    | zero =>
      simp only [List.getElem?_cons_zero, Option.some.injEq] at hi
      subst hi
      exact ⟨_, by simp, hr⟩
    | succ j =>
      simp only [List.getElem?_cons_succ] at hi
      obtain ⟨ins, h1, h2⟩ := ih j hi
      exact ⟨ins, by simpa using h1, h2⟩

/-- C14. Block ends at Halt: when the words from `pc` are `ws` (valid, none a Halt),
then a `Prim Halt` word, then any words `rest`, and `ws.length < L`, `translateTB(pc)`
returns a block with `next_pc - pc == ws.length + 1` whose operations are those of `ws`
followed by the halt, which is the last one. Nothing is assumed of `rest`: the words
after the Halt are not examined, valid or not. -/
theorem block_ends_at_halt (vm : VM) (pc : Nat) (ws : List Int) (hw : Int) (rest : List Int)
    (hd : vm.program_.drop pc = ws ++ hw :: rest)
    (hws : ∀ ins ∈ ws, PlainWord ins)
    (hh : getType hw = .Prim ∧ getData hw = Prim.Halt.code)
    (hk : ws.length < vm.max_tb_insns_) :
    ∃ tb, translateTB vm pc = .ok tb ∧ tb.next_pc - pc = ws.length + 1 ∧
      tb.next_pc = pc + ws.length + 1 ∧ tb.exec = opsOf ws ++ [.halt] ∧
      tb.exec.length = ws.length + 1 ∧ tb.exec.getLast? = some .halt := by
  have hh1 := (insnOp_halt_iff hw).2 hh
  obtain ⟨n, hn⟩ : ∃ n, vm.max_tb_insns_ = ws.length + (n + 1) :=
    ⟨vm.max_tb_insns_ - ws.length - 1, by omega⟩
  have hlen : (opsOf ws).length = ws.length := by
    unfold opsOf
    clear hd hk hn
    induction ws with
    | nil => rfl
    | cons w t ih =>
      obtain ⟨op, hop, -⟩ := hws w (List.mem_cons_self _ _)
      rw [List.filterMap_cons]
      simp only [hop, List.length_cons]
      rw [ih (fun ins hi => hws ins (List.mem_cons_of_mem _ hi))]
  have ht := translateLoop_halt_after vm.program_ ws hw rest hws hh1 n
    { pc := pc, ops := [], debug := "" } hd
  unfold translateTB
  rw [hn, ht]
  refine ⟨_, rfl, ?_, rfl, by simp, ?_, by simp⟩
  · simp only []; omega
  · simp [hlen]

theorem opsOf_length (ws : List Int) (hws : ∀ ins ∈ ws, PlainWord ins) :
    (opsOf ws).length = ws.length := by
  induction ws with
  | nil => rfl
  | cons w t ih =>
    obtain ⟨op, hop, -⟩ := hws w (List.mem_cons_self _ _)
    rw [opsOf_cons_ok w t op hop]
    simp only [List.length_cons]
    rw [ih (fun ins hi => hws ins (List.mem_cons_of_mem _ hi))]

/-- C15, amended. Block ends at the length bound or at the program end: when the
words from `pc` are `ws` (valid, none a Halt) followed by `rest`, and either `ws` has
exactly `L` words, or `ws` has at most `L` words and `rest` is empty (the program ends),
`translateTB(pc)` returns a block with `next_pc - pc == ws.length` holding the operations
of `ws`. So `next_pc - pc == L` when `L` words remain from `pc`, and `next_pc` is the
program size when fewer remain. -/
theorem block_ends_at_bound (vm : VM) (pc : Nat) (ws rest : List Int)
    (hd : vm.program_.drop pc = ws ++ rest)
    (hws : ∀ ins ∈ ws, PlainWord ins)
    (hstop : ws.length = vm.max_tb_insns_ ∨ (rest = [] ∧ ws.length ≤ vm.max_tb_insns_)) :
    ∃ tb, translateTB vm pc = .ok tb ∧ tb.next_pc - pc = ws.length ∧
      tb.next_pc = pc + ws.length ∧ tb.exec = opsOf ws ∧
      (ws.length = vm.max_tb_insns_ → tb.next_pc - pc = vm.max_tb_insns_) ∧
      (rest = [] → pc ≤ vm.program_.length → tb.next_pc = vm.program_.length) := by
  obtain ⟨n, hn, hn0⟩ : ∃ n, vm.max_tb_insns_ = ws.length + n ∧ (n = 0 ∨ rest = []) := by
    rcases hstop with h | ⟨h1, h2⟩
    · exact ⟨0, by omega, Or.inl rfl⟩
    · exact ⟨vm.max_tb_insns_ - ws.length, by omega, Or.inr h1⟩
  have ht := translateLoop_plain_run vm.program_ ws rest hws n
    { pc := pc, ops := [], debug := "" } hd hn0
  unfold translateTB
  rw [hn, ht]
  refine ⟨_, rfl, by simp, rfl, by simp, ?_, ?_⟩
  · intro h; simp only []; omega
  · intro hr hle
    have := congrArg List.length hd
    rw [hr] at this
    simp only [List.length_drop, List.append_nil] at this
    simp only []
    omega

/-- C15 as stated fails: on the one-word program `[PosImm 3]` with `L = 8`, the start
`pc = 0` is inside the program and no word from it is a Halt, yet `translateTB(0)`
returns `next_pc = 1`, so `next_pc - pc` is 1 and not 8. -/
theorem block_bound_counterexample :
    0 < (VM.mk [3] 2 [] 8).program_.length ∧
    (∀ ins ∈ (VM.mk [3] 2 [] 8).program_.drop 0, PlainWord ins) ∧
    translateTB (VM.mk [3] 2 [] 8) 0 = .ok (TB.mk 0 1 2 [.push 3] "PUSH +3\n") ∧
    (TB.mk 0 1 2 [.push 3] "PUSH +3\n").next_pc - 0 ≠ (VM.mk [3] 2 [] 8).max_tb_insns_ := by
  refine ⟨by decide, ?_, by rfl, by decide⟩
  intro ins hi
  simp only [List.drop_zero, List.mem_singleton] at hi
  subst hi
  exact ⟨.push 3, by rfl, by decide⟩

theorem hitEntry_none_of_error (vm : VM) (hok : CacheOK vm) (pc : Nat) (w : String)
    (h : translateTB vm pc = .error w) : hitEntry vm pc = none := by
  unfold hitEntry
  cases hf : TBCache.find vm.tb_cache_ pc with
  | none => rfl
  | some e =>
    have := hok pc e hf
    rw [h] at this
    cases this

theorem getOrTranslateTB_of_miss_error (vm : VM) (pc : Nat) (trace : Bool) (out : List Line)
    (w : String) (hmiss : hitEntry vm pc = none) (h : translateTB vm pc = .error w) :
    getOrTranslateTB vm pc trace out =
      .error (w, if trace then
        out ++ [.trace ("[TB MISS] pc=" ++ toString pc ++ " -> translating...")] else out) := by
  unfold getOrTranslateTB
  rw [hmiss]
  simp only [h]

/-- C17. Translation failure is atomic: when the words from `pc` are `ws` (valid, none
a Halt, fewer than `L`) followed by a word `bad` whose tag is `Undef` or which is a `Prim`
with a payload other than 0, 1 and 5, then on a coherent cache (or whenever no block of
the current version is stored under `pc`) `translateTB(pc)` and `getOrTranslateTB(pc)`
throw, with the message of the offending case, and the loop body of `run` throws at this
lookup with the object, cache included, exactly as it was. -/
theorem translation_failure_atomic (vm : VM) (pc : Nat) (ws : List Int) (bad : Int)
    (rest : List Int) (trace : Bool) (out : List Line)
    (hd : vm.program_.drop pc = ws ++ bad :: rest)
    (hws : ∀ ins ∈ ws, PlainWord ins)
    (hk : ws.length < vm.max_tb_insns_)
    (hbad : getType bad = .Undef ∨
      (getType bad = .Prim ∧ getData bad ≠ Prim.Halt.code ∧ getData bad ≠ Prim.Add.code ∧
        getData bad ≠ Prim.Print.code))
    (hcache : CacheOK vm ∨ hitEntry vm pc = none) :
    ∃ w, translateTB vm pc = .error w ∧
      (getType bad = .Undef → w = "undefined instruction type") ∧
      (getType bad = .Prim → w = "unknown primitive opcode") ∧
      getOrTranslateTB vm pc trace out =
        .error (w, if trace then
          out ++ [.trace ("[TB MISS] pc=" ++ toString pc ++ " -> translating...")] else out) ∧
      ∀ r : RunState, r.vm = vm → r.s.pc = pc → r.out = out →
        runBody trace r = .thrown w
          { vm := vm, s := r.s,
            out := if trace then
              out ++ [.trace ("[TB MISS] pc=" ++ toString pc ++ " -> translating...")] else out,
            lookups := r.lookups ++ [(pc, false)] } := by
  obtain ⟨w, hw, hm1, hm2⟩ := insnOp_error_of_invalid bad hbad
  obtain ⟨n, hn⟩ : ∃ n, vm.max_tb_insns_ = ws.length + (n + 1) :=
    ⟨vm.max_tb_insns_ - ws.length - 1, by omega⟩
  have ht : translateTB vm pc = .error w := by
    unfold translateTB
    rw [hn, translateLoop_error_after vm.program_ ws bad rest hws w hw n _ hd]
  have hmiss : hitEntry vm pc = none := by
    rcases hcache with hc | hc
    · exact hitEntry_none_of_error vm hc pc w ht
    · exact hc
  have hg := getOrTranslateTB_of_miss_error vm pc trace out w hmiss ht
  refine ⟨w, ht, hm1, hm2, hg, ?_⟩
  intro r hvm hpc hout
  have hlt : ¬ r.s.pc ≥ r.vm.program_.length := by
    rw [hvm, hpc]
    have := congrArg List.length hd
    simp only [List.length_drop, List.length_append, List.length_cons] at this
    omega
  unfold runBody
  rw [if_neg hlt, hvm, hpc, hout, hg]

/-- C12. Cache hit: when `tb_cache_` holds an entry `e` under `pc` with
`e.compiled_version == program_version_`, `getOrTranslateTB(pc)` returns `e` through the
hit branch (no call of `translateTB`) and leaves the object, cache included, unchanged. -/
theorem cache_hit (vm : VM) (pc : Nat) (e : TB) (trace : Bool) (out : List Line)
    (hfind : TBCache.find vm.tb_cache_ pc = some e)
    (hver : e.compiled_version = vm.program_version_) :
    getOrTranslateTB vm pc trace out =
      .ok { tb := e, hit := true, vm := vm,
            out := if trace then out ++ [.trace ("[TB HIT]  pc=" ++ toString pc)] else out } := by
  unfold getOrTranslateTB hitEntry
  rw [hfind]
  simp only [hver, if_true]

theorem getOrTranslateTB_sameCode (vm : VM) (pc : Nat) (trace : Bool) (out : List Line)
    (f : Fetch) (h : getOrTranslateTB vm pc trace out = .ok f) : SameCode vm f.vm := by
  unfold getOrTranslateTB at h
  cases hh : hitEntry vm pc with
  | some e =>
    rw [hh] at h
    simp only [Except.ok.injEq] at h
    rw [← h]
    exact sameCode_refl vm
  | none =>
    rw [hh] at h
    simp only [] at h
    cases ht : translateTB vm pc with
    | error w => rw [ht] at h; cases h
    | ok tb =>
      rw [ht] at h
      simp only [Except.ok.injEq] at h
      rw [← h]
      exact ⟨rfl, rfl, rfl⟩

theorem runBody_sameCode (trace : Bool) (r : RunState) :
    SameCode r.vm (runBody trace r).st.vm := by
  unfold runBody
  by_cases hpc : r.s.pc ≥ r.vm.program_.length
  · rw [if_pos hpc]; exact sameCode_refl _
  · rw [if_neg hpc]
    cases hg : getOrTranslateTB r.vm r.s.pc trace r.out with
    | error e =>
      obtain ⟨w, o⟩ := e
      exact sameCode_refl _
    | ok f =>
      have hs := getOrTranslateTB_sameCode _ _ _ _ f hg
      simp only []
      split <;> exact hs

theorem runLoop_sameCode (trace : Bool) (fuel : Nat) (r : RunState) (res : Res RunState)
    (h : runLoop trace fuel r = some res) : SameCode r.vm res.st.vm := by
  induction fuel generalizing r with
  | zero => simp [runLoop] at h
  | succ n ih =>
    rw [runLoop] at h
    by_cases hrun : r.s.running = true
    · rw [if_pos hrun] at h
      have hb := runBody_sameCode trace r
      cases hx : runBody trace r with
      | thrown w r1 =>
        rw [hx] at h hb
        simp only [Option.some.injEq] at h
        subst h
        exact hb
      | done r1 =>
        rw [hx] at h hb
        exact sameCode_trans hb (ih r1 h)
    · rw [if_neg hrun] at h
      simp only [Option.some.injEq] at h
      subst h
      exact sameCode_refl _

/-- C18. Translation determinism: `translateTB(pc)` is a function of the program words,
`pc`, `L` and the version. Two objects with the same program and `L` give the same
result when their versions agree and, whatever their versions and caches, the same
`next_pc`, operation sequence and debug text (or the same error). A `run()` or a
`getOrTranslateTB` call on the object in between does not change what `translateTB(pc)`
returns. -/
theorem translation_deterministic (vm : VM) (pc : Nat) :
    (∀ vm1 : VM, vm1.program_ = vm.program_ → vm1.max_tb_insns_ = vm.max_tb_insns_ →
      (vm1.program_version_ = vm.program_version_ → translateTB vm1 pc = translateTB vm pc) ∧
      match translateTB vm pc, translateTB vm1 pc with
      | .ok a, .ok b => a.next_pc = b.next_pc ∧ a.exec = b.exec ∧ a.debug = b.debug
      | .error w, .error v => w = v
      | _, _ => False) ∧
    (∀ (trace : Bool) (fuel : Nat) (res : Res RunState), run vm trace fuel = some res →
      translateTB res.st.vm pc = translateTB vm pc) ∧
    (∀ (pc1 : Nat) (trace : Bool) (out : List Line) (f : Fetch),
      getOrTranslateTB vm pc1 trace out = .ok f → translateTB f.vm pc = translateTB vm pc) := by
  refine ⟨?_, ?_, ?_⟩
  · intro vm1 hp hm
    refine ⟨fun hv => translateTB_congr vm vm1 ⟨hp, hm, hv⟩ pc, ?_⟩
    unfold translateTB
    rw [hp, hm]
    cases translateLoop vm.program_ vm.max_tb_insns_ { pc := pc, ops := [], debug := "" } with
    | error w => simp
    | ok sc => simp
  · intro trace fuel res h
    exact translateTB_congr vm _ (runLoop_sameCode trace fuel _ res h) pc
  · intro pc1 trace out f h
    exact translateTB_congr vm _ (getOrTranslateTB_sameCode vm pc1 trace out f h) pc

/-- C20. Print only observes: on every host state the Print operation returns (never
throws), leaves pc, running flag and stack as they were, and writes one line: the top of
the stack, or `<empty>` for an empty stack. The program `[PosImm 3, PosImm 4, Add, Print,
Halt]` prints 7 and ends with stack `[7]`. -/
theorem print_only_observes (h : Host) :
    (∃ text, execOp .print h = .done { s := h.s, out := h.out ++ [.print text] } ∧
      (h.s.stack = [] → text = "[print] <empty>") ∧
      (∀ v, h.s.stack.getLast? = some v → text = "[print] " ++ toString v)) ∧
    (run (loadProgram (VM.new 8) [3, 4, 1073741825, 1073741829, 1073741824]) false 5).map
      (fun r => (r.what, r.st.s, r.st.out)) =
      some (none, { pc := 5, running := false, stack := [7] }, [.print "[print] 7"]) := by
  refine ⟨?_, by decide⟩
  unfold execOp
  cases hs : h.s.stack.getLast? with
  | none =>
    refine ⟨_, rfl, fun _ => rfl, fun v hv => by cases hv⟩
  | some v =>
    refine ⟨_, rfl, fun he => ?_, fun v1 hv => ?_⟩
    · rw [he] at hs; simp at hs
    · cases hv; rfl

theorem set_same {α : Type} (l : List α) (i : Nat) (w : α) (h : l[i]? = some w) :
    l.set i w = l := by
  apply List.ext_getElem?
  intro j
  by_cases hj : i = j
  · subst hj
    rw [List.getElem?_set_self (List.getElem?_eq_some_iff.1 h).1, h]
  · rw [List.getElem?_set_ne hj]

theorem runLoop_lookups_ne_nil_of_lt (trace : Bool) (fuel : Nat) (r : RunState)
    (res : Res RunState) (hok : CacheOK r.vm) (hrun : r.s.running = true)
    (hpc : r.s.pc < r.vm.program_.length) (h : runLoop trace fuel r = some res) :
    res.st.lookups ≠ [] := by
  cases fuel with
  | zero => simp [runLoop] at h
  | succ n =>
    rw [runLoop, if_pos hrun, runBody_eq_spec trace r hok] at h
    have hinv := runBodySpec_inv trace r hok
    have hne : (runBodySpec trace r).st.lookups ≠ [] := by
      unfold runBodySpec
      rw [if_neg (by omega)]
      cases translateTB r.vm r.s.pc with
      | error w => simp [Res.st]
      | ok tb =>
        simp only []
        cases execOps tb.exec { s := r.s, out := [] } <;> simp [Res.st]
    cases hb : runBodySpec trace r with
    | thrown w ra =>
      rw [hb] at h hne
      simp only [Option.some.injEq] at h
      subst h
      exact hne
    | done ra =>
      rw [hb] at h hinv hne
      simp only [Res.st] at hinv h hne
      obtain ⟨okA, -, -, -⟩ := hinv
      obtain ⟨-, -, -, l, hl⟩ := runLoop_inv trace n ra _ okA h
      rw [hl]
      simp [hne]

/-- C11. Same-value patch: for a program with `program_[i] == w`, `L ≥ 1`, on any
object, `patch(i, w)` succeeds and leaves the program content as it was, and the next
`run()` ends (given fuel above the program size), makes at least one block lookup, and
every lookup takes the miss branch. -/
theorem same_value_patch_misses (vm : VM) (i : Nat) (w : Int) (trace : Bool) (fuel : Nat)
    (hi : vm.program_[i]? = some w) (hL : 1 ≤ vm.max_tb_insns_)
    (hfuel : vm.program_.length < fuel) :
    ∃ vm1 res, patch vm i w = .done vm1 ∧ vm1.program_ = vm.program_ ∧
      run vm1 trace fuel = some res ∧ res.st.lookups ≠ [] ∧
      ∀ x ∈ res.st.lookups, x.2 = false := by
  have hlt : i < vm.program_.length := (List.getElem?_eq_some_iff.1 hi).1
  have hpatch : patch vm i w = .done
      { vm with
        program_ := vm.program_.set i w
        program_version_ := (vm.program_version_ + 1) % 4294967296
        tb_cache_ := [] } := by
    unfold patch
    rw [if_neg (by omega)]
  have hprog := set_same vm.program_ i w hi
  have ok1 : CacheOK { vm with
        program_ := vm.program_.set i w
        program_version_ := (vm.program_version_ + 1) % 4294967296
        tb_cache_ := [] } := cacheOK_of_empty _ rfl
  obtain ⟨res, hres⟩ := run_terminates _ trace fuel ok1 (by simp only []; exact hL)
    (by simp only [List.length_set]; exact hfuel)
  refine ⟨_, res, hpatch, hprog, hres, ?_, ?_⟩
  · exact runLoop_lookups_ne_nil_of_lt trace fuel _ res ok1 rfl
      (by simp only [List.length_set]; omega) hres
  · exact runLoop_all_miss trace fuel _ res ok1 (by simp only []; exact hL)
      (by intro k e hk; simp [TBCache.find] at hk) (by intro x hx; simp at hx) hres

theorem execOps_append (a b : List Op) (h : Host) :
    execOps (a ++ b) h =
      match execOps a h with
      | .thrown w h1 => .thrown w h1
      | .done h1 => execOps b h1 := by
  induction a generalizing h with
  | nil => rfl
  | cons op rest ih =>
    simp only [List.cons_append, execOps]
    cases execOp op h with
    | thrown w h1 => rfl
    | done h1 => exact ih h1

theorem execOp_keeps (op : Op) (h h1 : Host) (hx : execOp op h = .done h1) :
    h1.s.pc = h.s.pc ∧ (op ≠ .halt → h1.s.running = h.s.running) ∧
      (op = .halt → h1.s.running = false) := by
  cases op with
  | push imm =>
    simp only [execOp, Res.done.injEq] at hx
    subst hx
    exact ⟨rfl, fun _ => rfl, fun hh => by cases hh⟩
  | halt =>
    simp only [execOp, Res.done.injEq] at hx
    subst hx
    exact ⟨rfl, fun hh => absurd rfl hh, fun _ => rfl⟩
  | add =>
    simp only [execOp] at hx
    cases h1p : pop h.s with
    | error w => rw [h1p] at hx; cases hx
    | ok p =>
      obtain ⟨b, s1⟩ := p
      rw [h1p] at hx
      simp only [] at hx
      cases h2p : pop s1 with
      | error w => rw [h2p] at hx; cases hx
      | ok q =>
        obtain ⟨a, s2⟩ := q
        rw [h2p] at hx
        simp only [Res.done.injEq] at hx
        subst hx
        unfold pop at h1p h2p
        cases hl1 : h.s.stack.getLast? with
        | none => rw [hl1] at h1p; cases h1p
        | some v1 =>
          rw [hl1] at h1p
          simp only [Except.ok.injEq, Prod.mk.injEq] at h1p
          obtain ⟨-, hs1⟩ := h1p
          subst hs1
          cases hl2 : (h.s.stack.dropLast).getLast? with
          | none => simp only [hl2] at h2p; cases h2p
          | some v2 =>
            simp only [hl2, Except.ok.injEq, Prod.mk.injEq] at h2p
            obtain ⟨-, hs2⟩ := h2p
            subst hs2
            exact ⟨rfl, fun _ => rfl, fun hh => by cases hh⟩
  | print =>
    simp only [execOp] at hx
    cases hl : h.s.stack.getLast? with
    | none =>
      rw [hl] at hx
      simp only [Res.done.injEq] at hx
      subst hx
      exact ⟨rfl, fun _ => rfl, fun hh => by cases hh⟩
    | some v =>
      rw [hl] at hx
      simp only [Res.done.injEq] at hx
      subst hx
      exact ⟨rfl, fun _ => rfl, fun hh => by cases hh⟩

theorem execOps_keeps (ops : List Op) (h h1 : Host) (hx : execOps ops h = .done h1)
    (hne : ∀ op ∈ ops, op ≠ .halt) :
    h1.s.pc = h.s.pc ∧ h1.s.running = h.s.running := by
  induction ops generalizing h with
  | nil =>
    simp only [execOps, Res.done.injEq] at hx
    subst hx
    exact ⟨rfl, rfl⟩
  | cons op rest ih =>
    simp only [execOps] at hx
    cases h2 : execOp op h with
    | thrown w hh => rw [h2] at hx; cases hx
    | done hh =>
      rw [h2] at hx
      obtain ⟨k1, k2, -⟩ := execOp_keeps op h hh h2
      obtain ⟨i1, i2⟩ := ih hh hx (fun o ho => hne o (List.mem_cons_of_mem _ ho))
      exact ⟨i1.trans k1, i2.trans (k2 (hne op (List.mem_cons_self _ _)))⟩

theorem execOps_halt_last (ops : List Op) (h h1 : Host)
    (hx : execOps (ops ++ [.halt]) h = .done h1) : h1.s.running = false := by
  rw [execOps_append] at hx
  cases h2 : execOps ops h with
  | thrown w hh => rw [h2] at hx; cases hx
  | done hh =>
    rw [h2] at hx
    simp only [execOps, execOp, Res.done.injEq] at hx
    subst hx
    rfl

theorem execOp_pc (op : Op) (s : State) (out : List Line) (p : Nat) :
    execOp op { s := { s with pc := p }, out := out } =
      Res.map (fun h => { s := { h.s with pc := p }, out := h.out })
        (execOp op { s := s, out := out }) := by
  cases op with
  | push imm => simp [execOp, Res.map, push]
  | halt => simp [execOp, Res.map]
  | add =>
    simp only [execOp, pop]
    cases h1 : s.stack.getLast? with
    | none => simp [Res.map]
    | some b =>
      simp only []
      cases h2 : (s.stack.dropLast).getLast? with
      | none => simp [Res.map]
      | some a => simp [Res.map, push]
  | print =>
    simp only [execOp]
    cases h1 : s.stack.getLast? <;> simp [Res.map]

theorem execOps_pc (ops : List Op) (s : State) (out : List Line) (p : Nat) :
    execOps ops { s := { s with pc := p }, out := out } =
      Res.map (fun h => { s := { h.s with pc := p }, out := h.out })
        (execOps ops { s := s, out := out }) := by
  induction ops generalizing s out with
  | nil => simp [execOps, Res.map]
  | cons op rest ih =>
    simp only [execOps]
    rw [execOp_pc]
    cases h1 : execOp op { s := s, out := out } with
    | thrown w h => simp [Res.map]
    | done h =>
      obtain ⟨s1, o1⟩ := h
      simp only [Res.map]
      exact ih s1 o1

theorem opsOf_no_halt (ws : List Int) (hws : ∀ ins ∈ ws, PlainWord ins) :
    ∀ op ∈ opsOf ws, op ≠ .halt := by
  intro op hop
  unfold opsOf at hop
  obtain ⟨ins, hi, hm⟩ := List.mem_filterMap.1 hop
  obtain ⟨op1, h1, h2⟩ := hws ins hi
  rw [h1] at hm
  simp only [Option.some.injEq] at hm
  rw [← hm]
  exact h2

theorem translateTB_of_halt_after (vm : VM) (pc : Nat) (ws : List Int) (hw : Int)
    (rest : List Int) (hd : vm.program_.drop pc = ws ++ hw :: rest)
    (hws : ∀ ins ∈ ws, PlainWord ins) (hh : insnOp hw = .ok .halt)
    (hk : ws.length < vm.max_tb_insns_) :
    translateTB vm pc = .ok
      { guest_pc := pc, next_pc := pc + ws.length + 1,
        compiled_version := vm.program_version_, exec := opsOf ws ++ [.halt],
        debug := debugOf "" ws ++ insnDebug hw } := by
  obtain ⟨n, hn⟩ : ∃ n, vm.max_tb_insns_ = ws.length + (n + 1) :=
    ⟨vm.max_tb_insns_ - ws.length - 1, by omega⟩
  have ht := translateLoop_halt_after vm.program_ ws hw rest hws hh n
    { pc := pc, ops := [], debug := "" } hd
  unfold translateTB
  rw [hn, ht]
  simp

theorem translateTB_of_plain_run (vm : VM) (pc : Nat) (ws rest : List Int)
    (hd : vm.program_.drop pc = ws ++ rest) (hws : ∀ ins ∈ ws, PlainWord ins)
    (hstop : ws.length = vm.max_tb_insns_ ∨ (rest = [] ∧ ws.length ≤ vm.max_tb_insns_)) :
    translateTB vm pc = .ok
      { guest_pc := pc, next_pc := pc + ws.length,
        compiled_version := vm.program_version_, exec := opsOf ws,
        debug := debugOf "" ws } := by
  obtain ⟨n, hn, hn0⟩ : ∃ n, vm.max_tb_insns_ = ws.length + n ∧ (n = 0 ∨ rest = []) := by
    rcases hstop with h | ⟨h1, h2⟩
    · exact ⟨0, by omega, Or.inl rfl⟩
    · exact ⟨vm.max_tb_insns_ - ws.length, by omega, Or.inr h1⟩
  have ht := translateLoop_plain_run vm.program_ ws rest hws n
    { pc := pc, ops := [], debug := "" } hd hn0
  unfold translateTB
  rw [hn, ht]
  simp

/-- A run over valid words up to a Halt, on a coherent cache: if executing the operations
of these words in one go returns, the loop returns too, with the same guest state (pc just
past the Halt) and the same printed lines. -/
theorem runLoop_straight (trace : Bool) (n : Nat) :
    ∀ (ws : List Int), ws.length ≤ n → ∀ (hw : Int) (rest : List Int) (r : RunState)
      (hst : Host) (fuel : Nat), CacheOK r.vm → 1 ≤ r.vm.max_tb_insns_ →
      r.vm.program_.drop r.s.pc = ws ++ hw :: rest → (∀ ins ∈ ws, PlainWord ins) →
      insnOp hw = .ok .halt → r.s.running = true →
      execOps (opsOf ws ++ [.halt]) { s := r.s, out := [] } = .done hst →
      ws.length + 2 ≤ fuel →
      ∃ r1, runLoop trace fuel r = some (.done r1) ∧
        r1.s = { hst.s with pc := r.s.pc + ws.length + 1 } ∧
        printed r1.out = printed r.out ++ printed hst.out ∧
        CacheOK r1.vm ∧ SameCode r.vm r1.vm := by
  induction n with
  | zero =>
    intro ws hlen hw rest r hst fuel hok hL hd hws hh hrun hx hfuel
    have hnil : ws = [] := List.eq_nil_of_length_eq_zero (by omega)
    subst hnil
    obtain ⟨f, hf⟩ : ∃ f, fuel = f + 2 := ⟨fuel - 2, by simp at hfuel; omega⟩
    have ht := translateTB_of_halt_after r.vm r.s.pc [] hw rest hd hws hh (by simpa using hL)
    have hpc : ¬ r.s.pc ≥ r.vm.program_.length := by
      have := congrArg List.length hd
      simp only [List.length_drop, List.length_append, List.length_cons] at this
      omega
    have hfalse := execOps_halt_last _ _ _ hx
    simp only [opsOf, List.filterMap_nil, List.nil_append] at hx
    subst hf
    rw [runLoop, if_pos hrun, runBody_eq_spec trace r hok]
    unfold runBodySpec
    rw [if_neg hpc, ht]
    simp only [opsOf, List.filterMap_nil, List.nil_append, hx]
    rw [runLoop, if_neg (by simp only []; rw [hfalse]; simp)]
    refine ⟨_, rfl, by simp, ?_, cacheOK_cacheAfter _ hok _ _ ht, sameCode_cacheAfter _ _ _⟩
    simp only [printed_append, printed_lookupLines, printed_execLines, printed_tosLines,
      List.append_nil]
  | succ n ih =>
    intro ws hlen hw rest r hst fuel hok hL hd hws hh hrun hx hfuel
    obtain ⟨f, hf⟩ : ∃ f, fuel = f + 2 := ⟨fuel - 2, by omega⟩
    subst hf
    have hpc : ¬ r.s.pc ≥ r.vm.program_.length := by
      have := congrArg List.length hd
      simp only [List.length_drop, List.length_append, List.length_cons] at this
      omega
    by_cases hk : ws.length < r.vm.max_tb_insns_
    · have ht := translateTB_of_halt_after r.vm r.s.pc ws hw rest hd hws hh hk
      have hfalse := execOps_halt_last _ _ _ hx
      rw [runLoop, if_pos hrun, runBody_eq_spec trace r hok]
      unfold runBodySpec
      rw [if_neg hpc, ht]
      simp only [hx]
      rw [runLoop, if_neg (by simp only []; rw [hfalse]; simp)]
      refine ⟨_, rfl, by simp, ?_, cacheOK_cacheAfter _ hok _ _ ht, sameCode_cacheAfter _ _ _⟩
      simp only [printed_append, printed_lookupLines, printed_execLines, printed_tosLines,
        List.append_nil]
    · have hsplit : ws = ws.take r.vm.max_tb_insns_ ++ ws.drop r.vm.max_tb_insns_ :=
        (List.take_append_drop _ _).symm
      have hl1 : (ws.take r.vm.max_tb_insns_).length = r.vm.max_tb_insns_ := by
        rw [List.length_take]; omega
      have hl2 : (ws.drop r.vm.max_tb_insns_).length = ws.length - r.vm.max_tb_insns_ :=
        List.length_drop _ _
      have hws1 : ∀ ins ∈ ws.take r.vm.max_tb_insns_, PlainWord ins :=
        fun ins hi => hws ins (List.mem_of_mem_take hi)
      have hws2 : ∀ ins ∈ ws.drop r.vm.max_tb_insns_, PlainWord ins :=
        fun ins hi => hws ins (List.mem_of_mem_drop hi)
      have hd1 : r.vm.program_.drop r.s.pc =
          ws.take r.vm.max_tb_insns_ ++ (ws.drop r.vm.max_tb_insns_ ++ hw :: rest) := by
        rw [← List.append_assoc, List.take_append_drop]; exact hd
      have ht := translateTB_of_plain_run r.vm r.s.pc _ _ hd1 hws1 (Or.inl hl1)
      rw [hl1] at ht
      have hx1 : execOps (opsOf (ws.take r.vm.max_tb_insns_) ++
          (opsOf (ws.drop r.vm.max_tb_insns_) ++ [.halt])) { s := r.s, out := [] } =
          .done hst := by
        rw [← List.append_assoc, ← opsOf_append, List.take_append_drop]; exact hx
      rw [execOps_append] at hx1
      cases hxa : execOps (opsOf (ws.take r.vm.max_tb_insns_)) { s := r.s, out := [] } with
      | thrown w hh1 => rw [hxa] at hx1; cases hx1
      | done h1 =>
        rw [hxa] at hx1
        simp only [] at hx1
        obtain ⟨hk1, hk2⟩ := execOps_keeps _ _ _ hxa (opsOf_no_halt _ hws1)
        simp only [] at hk1 hk2
        -- the rest of the run, from the state the first block leaves
        have hx2 : execOps (opsOf (ws.drop r.vm.max_tb_insns_) ++ [.halt])
            { s := h1.s, out := h1.out } = .done hst := hx1
        rw [execOps_out] at hx2
        cases hxb : execOps (opsOf (ws.drop r.vm.max_tb_insns_) ++ [.halt])
            { s := h1.s, out := [] } with
        | thrown w hh2 => rw [hxb] at hx2; cases hx2
        | done h2 =>
          rw [hxb] at hx2
          simp only [Res.map, Host.prepend, Res.done.injEq] at hx2
          have hxc : execOps (opsOf (ws.drop r.vm.max_tb_insns_) ++ [.halt])
              { s := { h1.s with pc := r.s.pc + r.vm.max_tb_insns_ }, out := [] } =
              .done { s := { h2.s with pc := r.s.pc + r.vm.max_tb_insns_ }, out := h2.out } := by
            rw [execOps_pc, hxb]; rfl
          have sc := sameCode_cacheAfter r.vm r.s.pc
            { guest_pc := r.s.pc, next_pc := r.s.pc + r.vm.max_tb_insns_,
              compiled_version := r.vm.program_version_,
              exec := opsOf (ws.take r.vm.max_tb_insns_),
              debug := debugOf "" (ws.take r.vm.max_tb_insns_) }
          have okA := cacheOK_cacheAfter _ hok _ _ ht
          obtain ⟨r1, g1, g2, g3, g4, g5⟩ := ih (ws.drop r.vm.max_tb_insns_) (by omega) hw rest
            { vm := cacheAfter r.vm r.s.pc
                { guest_pc := r.s.pc, next_pc := r.s.pc + r.vm.max_tb_insns_,
                  compiled_version := r.vm.program_version_,
                  exec := opsOf (ws.take r.vm.max_tb_insns_),
                  debug := debugOf "" (ws.take r.vm.max_tb_insns_) },
              s := { h1.s with pc := r.s.pc + r.vm.max_tb_insns_ },
              out := r.out ++ lookupLines trace r.s.pc (TBCache.find r.vm.tb_cache_ r.s.pc).isSome
                ++ execLines trace
                  { guest_pc := r.s.pc, next_pc := r.s.pc + r.vm.max_tb_insns_,
                    compiled_version := r.vm.program_version_,
                    exec := opsOf (ws.take r.vm.max_tb_insns_),
                    debug := debugOf "" (ws.take r.vm.max_tb_insns_) }
                ++ h1.out ++ tosLines trace h1.s.stack,
              lookups := r.lookups ++ [(r.s.pc, (TBCache.find r.vm.tb_cache_ r.s.pc).isSome)] }
            { s := { h2.s with pc := r.s.pc + r.vm.max_tb_insns_ }, out := h2.out } (f + 1)
            okA (by simp only []; rw [sc.2.1]; exact hL)
            (by
              simp only []
              rw [sc.1, ← List.drop_drop, hd1, List.drop_left' hl1])
            hws2 hh (by simp only []; rw [hk2]; exact hrun) hxc (by omega)
          rw [runLoop, if_pos hrun, runBody_eq_spec trace r hok]
          unfold runBodySpec
          rw [if_neg hpc, ht]
          simp only [hxa]
          refine ⟨r1, g1, ?_, ?_, g4, sameCode_trans sc g5⟩
          · rw [g2, ← hx2]
            simp only [hl2]
            congr 1
            omega
          · rw [g3, ← hx2]
            simp only [printed_append, printed_lookupLines, printed_execLines, printed_tosLines,
              List.append_nil, List.append_assoc, List.nil_append]

theorem insnOp_imm_word (a : Int) (h0 : -1073741823 ≤ a) (h1 : a ≤ 1073741823) :
    ∃ wa, (if 0 ≤ a then enc_pos_imm a else enc_neg_imm a) = .ok wa ∧
      insnOp wa = .ok (.push a) := by
  by_cases ha : 0 ≤ a
  · rw [if_pos ha]
    have eu := toU32_of_nonneg a ha (by omega)
    have ht : getType a = .PosImm := by
      rw [getType_eq]
      have : toU32 a / 1073741824 = 0 := by omega
      rw [this]; rfl
    have hd : ((getData a : Nat) : Int) = a := by
      rw [getData_eq]; omega
    refine ⟨a, enc_pos_imm_eq a ha h1, ?_⟩
    unfold insnOp
    rw [ht]
    simp only [hd]
  · rw [if_neg ha]
    have eu := toU32_of_neg (-a - 2147483648) (by omega) (by omega)
    have ht : getType (-a - 2147483648) = .NegImm := by
      rw [getType_eq]
      have : toU32 (-a - 2147483648) / 1073741824 = 2 := by omega
      rw [this]; rfl
    have hd : -((getData (-a - 2147483648) : Nat) : Int) = a := by
      rw [getData_eq]; omega
    refine ⟨-a - 2147483648, enc_neg_imm_eq a h0 (by omega), ?_⟩
    unfold insnOp
    rw [ht]
    simp only [hd]

/-- C19. End-to-end addition: for `a`, `b` in `[-(2^30 - 1), 2^30 - 1]` and `L ≥ 1`,
both immediates encode (`enc_pos_imm` for a non-negative value, `enc_neg_imm` for a
negative one) and `run()` on `[imm a, imm b, Prim Add, Prim Halt]` returns normally with
`running == false`, `pc == 4` and final stack exactly `[a + b]`. -/
theorem add_end_to_end (vm0 : VM) (a b : Int) (trace : Bool) (fuel : Nat)
    (ha : -1073741823 ≤ a ∧ a ≤ 1073741823) (hb : -1073741823 ≤ b ∧ b ≤ 1073741823)
    (hL : 1 ≤ vm0.max_tb_insns_) (hfuel : 4 < fuel) :
    ∃ wa wb r,
      (if 0 ≤ a then enc_pos_imm a else enc_neg_imm a) = .ok wa ∧
      (if 0 ≤ b then enc_pos_imm b else enc_neg_imm b) = .ok wb ∧
      run (loadProgram vm0 [wa, wb, enc_prim .Add, enc_prim .Halt]) trace fuel =
        some (.done r) ∧
      r.s.running = false ∧ r.s.stack = [a + b] ∧ r.s.pc = 4 := by
  obtain ⟨wa, hwa, hoa⟩ := insnOp_imm_word a ha.1 ha.2
  obtain ⟨wb, hwb, hob⟩ := insnOp_imm_word b hb.1 hb.2
  have hadd : insnOp (enc_prim .Add) = .ok .add := by rfl
  have hhalt : insnOp (enc_prim .Halt) = .ok .halt := by rfl
  have hws : ∀ ins ∈ [wa, wb, enc_prim .Add], PlainWord ins := by
    intro ins hi
    simp only [List.mem_cons, List.mem_singleton, List.not_mem_nil, or_false] at hi
    rcases hi with h | h | h
    · rw [h]; exact ⟨_, hoa, by simp⟩
    · rw [h]; exact ⟨_, hob, by simp⟩
    · rw [h]; exact ⟨_, hadd, by simp⟩
  have hops : opsOf [wa, wb, enc_prim .Add] = [.push a, .push b, .add] := by
    rw [opsOf_cons_ok _ _ _ hoa, opsOf_cons_ok _ _ _ hob, opsOf_cons_ok _ _ _ hadd]
    rfl
  have hsum : wrapI32 (a + b) = a + b :=
    wrapI32_of_isI32 _ ⟨by omega, by omega⟩
  have hx : execOps (opsOf [wa, wb, enc_prim .Add] ++ [.halt])
      { s := { pc := 0, running := true, stack := [] }, out := [] } =
      .done { s := { pc := 0, running := false, stack := [a + b] }, out := [] } := by
    rw [hops]
    simp [execOps, execOp, push, pop, hsum]
  obtain ⟨r1, g1, g2, -, -, -⟩ := runLoop_straight trace 3 [wa, wb, enc_prim .Add] (by simp)
    (enc_prim .Halt) []
    { vm := loadProgram vm0 [wa, wb, enc_prim .Add, enc_prim .Halt],
      s := { pc := 0, running := true, stack := [] }, out := [], lookups := [] }
    _ fuel (cacheOK_of_empty _ rfl) hL (by simp [loadProgram]) hws hhalt rfl hx
    (by simp only [List.length_cons, List.length_nil]; omega)
  refine ⟨wa, wb, r1, hwa, hwb, g1, ?_, ?_, ?_⟩
  · rw [g2]
  · rw [g2]
  · rw [g2]; rfl

theorem plainWord_three : PlainWord 3 := ⟨.push 3, by rfl, by decide⟩

/-- C11, patching index 1 of `[PosImm 3, PosImm 4, Add, Halt]` with the value it holds,
on an object whose cache holds the block of pc 0. -/
theorem same_value_patch_misses_witness :
    ((VM.mk [3, 4, 1073741825, 1073741824] 2
        [(0, TB.mk 0 4 2 [.push 3, .push 4, .add, .halt] "PUSH +3\nPUSH +4\nADD\nHALT\n")]
        8).program_[1]? = some 4 ∧
      1 ≤ (VM.mk [3, 4, 1073741825, 1073741824] 2
        [(0, TB.mk 0 4 2 [.push 3, .push 4, .add, .halt] "PUSH +3\nPUSH +4\nADD\nHALT\n")]
        8).max_tb_insns_ ∧
      (VM.mk [3, 4, 1073741825, 1073741824] 2
        [(0, TB.mk 0 4 2 [.push 3, .push 4, .add, .halt] "PUSH +3\nPUSH +4\nADD\nHALT\n")]
        8).program_.length < 5) ∧
    ∃ vm1 res,
      patch (VM.mk [3, 4, 1073741825, 1073741824] 2
        [(0, TB.mk 0 4 2 [.push 3, .push 4, .add, .halt] "PUSH +3\nPUSH +4\nADD\nHALT\n")]
        8) 1 4 = .done vm1 ∧
      vm1.program_ = [3, 4, 1073741825, 1073741824] ∧
      run vm1 false 5 = some res ∧ res.st.lookups ≠ [] ∧
      ∀ x ∈ res.st.lookups, x.2 = false :=
  ⟨⟨by decide, by decide, by decide⟩,
    same_value_patch_misses _ 1 4 false 5 (by decide) (by decide) (by decide)⟩

/-- C12, on an object that caches the block of pc 0 at the current version. -/
theorem cache_hit_witness :
    TBCache.find (VM.mk [3, 1073741824] 2
      [(0, TB.mk 0 2 2 [.push 3, .halt] "PUSH +3\nHALT\n")] 8).tb_cache_ 0 =
      some (TB.mk 0 2 2 [.push 3, .halt] "PUSH +3\nHALT\n") ∧
    (TB.mk 0 2 2 [.push 3, .halt] "PUSH +3\nHALT\n").compiled_version =
      (VM.mk [3, 1073741824] 2
        [(0, TB.mk 0 2 2 [.push 3, .halt] "PUSH +3\nHALT\n")] 8).program_version_ ∧
    getOrTranslateTB (VM.mk [3, 1073741824] 2
      [(0, TB.mk 0 2 2 [.push 3, .halt] "PUSH +3\nHALT\n")] 8) 0 true [] =
      .ok { tb := TB.mk 0 2 2 [.push 3, .halt] "PUSH +3\nHALT\n", hit := true,
            vm := VM.mk [3, 1073741824] 2
              [(0, TB.mk 0 2 2 [.push 3, .halt] "PUSH +3\nHALT\n")] 8,
            out := if true then [] ++ [.trace ("[TB HIT]  pc=" ++ toString 0)] else [] } :=
  ⟨by decide, by decide, cache_hit _ 0 _ true [] (by decide) (by decide)⟩

/-- C14, on `[PosImm 3, Halt, word with tag Undef]`: the block from pc 0 is two
operations long and the invalid third word does no harm. -/
theorem block_ends_at_halt_witness :
    ((VM.mk [3, 1073741824, -1] 2 [] 8).program_.drop 0 = [3] ++ 1073741824 :: [-1] ∧
      (∀ ins ∈ [(3 : Int)], PlainWord ins) ∧
      (getType 1073741824 = .Prim ∧ getData 1073741824 = Prim.Halt.code) ∧
      getType (-1) = .Undef ∧
      [(3 : Int)].length < (VM.mk [3, 1073741824, -1] 2 [] 8).max_tb_insns_) ∧
    ∃ tb, translateTB (VM.mk [3, 1073741824, -1] 2 [] 8) 0 = .ok tb ∧
      tb.next_pc - 0 = [(3 : Int)].length + 1 ∧
      tb.next_pc = 0 + [(3 : Int)].length + 1 ∧ tb.exec = opsOf [3] ++ [.halt] ∧
      tb.exec.length = [(3 : Int)].length + 1 ∧ tb.exec.getLast? = some .halt :=
  ⟨⟨by decide, fun ins hi => by rw [List.mem_singleton.1 hi]; exact plainWord_three,
      by decide, by decide, by decide⟩,
    block_ends_at_halt (VM.mk [3, 1073741824, -1] 2 [] 8) 0 [3] 1073741824 [-1] (by decide)
      (fun ins hi => by rw [List.mem_singleton.1 hi]; exact plainWord_three)
      (by decide) (by decide)⟩

/-- C15 amended, on three `PosImm 3` words with `L = 2`: the block from pc 0 has
`next_pc - pc == 2`. -/
theorem block_ends_at_bound_witness :
    ((VM.mk [3, 3, 3] 2 [] 2).program_.drop 0 = [3, 3] ++ [3] ∧
      (∀ ins ∈ [(3 : Int), 3], PlainWord ins) ∧
      [(3 : Int), 3].length = (VM.mk [3, 3, 3] 2 [] 2).max_tb_insns_) ∧
    ∃ tb, translateTB (VM.mk [3, 3, 3] 2 [] 2) 0 = .ok tb ∧
      tb.next_pc - 0 = (VM.mk [3, 3, 3] 2 [] 2).max_tb_insns_ :=
  ⟨⟨by decide,
      fun ins hi => by
        have : ins = 3 := by simpa using hi
        rw [this]; exact plainWord_three,
      by decide⟩,
    (block_ends_at_bound (VM.mk [3, 3, 3] 2 [] 2) 0 [3, 3] [3] (by decide)
      (fun ins hi => by
        have : ins = 3 := by simpa using hi
        rw [this]; exact plainWord_three)
      (Or.inl (by decide))).imp (fun tb h => ⟨h.1, h.2.2.2.2.1 (by decide)⟩)⟩

/-- C17, on `[PosImm 3, Prim 2]` (2 is the Sub opcode of the other lessons) with an
empty cache. -/
theorem translation_failure_atomic_witness :
    ((VM.mk [3, 1073741826] 2 [] 8).program_.drop 0 = [3] ++ 1073741826 :: [] ∧
      (∀ ins ∈ [(3 : Int)], PlainWord ins) ∧
      [(3 : Int)].length < (VM.mk [3, 1073741826] 2 [] 8).max_tb_insns_ ∧
      (getType 1073741826 = .Prim ∧ getData 1073741826 = 2) ∧
      CacheOK (VM.mk [3, 1073741826] 2 [] 8)) ∧
    ∃ w, translateTB (VM.mk [3, 1073741826] 2 [] 8) 0 = .error w ∧
      w = "unknown primitive opcode" ∧
      getOrTranslateTB (VM.mk [3, 1073741826] 2 [] 8) 0 false [] =
        .error (w, if false then
          [] ++ [.trace ("[TB MISS] pc=" ++ toString 0 ++ " -> translating...")] else []) :=
  ⟨⟨by decide, fun ins hi => by rw [List.mem_singleton.1 hi]; exact plainWord_three,
      by decide, by decide, cacheOK_of_empty _ rfl⟩,
    (translation_failure_atomic (VM.mk [3, 1073741826] 2 [] 8) 0 [3] 1073741826 [] false []
      (by decide) (fun ins hi => by rw [List.mem_singleton.1 hi]; exact plainWord_three)
      (by decide) (Or.inr (by decide)) (Or.inl (cacheOK_of_empty _ rfl))).imp
      (fun w h => ⟨h.1, h.2.2.1 (by decide), h.2.2.2.1⟩)⟩

/-- C18, for two objects that differ in their caches only. -/
theorem translation_deterministic_witness :
    translateTB (VM.mk [3, 4, 1073741825, 1073741824] 2
      [(0, TB.mk 0 2 2 [.push 3, .push 4] "PUSH +3\nPUSH +4\n")] 2) 2 =
    translateTB (VM.mk [3, 4, 1073741825, 1073741824] 2 [] 2) 2 :=
  ((translation_deterministic (VM.mk [3, 4, 1073741825, 1073741824] 2 [] 2) 2).1
    (VM.mk [3, 4, 1073741825, 1073741824] 2
      [(0, TB.mk 0 2 2 [.push 3, .push 4] "PUSH +3\nPUSH +4\n")] 2) rfl rfl).1 rfl

/-- C20, on the stack `[3, 7]`. -/
theorem print_only_observes_witness :
    ∃ text, execOp .print { s := { pc := 0, running := true, stack := [3, 7] }, out := [] } =
        .done { s := { pc := 0, running := true, stack := [3, 7] }, out := [] ++ [.print text] } ∧
      text = "[print] " ++ toString (7 : Int) := by
  obtain ⟨t, h1, -, h3⟩ :=
    (print_only_observes { s := { pc := 0, running := true, stack := [3, 7] }, out := [] }).1
  exact ⟨t, h1, h3 7 rfl⟩

/-- C19, at `a = 3`, `b = -4` with block length 2, and the run of the witness
`a = 3`, `b = 4`, which ends with stack `[7]`. -/
theorem add_end_to_end_witness :
    ((-1073741823 ≤ (3 : Int) ∧ (3 : Int) ≤ 1073741823) ∧
      (-1073741823 ≤ (-4 : Int) ∧ (-4 : Int) ≤ 1073741823) ∧
      1 ≤ (VM.new 2).max_tb_insns_ ∧ 4 < 5) ∧
    (∃ wa wb r,
      (if 0 ≤ (3 : Int) then enc_pos_imm 3 else enc_neg_imm 3) = .ok wa ∧
      (if 0 ≤ (-4 : Int) then enc_pos_imm (-4) else enc_neg_imm (-4)) = .ok wb ∧
      run (loadProgram (VM.new 2) [wa, wb, enc_prim .Add, enc_prim .Halt]) false 5 =
        some (.done r) ∧
      r.s.running = false ∧ r.s.stack = [3 + -4] ∧ r.s.pc = 4) ∧
    (run (loadProgram (VM.new 8) [3, 4, 1073741825, 1073741824]) false 5).map
      (fun r => (r.what, r.st.s)) =
      some (none, { pc := 4, running := false, stack := [7] }) :=
  ⟨⟨by decide, by decide, by decide, by decide⟩,
    add_end_to_end (VM.new 2) 3 (-4) false 5 (by decide) (by decide) (by decide) (by decide),
    by decide⟩

/-! ## Straight-line runs, cache contents, trace and reachability claims -/

theorem execOp_add_ok (h : Host) (s : List Int) (a b : Int) (hs : h.s.stack = s ++ [a, b]) :
    execOp .add h =
      .done { s := { pc := h.s.pc, running := h.s.running, stack := s ++ [wrapI32 (a + b)] },
              out := h.out } := by
  have e1 : h.s.stack = (s ++ [a]) ++ [b] := by rw [hs]; simp
  simp only [execOp, pop, e1, List.getLast?_append, List.getLast?_singleton,
    List.dropLast_concat, push]
  simp

theorem execOp_add_underflow (h : Host) (hs : h.s.stack.length < 2) :
    ∃ h1, execOp .add h = .thrown "stack underflow" h1 ∧ h1.s.stack = [] ∧ h1.out = h.out ∧
      h1.s.pc = h.s.pc ∧ h1.s.running = h.s.running := by
  cases hst : h.s.stack with
  | nil =>
    refine ⟨h, ?_, hst, rfl, rfl, rfl⟩
    simp [execOp, pop, hst]
  | cons x t =>
    have ht : t = [] := by
      rw [hst] at hs
      simp only [List.length_cons] at hs
      exact List.eq_nil_of_length_eq_zero (by omega)
    subst ht
    refine ⟨{ h with s := { h.s with stack := [] } }, ?_, rfl, rfl, rfl, rfl⟩
    simp [execOp, pop, hst]

theorem insnOp_add_of (ins : Int) (h : getType ins = .Prim ∧ getData ins = Prim.Add.code) :
    insnOp ins = .ok .add := by
  unfold insnOp
  simp only [Prim.code] at h
  rw [h.1]
  simp [h.2]

theorem translateTB_first_op (vm : VM) (pc : Nat) (ins : Int) (op : Op) (tb : TB)
    (hf : vm.program_[pc]? = some ins) (hop : insnOp ins = .ok op)
    (hL : 1 ≤ vm.max_tb_insns_) (h : translateTB vm pc = .ok tb) :
    ∃ ops, tb.exec = op :: ops := by
  obtain ⟨n, hn⟩ : ∃ n, vm.max_tb_insns_ = n + 1 := ⟨vm.max_tb_insns_ - 1, by omega⟩
  unfold translateTB at h
  rw [hn, translateLoop_step vm.program_ n _ ins hf, hop] at h
  by_cases hh : op = .halt
  · subst hh
    simp only [Except.ok.injEq] at h
    rw [← h]
    exact ⟨[], by simp⟩
  · have h2 : (match translateLoop vm.program_ n
          { pc := pc + 1, ops := [] ++ [op], debug := "" ++ insnDebug ins } with
        | .error what => Except.error what
        | .ok sc => Except.ok
            { guest_pc := pc, next_pc := sc.pc, compiled_version := vm.program_version_,
              exec := sc.ops, debug := sc.debug }) = Except.ok tb := by
      cases op with
      | halt => exact absurd rfl hh
      | push imm => exact h
      | add => exact h
      | print => exact h
    cases ht : translateLoop vm.program_ n
        { pc := pc + 1, ops := [] ++ [op], debug := "" ++ insnDebug ins } with
    | error w => rw [ht] at h2; cases h2
    | ok sc =>
      rw [ht] at h2
      simp only [Except.ok.injEq] at h2
      obtain ⟨ws, rest, ops, -, -, -, e4, -, -⟩ := translateLoop_sound _ _ _ _ ht
      rw [← h2]
      exact ⟨ops, by rw [e4]; simp⟩

/-- C21. Add: on a stack `s ++ [a, b]` (`b` on top) the Add operation returns with the
stack `s ++ [a + b]`, where `a + b` is the `int32_t` sum (the integer `a + b` whenever that
is a signed 32-bit value), and with pc, running flag and output unchanged; on a stack of
fewer than two elements it throws "stack underflow" and leaves pc, running flag and output
as they were. Hence for every `L >= 1` the run of a program whose first word is Prim Add
throws, with an empty stack and nothing printed, and what it throws is "stack underflow"
whenever the block at pc 0 translates. -/
theorem add_semantics (vm0 : VM) (w0 : Int) (rest : List Int) (trace : Bool) (fuel : Nat)
    (hw : getType w0 = .Prim ∧ getData w0 = Prim.Add.code)
    (hL : 1 ≤ vm0.max_tb_insns_) (hfuel : 1 ≤ fuel) :
    (∀ (h : Host) (s : List Int) (a b : Int), h.s.stack = s ++ [a, b] →
      execOp .add h =
        .done { s := { pc := h.s.pc, running := h.s.running, stack := s ++ [wrapI32 (a + b)] },
                out := h.out } ∧
      (isI32 (a + b) → wrapI32 (a + b) = a + b)) ∧
    (∀ h : Host, h.s.stack.length < 2 →
      ∃ h1, execOp .add h = .thrown "stack underflow" h1 ∧ h1.out = h.out ∧
        h1.s.pc = h.s.pc ∧ h1.s.running = h.s.running) ∧
    ∃ what r, run (loadProgram vm0 (w0 :: rest)) trace fuel = some (.thrown what r) ∧
      r.s.stack = [] ∧ printed r.out = [] ∧
      (∀ tb, translateTB (loadProgram vm0 (w0 :: rest)) 0 = .ok tb →
        what = "stack underflow") := by
  refine ⟨fun h s a b hs => ⟨execOp_add_ok h s a b hs, wrapI32_of_isI32 _⟩, ?_, ?_⟩
  · intro h hs
    obtain ⟨h1, e1, -, e3, e4, e5⟩ := execOp_add_underflow h hs
    exact ⟨h1, e1, e3, e4, e5⟩
  · obtain ⟨f, hf⟩ : ∃ f, fuel = f + 1 := ⟨fuel - 1, by omega⟩
    subst hf
    have hok : CacheOK (loadProgram vm0 (w0 :: rest)) := cacheOK_of_empty _ rfl
    have hadd := insnOp_add_of w0 hw
    unfold run
    rw [runLoop, if_pos rfl, runBody_eq_spec trace _ hok]
    unfold runBodySpec
    rw [if_neg (by simp [loadProgram])]
    simp only []
    cases ht : translateTB (loadProgram vm0 (w0 :: rest)) 0 with
    | error w =>
      refine ⟨w, _, rfl, rfl, ?_, fun tb htb => by cases htb⟩
      simp only [printed_append, printed_lookupLines]
      rfl
    | ok tb =>
      obtain ⟨ops, hops⟩ := translateTB_first_op (loadProgram vm0 (w0 :: rest)) 0 w0 .add tb
        (by simp [loadProgram]) hadd hL ht
      have hx : execOps tb.exec { s := { pc := 0, running := true, stack := [] }, out := [] } =
          .thrown "stack underflow"
            { s := { pc := 0, running := true, stack := [] }, out := [] } := by
        rw [hops]
        simp [execOps, execOp, pop]
      simp only [hx]
      refine ⟨_, _, rfl, rfl, ?_, fun _ _ => rfl⟩
      simp only [printed_append, printed_lookupLines, printed_execLines]
      rfl

/-- C21, on the program `[Prim Add, Prim Halt]` with block length 8, and the evaluation of
that run: it throws "stack underflow" at pc 0. -/
theorem add_semantics_witness :
    ((getType 1073741825 = .Prim ∧ getData 1073741825 = Prim.Add.code) ∧
      1 ≤ (VM.new 8).max_tb_insns_ ∧ 1 ≤ 3) ∧
    enc_prim .Add = 1073741825 ∧ enc_prim .Halt = 1073741824 ∧
    (∃ what r, run (loadProgram (VM.new 8) (1073741825 :: [1073741824])) false 3 =
        some (.thrown what r) ∧
      r.s.stack = [] ∧ printed r.out = [] ∧
      (∀ tb, translateTB (loadProgram (VM.new 8) (1073741825 :: [1073741824])) 0 = .ok tb →
        what = "stack underflow")) ∧
    (run (loadProgram (VM.new 8) [1073741825, 1073741824]) false 3).map
      (fun r => (r.what, r.st.s)) =
      some (some "stack underflow", { pc := 0, running := true, stack := [] }) :=
  ⟨⟨by decide, by decide, by decide⟩, by decide, by decide,
    (add_semantics (VM.new 8) 1073741825 [1073741824] false 3 (by decide) (by decide)
      (by decide)).2.2,
    by decide⟩

/-- C22. Halting run: let `ws` be valid non-Halt words, followed by a Prim Halt word `hw`
(the first Halt, at index `h = ws.length`), such that executing the operations of `ws` in
order from the initial state and then halt returns (no Add underflows). Then for every
`L >= 1` and every fuel above the program size `run` returns, its final guest state is the
one that execution reaches, with `running = false` and `pc = h + 1`, and its Print output is
that of the execution; no word after `hw` has any effect, and when `hw` is the last word the
final pc equals the program size without an out-of-range error. -/
theorem halting_run (vm0 : VM) (ws : List Int) (hw : Int) (rest : List Int) (trace : Bool)
    (fuel : Nat) (hst : Host)
    (hws : ∀ ins ∈ ws, PlainWord ins)
    (hh : getType hw = .Prim ∧ getData hw = Prim.Halt.code)
    (hL : 1 ≤ vm0.max_tb_insns_)
    (hx : execOps (opsOf ws ++ [.halt])
      { s := { pc := 0, running := true, stack := [] }, out := [] } = .done hst)
    (hfuel : (ws ++ hw :: rest).length < fuel) :
    ∃ r, run (loadProgram vm0 (ws ++ hw :: rest)) trace fuel = some (.done r) ∧
      r.s = { pc := ws.length + 1, running := false, stack := hst.s.stack } ∧
      printed r.out = printed hst.out ∧
      (rest = [] → r.s.pc = (ws ++ hw :: rest).length) := by
  have hh1 := (insnOp_halt_iff hw).2 hh
  have hrunning := execOps_halt_last _ _ _ hx
  obtain ⟨r1, g1, g2, g3, -, -⟩ := runLoop_straight trace ws.length ws (Nat.le_refl _) hw rest
    { vm := loadProgram vm0 (ws ++ hw :: rest),
      s := { pc := 0, running := true, stack := [] }, out := [], lookups := [] }
    hst fuel (cacheOK_of_empty _ rfl) hL (by simp [loadProgram]) hws hh1 rfl hx
    (by simp only [List.length_append, List.length_cons] at hfuel; omega)
  refine ⟨r1, g1, ?_, by simpa using g3, ?_⟩
  · rw [g2, ← hrunning]; simp
  · intro hr
    rw [g2, hr]; simp

/-- A run over valid non-Halt words up to the program end, on a coherent cache: if
executing the operations of these words in one go returns, the loop executes them and then
throws the out-of-range error. -/
theorem runLoop_plain_end (trace : Bool) (n : Nat) :
    ∀ (ws : List Int), ws.length ≤ n → ∀ (r : RunState) (hst : Host) (fuel : Nat),
      CacheOK r.vm → 1 ≤ r.vm.max_tb_insns_ →
      r.vm.program_.drop r.s.pc = ws → r.s.pc ≤ r.vm.program_.length →
      (∀ ins ∈ ws, PlainWord ins) → r.s.running = true →
      execOps (opsOf ws) { s := r.s, out := [] } = .done hst →
      ws.length + 1 ≤ fuel →
      ∃ r1, runLoop trace fuel r = some (.thrown "pc out of range (missing halt?)" r1) ∧
        r1.s = { hst.s with pc := r.vm.program_.length } ∧
        printed r1.out = printed r.out ++ printed hst.out := by
  induction n with
  | zero =>
    intro ws hlen r hst fuel hok hL hd hle hws hrun hx hfuel
    have hnil : ws = [] := List.eq_nil_of_length_eq_zero (by omega)
    subst hnil
    obtain ⟨f, hf⟩ : ∃ f, fuel = f + 1 := ⟨fuel - 1, by simp at hfuel; omega⟩
    subst hf
    have hpc : r.s.pc ≥ r.vm.program_.length := by
      have := congrArg List.length hd
      simp only [List.length_drop, List.length_nil] at this
      omega
    simp only [opsOf, List.filterMap_nil, execOps, Res.done.injEq] at hx
    rw [runLoop, if_pos hrun]
    unfold runBody
    rw [if_pos hpc]
    refine ⟨r, rfl, ?_, ?_⟩
    · rw [← hx]
      have : r.s.pc = r.vm.program_.length := by omega
      simp only []
      rw [← this]
    · rw [← hx]; simp [printed]
  | succ n ih =>
    intro ws hlen r hst fuel hok hL hd hle hws hrun hx hfuel
    by_cases hnil : ws = []
    · subst hnil
      obtain ⟨f, hf⟩ : ∃ f, fuel = f + 1 := ⟨fuel - 1, by simp at hfuel; omega⟩
      subst hf
      have hpc : r.s.pc ≥ r.vm.program_.length := by
        have := congrArg List.length hd
        simp only [List.length_drop, List.length_nil] at this
        omega
      simp only [opsOf, List.filterMap_nil, execOps, Res.done.injEq] at hx
      rw [runLoop, if_pos hrun]
      unfold runBody
      rw [if_pos hpc]
      refine ⟨r, rfl, ?_, ?_⟩
      · rw [← hx]
        have : r.s.pc = r.vm.program_.length := by omega
        simp only []
        rw [← this]
      · rw [← hx]; simp [printed]
    · have hpos : 0 < ws.length := List.length_pos.2 hnil
      obtain ⟨f, hf⟩ : ∃ f, fuel = f + 1 := ⟨fuel - 1, by omega⟩
      subst hf
      have hlenp := congrArg List.length hd
      simp only [List.length_drop] at hlenp
      have hpc : ¬ r.s.pc ≥ r.vm.program_.length := by omega
      have hws1 : ∀ ins ∈ ws.take r.vm.max_tb_insns_, PlainWord ins :=
        fun ins hi => hws ins (List.mem_of_mem_take hi)
      have hws2 : ∀ ins ∈ ws.drop r.vm.max_tb_insns_, PlainWord ins :=
        fun ins hi => hws ins (List.mem_of_mem_drop hi)
      have hd1 : r.vm.program_.drop r.s.pc =
          ws.take r.vm.max_tb_insns_ ++ ws.drop r.vm.max_tb_insns_ := by
        rw [List.take_append_drop]; exact hd
      have hl1 : (ws.take r.vm.max_tb_insns_).length = min r.vm.max_tb_insns_ ws.length :=
        List.length_take _ _
      have hl2 : (ws.drop r.vm.max_tb_insns_).length = ws.length - r.vm.max_tb_insns_ :=
        List.length_drop _ _
      have hstop : (ws.take r.vm.max_tb_insns_).length = r.vm.max_tb_insns_ ∨
          (ws.drop r.vm.max_tb_insns_ = [] ∧
            (ws.take r.vm.max_tb_insns_).length ≤ r.vm.max_tb_insns_) := by
        by_cases hge : r.vm.max_tb_insns_ ≤ ws.length
        · left; rw [hl1]; omega
        · right
          exact ⟨List.eq_nil_of_length_eq_zero (by rw [hl2]; omega), by rw [hl1]; omega⟩
      have ht := translateTB_of_plain_run r.vm r.s.pc _ _ hd1 hws1 hstop
      have hx1 : execOps (opsOf (ws.take r.vm.max_tb_insns_) ++
          opsOf (ws.drop r.vm.max_tb_insns_)) { s := r.s, out := [] } = .done hst := by
        rw [← opsOf_append, List.take_append_drop]; exact hx
      rw [execOps_append] at hx1
      cases hxa : execOps (opsOf (ws.take r.vm.max_tb_insns_)) { s := r.s, out := [] } with
      | thrown w hh1 => rw [hxa] at hx1; cases hx1
      | done h1 =>
        rw [hxa] at hx1
        simp only [] at hx1
        obtain ⟨hk1, hk2⟩ := execOps_keeps _ _ _ hxa (opsOf_no_halt _ hws1)
        simp only [] at hk1 hk2
        have hx2 : execOps (opsOf (ws.drop r.vm.max_tb_insns_))
            { s := h1.s, out := h1.out } = .done hst := hx1
        rw [execOps_out] at hx2
        cases hxb : execOps (opsOf (ws.drop r.vm.max_tb_insns_))
            { s := h1.s, out := [] } with
        | thrown w hh2 => rw [hxb] at hx2; cases hx2
        | done h2 =>
          rw [hxb] at hx2
          simp only [Res.map, Host.prepend, Res.done.injEq] at hx2
          have hxc : execOps (opsOf (ws.drop r.vm.max_tb_insns_))
              { s := { h1.s with pc := r.s.pc + (ws.take r.vm.max_tb_insns_).length },
                out := [] } =
              .done { s := { h2.s with pc := r.s.pc + (ws.take r.vm.max_tb_insns_).length },
                      out := h2.out } := by
            rw [execOps_pc, hxb]; rfl
          have sc := sameCode_cacheAfter r.vm r.s.pc
            { guest_pc := r.s.pc, next_pc := r.s.pc + (ws.take r.vm.max_tb_insns_).length,
              compiled_version := r.vm.program_version_,
              exec := opsOf (ws.take r.vm.max_tb_insns_),
              debug := debugOf "" (ws.take r.vm.max_tb_insns_) }
          have okA := cacheOK_cacheAfter _ hok _ _ ht
          obtain ⟨r1, g1, g2, g3⟩ := ih (ws.drop r.vm.max_tb_insns_) (by omega)
            { vm := cacheAfter r.vm r.s.pc
                { guest_pc := r.s.pc, next_pc := r.s.pc + (ws.take r.vm.max_tb_insns_).length,
                  compiled_version := r.vm.program_version_,
                  exec := opsOf (ws.take r.vm.max_tb_insns_),
                  debug := debugOf "" (ws.take r.vm.max_tb_insns_) },
              s := { h1.s with pc := r.s.pc + (ws.take r.vm.max_tb_insns_).length },
              out := r.out ++ lookupLines trace r.s.pc (TBCache.find r.vm.tb_cache_ r.s.pc).isSome
                ++ execLines trace
                  { guest_pc := r.s.pc,
                    next_pc := r.s.pc + (ws.take r.vm.max_tb_insns_).length,
                    compiled_version := r.vm.program_version_,
                    exec := opsOf (ws.take r.vm.max_tb_insns_),
                    debug := debugOf "" (ws.take r.vm.max_tb_insns_) }
                ++ h1.out ++ tosLines trace h1.s.stack,
              lookups := r.lookups ++ [(r.s.pc, (TBCache.find r.vm.tb_cache_ r.s.pc).isSome)] }
            { s := { h2.s with pc := r.s.pc + (ws.take r.vm.max_tb_insns_).length },
              out := h2.out } f
            okA (by simp only []; rw [sc.2.1]; exact hL)
            (by
              simp only []
              rw [sc.1, ← List.drop_drop, hd1, List.drop_left])
            (by simp only []; rw [sc.1, hl1]; omega)
            hws2 (by simp only []; rw [hk2]; exact hrun) hxc (by omega)
          rw [runLoop, if_pos hrun, runBody_eq_spec trace r hok]
          unfold runBodySpec
          rw [if_neg hpc, ht]
          simp only [hxa]
          refine ⟨r1, g1, ?_, ?_⟩
          · rw [g2, ← hx2]
            simp only []
            rw [sc.1]
          · rw [g3, ← hx2]
            simp only [printed_append, printed_lookupLines, printed_execLines, printed_tosLines,
              List.append_nil, List.append_assoc, List.nil_append]

/-- C23. Missing halt: let the program `ws` consist of valid non-Halt words whose operations,
executed in order from the initial state, return (no Add underflows). Then for every
`L >= 1` and every fuel above the program size `run` throws "pc out of range (missing
halt?)" with the guest state that execution reaches, `running` still true and pc equal to
the program size, and with its Print output. On an object whose program is empty `run`
throws that error at once, with nothing changed. -/
theorem missing_halt (vm0 : VM) (ws : List Int) (trace : Bool) (fuel : Nat) (hst : Host)
    (hws : ∀ ins ∈ ws, PlainWord ins)
    (hL : 1 ≤ vm0.max_tb_insns_)
    (hx : execOps (opsOf ws)
      { s := { pc := 0, running := true, stack := [] }, out := [] } = .done hst)
    (hfuel : ws.length < fuel) :
    (∃ r, run (loadProgram vm0 ws) trace fuel =
        some (.thrown "pc out of range (missing halt?)" r) ∧
      r.s = { pc := ws.length, running := true, stack := hst.s.stack } ∧
      printed r.out = printed hst.out) ∧
    ∀ (vm : VM) (t : Bool) (f : Nat), vm.program_ = [] → 1 ≤ f →
      run vm t f = some (.thrown "pc out of range (missing halt?)"
        { vm := vm, s := { pc := 0, running := true, stack := [] }, out := [], lookups := [] }) := by
  constructor
  · obtain ⟨hk1, hk2⟩ := execOps_keeps _ _ _ hx (opsOf_no_halt _ hws)
    simp only [] at hk1 hk2
    obtain ⟨r1, g1, g2, g3⟩ := runLoop_plain_end trace ws.length ws (Nat.le_refl _)
      { vm := loadProgram vm0 ws,
        s := { pc := 0, running := true, stack := [] }, out := [], lookups := [] }
      hst fuel (cacheOK_of_empty _ rfl) hL (by simp [loadProgram]) (by simp) hws rfl hx
      (by omega)
    refine ⟨r1, g1, ?_, by simpa using g3⟩
    rw [g2, ← hk2]
    simp [loadProgram]
  · intro vm t f hp hf
    obtain ⟨g, hg⟩ : ∃ g, f = g + 1 := ⟨f - 1, by omega⟩
    subst hg
    unfold run
    rw [runLoop, if_pos rfl]
    unfold runBody
    rw [if_pos (by simp [hp])]

theorem keysBelow_cacheAfter (vm : VM) (pc n : Nat) (tb : TB) (hk : KeysBelow vm pc)
    (hlt : pc < n) : KeysBelow (cacheAfter vm pc tb) n := by
  intro k e hke
  have hnone : TBCache.find vm.tb_cache_ pc = none := by
    cases hf : TBCache.find vm.tb_cache_ pc with
    | none => rfl
    | some e1 => exact absurd (hk _ e1 hf) (Nat.lt_irrefl _)
  simp only [cacheAfter, hnone] at hke
  cases hfk : TBCache.find vm.tb_cache_ k with
  | some e2 =>
    have := hk k e2 hfk
    omega
  | none =>
    rw [find_append_of_none _ _ _ _ hfk] at hke
    by_cases hpk : pc = k
    · omega
    · rw [if_neg hpk] at hke
      cases hke

/-- A run that returns, started with all cache keys below pc: the cache grows by one
block per lookup, every lookup misses, and the new blocks tile the program from the
starting pc to the final one. -/
theorem runLoop_done_tiles (trace : Bool) (fuel : Nat) (r r1 : RunState)
    (hok : CacheOK r.vm) (hL : 1 ≤ r.vm.max_tb_insns_) (hk : KeysBelow r.vm r.s.pc)
    (h : runLoop trace fuel r = some (.done r1)) :
    ∃ blocks, r1.vm.tb_cache_ = r.vm.tb_cache_ ++ blocks ∧
      r1.lookups = r.lookups ++ blocks.map (fun e => (e.1, false)) ∧
      (∀ e ∈ blocks, translateTB r.vm e.1 = .ok e.2 ∧ e.1 < e.2.next_pc) ∧
      Tiles r.s.pc blocks r1.s.pc := by
  induction fuel generalizing r with
  | zero => simp [runLoop] at h
  | succ n ih =>
    rw [runLoop] at h
    by_cases hrun : r.s.running = true
    · rw [if_pos hrun, runBody_eq_spec trace r hok] at h
      have hnone : TBCache.find r.vm.tb_cache_ r.s.pc = none := by
        cases hf : TBCache.find r.vm.tb_cache_ r.s.pc with
        | none => rfl
        | some e => exact absurd (hk _ e hf) (Nat.lt_irrefl _)
      unfold runBodySpec at h
      by_cases hpc : r.s.pc ≥ r.vm.program_.length
      · rw [if_pos hpc] at h; cases h
      · rw [if_neg hpc] at h
        cases ht : translateTB r.vm r.s.pc with
        | error w => rw [ht] at h; cases h
        | ok tb =>
          rw [ht] at h
          simp only [hnone, Option.isSome_none] at h
          have hgt := translateTB_next_pc_gt r.vm r.s.pc tb hL (by omega) ht
          cases hx : execOps tb.exec { s := r.s, out := [] } with
          | thrown w hh => rw [hx] at h; cases h
          | done hh =>
            rw [hx] at h
            simp only [] at h
            have sc := sameCode_cacheAfter r.vm r.s.pc tb
            obtain ⟨blocks, b1, b2, b3, b4⟩ := ih _ (cacheOK_cacheAfter _ hok _ _ ht)
              (by simp only []; rw [sc.2.1]; exact hL)
              (keysBelow_cacheAfter r.vm r.s.pc _ tb hk hgt) h
            simp only [] at b1 b2 b3 b4
            refine ⟨(r.s.pc, tb) :: blocks, ?_, ?_, ?_, ?_⟩
            · rw [b1]; simp [cacheAfter, hnone]
            · rw [b2]; simp
            · intro e he
              rcases List.mem_cons.1 he with he | he
              · rw [he]; exact ⟨ht, hgt⟩
              · rw [← translateTB_congr r.vm _ sc]; exact b3 e he
            · exact ⟨rfl, b4⟩
    · rw [if_neg hrun] at h
      simp only [Option.some.injEq, Res.done.injEq] at h
      subst h
      exact ⟨[], by simp, by simp, by simp, rfl⟩

theorem tiles_bounds : ∀ (bs : List (Nat × TB)) (a b : Nat), Tiles a bs b →
    (∀ e ∈ bs, e.1 < e.2.next_pc) →
    a ≤ b ∧ (bs ≠ [] → a < b) ∧ ∀ e ∈ bs, a ≤ e.1 ∧ e.1 < b := by
  intro bs
  induction bs with
  | nil =>
    intro a b ht _
    simp only [Tiles] at ht
    exact ⟨by omega, fun hne => absurd rfl hne, fun e he => by simp at he⟩
  | cons e t ih =>
    intro a b ht hp
    simp only [Tiles] at ht
    obtain ⟨h1, h2⟩ := ht
    have hpe := hp e (List.mem_cons_self _ _)
    obtain ⟨i1, -, i3⟩ := ih _ b h2 (fun x hx => hp x (List.mem_cons_of_mem _ hx))
    refine ⟨by omega, fun _ => by omega, ?_⟩
    intro x hx
    rcases List.mem_cons.1 hx with hx | hx
    · rw [hx]; omega
    · have := i3 x hx
      omega

theorem range_map_shift (a L q : Nat) :
    (List.range (q + 1)).map (fun i => a + i * L) =
      a :: (List.range q).map (fun i => a + L + i * L) := by
  rw [List.range_succ_eq_map, List.map_cons, List.map_map]
  congr 1
  · simp
  · apply List.map_congr_left
    intro i _
    simp only [Function.comp, Nat.succ_eq_add_one, Nat.add_mul, Nat.one_mul]
    omega

theorem tiles_keys (L h : Nat) (hL : 1 ≤ L) : ∀ (bs : List (Nat × TB)) (a : Nat), a ≤ h →
    Tiles a bs (h + 1) → (∀ e ∈ bs, e.1 < e.2.next_pc) →
    (∀ e ∈ bs, e.1 ≤ h → e.2.next_pc = min (e.1 + L) (h + 1)) →
    bs.map Prod.fst = (List.range ((h - a) / L + 1)).map (fun i => a + i * L) := by
  intro bs
  induction bs with
  | nil =>
    intro a ha ht _ _
    simp only [Tiles] at ht
    omega
  | cons e t ih =>
    intro a ha ht hp hn
    simp only [Tiles] at ht
    obtain ⟨h1, h2⟩ := ht
    have hne := hn e (List.mem_cons_self _ _) (by omega)
    by_cases hcase : a + L ≤ h
    · have hnext : e.2.next_pc = a + L := by rw [hne, h1]; omega
      rw [hnext] at h2
      have iht := ih (a + L) hcase h2 (fun x hx => hp x (List.mem_cons_of_mem _ hx))
        (fun x hx => hn x (List.mem_cons_of_mem _ hx))
      have hdiv : (h - a) / L = (h - (a + L)) / L + 1 := by
        rw [Nat.div_eq_sub_div (by omega) (by omega)]
        congr 2
        omega
      rw [List.map_cons, h1, iht, hdiv, range_map_shift a L ((h - (a + L)) / L + 1)]
    · have hnext : e.2.next_pc = h + 1 := by rw [hne, h1]; omega
      rw [hnext] at h2
      have ht0 : t = [] := by
        by_contra hcon
        have := (tiles_bounds t _ _ h2 (fun x hx => hp x (List.mem_cons_of_mem _ hx))).2.1 hcon
        omega
      have hdiv : (h - a) / L = 0 := Nat.div_eq_of_lt (by omega)
      rw [ht0, hdiv]
      simp [h1, List.range_succ]

theorem translateTB_next_pc_straight (vm : VM) (ws : List Int) (hw : Int) (rest : List Int)
    (hp : vm.program_ = ws ++ hw :: rest) (hws : ∀ ins ∈ ws, PlainWord ins)
    (hh : insnOp hw = .ok .halt) (a : Nat) (ha : a ≤ ws.length) (tb : TB)
    (ht : translateTB vm a = .ok tb) :
    tb.next_pc = min (a + vm.max_tb_insns_) (ws.length + 1) := by
  have hd : vm.program_.drop a = ws.drop a ++ hw :: rest := by
    rw [hp, List.drop_append_of_le_length ha]
  have hws2 : ∀ ins ∈ ws.drop a, PlainWord ins :=
    fun ins hi => hws ins (List.mem_of_mem_drop hi)
  have hl : (ws.drop a).length = ws.length - a := List.length_drop _ _
  by_cases hk : (ws.drop a).length < vm.max_tb_insns_
  · have := translateTB_of_halt_after vm a (ws.drop a) hw rest hd hws2 hh hk
    rw [ht] at this
    simp only [Except.ok.injEq] at this
    rw [this]
    simp only []
    omega
  · have hd1 : vm.program_.drop a = (ws.drop a).take vm.max_tb_insns_ ++
        ((ws.drop a).drop vm.max_tb_insns_ ++ hw :: rest) := by
      rw [← List.append_assoc, List.take_append_drop]; exact hd
    have hl1 : ((ws.drop a).take vm.max_tb_insns_).length = vm.max_tb_insns_ := by
      rw [List.length_take]; omega
    have := translateTB_of_plain_run vm a _ _ hd1
      (fun ins hi => hws2 ins (List.mem_of_mem_take hi)) (Or.inl hl1)
    rw [ht] at this
    simp only [Except.ok.injEq] at this
    rw [this]
    simp only []
    omega

/-- C30. Cache contents after a run: under the hypotheses of C22 (first Halt at index
`h = ws.length`, valid words, no underflow, `L >= 1`), a run started right after
`loadProgram` returns with a cache whose keys, in insertion order, are
`0, L, 2L, .., (h / L) * L`, each once; the entry under key `pc` has `guest_pc = pc` and
`next_pc = min (pc + L) (h + 1)` and is the block `translateTB` returns for `pc`; and the
entries tile `[0, h + 1)`: the first starts at 0, each `next_pc` is the key of the next
entry, and the last `next_pc` is `h + 1`. -/
theorem cache_after_run (vm0 : VM) (ws : List Int) (hw : Int) (rest : List Int) (trace : Bool)
    (fuel : Nat) (hst : Host)
    (hws : ∀ ins ∈ ws, PlainWord ins)
    (hh : getType hw = .Prim ∧ getData hw = Prim.Halt.code)
    (hL : 1 ≤ vm0.max_tb_insns_)
    (hx : execOps (opsOf ws ++ [.halt])
      { s := { pc := 0, running := true, stack := [] }, out := [] } = .done hst)
    (hfuel : (ws ++ hw :: rest).length < fuel) :
    ∃ r, run (loadProgram vm0 (ws ++ hw :: rest)) trace fuel = some (.done r) ∧
      r.vm.tb_cache_.map Prod.fst =
        (List.range (ws.length / vm0.max_tb_insns_ + 1)).map (fun i => i * vm0.max_tb_insns_) ∧
      (∀ e ∈ r.vm.tb_cache_, e.2.guest_pc = e.1 ∧
        e.2.next_pc = min (e.1 + vm0.max_tb_insns_) (ws.length + 1) ∧
        translateTB r.vm e.1 = .ok e.2) ∧
      Tiles 0 r.vm.tb_cache_ (ws.length + 1) := by
  have hh1 := (insnOp_halt_iff hw).2 hh
  have hok : CacheOK (loadProgram vm0 (ws ++ hw :: rest)) := cacheOK_of_empty _ rfl
  obtain ⟨r1, g1, g2, -, -, g5⟩ := runLoop_straight trace ws.length ws (Nat.le_refl _) hw rest
    { vm := loadProgram vm0 (ws ++ hw :: rest),
      s := { pc := 0, running := true, stack := [] }, out := [], lookups := [] }
    hst fuel hok hL (by simp [loadProgram]) hws hh1 rfl hx
    (by simp only [List.length_append, List.length_cons] at hfuel; omega)
  obtain ⟨blocks, b1, -, b3, b4⟩ := runLoop_done_tiles trace fuel _ r1 hok hL
    (by intro k e hk; simp [loadProgram, TBCache.find] at hk) g1
  simp only [loadProgram, List.nil_append] at b1
  have hpc : r1.s.pc = ws.length + 1 := by rw [g2]; simp
  rw [hpc] at b4
  simp only [] at b4
  have hnext : ∀ e ∈ blocks, e.1 ≤ ws.length →
      e.2.next_pc = min (e.1 + vm0.max_tb_insns_) (ws.length + 1) := by
    intro e he hle
    exact translateTB_next_pc_straight (loadProgram vm0 (ws ++ hw :: rest)) ws hw rest rfl hws
      hh1 e.1 hle e.2 (b3 e he).1
  have hprog := fun e he => (b3 e he).2
  have hkeys := tiles_keys vm0.max_tb_insns_ ws.length hL blocks 0 (Nat.zero_le _) b4 hprog hnext
  have hbounds := (tiles_bounds blocks 0 _ b4 hprog).2.2
  refine ⟨r1, g1, ?_, ?_, ?_⟩
  · rw [b1, hkeys]
    simp
  · intro e he
    rw [b1] at he
    obtain ⟨t1, t2⟩ := b3 e he
    refine ⟨(translateTB_stamp _ _ _ t1).2, hnext e he (by have := hbounds e he; omega), ?_⟩
    rw [translateTB_congr _ _ g5]
    exact t1
  · rw [b1]; exact b4

theorem execOp_print_only (op : Op) (s : State) :
    (execOp op { s := s, out := [] }).st.out.filter Line.isPrint =
      (execOp op { s := s, out := [] }).st.out := by
  cases op with
  | push imm => rfl
  | halt => rfl
  | add =>
    simp only [execOp]
    cases h1 : pop s with
    | error w => rfl
    | ok p =>
      obtain ⟨b, s1⟩ := p
      simp only []
      cases h2 : pop s1 with
      | error w => rfl
      | ok q => rfl
  | print =>
    simp only [execOp]
    cases s.stack.getLast? <;> rfl

theorem execOps_print_only (ops : List Op) (s : State) :
    (execOps ops { s := s, out := [] }).st.out.filter Line.isPrint =
      (execOps ops { s := s, out := [] }).st.out := by
  induction ops generalizing s with
  | nil => rfl
  | cons op rest ih =>
    simp only [execOps]
    have h1 := execOp_print_only op s
    cases hx : execOp op { s := s, out := [] } with
    | thrown w h =>
      rw [hx] at h1
      exact h1
    | done h =>
      rw [hx] at h1
      simp only [Res.st] at h1
      obtain ⟨s1, o1⟩ := h
      simp only []
      rw [execOps_out]
      have h2 := ih s1
      cases hy : execOps rest { s := s1, out := [] } with
      | thrown w hh =>
        rw [hy] at h2
        simp only [Res.st] at h2
        simp only [Res.map, Res.st, Host.prepend, List.filter_append]
        rw [h1, h2]
      | done hh =>
        rw [hy] at h2
        simp only [Res.st] at h2
        simp only [Res.map, Res.st, Host.prepend, List.filter_append]
        rw [h1, h2]

theorem getOrTranslateTB_erase (vm : VM) (pc : Nat) (out : List Line) :
    getOrTranslateTB vm pc false (out.filter Line.isPrint) =
      match getOrTranslateTB vm pc true out with
      | .ok f => .ok { f with out := f.out.filter Line.isPrint }
      | .error (w, o) => .error (w, o.filter Line.isPrint) := by
  unfold getOrTranslateTB
  cases hitEntry vm pc with
  | some e => simp [List.filter_append, Line.isPrint]
  | none =>
    simp only []
    cases translateTB vm pc with
    | error w => simp [List.filter_append, Line.isPrint]
    | ok tb => simp [List.filter_append, Line.isPrint]

theorem runBody_erase (r : RunState) :
    runBody false (eraseTrace r) = Res.map eraseTrace (runBody true r) := by
  unfold runBody
  simp only [eraseTrace]
  by_cases hpc : r.s.pc ≥ r.vm.program_.length
  · rw [if_pos hpc, if_pos hpc]
    rfl
  · rw [if_neg hpc, if_neg hpc, getOrTranslateTB_erase]
    cases hg : getOrTranslateTB r.vm r.s.pc true r.out with
    | error e =>
      obtain ⟨w, o⟩ := e
      rfl
    | ok f =>
      simp only [if_true, Bool.false_eq_true, if_false]
      rw [execOps_out f.tb.exec r.s (List.filter Line.isPrint f.out)]
      rw [execOps_out f.tb.exec r.s (f.out ++ _)]
      have hp := execOps_print_only f.tb.exec r.s
      cases hx : execOps f.tb.exec { s := r.s, out := [] } with
      | thrown w h =>
        rw [hx] at hp
        simp only [Res.st] at hp
        simp only [Res.map, Host.prepend, eraseTrace, List.filter_append]
        rw [hp]
        simp [Line.isPrint]
      | done h =>
        rw [hx] at hp
        simp only [Res.st] at hp
        simp only [Res.map, Host.prepend, eraseTrace]
        cases h.s.stack.getLast? <;> simp [Line.isPrint, List.filter_append, hp]

theorem runLoop_erase (fuel : Nat) (r : RunState) :
    runLoop false fuel (eraseTrace r) = (runLoop true fuel r).map (Res.map eraseTrace) := by
  induction fuel generalizing r with
  | zero => rfl
  | succ n ih =>
    rw [runLoop, runLoop, runBody_erase]
    have hs : (eraseTrace r).s = r.s := rfl
    rw [hs]
    by_cases hrun : r.s.running = true
    · rw [if_pos hrun, if_pos hrun]
      cases hx : runBody true r with
      | thrown w r1 => rfl
      | done r1 =>
        simp only [Res.map]
        exact ih r1
    · rw [if_neg hrun, if_neg hrun]
      rfl

theorem printed_filter (out : List Line) : printed (out.filter Line.isPrint) = printed out := by
  unfold printed
  induction out with
  | nil => rfl
  | cons l t ih =>
    cases l with
    | trace text => simp [List.filter_cons, Line.isPrint, List.filterMap_cons, ih]
    | print text => simp [List.filter_cons, Line.isPrint, List.filterMap_cons, ih]

/-- C24. Trace is a pure side channel: for every object and every fuel, `run(false)` is
`run(true)` with the trace lines removed from the output. So when `run(true)` ends,
`run(false)` ends the same way (returns, or throws the same message), with the same pc,
running flag and stack, the same object (program, version, cache), the same sequence of
cache hits and misses and the same Print output, and its output is that of `run(true)`
without the trace lines; and when `run(true)` does not end within the fuel, neither does
`run(false)`. -/
theorem trace_side_channel (vm : VM) (fuel : Nat) :
    run vm false fuel = (run vm true fuel).map (Res.map eraseTrace) ∧
    (∀ rt, run vm true fuel = some rt →
      ∃ rf, run vm false fuel = some rf ∧ rf.what = rt.what ∧ rf.st.s = rt.st.s ∧
        rf.st.vm = rt.st.vm ∧ rf.st.lookups = rt.st.lookups ∧
        printed rf.st.out = printed rt.st.out ∧
        rf.st.out = rt.st.out.filter Line.isPrint) ∧
    (run vm true fuel = none → run vm false fuel = none) := by
  have h : run vm false fuel = (run vm true fuel).map (Res.map eraseTrace) := by
    unfold run
    exact runLoop_erase fuel
      { vm := vm, s := { pc := 0, running := true, stack := [] }, out := [], lookups := [] }
  refine ⟨h, ?_, ?_⟩
  · intro rt hrt
    rw [hrt] at h
    refine ⟨_, h, ?_⟩
    cases rt with
    | done a =>
      exact ⟨rfl, rfl, rfl, rfl, printed_filter _, rfl⟩
    | thrown w a =>
      exact ⟨rfl, rfl, rfl, rfl, printed_filter _, rfl⟩
  · intro hn
    rw [hn] at h
    exact h

/-- C25. Runs do not leak state into each other: for every program, every `L >= 1` and
every fuel above the program size, the run after `loadProgram` and a second run on the
object the first left behind both end, with the same outcome (both return, or both throw
the same message), the same final pc, running flag and stack and the same Print output,
whatever their trace flags; every lookup of the first run is a miss and, when the first
run returned, every lookup of the second is a hit. -/
theorem consecutive_runs (vm0 : VM) (p : List Int) (t1 t2 : Bool) (fuel : Nat)
    (hL : 1 ≤ vm0.max_tb_insns_) (hfuel : p.length < fuel) :
    ∃ r1 r2, run (loadProgram vm0 p) t1 fuel = some r1 ∧ run r1.st.vm t2 fuel = some r2 ∧
      r1.what = r2.what ∧ r1.st.s = r2.st.s ∧ printed r1.st.out = printed r2.st.out ∧
      (∀ x ∈ r1.st.lookups, x.2 = false) ∧
      (r1.what = none → ∀ x ∈ r2.st.lookups, x.2 = true) := by
  have okA : CacheOK (loadProgram vm0 p) := cacheOK_of_empty _ rfl
  obtain ⟨r1, h1⟩ := run_terminates (loadProgram vm0 p) t1 fuel okA hL hfuel
  obtain ⟨ok1, sc1, -, -⟩ := runLoop_inv t1 fuel _ r1 okA h1
  simp only [] at sc1
  have hlen : r1.st.vm.program_.length < fuel := by rw [sc1.1]; exact hfuel
  obtain ⟨r2, h2⟩ := run_terminates r1.st.vm t2 fuel ok1 (by rw [sc1.2.1]; exact hL) hlen
  have hag := run_agree (loadProgram vm0 p) r1.st.vm t1 t2 fuel r1 r2 sc1.1.symm sc1.2.1.symm
    okA ok1 h1 h2
  have hmiss := runLoop_all_miss t1 fuel _ r1 okA hL
    (by intro k e hk; simp [loadProgram, TBCache.find] at hk)
    (by intro x hx; simp at hx) h1
  refine ⟨r1, r2, h1, h2, hag.1, hag.2.1, hag.2.2, hmiss, ?_⟩
  intro hnone
  cases r1 with
  | thrown w a => simp [Res.what] at hnone
  | done a =>
    obtain ⟨r2a, l, g1, -, -, -, g5⟩ := runLoop_hot t1 t2 fuel _ a okA h1
      { vm := a.vm, s := { pc := 0, running := true, stack := [] }, out := [], lookups := [] }
      rfl rfl
    simp only [Res.st] at h2
    unfold run at h2
    rw [g1] at h2
    simp only [Option.some.injEq] at h2
    rw [← h2]
    simp only [Res.st, List.nil_append] at g5 ⊢
    intro x hx
    rw [g5] at hx
    obtain ⟨y, -, hy⟩ := List.mem_map.1 hx
    rw [← hy]

theorem find_mem (c : TBCache) (pc : Nat) (tb : TB) (h : TBCache.find c pc = some tb) :
    (pc, tb) ∈ c := by
  induction c with
  | nil => simp [TBCache.find] at h
  | cons x rest ih =>
    obtain ⟨k, e⟩ := x
    simp only [TBCache.find] at h
    by_cases hk : k = pc
    · simp only [hk, if_true, Option.some.injEq] at h
      rw [hk, h]
      exact List.mem_cons_self _ _
    · simp only [hk, if_false] at h
      exact List.mem_cons_of_mem _ (ih h)

theorem cacheOK_of_cacheAll (vm : VM) (h : CacheAll vm) : CacheOK vm :=
  fun pc tb hf => h (pc, tb) (find_mem _ _ _ hf)

theorem cacheAll_of_empty (vm : VM) (h : vm.tb_cache_ = []) : CacheAll vm := by
  intro e he
  rw [h] at he
  simp at he

theorem cacheAll_cacheAfter (vm : VM) (hall : CacheAll vm) (pc : Nat) (tb : TB)
    (ht : translateTB vm pc = .ok tb) : CacheAll (cacheAfter vm pc tb) := by
  intro e he
  rw [translateTB_congr vm _ (sameCode_cacheAfter vm pc tb)]
  unfold cacheAfter at he
  cases hf : TBCache.find vm.tb_cache_ pc with
  | some e1 =>
    simp only [hf] at he
    exact hall e he
  | none =>
    simp only [hf, List.mem_append, List.mem_singleton] at he
    rcases he with he | he
    · exact hall e he
    · rw [he]; exact ht

theorem runBodySpec_cacheAll (trace : Bool) (r : RunState) (hall : CacheAll r.vm) :
    CacheAll (runBodySpec trace r).st.vm := by
  unfold runBodySpec
  by_cases hpc : r.s.pc ≥ r.vm.program_.length
  · rw [if_pos hpc]; exact hall
  · rw [if_neg hpc]
    cases ht : translateTB r.vm r.s.pc with
    | error w => exact hall
    | ok tb =>
      simp only []
      cases hx : execOps tb.exec { s := r.s, out := [] } with
      | thrown w h => exact cacheAll_cacheAfter _ hall _ _ ht
      | done h => exact cacheAll_cacheAfter _ hall _ _ ht

theorem runLoop_cacheAll (trace : Bool) (fuel : Nat) (r : RunState) (res : Res RunState)
    (hall : CacheAll r.vm) (h : runLoop trace fuel r = some res) : CacheAll res.st.vm := by
  induction fuel generalizing r with
  | zero => simp [runLoop] at h
  | succ n ih =>
    rw [runLoop] at h
    by_cases hrun : r.s.running = true
    · rw [if_pos hrun, runBody_eq_spec trace r (cacheOK_of_cacheAll _ hall)] at h
      have hb := runBodySpec_cacheAll trace r hall
      cases hx : runBodySpec trace r with
      | thrown w r1 =>
        rw [hx] at h hb
        simp only [Option.some.injEq] at h
        subst h
        exact hb
      | done r1 =>
        rw [hx] at h hb
        exact ih r1 hb h
    · rw [if_neg hrun] at h
      simp only [Option.some.injEq] at h
      subst h
      exact hall

theorem cacheAll_of_reachable (vm : VM) (h : Reachable vm) : CacheAll vm := by
  induction h with
  | ctor L => exact cacheAll_of_empty _ rfl
  | load vm prog _ _ => exact cacheAll_of_empty _ rfl
  | patched vm index w _ ih =>
    unfold patch
    by_cases hi : index ≥ vm.program_.length
    · rw [if_pos hi]; exact ih
    · rw [if_neg hi]; exact cacheAll_of_empty _ rfl
  | ran vm trace fuel res _ hrun ih => exact runLoop_cacheAll trace fuel _ res ih hrun

/-- C29. Cache coherence invariant: in every object state reached from construction by
`loadProgram`, `patch` and `run` calls, failing ones included, every entry of `tb_cache_`
has `guest_pc` equal to its key and `compiled_version == program_version_` and is the
block `translateTB` returns for its key on the current program. Hence an entry found under
`pc` passes the version test of `getOrTranslateTB`, and a lookup that returns through the
miss branch found no entry under `pc`. -/
theorem cache_coherence_invariant (vm : VM) (h : Reachable vm) :
    (∀ e ∈ vm.tb_cache_, e.2.guest_pc = e.1 ∧ e.2.compiled_version = vm.program_version_ ∧
      translateTB vm e.1 = .ok e.2) ∧
    (∀ pc e, TBCache.find vm.tb_cache_ pc = some e → hitEntry vm pc = some e) ∧
    (∀ pc trace out f, getOrTranslateTB vm pc trace out = .ok f → f.hit = false →
      TBCache.find vm.tb_cache_ pc = none) := by
  have hall := cacheAll_of_reachable vm h
  have hfind : ∀ pc e, TBCache.find vm.tb_cache_ pc = some e → hitEntry vm pc = some e := by
    intro pc e hf
    have ht := hall (pc, e) (find_mem _ _ _ hf)
    unfold hitEntry
    rw [hf]
    simp only [(translateTB_stamp vm pc e ht).1, if_true]
  refine ⟨?_, hfind, ?_⟩
  · intro e he
    have ht := hall e he
    exact ⟨(translateTB_stamp _ _ _ ht).2, (translateTB_stamp _ _ _ ht).1, ht⟩
  · intro pc trace out f hg hhit
    cases hf : TBCache.find vm.tb_cache_ pc with
    | none => rfl
    | some e =>
      have hh := hfind pc e hf
      unfold getOrTranslateTB at hg
      rw [hh] at hg
      simp only [Except.ok.injEq] at hg
      rw [← hg] at hhit
      cases hhit

theorem runLoop_lookups_le (trace : Bool) (fuel : Nat) (r : RunState) (res : Res RunState)
    (hok : CacheOK r.vm) (hL : 1 ≤ r.vm.max_tb_insns_) (h : runLoop trace fuel r = some res) :
    res.st.lookups.length + min r.s.pc r.vm.program_.length ≤
      r.lookups.length + r.vm.program_.length := by
  induction fuel generalizing r with
  | zero => simp [runLoop] at h
  | succ n ih =>
    rw [runLoop] at h
    by_cases hrun : r.s.running = true
    · rw [if_pos hrun, runBody_eq_spec trace r hok] at h
      have hinv := runBodySpec_inv trace r hok
      unfold runBodySpec at h hinv
      by_cases hpc : r.s.pc ≥ r.vm.program_.length
      · rw [if_pos hpc] at h
        simp only [Option.some.injEq] at h
        subst h
        simp only [Res.st]
        omega
      · rw [if_neg hpc] at h hinv
        cases ht : translateTB r.vm r.s.pc with
        | error w =>
          rw [ht] at h
          simp only [Option.some.injEq] at h
          subst h
          simp only [Res.st, List.length_append, List.length_singleton]
          omega
        | ok tb =>
          rw [ht] at h hinv
          simp only [] at h hinv
          have hgt := translateTB_next_pc_gt r.vm r.s.pc tb hL (by omega) ht
          cases hx : execOps tb.exec { s := r.s, out := [] } with
          | thrown w h1 =>
            rw [hx] at h
            simp only [Option.some.injEq] at h
            subst h
            simp only [Res.st, List.length_append, List.length_singleton]
            omega
          | done h1 =>
            rw [hx] at h hinv
            simp only [Res.st] at h hinv
            obtain ⟨ok1, sc1, -, -⟩ := hinv
            have := ih _ ok1 (by rw [sc1.2.1]; exact hL) h
            simp only [List.length_append, List.length_singleton, sc1.1] at this
            omega
    · rw [if_neg hrun] at h
      simp only [Option.some.injEq] at h
      subst h
      simp only [Res.st]
      omega

/-- C26. The method `run` always ends for a positive block length: on every object state
reached through the public interface with `L >= 1`, and for every fuel above the program
size, `run` ends (returns or throws) after at most program-size cache lookups, hence at
most that many block executions; and every block `getOrTranslateTB` returns for a pc inside
the program has `next_pc > pc`. -/
theorem run_always_ends (vm : VM) (trace : Bool) (fuel : Nat) (hr : Reachable vm)
    (hL : 1 ≤ vm.max_tb_insns_) (hfuel : vm.program_.length < fuel) :
    (∃ res, run vm trace fuel = some res ∧ res.st.lookups.length ≤ vm.program_.length) ∧
    (∀ pc t out f, pc < vm.program_.length → getOrTranslateTB vm pc t out = .ok f →
      pc < f.tb.next_pc) := by
  have hok := cacheOK_of_cacheAll vm (cacheAll_of_reachable vm hr)
  constructor
  · obtain ⟨res, hres⟩ := run_terminates vm trace fuel hok hL hfuel
    refine ⟨res, hres, ?_⟩
    have := runLoop_lookups_le trace fuel _ res hok hL hres
    simpa using this
  · intro pc t out f hpc hg
    rw [getOrTranslateTB_of_ok vm hok] at hg
    cases ht : translateTB vm pc with
    | error w => rw [ht] at hg; cases hg
    | ok tb =>
      rw [ht] at hg
      simp only [Except.ok.injEq] at hg
      rw [← hg]
      exact translateTB_next_pc_gt vm pc tb hL hpc ht

theorem plainWord_sample : ∀ ins ∈ [(3 : Int), 4, 1073741825], PlainWord ins := by
  intro ins hi
  simp only [List.mem_cons, List.mem_singleton, List.not_mem_nil, or_false] at hi
  rcases hi with h | h | h <;> rw [h] <;> exact (plainWord_iff _).2 (by decide)

/-- C22, on `[PosImm 3, PosImm 4, Add, Halt]` with block length 2, where the Halt is the
last word, and the evaluation of the same words followed by a Print, which is not executed. -/
theorem halting_run_witness :
    ((∀ ins ∈ [(3 : Int), 4, 1073741825], PlainWord ins) ∧
      (getType 1073741824 = .Prim ∧ getData 1073741824 = Prim.Halt.code) ∧
      1 ≤ (VM.new 2).max_tb_insns_ ∧
      execOps (opsOf [3, 4, 1073741825] ++ [.halt])
        { s := { pc := 0, running := true, stack := [] }, out := [] } =
        .done { s := { pc := 0, running := false, stack := [7] }, out := [] } ∧
      ([(3 : Int), 4, 1073741825] ++ 1073741824 :: []).length < 5) ∧
    (∃ r, run (loadProgram (VM.new 2) ([3, 4, 1073741825] ++ 1073741824 :: [])) true 5 =
        some (.done r) ∧
      r.s = { pc := [(3 : Int), 4, 1073741825].length + 1, running := false, stack := [7] } ∧
      printed r.out = printed [] ∧
      (([] : List Int) = [] →
        r.s.pc = ([(3 : Int), 4, 1073741825] ++ 1073741824 :: []).length)) ∧
    (run (loadProgram (VM.new 2) [3, 4, 1073741825, 1073741824, 1073741829]) false 6).map
      (fun r => (r.what, r.st.s, r.st.lookups)) =
      some (none, { pc := 4, running := false, stack := [7] }, [(0, false), (2, false)]) :=
  ⟨⟨plainWord_sample, by decide, by decide, by rfl, by decide⟩,
    halting_run (VM.new 2) [3, 4, 1073741825] 1073741824 [] true 5
      { s := { pc := 0, running := false, stack := [7] }, out := [] }
      plainWord_sample (by decide) (by decide) (by rfl) (by decide),
    by decide⟩

/-- C23, on `[PosImm 3, PosImm 4, Add]` with block length 2, on a fresh object and on an
object loaded with the empty program. -/
theorem missing_halt_witness :
    ((∀ ins ∈ [(3 : Int), 4, 1073741825], PlainWord ins) ∧
      1 ≤ (VM.new 2).max_tb_insns_ ∧
      execOps (opsOf [3, 4, 1073741825])
        { s := { pc := 0, running := true, stack := [] }, out := [] } =
        .done { s := { pc := 0, running := true, stack := [7] }, out := [] } ∧
      [(3 : Int), 4, 1073741825].length < 4) ∧
    (∃ r, run (loadProgram (VM.new 2) [3, 4, 1073741825]) false 4 =
        some (.thrown "pc out of range (missing halt?)" r) ∧
      r.s = { pc := [(3 : Int), 4, 1073741825].length, running := true, stack := [7] } ∧
      printed r.out = printed []) ∧
    run (VM.new 8) false 1 = some (.thrown "pc out of range (missing halt?)"
      { vm := VM.new 8, s := { pc := 0, running := true, stack := [] }, out := [],
        lookups := [] }) ∧
    run (loadProgram (VM.new 8) []) true 1 = some (.thrown "pc out of range (missing halt?)"
      { vm := loadProgram (VM.new 8) [], s := { pc := 0, running := true, stack := [] },
        out := [], lookups := [] }) :=
  have h := missing_halt (VM.new 2) [3, 4, 1073741825] false 4
    { s := { pc := 0, running := true, stack := [7] }, out := [] }
    plainWord_sample (by decide) (by rfl) (by decide)
  ⟨⟨plainWord_sample, by decide, by rfl, by decide⟩, h.1,
    h.2 (VM.new 8) false 1 rfl (by decide),
    h.2 (loadProgram (VM.new 8) []) true 1 rfl (by decide)⟩

/-- C30, on `[PosImm 3, PosImm 4, Add, Halt, PosImm 3]` with block length 2: the keys are
0 and 2 and the blocks are `[0, 2)` and `[2, 4)`. -/
theorem cache_after_run_witness :
    ((∀ ins ∈ [(3 : Int), 4, 1073741825], PlainWord ins) ∧
      (getType 1073741824 = .Prim ∧ getData 1073741824 = Prim.Halt.code) ∧
      1 ≤ (VM.new 2).max_tb_insns_ ∧
      execOps (opsOf [3, 4, 1073741825] ++ [.halt])
        { s := { pc := 0, running := true, stack := [] }, out := [] } =
        .done { s := { pc := 0, running := false, stack := [7] }, out := [] } ∧
      ([(3 : Int), 4, 1073741825] ++ 1073741824 :: [3]).length < 6) ∧
    (∃ r, run (loadProgram (VM.new 2) ([3, 4, 1073741825] ++ 1073741824 :: [3])) false 6 =
        some (.done r) ∧
      r.vm.tb_cache_.map Prod.fst =
        (List.range ([(3 : Int), 4, 1073741825].length / (VM.new 2).max_tb_insns_ + 1)).map
          (fun i => i * (VM.new 2).max_tb_insns_) ∧
      (∀ e ∈ r.vm.tb_cache_, e.2.guest_pc = e.1 ∧
        e.2.next_pc =
          min (e.1 + (VM.new 2).max_tb_insns_) ([(3 : Int), 4, 1073741825].length + 1) ∧
        translateTB r.vm e.1 = .ok e.2) ∧
      Tiles 0 r.vm.tb_cache_ ([(3 : Int), 4, 1073741825].length + 1)) ∧
    (run (loadProgram (VM.new 2) [3, 4, 1073741825, 1073741824, 3]) false 6).map
      (fun r => r.st.vm.tb_cache_.map (fun e => (e.1, e.2.guest_pc, e.2.next_pc))) =
      some [(0, 0, 2), (2, 2, 4)] :=
  ⟨⟨plainWord_sample, by decide, by decide, by rfl, by decide⟩,
    cache_after_run (VM.new 2) [3, 4, 1073741825] 1073741824 [3] false 6
      { s := { pc := 0, running := false, stack := [7] }, out := [] }
      plainWord_sample (by decide) (by decide) (by rfl) (by decide),
    by decide⟩

/-- C25, on `[PosImm 3, PosImm 4, Add, Halt]` with block length 2, and the evaluation of
the two runs: both halt with stack `[7]`, the first on two misses, the second on two hits. -/
theorem consecutive_runs_witness :
    (1 ≤ (VM.new 2).max_tb_insns_ ∧ [(3 : Int), 4, 1073741825, 1073741824].length < 5) ∧
    (∃ r1 r2, run (loadProgram (VM.new 2) [3, 4, 1073741825, 1073741824]) false 5 = some r1 ∧
      run r1.st.vm true 5 = some r2 ∧
      r1.what = r2.what ∧ r1.st.s = r2.st.s ∧ printed r1.st.out = printed r2.st.out ∧
      (∀ x ∈ r1.st.lookups, x.2 = false) ∧
      (r1.what = none → ∀ x ∈ r2.st.lookups, x.2 = true)) ∧
    ((run (loadProgram (VM.new 2) [3, 4, 1073741825, 1073741824]) false 5).bind
      (fun r1 => (run r1.st.vm false 5).map
        (fun r2 => (r1.what, r1.st.s, r1.st.lookups, r2.what, r2.st.s, r2.st.lookups)))) =
      some (none, { pc := 4, running := false, stack := [7] }, [(0, false), (2, false)],
        none, { pc := 4, running := false, stack := [7] }, [(0, true), (2, true)]) :=
  ⟨⟨by decide, by decide⟩,
    consecutive_runs (VM.new 2) [3, 4, 1073741825, 1073741824] false true 5 (by decide)
      (by decide),
    by rfl⟩

/-- The object a run of `[PosImm 3, PosImm 4, Add, Halt]` with block length 2 leaves behind is
reached through the public interface. -/
theorem reachable_sample :
    Reachable (VM.mk [3, 4, 1073741825, 1073741824] 2
      [(0, TB.mk 0 2 2 [.push 3, .push 4] "PUSH +3\nPUSH +4\n"),
        (2, TB.mk 2 4 2 [.add, .halt] "ADD\nHALT\n")] 2) :=
  Reachable.ran (loadProgram (VM.new 2) [3, 4, 1073741825, 1073741824]) false 5
    (.done ⟨VM.mk [3, 4, 1073741825, 1073741824] 2
      [(0, TB.mk 0 2 2 [.push 3, .push 4] "PUSH +3\nPUSH +4\n"),
        (2, TB.mk 2 4 2 [.add, .halt] "ADD\nHALT\n")] 2,
      ⟨4, false, [7]⟩, [], [(0, false), (2, false)]⟩)
    (Reachable.load _ _ (Reachable.ctor 2)) (by decide)

/-- C26, on the object a run of `[PosImm 3, PosImm 4, Add, Halt]` with block length 2
leaves behind. -/
theorem run_always_ends_witness :
    (Reachable (VM.mk [3, 4, 1073741825, 1073741824] 2
        [(0, TB.mk 0 2 2 [.push 3, .push 4] "PUSH +3\nPUSH +4\n"),
          (2, TB.mk 2 4 2 [.add, .halt] "ADD\nHALT\n")] 2) ∧
      1 ≤ (2 : Nat) ∧ 4 < 5) ∧
    ((∃ res, run (VM.mk [3, 4, 1073741825, 1073741824] 2
        [(0, TB.mk 0 2 2 [.push 3, .push 4] "PUSH +3\nPUSH +4\n"),
          (2, TB.mk 2 4 2 [.add, .halt] "ADD\nHALT\n")] 2) true 5 = some res ∧
        res.st.lookups.length ≤ 4) ∧
      (∀ pc t out f, pc < 4 → getOrTranslateTB (VM.mk [3, 4, 1073741825, 1073741824] 2
        [(0, TB.mk 0 2 2 [.push 3, .push 4] "PUSH +3\nPUSH +4\n"),
          (2, TB.mk 2 4 2 [.add, .halt] "ADD\nHALT\n")] 2) pc t out = .ok f →
        pc < f.tb.next_pc)) :=
  ⟨⟨reachable_sample, by decide, by decide⟩,
    run_always_ends _ true 5 reachable_sample (by decide) (by decide)⟩

/-- C29, on the object a failing `patch` (index 9 of a four-word program) leaves after a run of
`[PosImm 3, PosImm 4, Add, Halt]` with block length 2. -/
theorem cache_coherence_invariant_witness :
    Reachable (patch (VM.mk [3, 4, 1073741825, 1073741824] 2
        [(0, TB.mk 0 2 2 [.push 3, .push 4] "PUSH +3\nPUSH +4\n"),
          (2, TB.mk 2 4 2 [.add, .halt] "ADD\nHALT\n")] 2) 9 5).st ∧
    (∀ e ∈ [((0 : Nat), TB.mk 0 2 2 [.push 3, .push 4] "PUSH +3\nPUSH +4\n"),
        (2, TB.mk 2 4 2 [.add, .halt] "ADD\nHALT\n")],
      e.2.guest_pc = e.1 ∧ e.2.compiled_version = 2 ∧
      translateTB (VM.mk [3, 4, 1073741825, 1073741824] 2
        [(0, TB.mk 0 2 2 [.push 3, .push 4] "PUSH +3\nPUSH +4\n"),
          (2, TB.mk 2 4 2 [.add, .halt] "ADD\nHALT\n")] 2) e.1 = .ok e.2) :=
  ⟨Reachable.patched _ 9 5 reachable_sample,
    (cache_coherence_invariant _ (Reachable.patched _ 9 5 reachable_sample)).1⟩

end MiniTCGVM

namespace DoublyCircularQueue

/-! ## The queue holds its values in FIFO order -/

theorem queue_ensure_init_of_inited (w : World) (h : w.inited = true) : ensure_init w = w := by
  unfold ensure_init
  rw [if_pos h]

theorem queue_insert_eq (w : World) (p fa : Nat) (np nh nf : node) (hi : w.inited = true)
    (hp : w.cell p = some np) (hh : w.cell head = some nh) (hn : nh.next = some fa)
    (hf : w.cell fa = some nf) (h1 : p ≠ head) (h2 : fa ≠ p) (h3 : fa ≠ head) :
    insert w (some p) = some
      { w with
        cell := Function.update (Function.update (Function.update w.cell p
                  (some { data := np.data, prev := some head, next := some fa }))
                  fa (some { data := nf.data, prev := some p, next := nf.next }))
                  head (some { data := nh.data, prev := nh.prev, next := some p }) } := by
  unfold insert
  rw [queue_ensure_init_of_inited w hi]
  simp only [getNext, setNext, setPrev, hh, hp, hn, Option.map_some', Option.bind_eq_bind,
    Option.some_bind, Function.update_same, Function.update_idem,
    Function.update_noteq (Ne.symm h1), Function.update_noteq h2, hf,
    Function.update_noteq (Ne.symm h3)]

theorem queue_delete_node_eq (w : World) (p a b : Nat) (v : Int) (na nb : node)
    (hi : w.inited = true) (hp : w.cell p = some { data := v, prev := some a, next := some b })
    (ha : w.cell a = some na) (hb : w.cell b = some nb)
    (h1 : p ≠ head) (h2 : p ≠ tail) (h3 : a ≠ p) (h4 : b ≠ p) (h5 : a ≠ b) :
    delete_node w (some p) = some
      { w with
        cell := Function.update (Function.update (Function.update w.cell a
                  (some { data := na.data, prev := na.prev, next := some b }))
                  b (some { data := nb.data, prev := some a, next := nb.next }))
                  p (some { data := v, prev := none, next := none }) } := by
  unfold delete_node
  rw [queue_ensure_init_of_inited w hi]
  simp only [h1, h2, or_self, if_false, getNext, getPrev, setNext, setPrev, hp, ha, hb,
    Option.map_some', Option.bind_eq_bind, Option.some_bind, Function.update_same,
    Function.update_idem, Function.update_noteq (Ne.symm h3), Function.update_noteq h4,
    Function.update_noteq (Ne.symm h4), Function.update_noteq (Ne.symm h5)]

theorem queue_free_node_eq (w : World) (p : Nat) (n : node) (hi : w.inited = true)
    (hp : w.cell p = some n) (h1 : p ≠ head) (h2 : p ≠ tail) :
    free_node w (some p) = some { w with cell := Function.update w.cell p none } := by
  unfold free_node
  rw [queue_ensure_init_of_inited w hi]
  simp only [h1, h2, or_self, if_false, hp]

theorem queue_seg_frame (cell cell1 : Nat → Option node) :
    ∀ (l : List (Nat × Int)) (prev nxt : Nat), Seg cell prev l nxt →
      (∀ e ∈ l, cell1 e.1 = cell e.1) → Seg cell1 prev l nxt := by
  intro l
  induction l with
  | nil => intro prev nxt _ _; trivial
  | cons e rest ih =>
    intro prev nxt h hc
    obtain ⟨h1, h2⟩ := h
    refine ⟨?_, ih _ _ h2 (fun x hx => hc x (List.mem_cons_of_mem _ hx))⟩
    rw [hc e (List.mem_cons_self _ _)]
    exact h1

theorem queue_firstOr_append (l : List (Nat × Int)) (e : Nat × Int) (z : Nat) :
    firstOr (l ++ [e]) z = firstOr l e.1 := by
  cases l <;> rfl

theorem queue_lastOr_append (l : List (Nat × Int)) (e : Nat × Int) (z : Nat) :
    lastOr (l ++ [e]) z = e.1 := by
  simp [lastOr]

theorem queue_lastOr_cons (l : List (Nat × Int)) (e : Nat × Int) (z : Nat) :
    lastOr (e :: l) z = lastOr l e.1 := by
  cases l with
  | nil => rfl
  | cons x t =>
    simp only [lastOr, List.getLast?_cons_cons]
    cases h : (x :: t).getLast? with
    | none => simp at h
    | some y => rfl

theorem queue_seg_snoc (cell : Nat → Option node) (e : Nat × Int) :
    ∀ (l : List (Nat × Int)) (prev nxt : Nat),
      Seg cell prev (l ++ [e]) nxt ↔
        (Seg cell prev l e.1 ∧
          cell e.1 = some { data := e.2, prev := some (lastOr l prev), next := some nxt }) := by
  intro l
  induction l with
  | nil =>
    intro prev nxt
    simp [Seg, firstOr, lastOr]
  | cons x rest ih =>
    intro prev nxt
    rw [List.cons_append]
    simp only [Seg]
    rw [ih, queue_firstOr_append, queue_lastOr_cons, and_assoc]

theorem queue_lastLink_cons (l : List (Nat × Int)) (e : Nat × Int) (g : link) :
    lastLink (e :: l) g = lastLink l (some e.1) := by
  cases l with
  | nil => rfl
  | cons x t =>
    simp only [lastLink, List.getLast?_cons_cons]
    cases h : (x :: t).getLast? with
    | none => simp at h
    | some y => rfl

theorem queue_traverseLoop_capture :
    ∀ (l : List (Nat × Int)) (prev : Nat) (w : World) (fuel : Nat),
      Seg w.cell prev l tail → (∀ e ∈ l, e.1 ≠ tail) → l.length < fuel →
      traverseLoop capture_last fuel w (some (firstOr l tail)) =
        some { w with g_last := lastLink l w.g_last } := by
  intro l
  induction l with
  | nil =>
    intro prev w fuel _ _ hf
    obtain ⟨f, rfl⟩ : ∃ f, fuel = f + 1 := ⟨fuel - 1, by simp at hf; omega⟩
    simp [traverseLoop, firstOr, lastLink]
  | cons e rest ih =>
    intro prev w fuel hs hne hf
    obtain ⟨f, rfl⟩ : ∃ f, fuel = f + 1 := ⟨fuel - 1, by simp at hf; omega⟩
    obtain ⟨h1, h2⟩ := hs
    have hne1 : e.1 ≠ tail := hne e (List.mem_cons_self _ _)
    have hcell : (capture_last w e.1).cell = w.cell := rfl
    have := ih e.1 (capture_last w e.1) f (by rw [hcell]; exact h2)
      (fun x hx => hne x (List.mem_cons_of_mem _ hx))
      (by simp only [List.length_cons] at hf; omega)
    have hfirst : firstOr (e :: rest) tail = e.1 := rfl
    rw [hfirst]
    simp only [traverseLoop, Option.some.injEq, hne1, if_false, getNext, hcell, h1,
      Option.map_some']
    rw [this, queue_lastLink_cons]
    rfl

theorem queue_get_last_spec (w : World) (l : List (Nat × Int)) (fuel : Nat) (h : IsQueue w l)
    (hf : l.length < fuel) :
    get_last fuel w = some ({ w with g_last := lastLink l none }, lastLink l none) := by
  obtain ⟨hi, hb, hr, hnd, ⟨d0, hh⟩, ⟨d1, ht⟩, hs⟩ := h
  unfold get_last traverse
  rw [queue_ensure_init_of_inited { w with g_last := none } hi]
  simp only [getNext, hh, Option.map_some']
  rw [queue_traverseLoop_capture l head { w with g_last := none } fuel hs
    (fun e he => by have := (hr e he).1; simp only [tail]; omega) hf]
  rfl

theorem queue_enqueue_int_spec (w : World) (l : List (Nat × Int)) (v : Int) (h : IsQueue w l) :
    ∃ w1, enqueue_int w v = some w1 ∧ IsQueue w1 ((w.brk, v) :: l) := by
  obtain ⟨hi, hb, hr, hnd, ⟨d0, hh⟩, ⟨d1, ht⟩, hs⟩ := h
  have hb0 : w.brk ≠ head := by simp only [head]; omega
  have hb1 : w.brk ≠ tail := by simp only [tail]; omega
  have hht : head ≠ tail := by decide
  have hfresh : ∀ e ∈ l, e.1 ≠ w.brk := fun e he => by have := (hr e he).2; omega
  have hrange : ∀ e ∈ (w.brk, v) :: l, 2 ≤ e.1 ∧ e.1 < w.brk + 1 := by
    intro e he
    rcases List.mem_cons.1 he with he | he
    · rw [he]; exact ⟨hb, Nat.lt_succ_self _⟩
    · exact ⟨(hr e he).1, Nat.lt_succ_of_lt (hr e he).2⟩
  have hnodup : (((w.brk, v) :: l).map Prod.fst).Nodup := by
    rw [List.map_cons, List.nodup_cons]
    refine ⟨?_, hnd⟩
    intro hmem
    obtain ⟨e, he, heq⟩ := List.mem_map.1 hmem
    exact hfresh e he heq
  unfold enqueue_int make_node
  rw [queue_ensure_init_of_inited w hi]
  simp only []
  cases l with
  | nil =>
    rw [queue_insert_eq
      { cell := Function.update w.cell w.brk (some { data := v, prev := none, next := none }),
        brk := w.brk + 1, inited := w.inited, g_last := w.g_last }
      w.brk tail { data := v, prev := none, next := none }
      { data := d0, prev := some tail, next := some tail }
      { data := d1, prev := some head, next := some head } hi
      (by simp) (by simp only [Function.update_noteq (Ne.symm hb0)]; exact hh) rfl
      (by simp only [Function.update_noteq (Ne.symm hb1)]; exact ht) hb0 (Ne.symm hb1)
      (Ne.symm hht)]
    refine ⟨_, rfl, hi, Nat.le_succ_of_le hb, hrange, hnodup, ⟨d0, ?_⟩, ⟨d1, ?_⟩, ?_, trivial⟩
    · simp [firstOr]
    · simp [Function.update_noteq (Ne.symm hht), lastOr]
    · simp [Function.update_noteq hb0, Function.update_noteq hb1, firstOr]
  | cons x t =>
    have hx0 : x.1 ≠ head := by
      have := (hr x (List.mem_cons_self _ _)).1
      simp only [head]; omega
    have hx1 : x.1 ≠ tail := by
      have := (hr x (List.mem_cons_self _ _)).1
      simp only [tail]; omega
    have hxb : x.1 ≠ w.brk := hfresh x (List.mem_cons_self _ _)
    obtain ⟨s1, s2⟩ := hs
    rw [queue_insert_eq
      { cell := Function.update w.cell w.brk (some { data := v, prev := none, next := none }),
        brk := w.brk + 1, inited := w.inited, g_last := w.g_last }
      w.brk x.1 { data := v, prev := none, next := none }
      { data := d0, prev := some tail, next := some x.1 }
      { data := x.2, prev := some head, next := some (firstOr t tail) } hi
      (by simp) (by simp only [Function.update_noteq (Ne.symm hb0)]; exact hh) rfl
      (by simp only [Function.update_noteq hxb]; exact s1) hb0 hxb hx0]
    refine ⟨_, rfl, hi, Nat.le_succ_of_le hb, hrange, hnodup, ⟨d0, ?_⟩, ⟨d1, ?_⟩, ?_, ?_, ?_⟩
    · simp [firstOr]
    · simp only [Function.update_noteq (Ne.symm hht), Function.update_noteq (Ne.symm hx1),
        Function.update_noteq (Ne.symm hb1), queue_lastOr_cons]
      rw [ht, queue_lastOr_cons]
    · simp [Function.update_noteq hb0, Function.update_noteq (Ne.symm hxb), firstOr]
    · simp [Function.update_noteq hx0, firstOr]
    · apply queue_seg_frame w.cell _ t _ _ s2
      intro e he
      have he2 := hr e (List.mem_cons_of_mem _ he)
      have hne0 : e.1 ≠ head := by simp only [head]; omega
      have hneb : e.1 ≠ w.brk := by omega
      have hnex : e.1 ≠ x.1 := by
        intro heq
        rw [List.map_cons, List.nodup_cons] at hnd
        exact hnd.1 (heq ▸ List.mem_map_of_mem Prod.fst he)
      simp only [Function.update_noteq hne0, Function.update_noteq hnex,
        Function.update_noteq hneb]

theorem queue_delete_free_eq (w : World) (p a b : Nat) (v : Int) (na nb : node)
    (hi : w.inited = true) (hp : w.cell p = some { data := v, prev := some a, next := some b })
    (ha : w.cell a = some na) (hb : w.cell b = some nb)
    (h1 : p ≠ head) (h2 : p ≠ tail) (h3 : a ≠ p) (h4 : b ≠ p) (h5 : a ≠ b) :
    ((delete_node w (some p)).bind fun w2 => free_node w2 (some p)) = some
      { w with
        cell := Function.update (Function.update (Function.update w.cell a
                  (some { data := na.data, prev := na.prev, next := some b }))
                  b (some { data := nb.data, prev := some a, next := nb.next }))
                  p none } := by
  rw [queue_delete_node_eq w p a b v na nb hi hp ha hb h1 h2 h3 h4 h5]
  simp only [Option.some_bind, free_node, ensure_init, hi, if_true, h1, h2, or_self, if_false,
    Function.update_same, Function.update_idem]

theorem queue_dequeue_int_empty (w : World) (fuel : Nat) (out : Option Int) (h : IsQueue w [])
    (hf : 0 < fuel) :
    ∃ w1, dequeue_int fuel w out = some (w1, 0, out) ∧ IsQueue w1 [] := by
  refine ⟨{ w with g_last := none }, ?_, h⟩
  unfold dequeue_int
  rw [queue_get_last_spec w [] fuel h hf]
  rfl

theorem queue_dequeue_int_spec (w : World) (l : List (Nat × Int)) (a : Nat) (v o : Int)
    (fuel : Nat) (h : IsQueue w (l ++ [(a, v)])) (hf : l.length + 1 < fuel) :
    ∃ w1, dequeue_int fuel w (some o) = some (w1, 1, some v) ∧ IsQueue w1 l := by
  have hq := h
  obtain ⟨hi, hb, hr, hnd, ⟨d0, hh⟩, ⟨d1, ht⟩, hs⟩ := h
  rw [queue_seg_snoc] at hs
  obtain ⟨s1, s2⟩ := hs
  simp only [] at s1 s2
  rw [queue_lastOr_append] at ht
  simp only [] at ht
  have ha := hr (a, v) (by simp)
  simp only [] at ha
  have ha0 : a ≠ head := by simp only [head]; omega
  have ha1 : a ≠ tail := by simp only [tail]; omega
  have hht : head ≠ tail := by decide
  have hrl : ∀ e ∈ l, 2 ≤ e.1 ∧ e.1 < w.brk := fun e he => hr e (by simp [he])
  rw [List.map_append, List.nodup_append] at hnd
  obtain ⟨hnd1, -, hdis⟩ := hnd
  have hnea : ∀ e ∈ l, e.1 ≠ a := by
    intro e he heq
    exact hdis (List.mem_map_of_mem Prod.fst he) (by simp [heq])
  unfold dequeue_int
  rw [queue_get_last_spec w _ fuel hq (by simp; omega)]
  have hlast : lastLink (l ++ [(a, v)]) none = some a := by simp [lastLink]
  rw [hlast]
  simp only [getData, s2, Option.map_some', Option.bind_eq_bind, Option.some_bind]
  rcases List.eq_nil_or_concat l with hl | ⟨l1, b, hl⟩
  · subst hl
    simp only [lastOr, List.getLast?_nil, firstOr, List.nil_append] at s2 hh
    have key := queue_delete_free_eq { w with g_last := some a } a head tail v _ _ hi s2 hh ht ha0 ha1
      (Ne.symm ha0) (Ne.symm ha1) hht
    simp only [Option.bind_eq_bind] at key
    obtain ⟨w2, hw2, hw3⟩ := Option.bind_eq_some.1 key
    rw [hw2]
    simp only [Option.some_bind, hw3]
    refine ⟨_, rfl, hi, hb, hrl, hnd1, ⟨d0, ?_⟩, ⟨d1, ?_⟩, trivial⟩
    · simp [Function.update_noteq ha0.symm, Function.update_noteq hht, firstOr]
    · simp [Function.update_noteq ha1.symm, lastOr]
  · rw [List.concat_eq_append] at hl
    subst hl
    obtain ⟨b, x⟩ := b
    rw [queue_seg_snoc] at s1
    obtain ⟨t1, t2⟩ := s1
    simp only [] at t1 t2
    rw [queue_lastOr_append] at s2
    simp only [] at s2
    have hbr := hrl (b, x) (by simp)
    simp only [] at hbr
    have hb0 : b ≠ head := by simp only [head]; omega
    have hb1 : b ≠ tail := by simp only [tail]; omega
    have hba : b ≠ a := hnea (b, x) (by simp)
    have key := queue_delete_free_eq { w with g_last := some a } a b tail v _ _ hi s2 t2 ht ha0 ha1
      hba (Ne.symm ha1) hb1
    simp only [Option.bind_eq_bind] at key
    obtain ⟨w2, hw2, hw3⟩ := Option.bind_eq_some.1 key
    rw [hw2]
    simp only [Option.some_bind, hw3]
    refine ⟨_, rfl, hi, hb, hrl, hnd1, ⟨d0, ?_⟩, ⟨d1, ?_⟩, ?_⟩
    · simp only [Function.update_noteq ha0.symm, Function.update_noteq hht,
        Function.update_noteq hb0.symm]
      rw [hh, queue_firstOr_append, queue_firstOr_append, queue_firstOr_append]
    · simp [Function.update_noteq ha1.symm, queue_lastOr_append]
    · rw [queue_seg_snoc]
      constructor
      · apply queue_seg_frame w.cell _ l1 _ _ t1
        intro e he
        have he2 := hrl e (by simp [he])
        have hne1 : e.1 ≠ tail := by simp only [tail]; omega
        have hnea1 : e.1 ≠ a := hnea e (by simp [he])
        have hneb : e.1 ≠ b := by
          intro heq
          have hnd2 := hnd1
          rw [List.map_append, List.nodup_append] at hnd2
          exact hnd2.2.2 (List.mem_map_of_mem Prod.fst he) (by simp [heq])
        simp only [Function.update_noteq hnea1, Function.update_noteq hne1,
          Function.update_noteq hneb]
      · simp [Function.update_noteq hba, Function.update_noteq hb1]

theorem queue_enqueueAll_spec (vs : List Int) :
    ∀ (w : World) (l : List (Nat × Int)), IsQueue w l →
      ∃ w1 l1, enqueueAll w vs = some w1 ∧ IsQueue w1 (l1 ++ l) ∧
        l1.map Prod.snd = vs.reverse := by
  induction vs with
  | nil => intro w l h; exact ⟨w, [], rfl, h, rfl⟩
  | cons v vs ih =>
    intro w l h
    obtain ⟨w0, e0, q0⟩ := queue_enqueue_int_spec w l v h
    obtain ⟨w1, l1, e1, q1, m1⟩ := ih w0 _ q0
    refine ⟨w1, l1 ++ [(w.brk, v)], ?_, ?_, ?_⟩
    · simp only [enqueueAll, e0, Option.some_bind, e1]
    · rw [List.append_assoc]; exact q1
    · simp [m1]

theorem queue_dequeues_spec (fuel : Nat) (l : List (Nat × Int)) :
    ∀ (w : World), IsQueue w l → l.length < fuel →
      ∃ w2, dequeues fuel l.length w = some (w2, l.reverse.map fun e => (1, some e.2)) ∧
        IsQueue w2 [] := by
  induction l using List.reverseRecOn with
  | nil => intro w h _; exact ⟨w, rfl, h⟩
  | append_singleton l e ih =>
    intro w h hf
    obtain ⟨a, v⟩ := e
    simp only [List.length_append, List.length_singleton] at hf
    obtain ⟨w1, e1, q1⟩ := queue_dequeue_int_spec w l a v 0 fuel h hf
    obtain ⟨w2, e2, q2⟩ := ih w1 q1 (by omega)
    refine ⟨w2, ?_, q2⟩
    simp only [List.length_append, List.length_singleton, dequeues, e1, Option.some_bind, e2,
      Option.map_some', List.reverse_append, List.reverse_singleton, List.singleton_append,
      List.map_cons]

theorem queue_ensure_init_idem (w : World) : ensure_init (ensure_init w) = ensure_init w := by
  unfold ensure_init
  by_cases h : w.inited = true
  · simp [h]
  · simp [h]

theorem queue_isQueue_ensure_init (w : World) (h : EmptyQueue w) : IsQueue (ensure_init w) [] := by
  obtain ⟨hb, hc⟩ := h
  unfold ensure_init
  by_cases hi : w.inited = true
  · rw [if_pos hi]
    obtain ⟨c0, c1⟩ := hc hi
    exact ⟨hi, hb, by simp, by simp, c0, c1, trivial⟩
  · rw [if_neg hi]
    refine ⟨rfl, hb, by simp, by simp, ⟨0, ?_⟩, ⟨0, ?_⟩, trivial⟩
    · simp [firstOr, head, tail]
    · simp [lastOr]

theorem queue_enqueue_int_ensure (w : World) (v : Int) :
    enqueue_int w v = enqueue_int (ensure_init w) v := by
  unfold enqueue_int make_node
  rw [queue_ensure_init_idem]

theorem queue_dequeue_int_ensure (fuel : Nat) (w : World) (out : Option Int) :
    dequeue_int fuel w out = dequeue_int fuel (ensure_init w) out := by
  have h : ∀ u : World, ensure_init { u with g_last := none } =
      { ensure_init u with g_last := none } := by
    intro u
    unfold ensure_init
    by_cases hu : u.inited = true
    · simp [hu]
    · simp [hu]
  unfold dequeue_int get_last traverse
  rw [h w, h (ensure_init w), queue_ensure_init_idem]

/-- C27. FIFO order of the ex02 queue: from a memory in which the queue is empty (at
program start, or with the two sentinels linked to each other), for every list `vs` of
ints and every fuel above its length, the calls `enqueue_int(v)` for the values of `vs` in
order all return, the next `vs.length` calls `dequeue_int(&v)` all return 1 and store the
values of `vs` in the same order, and one more `dequeue_int(&v)` returns 0 and leaves `v`
unchanged. -/
theorem fifo_order (w : World) (vs : List Int) (fuel : Nat) (hw : EmptyQueue w)
    (hfuel : vs.length < fuel) :
    ∃ w1 w2 w3, enqueueAll w vs = some w1 ∧
      dequeues fuel vs.length w1 = some (w2, vs.map fun v => (1, some v)) ∧
      dequeue_int fuel w2 (some 0) = some (w3, 0, some 0) := by
  have h0 := queue_isQueue_ensure_init w hw
  cases vs with
  | nil =>
    obtain ⟨w3, e3, -⟩ := queue_dequeue_int_empty (ensure_init w) fuel (some 0) h0 hfuel
    exact ⟨w, w, w3, rfl, rfl, by rw [queue_dequeue_int_ensure]; exact e3⟩
  | cons v vs =>
    obtain ⟨w1, l1, e1, q1, m1⟩ := queue_enqueueAll_spec (v :: vs) (ensure_init w) [] h0
    rw [List.append_nil] at q1
    have hlen : l1.length = (v :: vs).length := by
      have := congrArg List.length m1
      simpa using this
    obtain ⟨w2, e2, q2⟩ := queue_dequeues_spec fuel l1 w1 q1 (by rw [hlen]; exact hfuel)
    obtain ⟨w3, e3, -⟩ := queue_dequeue_int_empty w2 fuel (some 0) q2 (by omega)
    refine ⟨w1, w2, w3, ?_, ?_, e3⟩
    · simp only [enqueueAll] at e1 ⊢
      rw [queue_enqueue_int_ensure]
      exact e1
    · rw [← hlen, e2]
      have : l1.reverse.map Prod.snd = v :: vs := by
        rw [List.map_reverse, m1, List.reverse_reverse]
      rw [← this, List.map_map]
      rfl

/-- C27, on the values 1, 2, 3 from the memory at program start, and the evaluation of
three enqueues followed by four dequeues: 1, 2, 3 come out in that order and the fourth
dequeue returns 0 and leaves `v` as it was. -/
theorem fifo_order_witness :
    (EmptyQueue World.init ∧ [(1 : Int), 2, 3].length < 4) ∧
    (∃ w1 w2 w3, enqueueAll World.init [1, 2, 3] = some w1 ∧
      dequeues 4 [(1 : Int), 2, 3].length w1 =
        some (w2, [(1 : Int), 2, 3].map fun v => (1, some v)) ∧
      dequeue_int 4 w2 (some 0) = some (w3, 0, some 0)) ∧
    ((enqueueAll World.init [1, 2, 3]).bind fun w => (dequeues 4 4 w).map fun r => r.2) =
      some [(1, some 1), (1, some 2), (1, some 3), (0, some 0)] :=
  ⟨⟨⟨by decide, fun h => by cases h⟩, by decide⟩,
    fifo_order World.init [1, 2, 3] 4 ⟨by decide, fun h => by cases h⟩ (by decide),
    by rfl⟩

end DoublyCircularQueue

namespace SinglyLinkedList

/-! ## The elimination order of `josephus_problem` -/

theorem list_seg_frame (cell cell1 : Nat → Option node) (stop : link) :
    ∀ (l : List (Nat × Nat)), Seg cell l stop →
      (∀ e ∈ l, cell1 e.1 = cell e.1) → Seg cell1 l stop := by
  intro l
  induction l with
  | nil => intro _ _; trivial
  | cons e rest ih =>
    intro h hc
    obtain ⟨h1, h2⟩ := h
    refine ⟨?_, ih h2 (fun x hx => hc x (List.mem_cons_of_mem _ hx))⟩
    rw [hc e (List.mem_cons_self _ _)]
    exact h1

theorem list_firstLink_append (A B : List (Nat × Nat)) (stop : link) :
    firstLink (A ++ B) stop = firstLink A (firstLink B stop) := by
  cases A <;> rfl

theorem list_seg_append (cell : Nat → Option node) (B : List (Nat × Nat)) (stop : link) :
    ∀ (A : List (Nat × Nat)),
      Seg cell (A ++ B) stop ↔ (Seg cell A (firstLink B stop) ∧ Seg cell B stop) := by
  intro A
  induction A with
  | nil => simp [Seg]
  | cons e rest ih =>
    rw [List.cons_append]
    simp only [Seg]
    rw [ih, list_firstLink_append, and_assoc]

theorem list_isList_congr (w w1 : World) (l : List (Nat × Nat)) (h : IsList w l)
    (hc : w1.cell = w.cell) (hh : w1.head = w.head) (hb : w1.brk = w.brk) : IsList w1 l := by
  unfold IsList at h ⊢
  rw [hc, hh, hb]
  exact h

theorem list_traverseLoop_capture :
    ∀ (t : List (Nat × Nat)) (w : World) (fuel : Nat),
      Seg w.cell t none → t.length < fuel →
      traverseLoop capture_first fuel w (firstLink t none) =
        some { w with g_first_node :=
                 if w.g_first_node = none then firstLink t none else w.g_first_node } := by
  intro t
  induction t with
  | nil =>
    intro w fuel _ hf
    obtain ⟨f, rfl⟩ : ∃ f, fuel = f + 1 := ⟨fuel - 1, by simp at hf; omega⟩
    have hg : (if w.g_first_node = none then none else w.g_first_node) = w.g_first_node := by
      split
      · rename_i hn; exact hn.symm
      · rfl
    simp only [traverseLoop, firstLink, hg]
  | cons e rest ih =>
    intro w fuel hs hf
    obtain ⟨f, rfl⟩ : ∃ f, fuel = f + 1 := ⟨fuel - 1, by simp at hf; omega⟩
    obtain ⟨h1, h2⟩ := hs
    have hcell : (capture_first w e.1).cell = w.cell := by
      unfold capture_first; split <;> rfl
    have := ih (capture_first w e.1) f (by rw [hcell]; exact h2)
      (by simp only [List.length_cons] at hf; omega)
    have hfirst : firstLink (e :: rest) none = some e.1 := rfl
    rw [hfirst]
    simp only [traverseLoop, getNext, hcell, h1, Option.map_some']
    rw [this]
    unfold capture_first
    by_cases hg : w.g_first_node = none
    · simp [hg]
    · simp [hg]

theorem list_get_head_node_spec (w : World) (l : List (Nat × Nat)) (fuel : Nat) (h : IsList w l)
    (hf : l.length < fuel) :
    get_head_node fuel w =
      some ({ w with g_first_node := firstLink l none }, firstLink l none) := by
  obtain ⟨hh, hs, -, -⟩ := h
  unfold get_head_node traverse
  simp only []
  have := list_traverseLoop_capture l { w with g_first_node := none } fuel hs hf
  rw [if_pos rfl] at this
  rw [hh] at this ⊢
  rw [this]
  rfl

theorem list_next_wrap_spec (w : World) (A B : List (Nat × Nat)) (e : Nat × Nat) (fuel : Nat)
    (h : IsList w (A ++ e :: B)) (hf : (A ++ e :: B).length < fuel) :
    ∃ g, next_wrap fuel w (some e.1) =
      some ({ w with g_first_node := g }, firstLink (B ++ A ++ [e]) none) := by
  have hs := h.2.1
  rw [list_seg_append] at hs
  obtain ⟨-, hc, -⟩ := hs
  unfold next_wrap
  simp only [getNext, hc, Option.map_some']
  cases B with
  | nil =>
    simp only [firstLink]
    rw [list_get_head_node_spec w _ fuel h hf]
    refine ⟨firstLink (A ++ [e]) none, ?_⟩
    rw [List.nil_append]
    rfl
  | cons b B1 => exact ⟨w.g_first_node, rfl⟩

theorem list_findPrev_spec (w : World) (c : Nat) :
    ∀ (L : List (Nat × Nat)) (x e : Nat × Nat) (fuel : Nat),
      Seg w.cell (x :: L) (some c) → (∀ y ∈ L, y.1 ≠ c) → (x :: L).getLast? = some e →
      L.length < fuel → findPrev w c fuel x.1 = some e.1 := by
  intro L
  induction L with
  | nil =>
    intro x e fuel hs _ hl hf
    obtain ⟨f, rfl⟩ : ∃ f, fuel = f + 1 := ⟨fuel - 1, by simp at hf; omega⟩
    simp only [List.getLast?_singleton, Option.some.injEq] at hl
    subst hl
    simp only [findPrev, hs.1, firstLink, if_true]
  | cons y rest ih =>
    intro x e fuel hs hne hl hf
    obtain ⟨f, rfl⟩ : ∃ f, fuel = f + 1 := ⟨fuel - 1, by simp at hf; omega⟩
    rw [List.getLast?_cons_cons] at hl
    have hyc : y.1 ≠ c := hne y (List.mem_cons_self _ _)
    simp only [findPrev, hs.1, firstLink, hyc, if_false]
    exact ih y e f hs.2 (fun z hz => hne z (List.mem_cons_of_mem _ hz)) hl
      (by simp only [List.length_cons] at hf; omega)

theorem list_delete_node_spec (w : World) (A B : List (Nat × Nat)) (e : Nat × Nat) (fuel : Nat)
    (h : IsList w (A ++ e :: B)) (hf : (A ++ e :: B).length < fuel) :
    ∃ w1, delete_node fuel w (some e.1) = some w1 ∧ IsList w1 (A ++ B) ∧ w1.out = w.out ∧
      w1.brk = w.brk := by
  obtain ⟨hh, hs, hnd, hbr⟩ := h
  rw [list_seg_append] at hs
  obtain ⟨sA, sc, sB⟩ := hs
  rw [List.map_append, List.map_cons, List.nodup_append, List.nodup_cons] at hnd
  obtain ⟨ndA, ⟨heB, ndB⟩, hdis⟩ := hnd
  have hAe : ∀ y ∈ A, y.1 ≠ e.1 := by
    intro y hy heq
    exact hdis (List.mem_map_of_mem Prod.fst hy) (by simp [heq])
  have hBe : ∀ y ∈ B, y.1 ≠ e.1 := by
    intro y hy heq
    exact heB (heq ▸ List.mem_map_of_mem Prod.fst hy)
  have hAB : ∀ y ∈ A, ∀ z ∈ B, y.1 ≠ z.1 := by
    intro y hy z hz heq
    exact hdis (List.mem_map_of_mem Prod.fst hy)
      (List.mem_cons_of_mem _ (heq ▸ List.mem_map_of_mem Prod.fst hz))
  have hnd2 : ((A ++ B).map Prod.fst).Nodup := by
    rw [List.map_append, List.nodup_append]
    refine ⟨ndA, ndB, ?_⟩
    intro a ha hb
    exact hdis ha (List.mem_cons_of_mem _ hb)
  have hbr2 : ∀ y ∈ A ++ B, y.1 < w.brk := by
    intro y hy
    rcases List.mem_append.1 hy with hy | hy
    · exact hbr y (by simp [hy])
    · exact hbr y (by simp [hy])
  rcases List.eq_nil_or_concat A with hA | ⟨A1, b, hA⟩
  · subst hA
    simp only [List.nil_append, firstLink] at hh
    refine ⟨{ w with head := firstLink B none, cell := Function.update w.cell e.1 none }, ?_,
      ⟨rfl, ?_, hnd2, hbr2⟩, rfl, rfl⟩
    · unfold delete_node
      simp only [hh, if_true, getNext, sc, Option.map_some', Option.bind_eq_bind,
        Option.some_bind, free_node]
    · apply list_seg_frame w.cell _ none _ sB
      intro y hy
      exact Function.update_noteq (hBe y hy) _ _
  · rw [List.concat_eq_append] at hA
    subst hA
    rw [list_seg_append] at sA
    obtain ⟨sA1, sb, -⟩ := sA
    simp only [firstLink] at sb
    have hbe : b.1 ≠ e.1 := hAe b (by simp)
    obtain ⟨x, L, hxL⟩ : ∃ x L, A1 ++ [b] = x :: L := by
      cases A1 with
      | nil => exact ⟨b, [], rfl⟩
      | cons x t => exact ⟨x, t ++ [b], rfl⟩
    have hhead : w.head = some x.1 := by
      rw [hh, hxL]
      rfl
    have hxe : x.1 ≠ e.1 := hAe x (by rw [hxL]; exact List.mem_cons_self _ _)
    have hseg : Seg w.cell (x :: L) (some e.1) := by
      rw [← hxL, list_seg_append]
      exact ⟨sA1, sb, trivial⟩
    have hlast : (x :: L).getLast? = some b := by
      rw [← hxL]; simp
    have hLlen : L.length < fuel := by
      have : (A1 ++ [b]).length = (x :: L).length := by rw [hxL]
      simp only [List.length_append, List.length_cons, List.length_singleton,
        List.length_nil] at hf this
      omega
    have hfind := list_findPrev_spec w e.1 L x b fuel hseg
      (fun y hy => hAe y (by rw [hxL]; exact List.mem_cons_of_mem _ hy)) hlast hLlen
    refine ⟨{ w with cell := Function.update (Function.update w.cell b.1
        (some { item := b.2, next := firstLink B none })) e.1 none }, ?_,
      ⟨?_, ?_, hnd2, hbr2⟩, rfl, rfl⟩
    · unfold delete_node
      simp only [hhead, hxe, if_false, Option.bind_eq_bind, hfind, Option.some_bind, getNext, sb,
        Option.map_some', if_true, sc, setNext, free_node, Function.update_noteq hbe.symm]
    · simp only []
      rw [hhead, hxL]
      rfl
    · simp only []
      rw [List.append_assoc, list_seg_append, list_seg_append]
      refine ⟨?_, ⟨?_, trivial⟩, ?_⟩
      · apply list_seg_frame w.cell _ _ _ sA1
        intro y hy
        have hyb : y.1 ≠ b.1 := by
          intro heq
          rw [List.map_append, List.nodup_append] at ndA
          exact ndA.2.2 (List.mem_map_of_mem Prod.fst hy) (by simp [heq])
        rw [Function.update_noteq (hAe y (by simp [hy])), Function.update_noteq hyb]
      · rw [Function.update_noteq hbe, Function.update_same]
        rfl
      · apply list_seg_frame w.cell _ _ _ sB
        intro y hy
        have hyb : y.1 ≠ b.1 := fun heq => hAB b (by simp) y hy heq.symm
        rw [Function.update_noteq (hBe y hy), Function.update_noteq hyb]

theorem list_toUChar_natCast (j : Nat) : toUChar (j : Int) = j % 256 := by
  unfold toUChar
  omega

theorem list_push_make_node_spec (w : World) (l : List (Nat × Nat)) (item : Nat) (h : IsList w l) :
    ∃ w1, push (make_node w item).1 (make_node w item).2 = some w1 ∧
      IsList w1 ((w.brk, item) :: l) ∧ w1.out = w.out := by
  obtain ⟨hh, hs, hnd, hbr⟩ := h
  refine ⟨{ w with cell := Function.update w.cell w.brk (some { item := item, next := w.head }),
                   brk := w.brk + 1, head := some w.brk }, ?_, ⟨rfl, ⟨?_, ?_⟩, ?_, ?_⟩, rfl⟩
  · simp only [push, insert, make_node, setNext, Function.update_same, Option.map_some',
      Function.update_idem]
  · simp only [Function.update_same, hh]
  · apply list_seg_frame w.cell _ _ _ hs
    intro y hy
    have := hbr y hy
    exact Function.update_noteq (by omega) _ _
  · rw [List.map_cons, List.nodup_cons]
    refine ⟨?_, hnd⟩
    intro hmem
    obtain ⟨y, hy, heq⟩ := List.mem_map.1 hmem
    have := hbr y hy
    simp only [] at heq
    omega
  · intro y hy
    rcases List.mem_cons.1 hy with hy | hy
    · rw [hy]; exact Nat.lt_succ_self _
    · exact Nat.lt_succ_of_lt (hbr y hy)

theorem list_createLoop_spec (i : Nat) :
    ∀ (w : World) (l : List (Nat × Nat)), IsList w l →
      ∃ w1 l1, createLoop i w = some w1 ∧ IsList w1 (l1 ++ l) ∧
        l1.map Prod.snd = (List.range' 1 i).map (fun j => j % 256) ∧ w1.out = w.out := by
  induction i with
  | zero => intro w l h; exact ⟨w, [], rfl, h, rfl, rfl⟩
  | succ i ih =>
    intro w l h
    obtain ⟨w0, e0, q0, o0⟩ := list_push_make_node_spec w l (toUChar ((i + 1 : Nat) : Int)) h
    obtain ⟨w1, l1, e1, q1, m1, o1⟩ := ih w0 _ q0
    refine ⟨w1, l1 ++ [(w.brk, toUChar ((i + 1 : Nat) : Int))], ?_, ?_, ?_, by rw [o1, o0]⟩
    · simp only [createLoop, e0, Option.some_bind, e1]
    · rw [List.append_assoc]; exact q1
    · rw [List.map_append, m1, List.range'_1_concat, List.map_append, list_toUChar_natCast]
      simp [Nat.add_comm]

theorem list_destroy_empty (w : World) (fuel : Nat) (hh : w.head = none) (hf : 0 < fuel) :
    destroy fuel w = some { w with head := none } := by
  obtain ⟨f, rfl⟩ : ∃ f, fuel = f + 1 := ⟨fuel - 1, by omega⟩
  simp only [destroy, destroyLoop, hh, Option.map_some']

theorem list_create_list_spec (w : World) (n fuel : Nat) (hh : w.head = none) (hn : 0 < n)
    (hf : 0 < fuel) :
    ∃ w1 l, create_list fuel w (n : Int) = some w1 ∧ IsList w1 l ∧
      l.map Prod.snd = (List.range' 1 n).map (fun j => j % 256) ∧ w1.out = w.out := by
  have h0 : IsList { w with head := none } [] :=
    ⟨rfl, trivial, List.nodup_nil, fun e he => by simp at he⟩
  obtain ⟨w1, l1, e1, q1, m1, o1⟩ := list_createLoop_spec n _ [] h0
  rw [List.append_nil] at q1
  refine ⟨w1, l1, ?_, q1, m1, o1⟩
  unfold create_list
  rw [if_neg (by omega), list_destroy_empty w fuel hh hf]
  simp only [Option.some_bind, Int.toNat_ofNat]
  exact e1

theorem list_circ_split (w : World) (e : Nat × Nat) (rest : List (Nat × Nat))
    (h : Circ w (e :: rest)) :
    ∃ A B, rest = B ++ A ∧ IsList w (A ++ e :: B) := by
  obtain ⟨A, C, hc, hl, hCA⟩ := h
  cases C with
  | nil =>
    rw [hCA rfl] at hc
    cases hc
  | cons c B =>
    rw [List.cons_append] at hc
    cases hc
    exact ⟨A, B, rfl, hl⟩

theorem list_circ_of_list (w : World) (A B : List (Nat × Nat)) (h : IsList w (A ++ B)) :
    Circ w (B ++ A) := by
  cases B with
  | nil =>
    refine ⟨[], A, by simp, by simpa using h, ?_⟩
    intro hA
    rfl
  | cons b B1 => exact ⟨A, b :: B1, rfl, h, fun hb => by cases hb⟩

theorem list_length_of_split (A B : List (Nat × Nat)) (e : Nat × Nat) :
    (A ++ e :: B).length = (e :: (B ++ A)).length := by
  simp only [List.length_append, List.length_cons]
  omega

theorem list_next_wrap_circ (w : World) (e : Nat × Nat) (rest : List (Nat × Nat)) (fuel : Nat)
    (h : Circ w (e :: rest)) (hf : (e :: rest).length < fuel) :
    ∃ w1, next_wrap fuel w (some e.1) = some (w1, firstLink (rest ++ [e]) none) ∧
      Circ w1 (rest ++ [e]) ∧ w1.out = w.out := by
  obtain ⟨A, B, hr, hl⟩ := list_circ_split w e rest h
  subst hr
  obtain ⟨g, hg⟩ := list_next_wrap_spec w A B e fuel hl (by rw [list_length_of_split]; exact hf)
  refine ⟨_, hg, ?_, rfl⟩
  have hl1 : IsList { w with g_first_node := g } ((A ++ [e]) ++ B) := by
    rw [List.append_assoc]
    exact list_isList_congr w _ _ hl rfl rfl rfl
  have := list_circ_of_list _ (A ++ [e]) B hl1
  rw [← List.append_assoc] at this
  exact this

theorem list_stepLoop_spec (fuel : Nat) (j : Nat) :
    ∀ (w : World) (circle : List (Nat × Nat)), Circ w circle → circle ≠ [] →
      circle.length < fuel →
      ∃ w1, stepLoop fuel j w (firstLink circle none) =
          some (w1, firstLink (circle.rotate j) none) ∧
        Circ w1 (circle.rotate j) ∧ w1.out = w.out := by
  induction j with
  | zero =>
    intro w circle h _ _
    exact ⟨w, by simp [stepLoop], by simpa using h, rfl⟩
  | succ j ih =>
    intro w circle h hne hf
    cases circle with
    | nil => exact absurd rfl hne
    | cons e rest =>
      obtain ⟨w0, e0, c0, o0⟩ := list_next_wrap_circ w e rest fuel h hf
      obtain ⟨w1, e1, c1, o1⟩ := ih w0 (rest ++ [e]) c0 (by simp) (by simpa using hf)
      refine ⟨w1, ?_, ?_, by rw [o1, o0]⟩
      · simp only [stepLoop, firstLink, e0, Option.some_bind, List.rotate_cons_succ]
        exact e1
      · rw [List.rotate_cons_succ]; exact c1

theorem list_removeCurrent_spec (fuel : Nat) (n out : Int) (w : World) (e : Nat × Nat)
    (t : List (Nat × Nat)) (h : Circ w (e :: t)) (hf : (e :: t).length < fuel) :
    ∃ w1 c1, removeCurrent fuel n out w (some e.1) = some (w1, c1) ∧ Circ w1 t ∧
      (t ≠ [] → c1 = firstLink t none) ∧
      w1.out = (w.out ++ [toString e.2]) ++ (if out ≠ n - 1 then [" "] else []) := by
  obtain ⟨A, B, hr, hl⟩ := list_circ_split w e t h
  subst hr
  have hc := ((list_seg_append _ _ _ _).1 hl.2.1).2.1
  have hlen : (A ++ e :: B).length < fuel := by rw [list_length_of_split]; exact hf
  have key : ∀ (w2 : World), w2.cell = w.cell → w2.head = w.head → w2.brk = w.brk →
      ∃ w1 c1, ((next_wrap fuel w2 (some e.1)).bind fun r =>
          (delete_node fuel r.1 (some e.1)).bind fun w3 => some (w3, r.2)) = some (w1, c1) ∧
        Circ w1 (B ++ A) ∧ (B ++ A ≠ [] → c1 = firstLink (B ++ A) none) ∧ w1.out = w2.out := by
    intro w2 k1 k2 k3
    have hl2 := list_isList_congr w w2 _ hl k1 k2 k3
    obtain ⟨g, hg⟩ := list_next_wrap_spec w2 A B e fuel hl2 hlen
    obtain ⟨w3, e3, q3, o3, -⟩ := list_delete_node_spec { w2 with g_first_node := g } A B e fuel
      (list_isList_congr w2 _ _ hl2 rfl rfl rfl) hlen
    refine ⟨w3, firstLink (B ++ A ++ [e]) none, ?_, list_circ_of_list w3 A B q3, ?_, o3⟩
    · rw [hg]
      simp only [Option.some_bind, e3]
    · intro hne
      rw [list_firstLink_append (B ++ A)]
      cases hBA : B ++ A with
      | nil => exact absurd hBA hne
      | cons x r => rfl
  unfold removeCurrent
  simp only [getItem, hc, Option.map_some', Option.bind_eq_bind, Option.some_bind]
  by_cases ho : out ≠ n - 1
  · rw [if_pos ho, if_pos ho]
    obtain ⟨w1, c1, e1, q1, f1, o1⟩ := key
      { w with out := w.out ++ [toString e.2] ++ [" "] } rfl rfl rfl
    exact ⟨w1, c1, e1, q1, f1, o1⟩
  · rw [if_neg ho, if_neg ho]
    obtain ⟨w1, c1, e1, q1, f1, o1⟩ := key
      { w with out := w.out ++ [toString e.2] } rfl rfl rfl
    exact ⟨w1, c1, e1, q1, f1, by rw [o1]; simp⟩

theorem list_eliminate_length {α : Type} (m : Nat) :
    ∀ (r : Nat) (l : List α), l.length = r → (eliminate m r l).length = r := by
  intro r
  induction r with
  | zero => intro l _; rfl
  | succ r ih =>
    intro l hl
    have hrot : (l.rotate (m - 1)).length = r + 1 := by rw [List.length_rotate, hl]
    cases hc : l.rotate (m - 1) with
    | nil => rw [hc] at hrot; cases hrot
    | cons x t =>
      rw [hc] at hrot
      simp only [eliminate, hc, List.length_cons]
      rw [ih t (by simpa using hrot)]

theorem list_eliminate_map {α β : Type} (f : α → β) (m : Nat) :
    ∀ (r : Nat) (l : List α), (eliminate m r l).map f = eliminate m r (l.map f) := by
  intro r
  induction r with
  | zero => intro l; rfl
  | succ r ih =>
    intro l
    simp only [eliminate]
    rw [← List.map_rotate]
    cases hc : l.rotate (m - 1) with
    | nil => rfl
    | cons x t =>
      simp only [List.map_cons]
      rw [ih t]

theorem list_eliminate_perm {α : Type} (m : Nat) :
    ∀ (r : Nat) (l : List α), l.length = r → (eliminate m r l).Perm l := by
  intro r
  induction r with
  | zero =>
    intro l hl
    rw [List.length_eq_zero.1 hl]
    exact List.Perm.refl _
  | succ r ih =>
    intro l hl
    have hrot : (l.rotate (m - 1)).length = r + 1 := by rw [List.length_rotate, hl]
    have hp : (l.rotate (m - 1)).Perm l := List.rotate_perm l (m - 1)
    cases hc : l.rotate (m - 1) with
    | nil => rw [hc] at hrot; cases hrot
    | cons x t =>
      rw [hc] at hrot hp
      simp only [eliminate, hc]
      exact ((ih t (by simpa using hrot)).cons x).trans hp

theorem list_render_cons (x : Nat) (l : List Nat) :
    render (x :: l) = toString x :: ((if l = [] then [] else [" "]) ++ render l) := by
  cases l with
  | nil => rfl
  | cons y t => rfl

theorem list_roundLoop_spec (fuel : Nat) (n : Int) (m : Nat) (hm : 0 < m) :
    ∀ (rem : Nat) (w : World) (circle : List (Nat × Nat)) (current : link),
      Circ w circle → circle.length = rem → rem < fuel →
      (circle ≠ [] → current = firstLink circle none) →
      ∃ w1, roundLoop fuel n (m : Int) rem w current = some w1 ∧
        w1.out = w.out ++ render ((eliminate m rem circle).map Prod.snd) ∧ w1.head = none := by
  intro rem
  induction rem with
  | zero =>
    intro w circle current hc hl _ _
    refine ⟨w, rfl, by simp [eliminate, render], ?_⟩
    rw [List.length_eq_zero.1 hl] at hc
    obtain ⟨A, C, h1, h2, -⟩ := hc
    have hA : A = [] := (List.append_eq_nil.1 h1.symm).2
    have hC : C = [] := (List.append_eq_nil.1 h1.symm).1
    rw [hA, hC] at h2
    exact h2.1
  | succ rem ih =>
    intro w circle current hc hl hf hcur
    have hne : circle ≠ [] := by
      intro h0
      rw [h0] at hl
      cases hl
    have hcur1 := hcur hne
    obtain ⟨w0, e0, c0, o0⟩ := list_stepLoop_spec fuel (m - 1) w circle hc hne (by omega)
    rw [← hcur1] at e0
    have hrot : (circle.rotate (m - 1)).length = rem + 1 := by rw [List.length_rotate, hl]
    cases hcr : circle.rotate (m - 1) with
    | nil => rw [hcr] at hrot; cases hrot
    | cons e t =>
      rw [hcr] at e0 c0 hrot
      have ht : t.length = rem := by simpa using hrot
      obtain ⟨w1, c1, e1, q1, f1, o1⟩ := list_removeCurrent_spec fuel n
        (n - ((rem + 1 : Nat) : Int)) w0 e t c0 (by rw [hrot]; exact hf)
      obtain ⟨w2, e2, o2, h2⟩ := ih w1 t c1 q1 ht (by omega) f1
      refine ⟨w2, ?_, ?_, h2⟩
      · simp only [roundLoop]
        by_cases hm1 : (m : Int) = 1
        · have hm2 : m = 1 := by omega
          subst hm2
          simp only [Nat.sub_self, stepLoop, Option.some.injEq, Prod.mk.injEq] at e0
          obtain ⟨hw, hcp⟩ := e0
          subst hw
          rw [if_pos hm1, hcp]
          simp only [firstLink]
          rw [e1]
          exact e2
        · rw [if_neg hm1]
          have hsub : ((m : Int) - 1).toNat = m - 1 := by omega
          rw [hsub, e0]
          simp only [Option.some_bind, firstLink] at e1 ⊢
          rw [e1]
          exact e2
      · rw [o2, o1, o0]
        simp only [eliminate, hcr, List.map_cons, list_render_cons, List.append_assoc]
        have hlen := list_eliminate_length m rem t ht
        by_cases hr : rem = 0
        · subst hr
          have h1 : eliminate m 0 t = [] := rfl
          simp [h1, render]
        · have hne1 : (eliminate m rem t).map Prod.snd ≠ [] := by
            intro h0
            have := congrArg List.length h0
            simp only [List.length_map, List.length_nil] at this
            omega
          have hout : (n - ((rem + 1 : Nat) : Int)) ≠ n - 1 := by
            intro hx
            have : ((rem + 1 : Nat) : Int) = 1 := by omega
            omega
          rw [if_pos hout, if_neg hne1]
          simp

theorem list_josephus_out (w : World) (n k m fuel : Nat) (hh : w.head = none) (hn : 0 < n)
    (hk : 0 < k) (hm : 0 < m) (hf : n < fuel) :
    ∃ w1, josephus_problem fuel w (n : Int) (k : Int) (m : Int) = some w1 ∧
      w1.out = w.out ++
        render (eliminate m n (((List.range' 1 n).map (fun j => j % 256)).rotate (k - 1))) ++
        ["\n"] ∧
      w1.head = none := by
  obtain ⟨w1, l, e1, q1, m1, o1⟩ := list_create_list_spec w n fuel hh hn (by omega)
  have hlen : l.length = n := by
    have := congrArg List.length m1
    simpa using this
  have hne : l ≠ [] := by
    intro h0
    rw [h0] at hlen
    simp at hlen
    omega
  have eh := list_get_head_node_spec w1 l fuel q1 (by omega)
  obtain ⟨x, t, hxt⟩ : ∃ x t, l = x :: t := by
    cases l with
    | nil => exact absurd rfl hne
    | cons x t => exact ⟨x, t, rfl⟩
  have hc : Circ { w1 with g_first_node := firstLink l none } l := by
    have := list_circ_of_list { w1 with g_first_node := firstLink l none } [] l
      (by rw [List.nil_append]; exact list_isList_congr w1 _ _ q1 rfl rfl rfl)
    simpa using this
  obtain ⟨w2, e2, c2, o2⟩ := list_stepLoop_spec fuel (k - 1) _ l hc hne (by omega)
  obtain ⟨w3, e3, o3, h3⟩ := list_roundLoop_spec fuel (n : Int) m hm n w2 (l.rotate (k - 1))
    (firstLink (l.rotate (k - 1)) none) c2 (by rw [List.length_rotate, hlen]) hf (fun _ => rfl)
  refine ⟨{ w3 with out := w3.out ++ ["\n"] }, ?_, ?_, h3⟩
  · unfold josephus_problem
    rw [if_neg (by omega), e1]
    simp only [Option.some_bind, eh]
    have hfl : firstLink l none = some x.1 := by rw [hxt]; rfl
    have hsub : ((k : Int) - 1).toNat = k - 1 := by omega
    rw [hfl] at e2 ⊢
    simp only [hsub, e2, Option.some_bind, Int.toNat_ofNat, e3, Option.map_some']
  · simp only []
    rw [o3, o2, list_eliminate_map, List.map_rotate, m1]
    simp only []
    rw [o1]

theorem list_range_mod_small (n : Nat) (hn : n ≤ 255) :
    (List.range' 1 n).map (fun j => j % 256) = List.range' 1 n := by
  conv_rhs => rw [← List.map_id (List.range' 1 n)]
  apply List.map_congr_left
  intro j hj
  rw [List.mem_range'_1] at hj
  simp only [id]
  exact Nat.mod_eq_of_lt (by omega)

/-- Josephus order of ex01 where every person number fits the `unsigned char` of a node:
from a memory whose list is empty, for all `n, k, m > 0` with `n <= 255` and every fuel
above `n`, `josephus_problem(n, k, m)` returns and what it writes is the numbers of `josephusOrder n k m` in decimal, a blank between two of
them, and a newline; `josephusOrder n k m`, the order in which the persons `1..n` leave when
the count starts at position `k` (wrapping when `k > n`) and every `m`-th remaining person
leaves, has `n` elements and is a permutation of `1..n`. -/
theorem josephus_order (w : World) (n k m fuel : Nat) (hh : w.head = none) (hn : 0 < n)
    (hk : 0 < k) (hm : 0 < m) (hn255 : n ≤ 255) (hf : n < fuel) :
    ∃ w1, josephus_problem fuel w (n : Int) (k : Int) (m : Int) = some w1 ∧
      w1.out = w.out ++ render (josephusOrder n k m) ++ ["\n"] ∧
      (josephusOrder n k m).length = n ∧
      (josephusOrder n k m).Perm (List.range' 1 n) := by
  obtain ⟨w1, e1, o1, -⟩ := list_josephus_out w n k m fuel hh hn hk hm hf
  rw [list_range_mod_small n hn255] at o1
  have hlen : ((List.range' 1 n).rotate (k - 1)).length = n := by
    rw [List.length_rotate, List.length_range']
  exact ⟨w1, e1, o1, list_eliminate_length m n _ hlen,
    (list_eliminate_perm m n _ hlen).trans (List.rotate_perm _ _)⟩

/-- The Josephus order of ex01 at `(5, 1, 2)` from the memory at program start, and the
evaluation of the three documented calls: they print `2 4 1 5 3`, `3 4 5 6 7 1 2` and
`8 7 9 2 5 4 1 6 3`. -/
theorem josephus_order_witness :
    (World.init.head = none ∧ 0 < 5 ∧ 0 < 1 ∧ 0 < 2 ∧ 5 ≤ 255 ∧ 5 < 6) ∧
    (∃ w1, josephus_problem 6 World.init ((5 : Nat) : Int) ((1 : Nat) : Int) ((2 : Nat) : Int) =
        some w1 ∧
      w1.out = World.init.out ++ render (josephusOrder 5 1 2) ++ ["\n"] ∧
      (josephusOrder 5 1 2).length = 5 ∧
      (josephusOrder 5 1 2).Perm (List.range' 1 5)) ∧
    josephusOrder 5 1 2 = [2, 4, 1, 5, 3] ∧
    (josephus_problem 6 World.init 5 1 2).map (fun w => String.join w.out) =
      some "2 4 1 5 3\n" ∧
    (josephus_problem 8 World.init 7 3 1).map (fun w => String.join w.out) =
      some "3 4 5 6 7 1 2\n" ∧
    (josephus_problem 10 World.init 9 1 8).map (fun w => String.join w.out) =
      some "8 7 9 2 5 4 1 6 3\n" :=
  ⟨⟨rfl, by decide, by decide, by decide, by decide, by decide⟩,
    josephus_order World.init 5 1 2 6 rfl (by decide) (by decide) (by decide) (by decide)
      (by decide),
    by decide, by decide, by decide, by decide⟩

end SinglyLinkedList

namespace MiniTCGVM

/-! ## Faults, block length and immediates -/

theorem execOp_thrown_inv (op : Op) (h h2 : Host) (what : String)
    (hx : execOp op h = .thrown what h2) :
    op = .add ∧ what = "stack underflow" ∧ h.s.stack.length < 2 ∧ h2.s.stack = [] ∧
      h2.s.pc = h.s.pc ∧ h2.s.running = h.s.running ∧ h2.out = h.out := by
  cases op with
  | push imm => simp [execOp] at hx
  | halt => simp [execOp] at hx
  | print =>
    simp only [execOp] at hx
    cases hl : h.s.stack.getLast? <;> rw [hl] at hx <;> cases hx
  | add =>
    by_cases hlen : h.s.stack.length < 2
    · obtain ⟨h1, e1, e2, e3, e4, e5⟩ := execOp_add_underflow h hlen
      rw [e1] at hx
      cases hx
      exact ⟨rfl, rfl, hlen, e2, e4, e5, e3⟩
    · exfalso
      obtain ⟨s, a, b, hs⟩ : ∃ s a b, h.s.stack = s ++ [a, b] := by
        rcases List.eq_nil_or_concat h.s.stack with h0 | ⟨l1, b, h1⟩
        · rw [h0] at hlen; simp at hlen
        · rcases List.eq_nil_or_concat l1 with h2 | ⟨l2, a, h3⟩
          · rw [h1, h2] at hlen; simp at hlen
          · refine ⟨l2, a, b, ?_⟩
            rw [h1, h3]
            simp
      rw [execOp_add_ok h s a b hs] at hx
      cases hx

/-- C31. No rollback on an execution fault: when the operations `ops1` of the block fetched
at pc have run and the next operation `op` throws, `runBody` throws with exactly the state
`op` left at its throw after `ops1`, so every mutation of `ops1` and the completed pops of
`op` are kept; the throwing operation is an Add on fewer than two cells, it leaves the stack
empty and pc, the running flag and the output as `ops1` left them; and Add on a one-element
stack `[a]` throws "stack underflow" with the stack empty. -/
theorem no_rollback (trace : Bool) (r : RunState) (f : Fetch) (ops1 ops2 : List Op) (op : Op)
    (h1 h2 : Host) (what : String)
    (hpc : r.s.pc < r.vm.program_.length)
    (hf : getOrTranslateTB r.vm r.s.pc trace r.out = .ok f)
    (hb : f.tb.exec = ops1 ++ op :: ops2)
    (hx1 : execOps ops1 { s := r.s, out := f.out ++ execLines trace f.tb } = .done h1)
    (hx2 : execOp op h1 = .thrown what h2) :
    runBody trace r = .thrown what
      { vm := f.vm, s := h2.s, out := h2.out, lookups := r.lookups ++ [(r.s.pc, f.hit)] } ∧
    (op = .add ∧ what = "stack underflow" ∧ h1.s.stack.length < 2 ∧ h2.s.stack = [] ∧
      h2.s.pc = h1.s.pc ∧ h2.s.running = h1.s.running ∧ h2.out = h1.out) ∧
    (∀ (g : Host) (a : Int), g.s.stack = [a] →
      execOp .add g = .thrown "stack underflow"
        { s := { pc := g.s.pc, running := g.s.running, stack := [] }, out := g.out }) := by
  refine ⟨?_, execOp_thrown_inv op h1 h2 what hx2, ?_⟩
  · have hx : execOps f.tb.exec { s := r.s, out := f.out ++ execLines trace f.tb } =
        .thrown what h2 := by
      rw [hb, execOps_append, hx1]
      simp only [execOps, hx2]
    unfold runBody
    rw [if_neg (by omega), hf]
    simp only []
    have hout : (if trace = true then
        f.out ++ [Line.trace (">> exec TB @pc=" ++ toString f.tb.guest_pc
          ++ " (next_pc=" ++ toString f.tb.next_pc
          ++ ", ver=" ++ toString f.tb.compiled_version ++ ")")]
        else f.out) = f.out ++ execLines trace f.tb := by
      unfold execLines
      cases trace <;> simp
    rw [hout, hx]
  · intro g a hg
    simp [execOp, pop, hg]

/-- C31 on the program `PUSH 3; PRINT; ADD; HALT` with block length 8: the block pushes 3,
prints it, and Add throws; at the fault the stack is empty (the 3 is consumed), the line
`[print] 3` written before the fault is kept and pc is still 0. -/
theorem no_rollback_witness :
    ((0 : Nat) < [(3 : Int), 1073741829, 1073741825, 1073741824].length ∧
      getOrTranslateTB (loadProgram (VM.new 8) [3, 1073741829, 1073741825, 1073741824]) 0
          false [] =
        .ok { tb := { guest_pc := 0, next_pc := 4, compiled_version := 2,
                      exec := [.push 3, .print, .add, .halt],
                      debug := "PUSH +3\nPRINT\nADD\nHALT\n" },
              hit := false,
              vm := { program_ := [3, 1073741829, 1073741825, 1073741824],
                      program_version_ := 2,
                      tb_cache_ := [(0, { guest_pc := 0, next_pc := 4, compiled_version := 2,
                                          exec := [.push 3, .print, .add, .halt],
                                          debug := "PUSH +3\nPRINT\nADD\nHALT\n" })],
                      max_tb_insns_ := 8 },
              out := [] } ∧
      execOps [.push 3, .print]
          { s := { pc := 0, running := true, stack := [] }, out := [] } =
        .done { s := { pc := 0, running := true, stack := [3] },
                out := [.print "[print] 3"] } ∧
      execOp .add { s := { pc := 0, running := true, stack := [3] },
                    out := [.print "[print] 3"] } =
        .thrown "stack underflow"
          { s := { pc := 0, running := true, stack := [] }, out := [.print "[print] 3"] }) ∧
    runBody false
        { vm := loadProgram (VM.new 8) [3, 1073741829, 1073741825, 1073741824],
          s := { pc := 0, running := true, stack := [] }, out := [], lookups := [] } =
      .thrown "stack underflow"
        { vm := { program_ := [3, 1073741829, 1073741825, 1073741824],
                  program_version_ := 2,
                  tb_cache_ := [(0, { guest_pc := 0, next_pc := 4, compiled_version := 2,
                                      exec := [.push 3, .print, .add, .halt],
                                      debug := "PUSH +3\nPRINT\nADD\nHALT\n" })],
                  max_tb_insns_ := 8 },
          s := { pc := 0, running := true, stack := [] },
          out := [.print "[print] 3"],
          lookups := [(0, false)] } :=
  ⟨⟨by decide, by rfl, by rfl, by rfl⟩,
    (no_rollback false
      { vm := loadProgram (VM.new 8) [3, 1073741829, 1073741825, 1073741824],
        s := { pc := 0, running := true, stack := [] }, out := [], lookups := [] }
      { tb := { guest_pc := 0, next_pc := 4, compiled_version := 2,
                exec := [.push 3, .print, .add, .halt],
                debug := "PUSH +3\nPRINT\nADD\nHALT\n" },
        hit := false,
        vm := { program_ := [3, 1073741829, 1073741825, 1073741824],
                program_version_ := 2,
                tb_cache_ := [(0, { guest_pc := 0, next_pc := 4, compiled_version := 2,
                                    exec := [.push 3, .print, .add, .halt],
                                    debug := "PUSH +3\nPRINT\nADD\nHALT\n" })],
                max_tb_insns_ := 8 },
        out := [] }
      [.push 3, .print] [.halt] .add
      { s := { pc := 0, running := true, stack := [3] }, out := [.print "[print] 3"] }
      { s := { pc := 0, running := true, stack := [] }, out := [.print "[print] 3"] }
      "stack underflow" (by decide) (by rfl) (by rfl) (by rfl) (by rfl)).1⟩

/-- C33. A translation fault precedes every effect of its block: from a coherent cache, if
translating the block at pc fails with `w`, the loop of `run` throws `w` with the guest state
and the VM unchanged and no Print line added (with tracing off the output is unchanged). For
the program `PUSH 3; PRINT; word with tag Undef` the run with block length 8 faults at pc 0
with an empty stack and nothing printed, the run with block length 2 faults at pc 2 after
printing 3. -/
theorem translation_fault_first (trace : Bool) (r : RunState) (fuel : Nat) (w : String)
    (hrun : r.s.running = true) (hpc : r.s.pc < r.vm.program_.length) (hok : CacheOK r.vm)
    (ht : translateTB r.vm r.s.pc = .error w) :
    (∃ r1, runLoop trace (fuel + 1) r = some (.thrown w r1) ∧ r1.s = r.s ∧ r1.vm = r.vm ∧
      printed r1.out = printed r.out ∧ (trace = false → r1.out = r.out)) ∧
    (insnOp 3 = .ok (.push 3) ∧ insnOp 1073741829 = .ok .print ∧ getType (-1) = .Undef) ∧
    (∀ (t : Bool) (n : Nat),
      (run (loadProgram (VM.new 8) [3, 1073741829, -1]) t (n + 1)).map
          (fun x => (x.what, x.st.s, printed x.st.out)) =
        some (some "undefined instruction type",
          { pc := 0, running := true, stack := [] }, [])) ∧
    (∀ (t : Bool) (n : Nat),
      (run (loadProgram (VM.new 2) [3, 1073741829, -1]) t (n + 2)).map
          (fun x => (x.what, x.st.s, printed x.st.out)) =
        some (some "undefined instruction type",
          { pc := 2, running := true, stack := [3] }, ["[print] 3"])) := by
  refine ⟨?_, ⟨by rfl, by rfl, by rfl⟩, fun t n => by cases t <;> rfl,
    fun t n => by cases t <;> rfl⟩
  have hmiss := hitEntry_none_of_error r.vm hok r.s.pc w ht
  have hg := getOrTranslateTB_of_miss_error r.vm r.s.pc trace r.out w hmiss ht
  refine ⟨{ vm := r.vm, s := r.s,
            out := if trace then
              r.out ++ [.trace ("[TB MISS] pc=" ++ toString r.s.pc ++ " -> translating...")]
              else r.out,
            lookups := r.lookups ++ [(r.s.pc, false)] }, ?_, rfl, rfl, ?_, ?_⟩
  · rw [runLoop, if_pos hrun]
    unfold runBody
    rw [if_neg (by omega), hg]
  · cases trace <;> simp [printed]
  · intro h
    simp [h]

/-- C33 at the start of the program `PUSH 3; PRINT; word with tag Undef` with block length
8: the block at pc 0 fails to translate and the run throws with nothing printed. -/
theorem translation_fault_first_witness :
    (true = true ∧ (0 : Nat) < [(3 : Int), 1073741829, -1].length ∧
      translateTB (loadProgram (VM.new 8) [3, 1073741829, -1]) 0 =
        .error "undefined instruction type") ∧
    ∃ r1, runLoop false (0 + 1)
        { vm := loadProgram (VM.new 8) [3, 1073741829, -1],
          s := { pc := 0, running := true, stack := [] }, out := [], lookups := [] } =
        some (.thrown "undefined instruction type" r1) ∧
      r1.s = { pc := 0, running := true, stack := [] } ∧
      r1.vm = loadProgram (VM.new 8) [3, 1073741829, -1] ∧
      printed r1.out = printed [] ∧ (false = false → r1.out = []) :=
  ⟨⟨rfl, by decide, by rfl⟩,
    (translation_fault_first false
      { vm := loadProgram (VM.new 8) [3, 1073741829, -1],
        s := { pc := 0, running := true, stack := [] }, out := [], lookups := [] }
      0 "undefined instruction type" rfl (by decide) (cacheOK_of_empty _ rfl) (by rfl)).1⟩

theorem translateTB_zero (vm : VM) (pc : Nat) (h0 : vm.max_tb_insns_ = 0) :
    translateTB vm pc =
      .ok { guest_pc := pc, next_pc := pc, compiled_version := vm.program_version_,
            exec := [], debug := "" } := by
  unfold translateTB
  rw [h0]
  rfl

theorem runLoop_zero (trace : Bool) (fuel : Nat) :
    ∀ r : RunState, CacheOK r.vm → r.vm.max_tb_insns_ = 0 → r.s.running = true →
      r.s.pc < r.vm.program_.length → runLoop trace fuel r = none := by
  induction fuel with
  | zero => intro r _ _ _ _; rfl
  | succ n ih =>
    intro r hok h0 hrun hpc
    rw [runLoop, if_pos hrun, runBody_eq_spec trace r hok]
    have hinv := runBodySpec_inv trace r hok
    unfold runBodySpec at hinv ⊢
    rw [if_neg (by omega), translateTB_zero r.vm r.s.pc h0] at hinv ⊢
    simp only [execOps] at hinv ⊢
    obtain ⟨ok1, sc1, -, -⟩ := hinv
    simp only [Res.st] at ok1 sc1
    exact ih _ ok1 (by rw [sc1.2.1]; exact h0) hrun (by simp only []; rw [sc1.1]; exact hpc)

/-- C34. A zero block length stalls the VM: with `max_tb_insns_ = 0` and a coherent cache,
`translateTB` succeeds at every pc with an empty operation list and `next_pc = pc`; on a
non-empty program one iteration of the loop of `run` returns with pc, the running flag and
the stack unchanged and no Print line added; and `run` returns no result, neither a normal
return nor a throw, whatever the number of iterations allowed. -/
theorem zero_block_length_stalls (vm : VM) (hok : CacheOK vm) (h0 : vm.max_tb_insns_ = 0)
    (hne : vm.program_ ≠ []) :
    (∀ pc, translateTB vm pc =
      .ok { guest_pc := pc, next_pc := pc, compiled_version := vm.program_version_,
            exec := [], debug := "" }) ∧
    (∀ (trace : Bool) (r : RunState), r.vm = vm → r.s.pc < vm.program_.length →
      ∃ r1, runBody trace r = .done r1 ∧ r1.s = r.s ∧ printed r1.out = printed r.out ∧
        r1.vm.program_ = vm.program_ ∧ r1.vm.max_tb_insns_ = 0) ∧
    (∀ (trace : Bool) (fuel : Nat), run vm trace fuel = none) := by
  refine ⟨fun pc => translateTB_zero vm pc h0, ?_, ?_⟩
  · intro trace r hr hpc
    subst hr
    rw [runBody_eq_spec trace r hok]
    have hinv := runBodySpec_inv trace r hok
    unfold runBodySpec at hinv ⊢
    rw [if_neg (by omega), translateTB_zero r.vm r.s.pc h0] at hinv ⊢
    simp only [execOps] at hinv ⊢
    obtain ⟨-, sc1, -, -⟩ := hinv
    simp only [Res.st] at sc1
    refine ⟨_, rfl, rfl, ?_, sc1.1, by rw [sc1.2.1]; exact h0⟩
    simp only [printed_append, printed_lookupLines, printed_execLines, printed_tosLines,
      List.append_nil]
  · intro trace fuel
    unfold run
    apply runLoop_zero trace fuel _ hok h0 rfl
    simp only []
    exact List.length_pos.2 hne

/-- C34 on the one-word program `HALT` loaded into a VM made with block length 0. -/
theorem zero_block_length_stalls_witness :
    ((loadProgram (VM.new 0) [1073741824]).max_tb_insns_ = 0 ∧
      (loadProgram (VM.new 0) [1073741824]).program_ ≠ []) ∧
    (∀ pc, translateTB (loadProgram (VM.new 0) [1073741824]) pc =
      .ok { guest_pc := pc, next_pc := pc,
            compiled_version := (loadProgram (VM.new 0) [1073741824]).program_version_,
            exec := [], debug := "" }) ∧
    (∀ (trace : Bool) (fuel : Nat),
      run (loadProgram (VM.new 0) [1073741824]) trace fuel = none) :=
  ⟨⟨rfl, by decide⟩,
    (zero_block_length_stalls (loadProgram (VM.new 0) [1073741824])
      (cacheOK_of_empty _ rfl) rfl (by decide)).1,
    (zero_block_length_stalls (loadProgram (VM.new 0) [1073741824])
      (cacheOK_of_empty _ rfl) rfl (by decide)).2.2⟩

theorem insnOp_push_range (w v : Int) (h : insnOp w = .ok (.push v)) :
    -1073741823 ≤ v ∧ v ≤ 1073741823 := by
  have hd := getData_lt w
  unfold insnOp at h
  cases ht : getType w with
  | PosImm =>
    rw [ht] at h
    simp only [Except.ok.injEq, Op.push.injEq] at h
    omega
  | NegImm =>
    rw [ht] at h
    simp only [Except.ok.injEq, Op.push.injEq] at h
    omega
  | Prim =>
    rw [ht] at h
    simp only [] at h
    split at h
    · cases h
    · split at h
      · cases h
      · split at h <;> cases h
  | Undef =>
    rw [ht] at h
    cases h

theorem forall₂_mem_right {α β : Type} (R : α → β → Prop) :
    ∀ (l : List α) (m : List β), List.Forall₂ R l m → ∀ b ∈ m, ∃ a ∈ l, R a b := by
  intro l m h
  induction h with
  | nil => intro b hb; simp at hb
  | cons hab _ ih =>
    intro b hb
    rcases List.mem_cons.1 hb with hb | hb
    · subst hb
      exact ⟨_, List.mem_cons_self _ _, hab⟩
    · obtain ⟨a, ha, hr⟩ := ih b hb
      exact ⟨a, List.mem_cons_of_mem _ ha, hr⟩

/-- C35. Add of two immediates is exact: every `a`, `b` in `[-(2^30-1), 2^30-1]` is pushed
by some immediate instruction word, their sum lies in `[-(2^31-2), 2^31-2]`, so the wrapped
sum Add computes is `a + b` and Add on a stack ending in `a, b` replaces them by `a + b`;
every value pushed by an operation of a translated block lies in `[-(2^30-1), 2^30-1]`; and
a sum that wraps never has two operands that immediate instructions push. -/
theorem add_immediates_exact (a b : Int)
    (ha : -1073741823 ≤ a ∧ a ≤ 1073741823) (hb : -1073741823 ≤ b ∧ b ≤ 1073741823) :
    (∃ wa wb, insnOp wa = .ok (.push a) ∧ insnOp wb = .ok (.push b)) ∧
    (-2147483646 ≤ a + b ∧ a + b ≤ 2147483646) ∧ wrapI32 (a + b) = a + b ∧
    (∀ (h : Host) (s : List Int), h.s.stack = s ++ [a, b] →
      execOp .add h =
        .done { s := { pc := h.s.pc, running := h.s.running, stack := s ++ [a + b] },
                out := h.out }) ∧
    (∀ (vm : VM) (pc : Nat) (tb : TB) (v : Int), translateTB vm pc = .ok tb →
      Op.push v ∈ tb.exec → -1073741823 ≤ v ∧ v ≤ 1073741823) ∧
    (∀ x y : Int, wrapI32 (x + y) ≠ x + y →
      ¬ ((∃ wx, insnOp wx = .ok (.push x)) ∧ (∃ wy, insnOp wy = .ok (.push y)))) := by
  have hw : wrapI32 (a + b) = a + b := wrapI32_of_isI32 _ ⟨by omega, by omega⟩
  refine ⟨?_, ⟨by omega, by omega⟩, hw, ?_, ?_, ?_⟩
  · obtain ⟨wa, -, h1⟩ := insnOp_imm_word a ha.1 ha.2
    obtain ⟨wb, -, h2⟩ := insnOp_imm_word b hb.1 hb.2
    exact ⟨wa, wb, h1, h2⟩
  · intro h s hs
    rw [execOp_add_ok h s a b hs, hw]
  · intro vm pc tb v ht hv
    unfold translateTB at ht
    split at ht
    · cases ht
    · rename_i sc hsc
      cases ht
      obtain ⟨ws, rest, ops, -, -, -, e4, e5, -⟩ := translateLoop_sound _ _ _ _ hsc
      simp only [List.nil_append] at e4
      simp only [] at hv
      rw [e4] at hv
      obtain ⟨ins, -, hins⟩ := forall₂_mem_right _ ws ops e5 _ hv
      exact insnOp_push_range ins v hins
  · intro x y hxy ⟨⟨wx, hx⟩, ⟨wy, hy⟩⟩
    have rx := insnOp_push_range wx x hx
    have ry := insnOp_push_range wy y hy
    exact hxy (wrapI32_of_isI32 _ ⟨by omega, by omega⟩)

/-- C35 at `a = 2^30-1`, `b = 2^30-1`, the largest immediates: Add pushes `2^31-2`; and the
program that adds four such immediates with three Adds halts with the wrapped cell `-4`. -/
theorem add_immediates_exact_witness :
    ((-1073741823 : Int) ≤ 1073741823 ∧ (1073741823 : Int) ≤ 1073741823) ∧
    wrapI32 (1073741823 + 1073741823) = 1073741823 + 1073741823 ∧
    (∀ (h : Host) (s : List Int), h.s.stack = s ++ [1073741823, 1073741823] →
      execOp .add h =
        .done { s := { pc := h.s.pc, running := h.s.running,
                       stack := s ++ [1073741823 + 1073741823] },
                out := h.out }) ∧
    (run (loadProgram (VM.new 2) [1073741823, 1073741823, 1073741825, 1073741823, 1073741823,
        1073741825, 1073741825, 1073741824]) false 9).map (fun x => (x.what, x.st.s.stack)) =
      some (none, [-4]) :=
  ⟨⟨by decide, by decide⟩,
    (add_immediates_exact 1073741823 1073741823 ⟨by decide, by decide⟩
      ⟨by decide, by decide⟩).2.2.1,
    (add_immediates_exact 1073741823 1073741823 ⟨by decide, by decide⟩
      ⟨by decide, by decide⟩).2.2.2.1,
    by rfl⟩

theorem translateLoop_shape (prog : List Int) (rem : Nat) :
    ∀ (sc sc1 : Scan), translateLoop prog rem sc = .ok sc1 →
      ∃ ws rest, prog.drop sc.pc = ws ++ rest ∧ (∀ ins ∈ ws, PlainWord ins) ∧
        ((sc1.ops = sc.ops ++ opsOf ws ∧ sc1.pc = sc.pc + ws.length) ∨
          (∃ hw rest1, rest = hw :: rest1 ∧ insnOp hw = .ok .halt ∧
            sc1.ops = sc.ops ++ opsOf ws ++ [.halt] ∧ sc1.pc = sc.pc + ws.length + 1)) := by
  induction rem with
  | zero =>
    intro sc sc1 h
    simp only [translateLoop] at h
    cases h
    exact ⟨[], _, rfl, by simp, Or.inl ⟨by simp [opsOf], rfl⟩⟩
  | succ n ih =>
    intro sc sc1 h
    cases hf : prog[sc.pc]? with
    | none =>
      rw [translateLoop_of_end prog (n + 1) sc (List.getElem?_eq_none_iff.1 hf)] at h
      cases h
      exact ⟨[], _, rfl, by simp, Or.inl ⟨by simp [opsOf], rfl⟩⟩
    | some ins =>
      have hd := drop_of_getElem? prog sc.pc ins hf
      cases hop : insnOp ins with
      | error w =>
        rw [translateLoop_of_error prog n sc ins hf w hop] at h
        cases h
      | ok op =>
        by_cases hh : op = .halt
        · subst hh
          rw [translateLoop_of_halt prog n sc ins hf hop] at h
          cases h
          exact ⟨[], _, hd, by simp, Or.inr ⟨ins, _, rfl, hop, by simp [opsOf], rfl⟩⟩
        · rw [translateLoop_of_plain prog n sc ins hf op hop hh] at h
          obtain ⟨ws, rest, e1, e2, e3⟩ := ih _ sc1 h
          simp only [] at e1 e3
          refine ⟨ins :: ws, rest, by rw [hd, e1]; rfl, ?_, ?_⟩
          · intro x hx
            rcases List.mem_cons.1 hx with hx | hx
            · rw [hx]; exact ⟨op, hop, hh⟩
            · exact e2 x hx
          · rw [opsOf_cons_ok ins ws op hop]
            rcases e3 with ⟨a1, a2⟩ | ⟨hw, rest1, a0, a1, a2, a3⟩
            · left
              refine ⟨by rw [a1]; simp, ?_⟩
              rw [a2, List.length_cons]; omega
            · right
              refine ⟨hw, rest1, a0, a1, by rw [a2]; simp, ?_⟩
              rw [a3, List.length_cons]; omega

theorem execOps_done_shift (ops : List Op) (s : State) (o : List Line) (y : Host)
    (h : execOps ops { s := s, out := o } = .done y) (p : Nat) (o1 : List Line) :
    ∃ y1, execOps ops { s := { s with pc := p }, out := o1 } = .done y1 := by
  rw [execOps_out] at h ⊢
  rw [execOps_pc]
  cases hx : execOps ops { s := s, out := [] } with
  | thrown w g => rw [hx] at h; cases h
  | done g => exact ⟨_, rfl⟩

theorem set_pc_self (s : State) : { s with pc := s.pc } = s := rfl

theorem runLoop_done_inv (trace : Bool) (fuel : Nat) :
    ∀ (r r1 : RunState), CacheOK r.vm → r.s.running = true →
      runLoop trace fuel r = some (.done r1) →
      ∃ ws hw rest hst, r.vm.program_.drop r.s.pc = ws ++ hw :: rest ∧
        (∀ ins ∈ ws, PlainWord ins) ∧ insnOp hw = .ok .halt ∧
        execOps (opsOf ws ++ [.halt]) { s := r.s, out := [] } = .done hst := by
  induction fuel with
  | zero => intro r r1 _ _ h; simp [runLoop] at h
  | succ n ih =>
    intro r r1 hok hrun h
    rw [runLoop, if_pos hrun, runBody_eq_spec trace r hok] at h
    unfold runBodySpec at h
    by_cases hpc : r.s.pc ≥ r.vm.program_.length
    · rw [if_pos hpc] at h
      cases h
    · rw [if_neg hpc] at h
      cases ht : translateTB r.vm r.s.pc with
      | error w => rw [ht] at h; cases h
      | ok tb =>
        rw [ht] at h
        simp only [] at h
        cases hx : execOps tb.exec { s := r.s, out := [] } with
        | thrown w g => rw [hx] at h; cases h
        | done g =>
          rw [hx] at h
          simp only [] at h
          have ht1 := ht
          unfold translateTB at ht1
          split at ht1
          · cases ht1
          · rename_i sc hsc
            cases ht1
            obtain ⟨ws, rest, e1, e2, e3⟩ := translateLoop_shape _ _ _ _ hsc
            simp only [List.nil_append] at e1 e3 hx
            rcases e3 with ⟨a1, a2⟩ | ⟨hw, rest1, a0, a1, a2, a3⟩
            · rw [a1] at hx
              obtain ⟨-, k2⟩ := execOps_keeps _ _ _ hx (opsOf_no_halt ws e2)
              simp only [] at k2
              have sc1 := sameCode_cacheAfter r.vm r.s.pc
                { guest_pc := r.s.pc, next_pc := sc.pc,
                  compiled_version := r.vm.program_version_, exec := sc.ops, debug := sc.debug }
              obtain ⟨ws1, hw, rest1, hst1, b1, b2, b3, b4⟩ := ih _ r1
                (cacheOK_cacheAfter r.vm hok _ _ ht) (by simp only []; rw [k2]; exact hrun) h
              simp only [] at b1 b4
              rw [sc1.1, a2] at b1
              have hrest : rest = ws1 ++ hw :: rest1 := by
                rw [← b1, ← List.drop_drop, e1]
                simp
              obtain ⟨y, hy⟩ := execOps_done_shift _ _ _ _ b4 g.s.pc g.out
              simp only [] at hy
              refine ⟨ws ++ ws1, hw, rest1, y, by rw [e1, hrest]; simp, ?_, b3, ?_⟩
              · intro x hx1
                rcases List.mem_append.1 hx1 with hx1 | hx1
                · exact e2 x hx1
                · exact b2 x hx1
              · rw [opsOf_append, List.append_assoc, execOps_append, hx]
                exact hy
            · rw [a2] at hx
              exact ⟨ws, hw, rest1, g, by rw [e1, a0], e2, a1, hx⟩

theorem run_of_halts (vm : VM) (trace : Bool) (fuel : Nat) (ws : List Int) (hw : Int)
    (rest : List Int) (hst : Host) (hok : CacheOK vm) (hL : 1 ≤ vm.max_tb_insns_)
    (hp : vm.program_ = ws ++ hw :: rest) (hws : ∀ ins ∈ ws, PlainWord ins)
    (hh : insnOp hw = .ok .halt)
    (hx : execOps (opsOf ws ++ [.halt])
      { s := { pc := 0, running := true, stack := [] }, out := [] } = .done hst)
    (hfuel : vm.program_.length < fuel) :
    ∃ r, run vm trace fuel = some (.done r) ∧ r.s = { hst.s with pc := ws.length + 1 } ∧
      printed r.out = printed hst.out := by
  obtain ⟨r1, g1, g2, g3, -, -⟩ := runLoop_straight trace ws.length ws (Nat.le_refl _) hw rest
    { vm := vm, s := { pc := 0, running := true, stack := [] }, out := [], lookups := [] }
    hst fuel hok hL (by simp [hp]) hws hh rfl hx
    (by rw [hp] at hfuel; simp only [List.length_append, List.length_cons] at hfuel; omega)
  exact ⟨r1, g1, by simpa using g2, by simpa using g3⟩

theorem execOp_done_split (op : Op) (h h1 : Host) (hx : execOp op h = .done h1) :
    ∃ g, execOp op { s := h.s, out := [] } = .done g ∧ h1.s = g.s ∧ h1.out = h.out ++ g.out := by
  have := execOp_out op h.s h.out
  rw [show ({ s := h.s, out := h.out } : Host) = h from rfl, hx] at this
  cases hg : execOp op { s := h.s, out := [] } with
  | thrown w g => rw [hg] at this; cases this
  | done g =>
    rw [hg] at this
    simp only [Res.map, Res.done.injEq] at this
    rw [this]
    exact ⟨g, rfl, rfl, rfl⟩

theorem refLoop_straight (prog : List Int) (hw : Int) (rest : List Int)
    (hh : insnOp hw = .ok .halt) :
    ∀ (ws : List Int) (h hst : Host) (fuel : Nat),
      prog.drop h.s.pc = ws ++ hw :: rest → (∀ ins ∈ ws, PlainWord ins) →
      h.s.running = true →
      execOps (opsOf ws ++ [.halt]) { s := h.s, out := [] } = .done hst →
      ws.length + 2 ≤ fuel →
      ∃ q, refLoop prog fuel h = some (.done q) ∧
        q.s = { hst.s with pc := h.s.pc + ws.length + 1 } ∧
        printed q.out = printed h.out ++ printed hst.out := by
  intro ws
  induction ws with
  | nil =>
    intro h hst fuel hd _ hrun hx hf
    obtain ⟨f, rfl⟩ : ∃ f, fuel = f + 2 := ⟨fuel - 2, by simp at hf; omega⟩
    have hget := (drop_cons_getElem? prog h.s.pc hw rest hd).1
    simp only [opsOf, List.filterMap_nil, List.nil_append, execOps, execOp,
      Res.done.injEq] at hx
    rw [← hx]
    refine ⟨{ s := { pc := h.s.pc + 1, running := false, stack := h.s.stack }, out := h.out },
      ?_, by simp, by simp [printed]⟩
    rw [refLoop, if_pos hrun, hget]
    simp only [hh, execOp]
    rw [refLoop]
    simp
  | cons w ws ih =>
    intro h hst fuel hd hws hrun hx hf
    obtain ⟨f, rfl⟩ : ∃ f, fuel = f + 1 := ⟨fuel - 1, by simp at hf; omega⟩
    obtain ⟨hget, hd1⟩ := drop_cons_getElem? prog h.s.pc w _ hd
    obtain ⟨op, hop, hne⟩ := hws w (List.mem_cons_self _ _)
    rw [opsOf_cons_ok w ws op hop, List.cons_append] at hx
    simp only [execOps] at hx
    cases hg : execOp op { s := h.s, out := [] } with
    | thrown e g => rw [hg] at hx; cases hx
    | done g =>
      rw [hg] at hx
      simp only [] at hx
      obtain ⟨gp, grun, -⟩ := execOp_keeps op _ g hg
      have grun1 := grun hne
      simp only [] at gp grun1
      -- the rest of the operations, started from the state of the next iteration
      have hx0 := hx
      rw [show g = ({ s := g.s, out := g.out } : Host) from rfl, execOps_out] at hx0
      cases hy : execOps (opsOf ws ++ [.halt]) { s := g.s, out := [] } with
      | thrown e y => rw [hy] at hx0; cases hx0
      | done y =>
        rw [hy] at hx0
        simp only [Res.map, Res.done.injEq, Host.prepend] at hx0
        have hy1 := execOps_pc (opsOf ws ++ [.halt]) g.s [] (h.s.pc + 1)
        rw [hy] at hy1
        simp only [Res.map] at hy1
        have hfull := execOp_out op h.s h.out
        rw [hg] at hfull
        simp only [Res.map, Host.prepend] at hfull
        obtain ⟨q, e1, e2, e3⟩ := ih
          { s := { g.s with pc := h.s.pc + 1 }, out := h.out ++ g.out } _ f
          (by simpa using hd1) (fun x hx1 => hws x (List.mem_cons_of_mem _ hx1))
          (by simp only []; rw [grun1]; exact hrun) hy1
          (by simp only [List.length_cons] at hf; omega)
        refine ⟨q, ?_, ?_, ?_⟩
        · rw [refLoop, if_pos hrun, hget]
          simp only [hop]
          rw [show h = ({ s := h.s, out := h.out } : Host) from rfl, hfull]
          exact e1
        · rw [e2, ← hx0]
          simp only [List.length_cons]
          have : h.s.pc + 1 + ws.length + 1 = h.s.pc + (ws.length + 1) + 1 := by omega
          rw [this]
        · rw [e3, ← hx0]
          simp only [printed_append, List.append_assoc]

theorem refLoop_done_inv (prog : List Int) (fuel : Nat) :
    ∀ (h q : Host), h.s.running = true → refLoop prog fuel h = some (.done q) →
      ∃ ws hw rest hst, prog.drop h.s.pc = ws ++ hw :: rest ∧
        (∀ ins ∈ ws, PlainWord ins) ∧ insnOp hw = .ok .halt ∧
        execOps (opsOf ws ++ [.halt]) { s := h.s, out := [] } = .done hst := by
  induction fuel with
  | zero => intro h q _ hx; simp [refLoop] at hx
  | succ n ih =>
    intro h q hrun hx
    rw [refLoop, if_pos hrun] at hx
    cases hget : prog[h.s.pc]? with
    | none => rw [hget] at hx; cases hx
    | some ins =>
      rw [hget] at hx
      simp only [] at hx
      have hd := drop_of_getElem? prog h.s.pc ins hget
      cases hop : insnOp ins with
      | error w => rw [hop] at hx; cases hx
      | ok op =>
        rw [hop] at hx
        simp only [] at hx
        cases he : execOp op h with
        | thrown w g => rw [he] at hx; cases hx
        | done h1 =>
          rw [he] at hx
          simp only [] at hx
          obtain ⟨g, hg, gs, -⟩ := execOp_done_split op h h1 he
          by_cases hh : op = .halt
          · subst hh
            exact ⟨[], ins, _, g, hd, by simp, hop, by simp [opsOf, execOps, hg]⟩
          · obtain ⟨-, grun, -⟩ := execOp_keeps op _ h1 he
            have grun1 := grun hh
            obtain ⟨ws, hw, rest, hst, b1, b2, b3, b4⟩ := ih _ q
              (by simp only []; rw [grun1]; exact hrun) hx
            simp only [] at b1 b4
            rw [gs] at b4
            obtain ⟨y, hy⟩ := execOps_done_shift _ _ _ _ b4 g.s.pc g.out
            simp only [] at hy
            refine ⟨ins :: ws, hw, rest, y, by rw [hd, b1]; rfl, ?_, b3, ?_⟩
            · intro x hx1
              rcases List.mem_cons.1 hx1 with hx1 | hx1
              · rw [hx1]; exact ⟨op, hop, hh⟩
              · exact b2 x hx1
            · rw [opsOf_cons_ok ins ws op hop, List.cons_append]
              simp only [execOps, hg]
              exact hy

theorem refLoop_terminates (prog : List Int) (fuel : Nat) :
    ∀ (h : Host), 1 ≤ fuel → prog.length + 1 ≤ fuel + h.s.pc →
      ∃ res, refLoop prog fuel h = some res := by
  induction fuel with
  | zero => intro h hf _; omega
  | succ n ih =>
    intro h _ hf
    rw [refLoop]
    by_cases hrun : h.s.running = true
    · rw [if_pos hrun]
      cases hget : prog[h.s.pc]? with
      | none => exact ⟨_, rfl⟩
      | some ins =>
        simp only []
        have hlt : h.s.pc < prog.length := by
          by_contra hc
          rw [List.getElem?_eq_none_iff.2 (by omega)] at hget
          cases hget
        cases hop : insnOp ins with
        | error w => exact ⟨_, rfl⟩
        | ok op =>
          simp only []
          cases he : execOp op h with
          | thrown w g => exact ⟨_, rfl⟩
          | done h1 =>
            simp only []
            exact ih _ (by omega) (by simp only []; omega)
    · rw [if_neg hrun]
      exact ⟨_, rfl⟩

/-- C32. Block length does not change results: for every program `p`, all block lengths
`L1, L2 >= 1`, either tracing flag and every fuel above the length of `p`, the two runs and
the reference interpreter, which decodes and executes one instruction at a time from pc 0,
all return a result; one run halts normally iff the other does iff the reference interpreter
does; and when they halt, the final guest states (pc, running flag and stack) and the Print
outputs of all three are equal. -/
theorem block_length_independence (vm1 vm2 : VM) (p : List Int) (t1 t2 : Bool) (fuel : Nat)
    (hL1 : 1 ≤ vm1.max_tb_insns_) (hL2 : 1 ≤ vm2.max_tb_insns_) (hfuel : p.length < fuel) :
    ∃ r1 r2 q, run (loadProgram vm1 p) t1 fuel = some r1 ∧
      run (loadProgram vm2 p) t2 fuel = some r2 ∧ refRun p fuel = some q ∧
      (r1.what = none ↔ r2.what = none) ∧ (r1.what = none ↔ q.what = none) ∧
      (r1.what = none →
        r1.st.s = r2.st.s ∧ printed r1.st.out = printed r2.st.out ∧
        r1.st.s = q.st.s ∧ printed r1.st.out = printed q.st.out) := by
  have ok1 : CacheOK (loadProgram vm1 p) := cacheOK_of_empty _ rfl
  have ok2 : CacheOK (loadProgram vm2 p) := cacheOK_of_empty _ rfl
  obtain ⟨r1, h1⟩ := run_terminates (loadProgram vm1 p) t1 fuel ok1 hL1 hfuel
  obtain ⟨r2, h2⟩ := run_terminates (loadProgram vm2 p) t2 fuel ok2 hL2 hfuel
  obtain ⟨q, hq⟩ := refLoop_terminates p fuel
    { s := { pc := 0, running := true, stack := [] }, out := [] } (by omega)
    (by simp only []; omega)
  -- a halting decomposition of the program fixes all three results
  have key : ∀ (ws : List Int) (hw : Int) (rest : List Int) (hst : Host),
      p = ws ++ hw :: rest → (∀ ins ∈ ws, PlainWord ins) → insnOp hw = .ok .halt →
      execOps (opsOf ws ++ [.halt])
        { s := { pc := 0, running := true, stack := [] }, out := [] } = .done hst →
      (r1.what = none ∧ r2.what = none ∧ q.what = none) ∧
        r1.st.s = r2.st.s ∧ printed r1.st.out = printed r2.st.out ∧
        r1.st.s = q.st.s ∧ printed r1.st.out = printed q.st.out := by
    intro ws hw rest hst hp hws hh hx
    obtain ⟨a1, e1, s1, o1⟩ := run_of_halts (loadProgram vm1 p) t1 fuel ws hw rest hst ok1 hL1
      hp hws hh hx hfuel
    obtain ⟨a2, e2, s2, o2⟩ := run_of_halts (loadProgram vm2 p) t2 fuel ws hw rest hst ok2 hL2
      hp hws hh hx hfuel
    obtain ⟨a3, e3, s3, o3⟩ := refLoop_straight p hw rest hh ws
      { s := { pc := 0, running := true, stack := [] }, out := [] } hst fuel
      (by simp [hp]) hws rfl hx
      (by rw [hp] at hfuel; simp only [List.length_append, List.length_cons] at hfuel; omega)
    rw [h1] at e1
    rw [h2] at e2
    rw [hq] at e3
    simp only [Option.some.injEq] at e1 e2 e3
    subst e1 e2 e3
    simp only [Res.what, Res.st, true_and]
    refine ⟨?_, ?_, ?_, ?_⟩
    · rw [s1, s2]
    · rw [o1, o2]
    · rw [s1, s3]; simp
    · rw [o1, o3]; simp [printed]
  have from1 : r1.what = none → ∃ ws hw rest hst, p = ws ++ hw :: rest ∧
      (∀ ins ∈ ws, PlainWord ins) ∧ insnOp hw = .ok .halt ∧
      execOps (opsOf ws ++ [.halt])
        { s := { pc := 0, running := true, stack := [] }, out := [] } = .done hst := by
    intro hn
    cases r1 with
    | thrown w a => simp [Res.what] at hn
    | done a =>
      obtain ⟨ws, hw, rest, hst, b1, b2, b3, b4⟩ := runLoop_done_inv t1 fuel _ a ok1 rfl h1
      exact ⟨ws, hw, rest, hst, by simpa [loadProgram] using b1, b2, b3, b4⟩
  have from2 : r2.what = none → ∃ ws hw rest hst, p = ws ++ hw :: rest ∧
      (∀ ins ∈ ws, PlainWord ins) ∧ insnOp hw = .ok .halt ∧
      execOps (opsOf ws ++ [.halt])
        { s := { pc := 0, running := true, stack := [] }, out := [] } = .done hst := by
    intro hn
    cases r2 with
    | thrown w a => simp [Res.what] at hn
    | done a =>
      obtain ⟨ws, hw, rest, hst, b1, b2, b3, b4⟩ := runLoop_done_inv t2 fuel _ a ok2 rfl h2
      exact ⟨ws, hw, rest, hst, by simpa [loadProgram] using b1, b2, b3, b4⟩
  have from3 : q.what = none → ∃ ws hw rest hst, p = ws ++ hw :: rest ∧
      (∀ ins ∈ ws, PlainWord ins) ∧ insnOp hw = .ok .halt ∧
      execOps (opsOf ws ++ [.halt])
        { s := { pc := 0, running := true, stack := [] }, out := [] } = .done hst := by
    intro hn
    cases q with
    | thrown w a => simp [Res.what] at hn
    | done a =>
      obtain ⟨ws, hw, rest, hst, b1, b2, b3, b4⟩ := refLoop_done_inv p fuel _ a rfl hq
      exact ⟨ws, hw, rest, hst, by simpa using b1, b2, b3, b4⟩
  refine ⟨r1, r2, q, h1, h2, hq, ⟨?_, ?_⟩, ⟨?_, ?_⟩, ?_⟩
  · intro hn
    obtain ⟨ws, hw, rest, hst, b1, b2, b3, b4⟩ := from1 hn
    exact (key ws hw rest hst b1 b2 b3 b4).1.2.1
  · intro hn
    obtain ⟨ws, hw, rest, hst, b1, b2, b3, b4⟩ := from2 hn
    exact (key ws hw rest hst b1 b2 b3 b4).1.1
  · intro hn
    obtain ⟨ws, hw, rest, hst, b1, b2, b3, b4⟩ := from1 hn
    exact (key ws hw rest hst b1 b2 b3 b4).1.2.2
  · intro hn
    obtain ⟨ws, hw, rest, hst, b1, b2, b3, b4⟩ := from3 hn
    exact (key ws hw rest hst b1 b2 b3 b4).1.1
  · intro hn
    obtain ⟨ws, hw, rest, hst, b1, b2, b3, b4⟩ := from1 hn
    exact (key ws hw rest hst b1 b2 b3 b4).2

/-- C32 on the program `PUSH 3; PUSH 4; ADD; PRINT; HALT` with block lengths 1 and 8: both
runs and the reference interpreter halt with the stack `[7]` after printing 7. -/
theorem block_length_independence_witness :
    (1 ≤ (VM.new 1).max_tb_insns_ ∧ 1 ≤ (VM.new 8).max_tb_insns_ ∧
      [(3 : Int), 4, 1073741825, 1073741829, 1073741824].length < 6) ∧
    (∃ r1 r2 q,
      run (loadProgram (VM.new 1) [3, 4, 1073741825, 1073741829, 1073741824]) false 6 =
        some r1 ∧
      run (loadProgram (VM.new 8) [3, 4, 1073741825, 1073741829, 1073741824]) true 6 =
        some r2 ∧
      refRun [3, 4, 1073741825, 1073741829, 1073741824] 6 = some q ∧
      (r1.what = none ↔ r2.what = none) ∧ (r1.what = none ↔ q.what = none) ∧
      (r1.what = none →
        r1.st.s = r2.st.s ∧ printed r1.st.out = printed r2.st.out ∧
        r1.st.s = q.st.s ∧ printed r1.st.out = printed q.st.out)) ∧
    (run (loadProgram (VM.new 1) [3, 4, 1073741825, 1073741829, 1073741824]) false 6).map
        (fun x => (x.what, x.st.s, printed x.st.out)) =
      some (none, { pc := 5, running := false, stack := [7] }, ["[print] 7"]) ∧
    (run (loadProgram (VM.new 8) [3, 4, 1073741825, 1073741829, 1073741824]) true 6).map
        (fun x => (x.what, x.st.s, printed x.st.out)) =
      some (none, { pc := 5, running := false, stack := [7] }, ["[print] 7"]) ∧
    (refRun [3, 4, 1073741825, 1073741829, 1073741824] 6).map
        (fun x => (x.what, x.st.s, printed x.st.out)) =
      some (none, { pc := 5, running := false, stack := [7] }, ["[print] 7"]) :=
  ⟨⟨by decide, by decide, by decide⟩,
    block_length_independence (VM.new 1) (VM.new 8) [3, 4, 1073741825, 1073741829, 1073741824]
      false true 6 (by decide) (by decide) (by decide),
    by rfl, by rfl, by rfl⟩

/-! ## Immediates, blocks and stale entries through translation and runs -/

/-- A word whose translation is the operation push `v`: alone in a program it is translated
to the block `[push v]`; in every block `translateTB` returns that covers the word, the
operation at its place is push `v`; and `run()` on the word followed by Halt returns with
the final stack `[v]`. -/
theorem push_word_compiles (w v : Int) (hw : insnOp w = .ok (.push v)) :
    (∀ vm0 : VM, 1 ≤ vm0.max_tb_insns_ →
      ∃ tb, translateTB (loadProgram vm0 [w]) 0 = .ok tb ∧ tb.guest_pc = 0 ∧ tb.next_pc = 1 ∧
        tb.exec = [.push v]) ∧
    (∀ (vm : VM) (pc i : Nat) (tb : TB), translateTB vm pc = .ok tb →
      vm.program_[pc + i]? = some w → pc + i < tb.next_pc → tb.exec[i]? = some (.push v)) ∧
    (∀ (vm0 : VM) (trace : Bool) (fuel : Nat), 1 ≤ vm0.max_tb_insns_ → 2 < fuel →
      ∃ r, run (loadProgram vm0 [w, enc_prim .Halt]) trace fuel = some (.done r) ∧
        r.s = { pc := 2, running := false, stack := [v] } ∧ printed r.out = []) := by
  refine ⟨?_, ?_, ?_⟩
  · intro vm0 hL
    obtain ⟨n, hn⟩ : ∃ n, vm0.max_tb_insns_ = n + 1 := ⟨vm0.max_tb_insns_ - 1, by omega⟩
    have e : translateTB (loadProgram vm0 [w]) 0 =
        match translateLoop [w] (n + 1) { pc := 0, ops := [], debug := "" } with
        | .error what => .error what
        | .ok sc =>
          .ok { guest_pc := 0, next_pc := sc.pc,
                compiled_version := (loadProgram vm0 [w]).program_version_,
                exec := sc.ops, debug := sc.debug } := by
      unfold translateTB
      rw [← hn]
      rfl
    rw [e, translateLoop_of_plain [w] n { pc := 0, ops := [], debug := "" } w rfl (.push v) hw
      (by simp), translateLoop_of_end _ _ _ (by simp)]
    exact ⟨_, rfl, rfl, rfl, rfl⟩
  · intro vm pc i tb h hi hlt
    unfold translateTB at h
    cases ht : translateLoop vm.program_ vm.max_tb_insns_
        { pc := pc, ops := [], debug := "" } with
    | error e => rw [ht] at h; cases h
    | ok sc =>
      rw [ht] at h
      simp only [Except.ok.injEq] at h
      obtain ⟨ws, rest, ops, e1, -, e3, e4, e5, -⟩ := translateLoop_sound _ _ _ _ ht
      simp only [List.nil_append] at e1 e3 e4
      subst h
      simp only [] at hlt ⊢
      have hops : ws.length = ops.length := List.Forall₂.length_eq e5
      have hiw : i < ws.length := by omega
      have hwi : ws[i]? = some w := by
        have h0 : (vm.program_.drop pc)[i]? = vm.program_[pc + i]? :=
          List.getElem?_drop _ _ _
        rw [e1, List.getElem?_append_left hiw] at h0
        rw [h0]
        exact hi
      obtain ⟨op, hop⟩ : ∃ op, ops[i]? = some op :=
        ⟨ops[i], List.getElem?_eq_getElem (by omega)⟩
      obtain ⟨ins, h1, h2⟩ := forall₂_getElem? _ ws ops e5 i op hop
      rw [hwi] at h1
      cases h1
      rw [hw] at h2
      cases h2
      rw [e4]
      exact hop
  · intro vm0 trace fuel hL hfuel
    have hhalt : insnOp (enc_prim .Halt) = .ok .halt := by rfl
    have hws : ∀ ins ∈ [w], PlainWord ins := by
      intro ins hi
      rw [List.mem_singleton.1 hi]
      exact ⟨_, hw, by simp⟩
    have hx : execOps (opsOf [w] ++ [.halt])
        { s := { pc := 0, running := true, stack := [] }, out := [] } =
        .done { s := { pc := 0, running := false, stack := [v] }, out := [] } := by
      rw [opsOf_cons_ok _ _ _ hw]
      simp [opsOf, execOps, execOp, push]
    obtain ⟨r1, g1, g2, g3, -, -⟩ := runLoop_straight trace 1 [w] (by simp)
      (enc_prim .Halt) []
      { vm := loadProgram vm0 [w, enc_prim .Halt],
        s := { pc := 0, running := true, stack := [] }, out := [], lookups := [] }
      _ fuel (cacheOK_of_empty _ rfl) hL (by simp [loadProgram]) hws hhalt rfl hx
      (by simp only [List.length_cons, List.length_nil]; omega)
    refine ⟨r1, g1, ?_, ?_⟩
    · rw [g2]; rfl
    · rw [g3]; rfl

/-- C2. Positive round trip: for every `x` with `0 ≤ x ≤ 2^30 - 1`, `enc_pos_imm x`
succeeds, and the word `w` it returns has type `PosImm` and payload `x` and is compiled to
the operation that pushes exactly `x`: `translateTB` on the program `[w]` returns the block
`[push x]`; in every block `translateTB` returns that covers a place holding `w`, the
operation at that place is `push x`; `run()` on `[w, Halt]` returns with the final stack
`[x]`; and `push x` appends exactly `x` to the stack. -/
theorem enc_pos_imm_round_trip (x : Int) (h0 : 0 ≤ x) (h1 : x ≤ 1073741823) :
    ∃ w, enc_pos_imm x = .ok w ∧ getType w = .PosImm ∧ ((getData w : Nat) : Int) = x ∧
      (∀ vm0 : VM, 1 ≤ vm0.max_tb_insns_ →
        ∃ tb, translateTB (loadProgram vm0 [w]) 0 = .ok tb ∧ tb.guest_pc = 0 ∧
          tb.next_pc = 1 ∧ tb.exec = [.push x]) ∧
      (∀ (vm : VM) (pc i : Nat) (tb : TB), translateTB vm pc = .ok tb →
        vm.program_[pc + i]? = some w → pc + i < tb.next_pc →
        tb.exec[i]? = some (.push x)) ∧
      (∀ (vm0 : VM) (trace : Bool) (fuel : Nat), 1 ≤ vm0.max_tb_insns_ → 2 < fuel →
        ∃ r, run (loadProgram vm0 [w, enc_prim .Halt]) trace fuel = some (.done r) ∧
          r.s = { pc := 2, running := false, stack := [x] } ∧ printed r.out = []) ∧
      ∀ h : Host, execOp (.push x) h =
        .done { s := { pc := h.s.pc, running := h.s.running, stack := h.s.stack ++ [x] },
                out := h.out } := by
  have eu := toU32_of_nonneg x h0 (by omega)
  have ht : getType x = .PosImm := by
    rw [getType_eq]
    have : toU32 x / 1073741824 = 0 := by omega
    rw [this]; rfl
  have hd : ((getData x : Nat) : Int) = x := by
    rw [getData_eq]; omega
  have hop : insnOp x = .ok (.push x) := by
    unfold insnOp
    rw [ht]
    simp only [hd]
  obtain ⟨c1, c2, c3⟩ := push_word_compiles x x hop
  exact ⟨x, enc_pos_imm_eq x h0 h1, ht, hd, c1, c2, c3, fun h => rfl⟩

/-- C2, at `x = 7`: the word is 7, the program `[7]` is translated to `[push 7]` and the
run of `[7, Halt]` with block length 8 ends with the stack `[7]`. -/
theorem enc_pos_imm_round_trip_witness :
    ((0 : Int) ≤ 7 ∧ (7 : Int) ≤ 1073741823) ∧
    (∃ w, enc_pos_imm 7 = .ok w ∧ getType w = .PosImm ∧ ((getData w : Nat) : Int) = 7 ∧
      (∀ vm0 : VM, 1 ≤ vm0.max_tb_insns_ →
        ∃ tb, translateTB (loadProgram vm0 [w]) 0 = .ok tb ∧ tb.guest_pc = 0 ∧
          tb.next_pc = 1 ∧ tb.exec = [.push 7]) ∧
      (∀ (vm0 : VM) (trace : Bool) (fuel : Nat), 1 ≤ vm0.max_tb_insns_ → 2 < fuel →
        ∃ r, run (loadProgram vm0 [w, enc_prim .Halt]) trace fuel = some (.done r) ∧
          r.s = { pc := 2, running := false, stack := [7] } ∧ printed r.out = [])) ∧
    translateTB (loadProgram (VM.new 8) [7]) 0 = .ok (TB.mk 0 1 2 [.push 7] "PUSH +7\n") ∧
    (run (loadProgram (VM.new 8) [7, 1073741824]) false 3).map
        (fun r => (r.what, r.st.s)) =
      some (none, { pc := 2, running := false, stack := [7] }) :=
  ⟨⟨by decide, by decide⟩,
    (enc_pos_imm_round_trip 7 (by decide) (by decide)).imp
      fun _ h => ⟨h.1, h.2.1, h.2.2.1, h.2.2.2.1, h.2.2.2.2.2.1⟩,
    by rfl, by rfl⟩

/-- C3. Negative round trip: for every `x` with `-(2^30 - 1) ≤ x ≤ -1`, `enc_neg_imm x`
succeeds, and the word `w` it returns has type `NegImm` and is compiled to the operation
that pushes exactly `x`: `translateTB` on the program `[w]` returns the block `[push x]`;
in every block `translateTB` returns that covers a place holding `w`, the operation at that
place is `push x`; `run()` on `[w, Halt]` returns with the final stack `[x]`; and `push x`
appends exactly `x` to the stack. -/
theorem enc_neg_imm_round_trip (x : Int) (h0 : -1073741823 ≤ x) (h1 : x ≤ -1) :
    ∃ w, enc_neg_imm x = .ok w ∧ getType w = .NegImm ∧ -((getData w : Nat) : Int) = x ∧
      (∀ vm0 : VM, 1 ≤ vm0.max_tb_insns_ →
        ∃ tb, translateTB (loadProgram vm0 [w]) 0 = .ok tb ∧ tb.guest_pc = 0 ∧
          tb.next_pc = 1 ∧ tb.exec = [.push x]) ∧
      (∀ (vm : VM) (pc i : Nat) (tb : TB), translateTB vm pc = .ok tb →
        vm.program_[pc + i]? = some w → pc + i < tb.next_pc →
        tb.exec[i]? = some (.push x)) ∧
      (∀ (vm0 : VM) (trace : Bool) (fuel : Nat), 1 ≤ vm0.max_tb_insns_ → 2 < fuel →
        ∃ r, run (loadProgram vm0 [w, enc_prim .Halt]) trace fuel = some (.done r) ∧
          r.s = { pc := 2, running := false, stack := [x] } ∧ printed r.out = []) ∧
      ∀ h : Host, execOp (.push x) h =
        .done { s := { pc := h.s.pc, running := h.s.running, stack := h.s.stack ++ [x] },
                out := h.out } := by
  have eu := toU32_of_neg (-x - 2147483648) (by omega) (by omega)
  have ht : getType (-x - 2147483648) = .NegImm := by
    rw [getType_eq]
    have : toU32 (-x - 2147483648) / 1073741824 = 2 := by omega
    rw [this]; rfl
  have hd : -((getData (-x - 2147483648) : Nat) : Int) = x := by
    rw [getData_eq]; omega
  have hop : insnOp (-x - 2147483648) = .ok (.push x) := by
    unfold insnOp
    rw [ht]
    simp only [hd]
  obtain ⟨c1, c2, c3⟩ := push_word_compiles (-x - 2147483648) x hop
  exact ⟨-x - 2147483648, enc_neg_imm_eq x h0 (by omega), ht, hd, c1, c2, c3, fun h => rfl⟩

/-- C3, at `x = -5`: the word is `0x80000005`, the program of that word alone is
translated to `[push -5]` and the run of the word followed by Halt with block length 8 ends
with the stack `[-5]`. -/
theorem enc_neg_imm_round_trip_witness :
    ((-1073741823 : Int) ≤ -5 ∧ (-5 : Int) ≤ -1) ∧
    (∃ w, enc_neg_imm (-5) = .ok w ∧ getType w = .NegImm ∧ -((getData w : Nat) : Int) = -5 ∧
      (∀ vm0 : VM, 1 ≤ vm0.max_tb_insns_ →
        ∃ tb, translateTB (loadProgram vm0 [w]) 0 = .ok tb ∧ tb.guest_pc = 0 ∧
          tb.next_pc = 1 ∧ tb.exec = [.push (-5)]) ∧
      (∀ (vm0 : VM) (trace : Bool) (fuel : Nat), 1 ≤ vm0.max_tb_insns_ → 2 < fuel →
        ∃ r, run (loadProgram vm0 [w, enc_prim .Halt]) trace fuel = some (.done r) ∧
          r.s = { pc := 2, running := false, stack := [-5] } ∧ printed r.out = [])) ∧
    translateTB (loadProgram (VM.new 8) [-2147483643]) 0 =
      .ok (TB.mk 0 1 2 [.push (-5)] "PUSH -5\n") ∧
    (run (loadProgram (VM.new 8) [-2147483643, 1073741824]) false 3).map
        (fun r => (r.what, r.st.s)) =
      some (none, { pc := 2, running := false, stack := [-5] }) :=
  ⟨⟨by decide, by decide⟩,
    (enc_neg_imm_round_trip (-5) (by decide) (by decide)).imp
      fun _ h => ⟨h.1, h.2.1, h.2.2.1, h.2.2.2.1, h.2.2.2.2.2.1⟩,
    by rfl, by rfl⟩

/-- C4. Decoding of immediates for an arbitrary word `ins`. When the top two bits are 0 the
compiled operation pushes the payload `ins & 0x3FFFFFFF` unchanged, and when they are 2 it
pushes the negated payload (a magnitude, not a sign-extended field): `translateTB` on the
program `[ins]` returns the block of that one push; in every block `translateTB` returns
that covers a place holding `ins`, the operation at that place is that push; and `run()` on
`[ins, Halt]` returns with that value as the only stack cell. The payload lies in
`[0, 2^30 - 1]`, so the pushed value lies in `[-(2^30 - 1), 2^30 - 1]`; the word with tag 2
and payload `0x3FFFFFFF` pushes `-(2^30 - 1)`, not `-1`. -/
theorem decode_immediate (ins : Int) :
    (toU32 ins >>> 30 = 0 →
      (∀ vm0 : VM, 1 ≤ vm0.max_tb_insns_ →
        ∃ tb, translateTB (loadProgram vm0 [ins]) 0 = .ok tb ∧ tb.guest_pc = 0 ∧
          tb.next_pc = 1 ∧ tb.exec = [.push ((toU32 ins &&& 0x3FFFFFFF : Nat) : Int)]) ∧
      (∀ (vm : VM) (pc i : Nat) (tb : TB), translateTB vm pc = .ok tb →
        vm.program_[pc + i]? = some ins → pc + i < tb.next_pc →
        tb.exec[i]? = some (.push ((toU32 ins &&& 0x3FFFFFFF : Nat) : Int))) ∧
      (∀ (vm0 : VM) (trace : Bool) (fuel : Nat), 1 ≤ vm0.max_tb_insns_ → 2 < fuel →
        ∃ r, run (loadProgram vm0 [ins, enc_prim .Halt]) trace fuel = some (.done r) ∧
          r.s = { pc := 2, running := false,
                  stack := [((toU32 ins &&& 0x3FFFFFFF : Nat) : Int)] } ∧
          printed r.out = [])) ∧
    (toU32 ins >>> 30 = 2 →
      (∀ vm0 : VM, 1 ≤ vm0.max_tb_insns_ →
        ∃ tb, translateTB (loadProgram vm0 [ins]) 0 = .ok tb ∧ tb.guest_pc = 0 ∧
          tb.next_pc = 1 ∧ tb.exec = [.push (-((toU32 ins &&& 0x3FFFFFFF : Nat) : Int))]) ∧
      (∀ (vm : VM) (pc i : Nat) (tb : TB), translateTB vm pc = .ok tb →
        vm.program_[pc + i]? = some ins → pc + i < tb.next_pc →
        tb.exec[i]? = some (.push (-((toU32 ins &&& 0x3FFFFFFF : Nat) : Int)))) ∧
      (∀ (vm0 : VM) (trace : Bool) (fuel : Nat), 1 ≤ vm0.max_tb_insns_ → 2 < fuel →
        ∃ r, run (loadProgram vm0 [ins, enc_prim .Halt]) trace fuel = some (.done r) ∧
          r.s = { pc := 2, running := false,
                  stack := [-((toU32 ins &&& 0x3FFFFFFF : Nat) : Int)] } ∧
          printed r.out = [])) ∧
    ((0 : Int) ≤ ((toU32 ins &&& 0x3FFFFFFF : Nat) : Int) ∧
      ((toU32 ins &&& 0x3FFFFFFF : Nat) : Int) ≤ 1073741823 ∧
      (-1073741823 : Int) ≤ -((toU32 ins &&& 0x3FFFFFFF : Nat) : Int) ∧
      -((toU32 ins &&& 0x3FFFFFFF : Nat) : Int) ≤ 0) ∧
    (toU32 (-1073741825) >>> 30 = 2 ∧ toU32 (-1073741825) &&& 0x3FFFFFFF = 0x3FFFFFFF ∧
      ∀ (t : Bool) (n : Nat),
        (run (loadProgram (VM.new 8) [-1073741825, enc_prim .Halt]) t (n + 2)).map
            (fun r => (r.what, r.st.s)) =
          some (none, { pc := 2, running := false, stack := [-1073741823] })) ∧
    ∀ (v : Int) (h : Host), execOp (.push v) h =
      .done { s := { pc := h.s.pc, running := h.s.running, stack := h.s.stack ++ [v] },
              out := h.out } := by
  have hd : toU32 ins &&& 0x3FFFFFFF = getData ins := rfl
  have hlt := getData_lt ins
  rw [hd]
  refine ⟨?_, ?_, ⟨by omega, by omega, by omega, by omega⟩,
    ⟨by decide, by decide, fun t n => by cases t <;> rfl⟩, fun v h => rfl⟩
  · intro h
    have hop : insnOp ins = .ok (.push ((getData ins : Nat) : Int)) := by
      unfold insnOp
      rw [getType_of_code ins 0 h]
      rfl
    exact push_word_compiles ins _ hop
  · intro h
    have hop : insnOp ins = .ok (.push (-((getData ins : Nat) : Int))) := by
      unfold insnOp
      rw [getType_of_code ins 2 h]
      rfl
    exact push_word_compiles ins _ hop

/-- C4, at the word `0xBFFFFFFF` (tag 2, payload `0x3FFFFFFF`), which is the `i32` value
`-1073741825`: the block of the program holding it alone is one push of `-(2^30 - 1)`. -/
theorem decode_immediate_witness :
    toU32 (-1073741825) >>> 30 = 2 ∧
    -((toU32 (-1073741825) &&& 0x3FFFFFFF : Nat) : Int) = -1073741823 ∧
    (∀ vm0 : VM, 1 ≤ vm0.max_tb_insns_ →
      ∃ tb, translateTB (loadProgram vm0 [-1073741825]) 0 = .ok tb ∧ tb.guest_pc = 0 ∧
        tb.next_pc = 1 ∧
        tb.exec = [.push (-((toU32 (-1073741825) &&& 0x3FFFFFFF : Nat) : Int))]) ∧
    translateTB (loadProgram (VM.new 8) [-1073741825]) 0 =
      .ok (TB.mk 0 1 2 [.push (-1073741823)] "PUSH -1073741823\n") :=
  ⟨by decide, by decide, ((decode_immediate (-1073741825)).2.1 (by decide)).1, by rfl⟩

/-- C16. For every successful `translateTB(start_pc)` at a `start_pc` not beyond the program
(`run()` calls it only at `pc < program size`: at any other pc the loop body throws before
the lookup): `guest_pc == start_pc`, `compiled_version == program_version_`,
`start_pc ≤ next_pc ≤ program size`, `next_pc - guest_pc ≤ L`, the block holds exactly
`next_pc - guest_pc` operations, and its `i`-th operation is the translation (`insnOp`:
`PosImm d` push `d`, `NegImm d` push `-d`, `Prim 0` halt, `Prim 1` add, `Prim 5` print) of
`program_[guest_pc + i]`, in program order. -/
theorem translateTB_block_spec (vm : VM) (pc : Nat) (tb : TB)
    (hpc : pc ≤ vm.program_.length) (h : translateTB vm pc = .ok tb) :
    tb.guest_pc = pc ∧ tb.compiled_version = vm.program_version_ ∧
    pc ≤ tb.next_pc ∧ tb.next_pc ≤ vm.program_.length ∧
    tb.next_pc - tb.guest_pc ≤ vm.max_tb_insns_ ∧
    tb.exec.length = tb.next_pc - tb.guest_pc ∧
    (∀ i, i < tb.next_pc - tb.guest_pc →
      ∃ ins op, vm.program_[tb.guest_pc + i]? = some ins ∧ tb.exec[i]? = some op ∧
        insnOp ins = .ok op) ∧
    (∀ (trace : Bool) (r : RunState), r.vm = vm → vm.program_.length ≤ r.s.pc →
      runBody trace r = .thrown "pc out of range (missing halt?)" r) := by
  obtain ⟨hv, hg⟩ := translateTB_stamp vm pc tb h
  unfold translateTB at h
  cases ht : translateLoop vm.program_ vm.max_tb_insns_ { pc := pc, ops := [], debug := "" } with
  | error w => rw [ht] at h; cases h
  | ok sc =>
    rw [ht] at h
    simp only [Except.ok.injEq] at h
    obtain ⟨ws, rest, ops, e1, e2, e3, e4, e5, -⟩ := translateLoop_sound _ _ _ _ ht
    simp only [List.nil_append] at e1 e3 e4
    have hlen := congrArg List.length e1
    simp only [List.length_drop, List.length_append] at hlen
    have hops : ops.length = ws.length := (List.Forall₂.length_eq e5).symm
    subst h
    simp only []
    refine ⟨trivial, trivial, by omega, by omega, by omega, by rw [e4, hops]; omega, ?_, ?_⟩
    · intro i hi
      have hio : i < ops.length := by omega
      obtain ⟨ins, h1, h2⟩ := forall₂_getElem? _ ws ops e5 i ops[i]
        (List.getElem?_eq_getElem hio)
      refine ⟨ins, ops[i], ?_, by rw [e4]; exact List.getElem?_eq_getElem hio, h2⟩
      have hlt : i < ws.length := (List.getElem?_eq_some_iff.1 h1).1
      rw [← List.getElem?_drop, e1, List.getElem?_append_left hlt]
      exact h1
    · intro trace r hr hge
      subst hr
      unfold runBody
      rw [if_pos hge]

/-- C16 on the block of `[PosImm 3, Halt]` from pc 0. -/
theorem translateTB_block_spec_witness :
    ((0 : Nat) ≤ (VM.mk [3, 1073741824] 2 [] 8).program_.length ∧
      translateTB (VM.mk [3, 1073741824] 2 [] 8) 0 =
        .ok (TB.mk 0 2 2 [.push 3, .halt] "PUSH +3\nHALT\n")) ∧
    (TB.mk 0 2 2 [.push 3, .halt] "PUSH +3\nHALT\n").next_pc ≤
      (VM.mk [3, 1073741824] 2 [] 8).program_.length ∧
    (TB.mk 0 2 2 [.push 3, .halt] "PUSH +3\nHALT\n").exec.length =
      (TB.mk 0 2 2 [.push 3, .halt] "PUSH +3\nHALT\n").next_pc -
        (TB.mk 0 2 2 [.push 3, .halt] "PUSH +3\nHALT\n").guest_pc ∧
    ∀ i, i < (TB.mk 0 2 2 [.push 3, .halt] "PUSH +3\nHALT\n").next_pc -
        (TB.mk 0 2 2 [.push 3, .halt] "PUSH +3\nHALT\n").guest_pc →
      ∃ ins op, (VM.mk [3, 1073741824] 2 [] 8).program_[
          (TB.mk 0 2 2 [.push 3, .halt] "PUSH +3\nHALT\n").guest_pc + i]? = some ins ∧
        (TB.mk 0 2 2 [.push 3, .halt] "PUSH +3\nHALT\n").exec[i]? = some op ∧
        insnOp ins = .ok op :=
  ⟨⟨by decide, by rfl⟩,
    (translateTB_block_spec (VM.mk [3, 1073741824] 2 [] 8) 0
      (TB.mk 0 2 2 [.push 3, .halt] "PUSH +3\nHALT\n") (by decide) (by rfl)).2.2.2.1,
    (translateTB_block_spec (VM.mk [3, 1073741824] 2 [] 8) 0
      (TB.mk 0 2 2 [.push 3, .halt] "PUSH +3\nHALT\n") (by decide) (by rfl)).2.2.2.2.2.1,
    (translateTB_block_spec (VM.mk [3, 1073741824] 2 [] 8) 0
      (TB.mk 0 2 2 [.push 3, .halt] "PUSH +3\nHALT\n") (by decide) (by rfl)).2.2.2.2.2.2.1⟩

end MiniTCGVM

namespace Lesson5

open MiniTCGVM

/-! ## The assembler of lesson 5 against the encoding of the VM -/

theorem digit_iff (c : Char) : ¬ (c < '0' ∨ c > '9') ↔ IsDigit c := by
  unfold IsDigit
  have h1 : c < '0' ↔ c.toNat < 48 := by rw [Char.lt_def]; exact Iff.rfl
  have h2 : c > '9' ↔ 57 < c.toNat := by
    show '9' < c ↔ _
    rw [Char.lt_def]; exact Iff.rfl
  have h3 : '0' ≤ c ↔ 48 ≤ c.toNat := by rw [Char.le_def]; exact Iff.rfl
  have h4 : c ≤ '9' ↔ c.toNat ≤ 57 := by rw [Char.le_def]; exact Iff.rfl
  rw [h1, h2, h3, h4]
  omega

theorem digit_toNat (c : Char) (h : IsDigit c) : 48 ≤ c.toNat ∧ c.toNat ≤ 57 := by
  obtain ⟨h1, h2⟩ := h
  rw [Char.le_def] at h1 h2
  exact ⟨h1, h2⟩

theorem foldl_digits_mono (cs : List Char) :
    ∀ acc : Nat, acc ≤ cs.foldl (fun acc c => acc * 10 + (c.toNat - 48)) acc := by
  induction cs with
  | nil => intro acc; exact Nat.le_refl _
  | cons c cs ih =>
    intro acc
    simp only [List.foldl_cons]
    exact Nat.le_trans (by omega) (ih _)

theorem parseDigits_spec (ds : List Char) :
    ∀ (v : Nat) (out : Int), v ≤ 2147483647 →
      (parseDigits ds (v : Int) = some out ↔
        ((∀ c ∈ ds, IsDigit c) ∧
          ds.foldl (fun acc c => acc * 10 + (c.toNat - 48)) v ≤ 2147483647 ∧
          out = ((ds.foldl (fun acc c => acc * 10 + (c.toNat - 48)) v : Nat) : Int))) := by
  induction ds with
  | nil =>
    intro v out hv
    simp only [parseDigits, Option.some.injEq, List.not_mem_nil, false_implies, implies_true,
      List.foldl_nil, true_and]
    constructor
    · intro h; exact ⟨hv, h.symm⟩
    · intro h; exact h.2.symm
  | cons c cs ih =>
    intro v out hv
    have h48 : ('0'.toNat : Nat) = 48 := by decide
    simp only [parseDigits, List.foldl_cons, List.mem_cons, forall_eq_or_imp, h48]
    by_cases hd : c < '0' ∨ c > '9'
    · rw [if_pos hd]
      have : ¬ IsDigit c := fun h => (digit_iff c).2 h hd
      simp [this]
    · rw [if_neg hd]
      have hdig := (digit_iff c).1 hd
      obtain ⟨d1, d2⟩ := digit_toNat c hdig
      simp only [hdig, true_and]
      have hcast : ((c.toNat : Int) - ((48 : Nat) : Int)) = ((c.toNat - 48 : Nat) : Int) := by
        omega
      by_cases hov : (v : Int) > (2147483647 - ((c.toNat : Int) - ((48 : Nat) : Int))) / 10
      · rw [if_pos hov]
        have hbig : 2147483647 < v * 10 + (c.toNat - 48) := by omega
        have := foldl_digits_mono cs (v * 10 + (c.toNat - 48))
        constructor
        · intro h; cases h
        · intro h; omega
      · rw [if_neg hov]
        have hsmall : v * 10 + (c.toNat - 48) ≤ 2147483647 := by omega
        have hw : wrapI32 ((v : Int) * 10 + ((c.toNat : Int) - ((48 : Nat) : Int))) =
            ((v * 10 + (c.toNat - 48) : Nat) : Int) := by
          rw [wrapI32_of_isI32 _ ⟨by omega, by omega⟩]
          omega
        rw [hw]
        exact ih _ out hsmall

theorem parseDigits_append (pre suf : List Char) :
    ∀ (v : Nat), v ≤ 2147483647 → (∀ c ∈ pre, IsDigit c) →
      pre.foldl (fun acc c => acc * 10 + (c.toNat - 48)) v ≤ 2147483647 →
      parseDigits (pre ++ suf) (v : Int) =
        parseDigits suf ((pre.foldl (fun acc c => acc * 10 + (c.toNat - 48)) v : Nat) : Int) := by
  induction pre with
  | nil => intro v _ _ _; rfl
  | cons c cs ih =>
    intro v hv hd hle
    have h48 : ('0'.toNat : Nat) = 48 := by decide
    have hdig := hd c (List.mem_cons_self _ _)
    obtain ⟨d1, d2⟩ := digit_toNat c hdig
    simp only [List.foldl_cons, h48] at hle ⊢
    have hmono := foldl_digits_mono cs (v * 10 + (c.toNat - 48))
    have hsmall : v * 10 + (c.toNat - 48) ≤ 2147483647 := by omega
    rw [List.cons_append]
    simp only [parseDigits, h48]
    rw [if_neg ((digit_iff c).2 hdig), if_neg (by omega)]
    have hw : wrapI32 ((v : Int) * 10 + ((c.toNat : Int) - ((48 : Nat) : Int))) =
        ((v * 10 + (c.toNat - 48) : Nat) : Int) := by
      rw [wrapI32_of_isI32 _ ⟨by omega, by omega⟩]
      omega
    rw [hw]
    exact ih (v * 10 + (c.toNat - 48)) hsmall (fun x hx => hd x (List.mem_cons_of_mem _ hx))
      hle

/-- C38. The function `parse_int32` returns true with `out` iff `sv` is an optional single
`+` or `-` followed by at least one decimal digit and nothing else, the digit string denotes
a value `<= 2^31-1`, and `out` is that value, negated when the sign is `-`; on an accepted
digit string every intermediate `val` is the value of a prefix and is `<= 2^31-1`; so
`2147483647` and `-2147483647` are accepted, `2147483648` and `-2147483648` are rejected. -/
theorem parse_int32_spec (sv : List Char) (out : Int) :
    (parse_int32 sv = some out ↔
      ∃ sign ds, sv = sign ++ ds ∧ (sign = [] ∨ sign = ['+'] ∨ sign = ['-']) ∧ ds ≠ [] ∧
        (∀ c ∈ ds, IsDigit c) ∧ digitsValue ds ≤ 2147483647 ∧
        out = if sign = ['-'] then -((digitsValue ds : Nat) : Int)
              else ((digitsValue ds : Nat) : Int)) ∧
    (∀ pre suf : List Char, (∀ c ∈ pre ++ suf, IsDigit c) →
      digitsValue (pre ++ suf) ≤ 2147483647 →
      digitsValue pre ≤ 2147483647 ∧
        parseDigits (pre ++ suf) 0 = parseDigits suf ((digitsValue pre : Nat) : Int)) ∧
    parse_int32 "2147483647".toList = some 2147483647 ∧
    parse_int32 "2147483648".toList = none ∧
    parse_int32 "-2147483648".toList = none ∧
    parse_int32 "-2147483647".toList = some (-2147483647) := by
  refine ⟨?_, ?_, by decide, by decide, by decide, by decide⟩
  · cases sv with
    | nil =>
      simp only [parse_int32]
      constructor
      · intro h; cases h
      · rintro ⟨sign, ds, h1, -, h3, -⟩
        have := List.append_eq_nil.1 h1.symm
        exact absurd this.2 h3
    | cons c rest =>
      have hsignchar : ∀ x : Char, (x = '+' ∨ x = '-') → ¬ IsDigit x := by
        intro x hx hdx
        obtain ⟨d1, d2⟩ := digit_toNat x hdx
        rcases hx with hx | hx <;> rw [hx] at d1 <;> revert d1 <;> decide
      simp only [parse_int32]
      by_cases hs : c = '+' ∨ c = '-'
      · rw [if_pos hs]
        by_cases hr : rest = []
        · rw [if_pos hr]
          constructor
          · intro h; cases h
          · rintro ⟨sign, ds, h1, h2, h3, h4, -⟩
            exfalso
            subst hr
            rcases h2 with h2 | h2 | h2
            · subst h2
              simp only [List.nil_append] at h1
              rw [← h1] at h4
              exact hsignchar c hs (h4 c (List.mem_singleton_self _))
            · subst h2
              simp at h1
              exact h3 h1.2
            · subst h2
              simp at h1
              exact h3 h1.2
        · rw [if_neg hr]
          have key := fun o => parseDigits_spec rest 0 o (by omega)
          constructor
          · intro h
            obtain ⟨val, hv, hout⟩ := Option.map_eq_some'.1 h
            obtain ⟨k1, k2, k3⟩ := (key val).1 (by simpa using hv)
            refine ⟨[c], rest, rfl, ?_, hr, k1, k2, ?_⟩
            · rcases hs with hs | hs
              · right; left; rw [hs]
              · right; right; rw [hs]
            · rw [← hout, k3]
              by_cases hc : c = '-'
              · subst hc
                simp only [if_true]
                exact wrapI32_of_isI32 _ ⟨by omega, by omega⟩
              · have : ¬ ([c] = ['-']) := by simpa using hc
                rw [if_neg hc, if_neg this]
                rfl
          · rintro ⟨sign, ds, h1, h2, h3, h4, h5, h6⟩
            have hsign : sign = [c] ∧ ds = rest := by
              rcases h2 with h2 | h2 | h2
              · subst h2
                simp only [List.nil_append] at h1
                rw [← h1] at h4
                exact absurd (h4 c (List.mem_cons_self _ _)) (hsignchar c hs)
              · subst h2
                simp at h1
                exact ⟨by rw [h1.1], h1.2.symm⟩
              · subst h2
                simp at h1
                exact ⟨by rw [h1.1], h1.2.symm⟩
            obtain ⟨e1, e2⟩ := hsign
            subst e1 e2
            have := (key ((digitsValue ds : Nat) : Int)).2 ⟨h4, h5, rfl⟩
            simp only [Nat.cast_zero] at this
            rw [this]
            simp only [Option.map_some', Option.some.injEq]
            rw [h6]
            by_cases hc : c = '-'
            · subst hc
              simp only [if_true]
              exact wrapI32_of_isI32 _ ⟨by omega, by omega⟩
            · have : ¬ ([c] = ['-']) := by simpa using hc
              rw [if_neg hc, if_neg this]
      · rw [if_neg hs]
        have key := fun o => parseDigits_spec (c :: rest) 0 o (by omega)
        simp only [Nat.cast_zero] at key
        rw [key out]
        constructor
        · rintro ⟨k1, k2, k3⟩
          exact ⟨[], c :: rest, rfl, Or.inl rfl, by simp, k1, k2, by rw [k3]; simp [digitsValue]⟩
        · rintro ⟨sign, ds, h1, h2, h3, h4, h5, h6⟩
          have hsign : sign = [] := by
            rcases h2 with h2 | h2 | h2
            · exact h2
            · subst h2
              simp at h1
              exact absurd (Or.inl h1.1) hs
            · subst h2
              simp at h1
              exact absurd (Or.inr h1.1) hs
          subst hsign
          simp only [List.nil_append] at h1
          subst h1
          refine ⟨h4, h5, ?_⟩
          rw [h6]
          simp [digitsValue]
  · intro pre suf hd hle
    have hmono : digitsValue pre ≤ digitsValue (pre ++ suf) := by
      unfold digitsValue
      rw [List.foldl_append]
      exact foldl_digits_mono suf _
    have hpre : digitsValue pre ≤ 2147483647 := by omega
    refine ⟨hpre, ?_⟩
    have := parseDigits_append pre suf 0 (by omega)
      (fun c hc => hd c (List.mem_append_left _ hc)) hpre
    simpa [digitsValue] using this

theorem pack_eq (type x : Nat) (ht : type < 4) (hx : x < 1073741824) :
    pack type x = type * 1073741824 + x := by
  unfold pack
  have h1 : (type <<< 30) % 4294967296 = type <<< 30 := by
    rw [Nat.shiftLeft_eq]
    exact Nat.mod_eq_of_lt (by omega)
  rw [h1, and_data_mask, Nat.mod_eq_of_lt hx, shift_or_data _ _ hx]

theorem encode_literal_pos (v : Int) (h0 : 0 ≤ v) (h1 : v ≤ 1073741823) :
    encode_literal v = .ok v.toNat := by
  unfold encode_literal MAX30
  rw [if_pos (by omega), if_neg (by omega)]
  have e := toU32_of_nonneg v h0 (by omega)
  have : toU32 v = v.toNat := by omega
  rw [this, pack_eq 0 _ (by omega) (by omega)]
  simp

theorem encode_literal_neg (v : Int) (h0 : -1073741823 ≤ v) (h1 : v ≤ -1) :
    encode_literal v = .ok (2147483648 + (-v).toNat) := by
  unfold encode_literal MAX30
  have hw : wrapI32 (-v) = -v := wrapI32_of_isI32 _ ⟨by omega, by omega⟩
  rw [if_neg (by omega)]
  simp only []
  rw [if_neg (by omega), hw, if_neg (by omega)]
  have e := toU32_of_nonneg (-v) (by omega) (by omega)
  have : toU32 (-v) = (-v).toNat := by omega
  rw [this, pack_eq 2 _ (by omega) (by omega)]

theorem encode_literal_fail (v : Int) (hv : isI32 v) (h : v < -1073741823 ∨ 1073741823 < v) :
    ∃ what, encode_literal v = .error what := by
  obtain ⟨v0, v1⟩ := hv
  unfold encode_literal MAX30
  by_cases hpos : v ≥ 0
  · rw [if_pos hpos, if_pos (by omega)]
    exact ⟨_, rfl⟩
  · rw [if_neg hpos]
    simp only []
    by_cases hmin : v = -2147483648
    · rw [if_pos hmin, if_pos (by omega)]
      exact ⟨_, rfl⟩
    · have hw : wrapI32 (-v) = -v := wrapI32_of_isI32 _ ⟨by omega, by omega⟩
      rw [if_neg hmin, hw, if_pos (by omega)]
      exact ⟨_, rfl⟩

/-- C36. The lesson-5 assembler emits the capstone's encoding: for a signed 32-bit `v`,
`encode_literal v` is the word of `enc_pos_imm v` when `0 <= v <= 2^30-1` and the word of
`enc_neg_imm v` when `-(2^30-1) <= v <= -1`, both read as `uint32_t`; for every other `v`
it throws; and every word `encode_literal v` returns is decoded by the capstone to
`PUSH v`. -/
theorem assembler_emits_capstone_encoding (v : Int) (hv : isI32 v) :
    (0 ≤ v ∧ v ≤ 1073741823 →
      ∃ w, enc_pos_imm v = .ok w ∧ encode_literal v = .ok (toU32 w) ∧ toI32 (toU32 w) = w) ∧
    (-1073741823 ≤ v ∧ v ≤ -1 →
      ∃ w, enc_neg_imm v = .ok w ∧ encode_literal v = .ok (toU32 w) ∧ toI32 (toU32 w) = w) ∧
    (v < -1073741823 ∨ 1073741823 < v → ∃ what, encode_literal v = .error what) ∧
    (∀ u, encode_literal v = .ok u → insnOp (toI32 u) = .ok (.push v)) := by
  have pos : 0 ≤ v ∧ v ≤ 1073741823 →
      ∃ w, enc_pos_imm v = .ok w ∧ encode_literal v = .ok (toU32 w) ∧ toI32 (toU32 w) = w ∧
        insnOp w = .ok (.push v) := by
    rintro ⟨h0, h1⟩
    obtain ⟨wa, k1, k2⟩ := insnOp_imm_word v (by omega) h1
    rw [if_pos h0] at k1
    have hw : wa = v := by
      rw [enc_pos_imm_eq v h0 h1] at k1
      cases k1; rfl
    subst hw
    have e := toU32_of_nonneg wa h0 (by omega)
    have e2 : toU32 wa = wa.toNat := by omega
    refine ⟨wa, k1, by rw [encode_literal_pos wa h0 h1, e2], ?_, k2⟩
    rw [toI32_of_lt _ (by omega)]
    exact e
  have neg : -1073741823 ≤ v ∧ v ≤ -1 →
      ∃ w, enc_neg_imm v = .ok w ∧ encode_literal v = .ok (toU32 w) ∧ toI32 (toU32 w) = w ∧
        insnOp w = .ok (.push v) := by
    rintro ⟨h0, h1⟩
    obtain ⟨wa, k1, k2⟩ := insnOp_imm_word v h0 (by omega)
    rw [if_neg (by omega)] at k1
    have hw : wa = -v - 2147483648 := by
      rw [enc_neg_imm_eq v h0 (by omega)] at k1
      cases k1; rfl
    have e := toU32_of_neg wa (by omega) (by omega)
    have e2 : toU32 wa = 2147483648 + (-v).toNat := by omega
    refine ⟨wa, k1, by rw [encode_literal_neg v h0 h1, e2], ?_, k2⟩
    rw [toI32_of_ge _ (by omega) (toU32_lt _)]
    omega
  refine ⟨?_, ?_, encode_literal_fail v hv, ?_⟩
  · intro h
    obtain ⟨w, a1, a2, a3, -⟩ := pos h
    exact ⟨w, a1, a2, a3⟩
  · intro h
    obtain ⟨w, a1, a2, a3, -⟩ := neg h
    exact ⟨w, a1, a2, a3⟩
  · intro u hu
    by_cases h0 : 0 ≤ v
    · by_cases h1 : v ≤ 1073741823
      · obtain ⟨w, -, a2, a3, a4⟩ := pos ⟨h0, h1⟩
        rw [a2] at hu
        cases hu
        rw [a3]; exact a4
      · obtain ⟨what, hwhat⟩ := encode_literal_fail v hv (Or.inr (by omega))
        rw [hwhat] at hu
        cases hu
    · by_cases h1 : -1073741823 ≤ v
      · obtain ⟨w, -, a2, a3, a4⟩ := neg ⟨h1, by omega⟩
        rw [a2] at hu
        cases hu
        rw [a3]; exact a4
      · obtain ⟨what, hwhat⟩ := encode_literal_fail v hv (Or.inl (by omega))
        rw [hwhat] at hu
        cases hu

/-- C36 at `v = 5`, with the evaluation at `5`, `-5`, `2^30` and `INT32_MIN`. -/
theorem assembler_emits_capstone_encoding_witness :
    isI32 5 ∧
    ((0 : Int) ≤ 5 ∧ (5 : Int) ≤ 1073741823 →
      ∃ w, enc_pos_imm 5 = .ok w ∧ encode_literal 5 = .ok (toU32 w) ∧ toI32 (toU32 w) = w) ∧
    (∀ u, encode_literal 5 = .ok u → insnOp (toI32 u) = .ok (.push 5)) ∧
    encode_literal 5 = .ok 5 ∧ encode_literal (-5) = .ok 2147483653 ∧
    enc_neg_imm (-5) = .ok (-2147483643) ∧ toU32 (-2147483643) = 2147483653 ∧
    encode_literal 1073741824 = .error "Literal too large for 30-bit data: 1073741824" ∧
    (∃ what, encode_literal (-2147483648) = .error what) :=
  ⟨by decide,
    (assembler_emits_capstone_encoding 5 (by decide)).1,
    (assembler_emits_capstone_encoding 5 (by decide)).2.2.2,
    by rfl, by rfl, by rfl, by rfl, by rfl, ⟨_, rfl⟩⟩

theorem readStringLoop_spec :
    ∀ (n : Nat) (r tok : List Char), r.length ≤ n →
      (readStringLoop r tok).2.length ≤ r.length ∧ ∃ x, (readStringLoop r tok).1 = tok ++ x := by
  intro n
  induction n using Nat.strong_induction_on with
  | _ n ih =>
    intro r tok hn
    match r with
    | [] => exact ⟨by simp [readStringLoop], [], by simp [readStringLoop]⟩
    | [c] => exact ⟨by simp [readStringLoop], [c], by simp [readStringLoop]⟩
    | c :: d :: ds =>
      simp only [readStringLoop]
      simp only [List.length_cons] at hn
      by_cases h1 : c = '\\'
      · rw [if_pos h1]
        obtain ⟨a1, x, a2⟩ := ih ds.length (by omega) ds (tok ++ [c] ++ [d]) (Nat.le_refl _)
        refine ⟨by simp only [List.length_cons]; omega, [c] ++ [d] ++ x, ?_⟩
        rw [a2]; simp
      · rw [if_neg h1]
        by_cases h2 : c = '"'
        · rw [if_pos h2]
          exact ⟨by simp, [c], rfl⟩
        · rw [if_neg h2]
          obtain ⟨a1, x, a2⟩ := ih (d :: ds).length (by simp only [List.length_cons]; omega)
            (d :: ds) (tok ++ [c]) (Nat.le_refl _)
          refine ⟨by simp only [List.length_cons] at a1 ⊢; omega, [c] ++ x, ?_⟩
          rw [a2]; simp

theorem read_string_spec (c : Char) (cs : List Char) :
    (read_string (c :: cs)).2.length ≤ cs.length ∧
      ∃ x, (read_string (c :: cs)).1 = '"' :: x := by
  unfold read_string
  obtain ⟨a1, x, a2⟩ := readStringLoop_spec cs.length cs ['"'] (Nat.le_refl _)
  exact ⟨by simpa using a1, x, by simpa using a2⟩

theorem read_line_comment_length (c : Char) (cs : List Char) :
    (read_line_comment (c :: cs)).length ≤ cs.length := by
  unfold read_line_comment
  have h1 := (List.dropWhile_suffix (fun c => c != '\n') (l := (c :: cs).drop 2)).length_le
  have h2 : ((c :: cs).drop 2).length ≤ cs.length := by simp
  omega

theorem readParenLoop_spec (fuel : Nat) :
    ∀ (rest tok : List Char) (depth : Int), rest.length < fuel →
      ∃ r, readParenLoop fuel rest tok depth = some r ∧ r.2.length ≤ rest.length ∧
        ∃ x, r.1 = tok ++ x := by
  induction fuel with
  | zero => intro rest tok depth h; omega
  | succ n ih =>
    intro rest tok depth hlen
    cases rest with
    | nil => exact ⟨(tok, []), by simp [readParenLoop], by simp, [], by simp⟩
    | cons c cs =>
      simp only [List.length_cons] at hlen
      simp only [readParenLoop]
      by_cases h1 : starts_with_comment (c :: cs) = true
      · rw [if_pos h1]
        have hl := read_line_comment_length c cs
        obtain ⟨r, e1, e2, x, e3⟩ := ih (read_line_comment (c :: cs)) tok depth (by omega)
        exact ⟨r, e1, by simp only [List.length_cons]; omega, x, e3⟩
      · rw [if_neg h1]
        by_cases h2 : c = '"'
        · rw [if_pos h2]
          obtain ⟨s1, y, s2⟩ := read_string_spec c cs
          obtain ⟨r, e1, e2, x, e3⟩ := ih (read_string (c :: cs)).2
            (tok ++ (read_string (c :: cs)).1) depth (by omega)
          exact ⟨r, e1, by simp only [List.length_cons]; omega,
            (read_string (c :: cs)).1 ++ x, by rw [e3]; simp⟩
        · rw [if_neg h2]
          by_cases h3 : c = '('
          · rw [if_pos h3]
            obtain ⟨r, e1, e2, x, e3⟩ := ih cs (tok ++ [c]) (depth + 1) (by omega)
            exact ⟨r, e1, by simp only [List.length_cons]; omega, [c] ++ x, by rw [e3]; simp⟩
          · rw [if_neg h3]
            by_cases h4 : c = ')'
            · rw [if_pos h4]
              by_cases h5 : depth - 1 = 0
              · rw [if_pos h5]
                exact ⟨_, rfl, by simp, [c], rfl⟩
              · rw [if_neg h5]
                obtain ⟨r, e1, e2, x, e3⟩ := ih cs (tok ++ [c]) (depth - 1) (by omega)
                exact ⟨r, e1, by simp only [List.length_cons]; omega, [c] ++ x,
                  by rw [e3]; simp⟩
            · rw [if_neg h4]
              obtain ⟨r, e1, e2, x, e3⟩ := ih cs (tok ++ [c]) depth (by omega)
              exact ⟨r, e1, by simp only [List.length_cons]; omega, [c] ++ x, by rw [e3]; simp⟩

theorem read_paren_block_spec (fuel : Nat) (cs : List Char) (h : cs.length < fuel) :
    ∃ r, read_paren_block (fuel + 1) ('(' :: cs) = some r ∧ r.2.length ≤ cs.length ∧
      ∃ x, r.1 = '(' :: x := by
  have hc : starts_with_comment ('(' :: cs) = false := by
    simp [starts_with_comment, peek]
  unfold read_paren_block
  simp only [readParenLoop, hc, Bool.false_eq_true, if_false, if_true]
  rw [if_neg (by decide)]
  obtain ⟨r, e1, e2, x, e3⟩ := readParenLoop_spec fuel cs ([] ++ ['(']) (0 + 1) h
  exact ⟨r, e1, e2, x, by simpa using e3⟩

theorem readWord_spec :
    ∀ (r tok : List Char),
      (readWord r tok).2.length ≤ r.length ∧ ∃ x, (readWord r tok).1 = tok ++ x := by
  intro r
  induction r with
  | nil => intro tok; exact ⟨by simp [readWord], [], by simp [readWord]⟩
  | cons x xs ih =>
    intro tok
    simp only [readWord]
    by_cases h1 : is_space x = true
    · rw [if_pos h1]; exact ⟨Nat.le_refl _, [], by simp⟩
    · rw [if_neg h1]
      by_cases h2 : starts_with_comment (x :: xs) = true
      · rw [if_pos h2]; exact ⟨Nat.le_refl _, [], by simp⟩
      · rw [if_neg h2]
        by_cases h3 : x = '"' ∨ x = '('
        · rw [if_pos h3]; exact ⟨Nat.le_refl _, [], by simp⟩
        · rw [if_neg h3]
          by_cases h4 : is_single_char_token x = true
          · rw [if_pos h4]; exact ⟨Nat.le_refl _, [], by simp⟩
          · rw [if_neg h4]
            obtain ⟨a1, y, a2⟩ := ih (tok ++ [x])
            exact ⟨by simp only [List.length_cons]; omega, [x] ++ y, by rw [a2]; simp⟩

theorem signAlone_push (out : List (List Char)) (tok : List Char)
    (ho : ∀ t ∈ out, SignAlone t) (ht : SignAlone tok) :
    ∀ t ∈ push_token out tok, SignAlone t := by
  intro t hm
  unfold push_token at hm
  split at hm
  · exact ho t hm
  · rcases List.mem_append.1 hm with hm | hm
    · exact ho t hm
    · rw [List.mem_singleton.1 hm]; exact ht

theorem signAlone_of_head (t x : List Char) (c : Char) (h : t = c :: x)
    (hc : c ≠ '-' ∧ c ≠ '+') : SignAlone t := by
  intro d hd hs
  rw [h] at hd
  simp only [List.head?_cons, Option.some.injEq] at hd
  subst hd
  rcases hs with hs | hs
  · exact absurd hs hc.1
  · exact absurd hs hc.2

theorem lexLoop_spec (fuel : Nat) :
    ∀ (rest : List Char) (out : List (List Char)), rest.length < fuel →
      (∀ t ∈ out, SignAlone t) →
      ∃ toks, lexLoop fuel rest out = some toks ∧ ∀ t ∈ toks, SignAlone t := by
  induction fuel with
  | zero => intro rest out h; omega
  | succ n ih =>
    intro rest out hlen ho
    cases rest with
    | nil => exact ⟨out, by simp [lexLoop], ho⟩
    | cons c cs =>
      simp only [List.length_cons] at hlen
      simp only [lexLoop]
      by_cases h1 : is_space c = true
      · rw [if_pos h1]
        exact ih cs out (by omega) ho
      · rw [if_neg h1]
        by_cases h2 : starts_with_comment (c :: cs) = true
        · rw [if_pos h2]
          have hl := read_line_comment_length c cs
          exact ih _ out (by omega) ho
        · rw [if_neg h2]
          by_cases h3 : c = '"'
          · rw [if_pos h3]
            obtain ⟨s1, y, s2⟩ := read_string_spec c cs
            exact ih _ _ (by omega)
              (signAlone_push out _ ho (signAlone_of_head _ y '"' s2 (by decide)))
          · rw [if_neg h3]
            by_cases h4 : c = '('
            · rw [if_pos h4]
              subst h4
              obtain ⟨r, e1, e2, x, e3⟩ := read_paren_block_spec n cs (by omega)
              rw [e1]
              simp only []
              exact ih _ _ (by omega)
                (signAlone_push out _ ho (signAlone_of_head _ x '(' e3 (by decide)))
            · rw [if_neg h4]
              by_cases h5 : is_single_char_token c = true
              · rw [if_pos h5]
                refine ih cs _ (by omega) (signAlone_push out _ ho ?_)
                intro d hd _
                simp only [List.head?_cons, Option.some.injEq] at hd
                rw [hd]
              · rw [if_neg h5]
                have hw : readWord (c :: cs) [] = readWord cs [c] := by
                  simp only [readWord, h1, h2, h5, Bool.false_eq_true, if_false, List.nil_append]
                  rw [if_neg (by simp [h3, h4])]
                obtain ⟨a1, y, a2⟩ := readWord_spec cs [c]
                rw [hw]
                refine ih _ _ (by omega) (signAlone_push out _ ho
                  (signAlone_of_head _ y c (by simpa using a2) ?_))
                constructor
                · intro hc; subst hc; exact h5 (by decide)
                · intro hc; subst hc; exact h5 (by decide)

theorem getType_prim_word (opcode : Nat) (h : opcode ≤ 4) :
    getType (toI32 (encode_prim opcode)) = .Prim := by
  have hp : encode_prim opcode = 1073741824 + opcode := by
    unfold encode_prim
    rw [pack_eq 1 opcode (by omega) (by omega)]
  rw [hp, getType_eq, toU32_toI32 _ (by omega)]
  have : (1073741824 + opcode) / 1073741824 = 1 := by omega
  rw [this]
  rfl

theorem getType_pos_word (v : Int) (h0 : 0 ≤ v) (h1 : v ≤ 1073741823) :
    getType (toI32 v.toNat) = .PosImm := by
  rw [getType_eq, toU32_toI32 _ (by omega)]
  have : v.toNat / 1073741824 = 0 := by omega
  rw [this]
  rfl

theorem primOf_le (t : List Char) (opcode : Nat) (h : primOf t = some opcode) : opcode ≤ 4 := by
  unfold primOf at h
  split at h
  · cases h; omega
  · split at h
    · cases h; omega
    · split at h
      · cases h; omega
      · split at h
        · cases h; omega
        · split at h
          · cases h; omega
          · cases h

theorem parse_int32_nonneg (t : List Char) (v : Int) (hs : SignAlone t)
    (h : parse_int32 t = some v) : 0 ≤ v := by
  cases t with
  | nil => simp [parse_int32] at h
  | cons c rest =>
    simp only [parse_int32] at h
    by_cases hc : c = '+' ∨ c = '-'
    · rw [if_pos hc] at h
      have := hs c rfl (by tauto)
      simp only [List.cons.injEq, true_and] at this
      rw [if_pos this] at h
      cases h
    · rw [if_neg hc] at h
      obtain ⟨-, -, k3⟩ := (parseDigits_spec (c :: rest) 0 v (by omega)).1 (by simpa using h)
      rw [k3]
      exact Int.ofNat_nonneg _

theorem compileLoop_tags :
    ∀ (toks : List (List Char)) (out code : List Int), (∀ t ∈ toks, SignAlone t) →
      (∀ w ∈ out, getType w = .PosImm ∨ getType w = .Prim) →
      compileLoop toks out = .ok code →
      ∀ w ∈ code, getType w = .PosImm ∨ getType w = .Prim := by
  intro toks
  induction toks with
  | nil =>
    intro out code _ ho h
    simp only [compileLoop, Except.ok.injEq] at h
    rw [← h]; exact ho
  | cons t ts ih =>
    intro out code hs ho h
    have hts : ∀ x ∈ ts, SignAlone x := fun x hx => hs x (List.mem_cons_of_mem _ hx)
    have hext : ∀ (w0 : Int), (getType w0 = .PosImm ∨ getType w0 = .Prim) →
        ∀ w ∈ out ++ [w0], getType w = .PosImm ∨ getType w = .Prim := by
      intro w0 h0 w hw
      rcases List.mem_append.1 hw with hw | hw
      · exact ho w hw
      · rw [List.mem_singleton.1 hw]; exact h0
    simp only [compileLoop] at h
    split at h
    · exact ih out code hts ho h
    · split at h
      · cases h
      · split at h
        · cases h
        · cases hp : primOf t with
          | some opcode =>
            rw [hp] at h
            simp only [] at h
            exact ih _ code hts (hext _ (Or.inr (getType_prim_word opcode (primOf_le t _ hp)))) h
          | none =>
            rw [hp] at h
            simp only [] at h
            cases hv : parse_int32 t with
            | none => rw [hv] at h; cases h
            | some v =>
              rw [hv] at h
              simp only [] at h
              have hnn := parse_int32_nonneg t v (hs t (List.mem_cons_self _ _)) hv
              cases he : encode_literal v with
              | error what => rw [he] at h; cases h
              | ok u =>
                rw [he] at h
                simp only [] at h
                have hle : v ≤ 1073741823 := by
                  by_contra hc
                  unfold encode_literal MAX30 at he
                  rw [if_pos (by omega), if_pos (by omega)] at he
                  cases he
                rw [encode_literal_pos v hnn hle] at he
                cases he
                exact ih _ code hts (hext _ (Or.inl (getType_pos_word v hnn hle))) h

/-- C37. Signed literals never survive the lesson-5 lexer: for every input text and every
fuel above its length, `lex` returns a token list; every token that begins with `-` or `+` is
that one character; every word `compile` returns for these tokens has type tag PosImm or
Prim, never NegImm; and the text `-5` lexes to the tokens `-` and `5` and assembles to the
two words Prim with opcode 2 (sub) and PosImm 5. -/
theorem signed_literals_never_lexed (text : List Char) (fuel : Nat) (hfuel : text.length < fuel) :
    ∃ toks, lex fuel text = some toks ∧
      (∀ t ∈ toks, ∀ c, t.head? = some c → (c = '-' ∨ c = '+') → t = [c]) ∧
      (∀ code, compile toks = .ok code →
        ∀ w ∈ code, getType w = .PosImm ∨ getType w = .Prim) ∧
      (lex 3 ['-', '5'] = some [['-'], ['5']] ∧
        compile [['-'], ['5']] = .ok [toI32 (encode_prim 2), 5] ∧
        toI32 (encode_prim 2) = 1073741826 ∧
        getType 1073741826 = .Prim ∧ getData 1073741826 = 2 ∧
        getType 5 = .PosImm ∧ getData 5 = 5) := by
  obtain ⟨toks, e1, e2⟩ := lexLoop_spec fuel text [] hfuel (by intro t ht; simp at ht)
  refine ⟨toks, e1, e2, ?_, by decide, by rfl, by decide, by decide, by decide, by decide,
    by decide⟩
  intro code hc
  exact compileLoop_tags toks [] code e2 (by intro w hw; simp at hw) hc

/-- C37 on the text `-7 +2 halt`: the tokens are `-`, `7`, `+`, `2`, `halt` and the words are
Prim sub, PosImm 7, Prim add, PosImm 2, Prim halt. -/
theorem signed_literals_never_lexed_witness :
    "-7 +2 halt".toList.length < 11 ∧
    (∃ toks, lex 11 "-7 +2 halt".toList = some toks ∧
      (∀ t ∈ toks, ∀ c, t.head? = some c → (c = '-' ∨ c = '+') → t = [c]) ∧
      (∀ code, compile toks = .ok code →
        ∀ w ∈ code, getType w = .PosImm ∨ getType w = .Prim)) ∧
    lex 11 "-7 +2 halt".toList = some [['-'], ['7'], ['+'], ['2'], "halt".toList] ∧
    compile [['-'], ['7'], ['+'], ['2'], "halt".toList] =
      .ok [1073741826, 7, 1073741825, 2, 1073741824] :=
  ⟨by decide,
    (signed_literals_never_lexed "-7 +2 halt".toList 11 (by decide)).imp
      fun _ h => ⟨h.1, h.2.1, h.2.2.1⟩,
    by rfl, by rfl⟩

end Lesson5

namespace CircularLinkedList

/-! ## The elimination order of ex03 and its agreement with ex01 -/

theorem circ_seg_frame (cell cell1 : Nat → Option Node) (stop : link) :
    ∀ (l : List (Nat × Int)), Seg cell l stop →
      (∀ e ∈ l, cell1 e.1 = cell e.1) → Seg cell1 l stop := by
  intro l
  induction l with
  | nil => intro _ _; trivial
  | cons e rest ih =>
    intro h hc
    obtain ⟨h1, h2⟩ := h
    refine ⟨?_, ih h2 (fun x hx => hc x (List.mem_cons_of_mem _ hx))⟩
    rw [hc e (List.mem_cons_self _ _)]
    exact h1

theorem circ_firstLink_append (A B : List (Nat × Int)) (stop : link) :
    firstLink (A ++ B) stop = firstLink A (firstLink B stop) := by
  cases A <;> rfl

theorem circ_seg_append (cell : Nat → Option Node) (B : List (Nat × Int)) (stop : link) :
    ∀ (A : List (Nat × Int)),
      Seg cell (A ++ B) stop ↔ (Seg cell A (firstLink B stop) ∧ Seg cell B stop) := by
  intro A
  induction A with
  | nil => simp [Seg]
  | cons e rest ih =>
    rw [List.cons_append]
    simp only [Seg]
    rw [ih, circ_firstLink_append, and_assoc]

theorem circ_lastLink_snoc (l : List (Nat × Int)) (e : Nat × Int) :
    lastLink (l ++ [e]) = some e.1 := by
  simp [lastLink]

theorem circ_lastLink_cons (e : Nat × Int) (t : List (Nat × Int)) (ht : t ≠ []) :
    lastLink (e :: t) = lastLink t := by
  cases t with
  | nil => exact absurd rfl ht
  | cons x r => simp [lastLink, List.getLast?_cons_cons]

theorem circ_cyc_congr (w w1 : World) (l : List (Nat × Int)) (h : Cyc w l)
    (hc : w1.cell = w.cell) : Cyc w1 l := by
  unfold Cyc at h ⊢
  rw [hc]
  exact h

theorem circ_cyc_rotate_one (w : World) (e : Nat × Int) (t : List (Nat × Int))
    (h : Cyc w (e :: t)) : Cyc w (t ++ [e]) := by
  obtain ⟨-, ⟨h1, h2⟩, h3⟩ := h
  simp only [firstLink] at h1 h2
  refine ⟨by simp, ?_, ?_⟩
  · rw [circ_seg_append, circ_firstLink_append]
    simp only [firstLink, Seg, and_true]
    exact ⟨h2, h1⟩
  · rw [List.map_append, List.nodup_append]
    rw [List.map_cons, List.nodup_cons] at h3
    refine ⟨h3.2, by simp, ?_⟩
    intro a ha hb
    simp only [List.map_cons, List.map_nil, List.mem_singleton] at hb
    rw [hb] at ha
    exact h3.1 ha

theorem circ_head_next (w : World) (e : Nat × Int) (t : List (Nat × Int)) (h : Cyc w (e :: t)) :
    getNext w (some e.1) = some (firstLink (t ++ [e]) none) := by
  obtain ⟨-, ⟨h1, -⟩, -⟩ := h
  simp only [firstLink] at h1
  simp only [getNext, h1, Option.map_some']
  rw [circ_firstLink_append]
  rfl

theorem circ_stepLoop_spec (j : Nat) :
    ∀ (w : World) (circle : List (Nat × Int)) (prev : link), Cyc w circle →
      (0 < j ∨ prev = lastLink circle) →
      stepLoop j w prev (firstLink circle none) =
          some (lastLink (circle.rotate j), firstLink (circle.rotate j) none) ∧
        Cyc w (circle.rotate j) := by
  induction j with
  | zero =>
    intro w circle prev h hp
    rcases hp with hp | hp
    · omega
    · simp only [stepLoop, List.rotate_zero, hp]
      exact ⟨trivial, h⟩
  | succ j ih =>
    intro w circle prev h _
    cases circle with
    | nil => exact absurd rfl h.1
    | cons e t =>
      have hr := circ_cyc_rotate_one w e t h
      obtain ⟨e1, c1⟩ := ih w (t ++ [e]) (some e.1) hr
        (Or.inr (circ_lastLink_snoc t e).symm)
      refine ⟨?_, by rw [List.rotate_cons_succ]; exact c1⟩
      simp only [stepLoop, firstLink, circ_head_next w e t h, Option.some_bind,
        List.rotate_cons_succ]
      exact e1

theorem circ_firstLink_of_ne_nil (t : List (Nat × Int)) (ht : t ≠ []) (a b : link) :
    firstLink t a = firstLink t b := by
  cases t with
  | nil => exact absurd rfl ht
  | cons x r => rfl

theorem circ_renderIds_cons (x : Int) (l : List Int) :
    renderIds (x :: l) = toString x :: ((if l = [] then [] else [" "]) ++ renderIds l) := by
  cases l with
  | nil => rfl
  | cons y t => rfl

theorem circ_eliminate_succ {α : Type} (m r : Nat) (l : List α) (x : α) (t : List α)
    (h : l.rotate (m - 1) = x :: t) :
    SinglyLinkedList.eliminate m (r + 1) l = x :: SinglyLinkedList.eliminate m r t := by
  simp only [SinglyLinkedList.eliminate, h]

theorem circ_mainLoop_spec (m : Nat) (r : Nat) :
    ∀ (circle : List (Nat × Int)) (w : World) (prev : link) (fp : Bool) (fuel : Nat),
      Cyc w circle → circle.length = r + 1 → r + 1 ≤ fuel → prev = lastLink circle →
      ∃ (w1 : World) (x : Nat × Int) (fp1 : Bool),
        mainLoop (m : Int) fuel w prev (firstLink circle none) fp =
          some (w1, some x.1, fp1) ∧
        w1.cell x.1 = some { id := x.2, next := some x.1 } ∧
        w1.out ++ (if fp1 then [" "] else []) ++ [toString x.2] =
          w.out ++ (if fp then [" "] else []) ++
            renderIds ((SinglyLinkedList.eliminate m (r + 1) circle).map Prod.snd) := by
  induction r with
  | zero =>
    intro circle w prev fp fuel hc hl hf _
    obtain ⟨f, rfl⟩ : ∃ f, fuel = f + 1 := ⟨fuel - 1, by omega⟩
    obtain ⟨e, he⟩ : ∃ e, circle = [e] := by
      cases circle with
      | nil => simp at hl
      | cons e t =>
        have : t = [] := List.length_eq_zero.1 (by simpa using hl)
        exact ⟨e, by rw [this]⟩
    subst he
    have hcell : w.cell e.1 = some { id := e.2, next := some e.1 } := hc.2.1.1
    refine ⟨w, e, fp, ?_, hcell, ?_⟩
    · simp only [mainLoop, firstLink, getNext, hcell, Option.map_some', ne_eq,
        not_true_eq_false, if_false]
    · simp [SinglyLinkedList.eliminate, renderIds]
  | succ r ih =>
    intro circle w prev fp fuel hc hl hf hp
    obtain ⟨f, rfl⟩ : ∃ f, fuel = f + 1 := ⟨fuel - 1, by omega⟩
    obtain ⟨a, b, rest, hab⟩ : ∃ a b rest, circle = a :: b :: rest := by
      cases circle with
      | nil => simp at hl
      | cons a t =>
        cases t with
        | nil => simp at hl
        | cons b rest => exact ⟨a, b, rest, rfl⟩
    -- the loop condition holds: the successor of the current node is another node
    have hnext : getNext w (firstLink circle none) = some (some b.1) := by
      rw [hab]
      simp only [firstLink]
      rw [circ_head_next w a (b :: rest) (hab ▸ hc)]
      rfl
    have hne : some b.1 ≠ firstLink circle none := by
      rw [hab]
      simp only [firstLink, ne_eq, Option.some.injEq]
      have hnd := hc.2.2
      rw [hab, List.map_cons, List.nodup_cons] at hnd
      intro heq
      exact hnd.1 (by rw [← heq]; simp)
    obtain ⟨e1, c1⟩ := circ_stepLoop_spec (m - 1) w circle prev hc (Or.inr hp)
    have hrot : (circle.rotate (m - 1)).length = r + 2 := by rw [List.length_rotate, hl]
    obtain ⟨e, t, p, hrt⟩ : ∃ e t p, circle.rotate (m - 1) = e :: (t ++ [p]) := by
      cases hcr : circle.rotate (m - 1) with
      | nil => rw [hcr] at hrot; simp at hrot
      | cons e t0 =>
        rcases List.eq_nil_or_concat t0 with h0 | ⟨t, p, h1⟩
        · rw [hcr, h0] at hrot; simp at hrot
        · rw [List.concat_eq_append] at h1
          exact ⟨e, t, p, by rw [h1]⟩
    rw [hrt] at e1 c1 hrot
    have hlast : lastLink (e :: (t ++ [p])) = some p.1 := by
      rw [show e :: (t ++ [p]) = (e :: t) ++ [p] from rfl, circ_lastLink_snoc]
    have hfirst : firstLink (e :: (t ++ [p])) none = some e.1 := rfl
    rw [hlast, hfirst] at e1
    obtain ⟨-, ⟨s1, s2⟩, nd⟩ := c1
    rw [hfirst] at s1 s2
    rw [circ_seg_append] at s2
    obtain ⟨s3, s4, -⟩ := s2
    simp only [firstLink] at s4
    have hS : firstLink (t ++ [p]) (some e.1) = firstLink (t ++ [p]) none :=
      circ_firstLink_of_ne_nil _ (by simp) _ _
    rw [hS] at s1
    rw [List.map_cons, List.nodup_cons, List.map_append, List.nodup_append] at nd
    obtain ⟨nd1, nd2, -, nd3⟩ := nd
    have hpe : p.1 ≠ e.1 := by
      intro heq
      exact nd1 (by rw [← heq]; simp)
    -- the memory after the round
    have hcyc : Cyc
        { cell := Function.update (Function.update w.cell p.1
            (some { id := p.2, next := firstLink (t ++ [p]) none })) e.1 none,
          brk := w.brk,
          out := (if fp = true then w.out ++ [" "] else w.out) ++ [toString e.2] }
        (t ++ [p]) := by
      refine ⟨by simp, ?_, ?_⟩
      · rw [circ_seg_append]
        refine ⟨?_, ?_, trivial⟩
        · apply circ_seg_frame w.cell _ _ _ s3
          intro y hy
          have hye : y.1 ≠ e.1 := by
            intro heq
            exact nd1 (by rw [← heq]; simp [List.mem_map_of_mem Prod.fst hy])
          have hyp : y.1 ≠ p.1 := by
            intro heq
            exact nd3 (List.mem_map_of_mem Prod.fst hy) (by simp [heq])
          simp only []
          rw [Function.update_noteq hye, Function.update_noteq hyp]
        · simp only [firstLink]
          rw [Function.update_noteq hpe, Function.update_same]
      · rw [List.map_append, List.nodup_append]
        exact ⟨nd2, by simp, nd3⟩
    obtain ⟨w1, x, fp1, g1, g2, g3⟩ := ih (t ++ [p]) _ (some p.1) true f hcyc
      (by simpa using hrot) (by omega) (circ_lastLink_snoc t p).symm
    refine ⟨w1, x, fp1, ?_, g2, ?_⟩
    · rw [mainLoop]
      simp only [hnext]
      rw [if_pos hne]
      have hsub : ((m : Int) - 1).toNat = m - 1 := by omega
      rw [hsub, e1]
      by_cases hfp : fp = true
      · subst hfp
        simp only [Option.some_bind, if_true, getId, getNext, setNext, free, s1, s4,
          Option.map_some', Function.update_same, Function.update_noteq hpe.symm] at g1 ⊢
        exact g1
      · have hfp2 : fp = false := by simpa using hfp
        subst hfp2
        simp only [Option.some_bind, Bool.false_eq_true, if_false, getId, getNext, setNext,
          free, s1, s4, Option.map_some', Function.update_same,
          Function.update_noteq hpe.symm] at g1 ⊢
        exact g1
    · rw [g3, circ_eliminate_succ m (r + 1) circle e (t ++ [p]) hrt, List.map_cons,
        circ_renderIds_cons]
      have hlen := SinglyLinkedList.list_eliminate_length m (r + 1) (t ++ [p])
        (by simpa using hrot)
      have hne1 : (SinglyLinkedList.eliminate m (r + 1) (t ++ [p])).map Prod.snd ≠ [] := by
        intro h0
        have := congrArg List.length h0
        simp only [List.length_map, List.length_nil] at this
        omega
      rw [if_neg hne1]
      cases fp <;> simp

theorem circ_findTail_spec (w : World) (h : Nat) :
    ∀ (L : List (Nat × Int)) (x : Nat × Int) (fuel : Nat),
      Seg w.cell (x :: L) (some h) → (∀ y ∈ L, y.1 ≠ h) → L.length < fuel →
      findTail w (some h) fuel (some x.1) = some (lastLink (x :: L)) := by
  intro L
  induction L with
  | nil =>
    intro x fuel hs _ hf
    obtain ⟨f, rfl⟩ : ∃ f, fuel = f + 1 := ⟨fuel - 1, by simp at hf; omega⟩
    simp only [findTail, getNext, hs.1, firstLink, Option.map_some', ne_eq, not_true_eq_false,
      if_false]
    rfl
  | cons y rest ih =>
    intro x fuel hs hne hf
    obtain ⟨f, rfl⟩ : ∃ f, fuel = f + 1 := ⟨fuel - 1, by simp at hf; omega⟩
    have hy : y.1 ≠ h := hne y (List.mem_cons_self _ _)
    have hy2 : (some y.1 : link) ≠ some h := by simpa using hy
    simp only [findTail, getNext, hs.1, firstLink, Option.map_some']
    rw [if_pos hy2, ih y f hs.2 (fun z hz => hne z (List.mem_cons_of_mem _ hz))
      (by simp only [List.length_cons] at hf; omega)]
    rw [circ_lastLink_cons x (y :: rest) (by simp)]

theorem circ_createLoop_spec (k : Nat) :
    ∀ (i : Int) (w : World) (l : List (Nat × Int)) (head tail : Nat) (x : Int),
      Seg w.cell (l ++ [(tail, x)]) (some head) → ((l ++ [(tail, x)]).map Prod.fst).Nodup →
      (∀ e ∈ l ++ [(tail, x)], e.1 < w.brk) →
      ∃ w1 l1, createLoop k i w head tail = some w1 ∧
        Seg w1.cell (l ++ [(tail, x)] ++ l1) (some head) ∧
        ((l ++ [(tail, x)] ++ l1).map Prod.fst).Nodup ∧
        l1.map Prod.snd = (List.range k).map (fun (j : Nat) => i + (j : Int)) ∧ w1.out = w.out := by
  induction k with
  | zero =>
    intro i w l head tail x hs hnd _
    exact ⟨w, [], rfl, by simpa using hs, by simpa using hnd, rfl, rfl⟩
  | succ k ih =>
    intro i w l head tail x hs hnd hbr
    rw [circ_seg_append] at hs
    obtain ⟨s1, s2, -⟩ := hs
    simp only [firstLink] at s1 s2
    have htl : tail < w.brk := hbr (tail, x) (by simp)
    have hnd2 : (((l ++ [(tail, x)]) ++ [(w.brk, i)]).map Prod.fst).Nodup := by
      rw [List.map_append, List.nodup_append]
      refine ⟨hnd, by simp, ?_⟩
      intro a ha hb
      simp only [List.map_cons, List.map_nil, List.mem_singleton] at hb
      obtain ⟨y, hy, hay⟩ := List.mem_map.1 ha
      have := hbr y hy
      omega
    have hseg : Seg (Function.update (Function.update w.cell w.brk
          (some { id := i, next := some head })) tail (some { id := x, next := some w.brk }))
        ((l ++ [(tail, x)]) ++ [(w.brk, i)]) (some head) := by
      rw [circ_seg_append, circ_seg_append]
      simp only [firstLink, Seg, and_true]
      refine ⟨⟨?_, ?_⟩, ?_⟩
      · apply circ_seg_frame w.cell _ _ _ s1
        intro y hy
        have h1 := hbr y (by simp [hy])
        have hyt : y.1 ≠ tail := by
          intro heq
          rw [List.map_append, List.nodup_append] at hnd
          exact hnd.2.2 (List.mem_map_of_mem Prod.fst hy) (by simp [heq])
        rw [Function.update_noteq hyt, Function.update_noteq (by omega)]
      · rw [Function.update_same]
      · rw [Function.update_noteq (by omega), Function.update_same]
    obtain ⟨w1, l1, e1, q1, q2, q3, q4⟩ := ih (i + 1)
      { cell := Function.update (Function.update w.cell w.brk
          (some { id := i, next := some head })) tail (some { id := x, next := some w.brk }),
        brk := w.brk + 1, out := w.out }
      (l ++ [(tail, x)]) head w.brk i hseg hnd2
      (by
        intro e he
        simp only []
        rcases List.mem_append.1 he with he | he
        · exact Nat.lt_succ_of_lt (hbr e he)
        · rw [List.mem_singleton.1 he]; exact Nat.lt_succ_self _)
    refine ⟨w1, (w.brk, i) :: l1, ?_, by simpa using q1, by simpa using q2, ?_, q4⟩
    · simp only [createLoop, setNext, Function.update_noteq (show tail ≠ w.brk by omega), s2,
        Option.some_bind]
      exact e1
    · rw [List.map_cons, q3, List.range_succ_eq_map, List.map_cons, List.map_map]
      simp only [Nat.cast_zero, add_zero, List.cons.injEq, true_and]
      apply List.map_congr_left
      intro j _
      simp only [Function.comp, Nat.cast_succ]
      omega

theorem circ_create_spec (w : World) (n : Nat) (hn : 0 < n) :
    ∃ w1 circle, create_circular_list w (n : Int) = some (w1, firstLink circle none) ∧
      Cyc w1 circle ∧ circle.map Prod.snd = (List.range' 1 n).map (fun (j : Nat) => (j : Int)) ∧
      w1.out = w.out := by
  obtain ⟨w1, l1, e1, q1, q2, q3, q4⟩ := circ_createLoop_spec (n - 1) 2
    { cell := Function.update w.cell w.brk (some { id := 1, next := some w.brk }),
      brk := w.brk + 1, out := w.out } [] w.brk w.brk 1
    (by simp [Seg, firstLink]) (by simp)
    (by intro e he; simp only [List.nil_append, List.mem_singleton] at he; rw [he]; simp)
  simp only [List.nil_append, List.singleton_append] at q1 q2
  refine ⟨w1, (w.brk, 1) :: l1, ?_, ⟨by simp, q1, q2⟩, ?_, q4⟩
  · unfold create_circular_list
    rw [if_neg (by omega)]
    have hsub : ((n : Int) - 1).toNat = n - 1 := by omega
    simp only [hsub, e1, Option.map_some', firstLink]
  · rw [List.map_cons, q3]
    obtain ⟨k, rfl⟩ : ∃ k, n = k + 1 := ⟨n - 1, by omega⟩
    simp only [Nat.add_sub_cancel]
    rw [List.range'_succ, List.map_cons, List.range'_eq_map_range, List.map_map]
    simp only [Nat.cast_one, List.cons.injEq, true_and]
    apply List.map_congr_left
    intro j _
    simp only [Function.comp]
    push_cast
    omega

theorem circ_renderIds_cast (l : List Nat) :
    renderIds (l.map fun (j : Nat) => (j : Int)) = SinglyLinkedList.render l := by
  induction l with
  | nil => rfl
  | cons x t ih =>
    cases t with
    | nil => rfl
    | cons y r =>
      simp only [List.map_cons] at ih ⊢
      simp only [renderIds, SinglyLinkedList.render, ih]
      rfl

theorem circ_josephus_out (w : World) (n k m fuel : Nat) (hn : 0 < n) (hk : 0 < k)
    (hm : 0 < m) (hf : n ≤ fuel) :
    ∃ w1, josephus_problem fuel w (n : Int) (k : Int) (m : Int) = some w1 ∧
      w1.out = w.out ++ SinglyLinkedList.render (SinglyLinkedList.josephusOrder n k m) ++
        ["\n"] := by
  obtain ⟨w0, circle, e0, c0, i0, o0⟩ := circ_create_spec w n hn
  have hlen : circle.length = n := by
    have := congrArg List.length i0
    simpa using this
  obtain ⟨x, t, hxt⟩ : ∃ x t, circle = x :: t := by
    cases circle with
    | nil => exact absurd rfl c0.1
    | cons x t => exact ⟨x, t, rfl⟩
  have hfl : firstLink circle none = some x.1 := by rw [hxt]; rfl
  have htail : findTail w0 (some x.1) fuel (some x.1) = some (lastLink circle) := by
    rw [hxt]
    have hs := c0.2.1
    rw [hxt] at hs
    apply circ_findTail_spec w0 x.1 t x fuel hs
    · intro y hy heq
      have hnd := c0.2.2
      rw [hxt, List.map_cons, List.nodup_cons] at hnd
      exact hnd.1 (by rw [← heq]; exact List.mem_map_of_mem Prod.fst hy)
    · rw [hxt] at hlen
      simp only [List.length_cons] at hlen
      omega
  obtain ⟨e2, c2⟩ := circ_stepLoop_spec (k - 1) w0 circle (lastLink circle) c0 (Or.inr rfl)
  obtain ⟨r, hr⟩ : ∃ r, n = r + 1 := ⟨n - 1, by omega⟩
  obtain ⟨w1, y, fp1, e3, g3, o3⟩ := circ_mainLoop_spec m r (circle.rotate (k - 1)) w0
    (lastLink (circle.rotate (k - 1))) false fuel c2
    (by rw [List.length_rotate, hlen, hr]) (by omega) rfl
  have hord : (SinglyLinkedList.eliminate m (r + 1) (circle.rotate (k - 1))).map Prod.snd =
      (SinglyLinkedList.josephusOrder n k m).map (fun (j : Nat) => (j : Int)) := by
    rw [SinglyLinkedList.list_eliminate_map, List.map_rotate, i0, ← List.map_rotate,
      ← SinglyLinkedList.list_eliminate_map, ← hr]
    rfl
  rw [hord, circ_renderIds_cast] at o3
  simp only [Bool.false_eq_true, if_false, List.append_nil] at o3
  refine ⟨{ cell := Function.update w1.cell y.1 none, brk := w1.brk,
            out := ((if fp1 = true then w1.out ++ [" "] else w1.out) ++ [toString y.2]) ++
              ["\n"] }, ?_, ?_⟩
  · unfold josephus_problem
    rw [if_neg (by omega), e0]
    simp only [Option.some_bind, hfl]
    have hsub : ((k : Int) - 1).toNat = k - 1 := by omega
    rw [htail, hsub]
    rw [hfl] at e2
    simp only [Option.some_bind, e2, e3]
    cases fp1 <;>
      simp only [getId, free, g3, Option.map_some', Option.some_bind, Bool.false_eq_true,
        if_false, if_true]
  · simp only []
    rw [← o0, ← o3]
    cases fp1 <;> simp

/-- C39. The two Josephus implementations agree: for all `n, k, m > 0` with `n <= 255`, from
an ex01 memory whose list is empty and any ex03 memory, with fuel above `n` both
`josephus_problem` functions return, and both write the same strings: the numbers of the same
elimination order in decimal, a blank between two of them, and a newline. -/
theorem josephus_implementations_agree (wa : SinglyLinkedList.World) (wb : World)
    (n k m fa fb : Nat) (hh : wa.head = none) (hn : 0 < n) (hk : 0 < k) (hm : 0 < m)
    (hn255 : n ≤ 255) (hfa : n < fa) (hfb : n ≤ fb) :
    ∃ (w1 : SinglyLinkedList.World) (w3 : World) (written : List String),
      SinglyLinkedList.josephus_problem fa wa (n : Int) (k : Int) (m : Int) = some w1 ∧
      josephus_problem fb wb (n : Int) (k : Int) (m : Int) = some w3 ∧
      w1.out = wa.out ++ written ∧ w3.out = wb.out ++ written ∧
      written = SinglyLinkedList.render (SinglyLinkedList.josephusOrder n k m) ++ ["\n"] := by
  obtain ⟨w1, e1, o1, -⟩ := SinglyLinkedList.list_josephus_out wa n k m fa hh hn hk hm hfa
  rw [SinglyLinkedList.list_range_mod_small n hn255] at o1
  obtain ⟨w3, e3, o3⟩ := circ_josephus_out wb n k m fb hn hk hm hfb
  refine ⟨w1, w3, _, e1, e3, ?_, ?_, rfl⟩
  · rw [o1, List.append_assoc]
    rfl
  · rw [o3, List.append_assoc]

/-- C39 at `(5, 1, 2)` from the memories at program start, and the evaluation of both
functions on the three documented calls: both print `2 4 1 5 3`, `3 4 5 6 7 1 2` and
`8 7 9 2 5 4 1 6 3`. -/
theorem josephus_implementations_agree_witness :
    (SinglyLinkedList.World.init.head = none ∧ 0 < 5 ∧ 0 < 1 ∧ 0 < 2 ∧ 5 ≤ 255 ∧ 5 < 6 ∧
      5 ≤ 5) ∧
    (∃ (w1 : SinglyLinkedList.World) (w3 : World) (written : List String),
      SinglyLinkedList.josephus_problem 6 SinglyLinkedList.World.init ((5 : Nat) : Int)
        ((1 : Nat) : Int) ((2 : Nat) : Int) = some w1 ∧
      josephus_problem 5 World.init ((5 : Nat) : Int) ((1 : Nat) : Int) ((2 : Nat) : Int) =
        some w3 ∧
      w1.out = SinglyLinkedList.World.init.out ++ written ∧
      w3.out = World.init.out ++ written ∧
      written = SinglyLinkedList.render (SinglyLinkedList.josephusOrder 5 1 2) ++ ["\n"]) ∧
    (josephus_problem 5 World.init 5 1 2).map (fun w => String.join w.out) =
      some "2 4 1 5 3\n" ∧
    (josephus_problem 7 World.init 7 3 1).map (fun w => String.join w.out) =
      some "3 4 5 6 7 1 2\n" ∧
    (josephus_problem 9 World.init 9 1 8).map (fun w => String.join w.out) =
      some "8 7 9 2 5 4 1 6 3\n" :=
  ⟨⟨rfl, by decide, by decide, by decide, by decide, by decide, by decide⟩,
    josephus_implementations_agree SinglyLinkedList.World.init World.init 5 1 2 6 5 rfl
      (by decide) (by decide) (by decide) (by decide) (by decide) (by decide),
    by rfl, by rfl, by rfl⟩

end CircularLinkedList

namespace SinglyLinkedList

/-! ## The call of ex01 that truncates a person number -/

theorem list_josephus_256_out :
    (josephus_problem 257 World.init 256 1 1).map
        (fun w => (w.out.drop 508, decide ("256" ∈ w.out))) =
      some (["255", " ", "0", "\n"], false) ∧
    toUChar 256 = 0 := by
  decide!

theorem list_josephusOrder_256 : josephusOrder 256 1 1 = List.range' 1 256 := by
  decide!

/-- C28 at the call `josephus_problem(256, 1, 1)`, whose arguments pass the check
`n, k, m > 0`: `make_node` stores the person number in an `unsigned char`, so the node made
for person 256 holds 0, and the run prints `.. 255 0` and never prints 256, which is not a
permutation of `1..256`. The order the claim describes for this call is `1, 2, .., 256`, and
the sibling `josephus_problem` of ex03, whose nodes hold an `int`, prints exactly that
order on the same call, from every memory. -/
theorem josephus_order_at_256 :
    (josephus_problem 257 World.init 256 1 1).map
        (fun w => (w.out.drop 508, decide ("256" ∈ w.out))) =
      some (["255", " ", "0", "\n"], false) ∧
    toUChar 256 = 0 ∧
    josephusOrder 256 1 1 = List.range' 1 256 ∧
    ∀ wb : CircularLinkedList.World,
      ∃ w3, CircularLinkedList.josephus_problem 256 wb ((256 : Nat) : Int) ((1 : Nat) : Int)
          ((1 : Nat) : Int) = some w3 ∧
        w3.out = wb.out ++ render (josephusOrder 256 1 1) ++ ["\n"] :=
  ⟨list_josephus_256_out.1, list_josephus_256_out.2, list_josephusOrder_256,
    fun wb => CircularLinkedList.circ_josephus_out wb 256 1 1 256 (by omega) (by omega)
      (by omega) (by omega)⟩

end SinglyLinkedList
